import Mathlib

/-!
Loop dependence analysis core: SCCDAG construction, pipeline detection, SCC tagging.

A shallow embedding of

* `SCCDG::createSCCGraphFrom` and `SCCDG::isPipeline` (`analysis/catpass/SCCDG.cpp`),
* `SCCDAGAttrs::collectDependencies`, `SCCDAGAttrs::checkIfIndependent` and the tagging loop of
  `SCCDAGAttrs::populate` (`parallelization_utilities/src/SCCDAGAttrs.cpp`),
* `SCCDAGAttrs::checkIfReducible`, `SCCDAGAttrs::checkIfInductionVariableSCC`,
  `SCCDAGAttrs::isIVUpperBoundSimple` and the derivation queries `isDerivedWithinSCC` and
  `isDerivedPHIOrAccumulator` of the same file,
* `SCCDAGAttrs::checkIfIVHasFixedBounds`, `SCCDAGAttrs::collectDerivationChain`,
  `SCCDAGAttrs::checkIfClonable`, `SCCDAGAttrs::isLoopGovernedByIV`,
  `SCCDAGAttrs::areAllLiveOutValuesReducable` and
  `SCCDAGAttrs::collectSCCGraphAssumingDistributedClones` of the same file,
* `SCCDAGAttrs::getSCCsWithLoopCarriedDependencies` and
  `SCCDAGAttrs::getSCCsWithLoopCarriedControlDependencies` of the same file,
* the constructors of `Reduction` (`core/loops/src/Reduction.cpp`) and of `Task`
  (`core/task/src/Task.cpp`), and the functions of `Task` on its maps between original
  instructions and clones (`addInstruction`, `removeOriginalInstruction`,
  `getOriginalInstructionOfClone`, `isAnOriginalInstruction`),
* the partition driver declared in `passes/heuristics/include/Heuristics.hpp`, as section 4.6 of
  the specification describes it.

Graph nodes, SCC objects and IR values are identified by natural numbers (the C++ code identifies
them by address).  Containers are lists in insertion order.
-/

namespace Noelle

/-! ## Data model -/

/-- Modelled from the spec: the class `DGEdge<T>` (DG.hpp is not part of the sources), the
`Edge(T)` of section 3: the value the edge leaves (`getOutgoingT`), the value it enters
(`getIncomingT`) and the kind flags the analyses inspect. -/
structure DGEdge where
  src : Nat
  dst : Nat
  control : Bool
  memory : Bool
  must : Bool
  raw : Bool
deriving DecidableEq, Repr

/-- Modelled from the spec: the class `PDG` (PDG.hpp is not part of the sources), section 3:
internal nodes, external nodes, edges, and the entry node used to anchor traversals. -/
structure PDG where
  internalNodes : List Nat
  externalNodes : List Nat
  edges : List DGEdge
  entryNode : Option Nat
deriving Repr

/-- Modelled from the spec: the class `SCC` (SCC.hpp is not part of the sources), section 3:
the internal nodes of the SCC and the dependence edges it stores. -/
structure SCC where
  nodes : List Nat
  edges : List DGEdge
deriving DecidableEq, Repr

/-- Modelled from the spec: a node `DGNode<SCC>` of the SCC graph (DG.hpp is not part of the
sources), the `Node(T)` of section 3.  `id` is the identity of the SCC object held by the node,
`inclusion` is the internal/external bit given to `createNodeFrom`. -/
structure SCCNode where
  id : Nat
  scc : SCC
  inclusion : Bool
deriving DecidableEq, Repr

/-- Modelled from the spec: an edge `DGEdge<SCC>` of the SCC graph (DG.hpp is not part of the
sources) between two SCC objects, with the three flags written by `setMemMustRaw` and the list
of PDG edges added by `addSubEdge`. -/
structure SCCEdge where
  src : Nat
  dst : Nat
  memory : Bool
  must : Bool
  raw : Bool
  subEdges : List DGEdge
deriving DecidableEq, Repr

/-- Modelled from the spec: the class `SCCDG` (SCCDG.hpp is not part of the sources), the
fields `allNodes` and `allEdges` used by the destructor, in creation order. -/
structure SCCDG where
  allNodes : List SCCNode
  allEdges : List SCCEdge
deriving DecidableEq, Repr

/-! ## Reachability, used by the component and SCC enumerations -/

/-- Targets of the pairs of `es` whose source lies in `S`. -/
def succsOf (es : List (Nat × Nat)) (S : List Nat) : List Nat :=
  (es.filter (fun e => decide (e.1 ∈ S))).map Prod.snd

/-- Breadth-first closure: `fuel` rounds of adding the successors not yet seen. -/
def reachFrom (es : List (Nat × Nat)) : Nat → List Nat → List Nat
  | 0, S => S
  | fuel + 1, S =>
    reachFrom es fuel (S ++ ((succsOf es S).filter (fun v => decide (v ∉ S))).dedup)

/-- Splits `l` into classes: the class of the first element `x` is `x` with the later elements
related to it, the remaining elements are split in the same way. -/
def classesAux (rel : Nat → Nat → Bool) : Nat → List Nat → List (List Nat)
  | 0, _ => []
  | _ + 1, [] => []
  | fuel + 1, x :: xs =>
    (x :: xs.filter (fun y => rel x y)) :: classesAux rel fuel (xs.filter (fun y => !rel x y))

/-- Classes of a list under a relation, see `classesAux`. -/
def classes (rel : Nat → Nat → Bool) (l : List Nat) : List (List Nat) :=
  classesAux rel l.length l

/-! ## The parts of the graph substrate used by `createSCCGraphFrom` -/

/-- The (source, sink) pairs of the edges of the PDG that join two nodes of `nodes`. -/
def PDG.edgePairsWithin (pdg : PDG) (nodes : List Nat) : List (Nat × Nat) :=
  (pdg.edges.filter (fun e => decide (e.src ∈ nodes) && decide (e.dst ∈ nodes))).map
    (fun e => (e.src, e.dst))

/-- Both orientations of every pair. -/
def symmPairs (es : List (Nat × Nat)) : List (Nat × Nat) :=
  es ++ es.map Prod.swap

/-- Modelled from the spec: `DG::collectConnectedComponents` (DG.hpp is not part of the sources).
Section 4.1: "the weakly-connected components of the subgraph induced by internal nodes,
ignoring edge direction". -/
def PDG.collectConnectedComponents (pdg : PDG) : List (List Nat) :=
  classes
    (fun a b => decide (b ∈ reachFrom (symmPairs (pdg.edgePairsWithin pdg.internalNodes))
      pdg.internalNodes.length [a]))
    pdg.internalNodes

/-- Modelled from the spec: `DG::extractNodesFromSelfInto` with `removeFromSelf = false`
(DG.hpp is not part of the sources).  Section 4.1: the given nodes become the internal nodes of
the target, with all edges having both endpoints in the set; "`pivot` becomes target's internal
root"; "edges with exactly one endpoint in `nodes` are rewritten to use the external-node
representation in `target`". -/
def PDG.extractNodesFromSelfInto (pdg : PDG) (nodes : List Nat) (pivot : Option Nat) : PDG :=
  { internalNodes := nodes,
    externalNodes :=
      ((pdg.edges.filter (fun e => decide (e.src ∈ nodes) != decide (e.dst ∈ nodes))).map
        (fun e => if e.src ∈ nodes then e.dst else e.src)).dedup,
    edges := pdg.edges.filter (fun e => decide (e.src ∈ nodes) || decide (e.dst ∈ nodes)),
    entryNode := pivot }

/-- Number of nodes reachable from the first node of a class; orders the SCCs. -/
def reachCount (es : List (Nat × Nat)) (fuel : Nat) (c : List Nat) : Nat :=
  (reachFrom es fuel (c.take 1)).length

/-- Modelled from the spec: the SCC enumeration `scc_begin .. scc_end` over a component PDG
(LLVM's SCCIterator and DGGraphTraits.hpp are not part of the sources).  Section 4.3: "a stable
SCC algorithm (Tarjan-style, iterative; yields components in reverse-topological order)", each
SCC being "a set of PDG nodes that form one strongly connected component in the restriction of
the PDG to that component's nodes".  Two internal nodes are in one SCC when each reaches the
other along edges between internal nodes; an SCC that depends on fewer nodes comes first. -/
def PDG.sccs (g : PDG) : List (List Nat) :=
  let es := g.edgePairsWithin g.internalNodes
  let fuel := g.internalNodes.length
  (classes
    (fun a b => decide (b ∈ reachFrom es fuel [a]) && decide (a ∈ reachFrom es fuel [b]))
    g.internalNodes).insertionSort
    (fun c d => reachCount es fuel c ≤ reachCount es fuel d)

/-- Modelled from the spec: the constructor `SCC(nodes)` (SCC.hpp is not part of the sources).
Section 4.3: an SCC object "containing exactly those PDG nodes (and the PDG-internal edges
entirely inside the set)". -/
def SCC.ofNodes (pdg : PDG) (nodes : List Nat) : SCC :=
  { nodes := nodes,
    edges := pdg.edges.filter (fun e => decide (e.src ∈ nodes) && decide (e.dst ∈ nodes)) }

/-- Modelled from the spec: `DG::createNodeFrom(scc, inclusion)` (DG.hpp is not part of the
sources), `addNode(payload, internal)` of section 4.1.  The fresh SCC object gets the next
unused identity. -/
def SCCDG.createNodeFrom (g : SCCDG) (scc : SCC) (inclusion : Bool) : SCCDG :=
  { g with allNodes := g.allNodes ++ [{ id := g.allNodes.length, scc := scc, inclusion := inclusion }] }

/-- Modelled from the spec: `DG::isExternal(scc)` (DG.hpp is not part of the sources): the SCC
is held by a node created with `inclusion = false`. -/
def SCCDG.isExternal (g : SCCDG) (scc : Nat) : Bool :=
  g.allNodes.any (fun n => n.id == scc && !n.inclusion)

/-- Modelled from the spec: `DG::createEdgeFromTo` (DG.hpp is not part of the sources).
Section 4.3, step 5: "add (or merge-into-existing) an SCCDAG edge sA→sB": the edge between the
two SCCs is created, with no flag set and no sub-edge, unless it exists already. -/
def SCCDG.createEdgeFromTo (g : SCCDG) (fromSCC toSCC : Nat) : SCCDG :=
  if g.allEdges.any (fun e => e.src == fromSCC && e.dst == toSCC) then g
  else { g with allEdges := g.allEdges ++ [{ src := fromSCC, dst := toSCC, memory := false,
                                             must := false, raw := false, subEdges := [] }] }

/-- Modelled from the spec: `DGEdge::setMemMustRaw` (DG.hpp is not part of the sources).
Section 4.3, step 5: "set its {memory, must, RAW} flags to the OR of e's flags with any existing
flags". -/
def SCCEdge.setMemMustRaw (e : SCCEdge) (mem must raw : Bool) : SCCEdge :=
  { e with memory := e.memory || mem, must := e.must || must, raw := e.raw || raw }

/-- Modelled from the spec: `DGEdge::addSubEdge` (DG.hpp is not part of the sources).
Section 4.3, step 5: "append e to the sub-edge list". -/
def SCCEdge.addSubEdge (e : SCCEdge) (sub : DGEdge) : SCCEdge :=
  { e with subEdges := e.subEdges ++ [sub] }

/-- Applies `f` to the edge from `fromSCC` to `toSCC`: the C++ code mutates the edge through the
pointer returned by `createEdgeFromTo`. -/
def SCCDG.updateEdge (g : SCCDG) (fromSCC toSCC : Nat) (f : SCCEdge → SCCEdge) : SCCDG :=
  { g with allEdges := g.allEdges.map (fun e => if e.src == fromSCC && e.dst == toSCC then f e else e) }

/-! ## `SCCDG::createSCCGraphFrom` -/

/-- The local state of `createSCCGraphFrom`: the graph under construction and `nodeSCCMap`,
an association list whose first entry for a key is the current one. -/
structure BuildState where
  sccDG : SCCDG
  nodeSCCMap : List (Nat × Nat)
deriving Repr

/-- Lines 27-42: one inclusion node per SCC of every connected component. -/
def createInclusionNodes (pdg : PDG) : SCCDG :=
  (pdg.collectConnectedComponents.foldl
    (fun sccDG componentNodes =>
      let componentPDG := pdg.extractNodesFromSelfInto componentNodes componentNodes.head?
      componentPDG.sccs.foldl
        (fun sccDG nodes => sccDG.createNodeFrom (SCC.ofNodes componentPDG nodes) true)
        sccDG)
    { allNodes := [], allEdges := [] })

/-- Lines 46-54: `nodeSCCMap[node] = scc` for every node of every SCC of the graph. -/
def buildNodeSCCMap (sccDG : SCCDG) : List (Nat × Nat) :=
  sccDG.allNodes.foldl
    (fun m sccNode => sccNode.scc.nodes.foldl (fun m node => (node, sccNode.id) :: m) m)
    []

/-- Lines 59-69: the lambda `fetchOrCreateSCC`. -/
def fetchOrCreateSCC (pdg : PDG) (st : BuildState) (node : Nat) : BuildState × Nat :=
  match st.nodeSCCMap.lookup node with
  | none =>
    ({ sccDG := st.sccDG.createNodeFrom (SCC.ofNodes pdg [node]) false,
       nodeSCCMap := (node, st.sccDG.allNodes.length) :: st.nodeSCCMap },
     st.sccDG.allNodes.length)
  | some scc => (st, scc)

/-- Lines 74-91: the body of the loop over the edges of the PDG. -/
def addSCCEdge (pdg : PDG) (st : BuildState) (edge : DGEdge) : BuildState :=
  let r1 := fetchOrCreateSCC pdg st edge.src
  let r2 := fetchOrCreateSCC pdg r1.1 edge.dst
  let fromSCC := r1.2
  let toSCC := r2.2
  let st2 := r2.1
  if (st2.sccDG.isExternal fromSCC && st2.sccDG.isExternal toSCC) || fromSCC == toSCC then st2
  else
    let sccDG := (st2.sccDG.createEdgeFromTo fromSCC toSCC).updateEdge fromSCC toSCC
      (fun sccEdge => (sccEdge.setMemMustRaw edge.memory edge.must edge.raw).addSubEdge edge)
    { sccDG := sccDG, nodeSCCMap := st2.nodeSCCMap }

/-- The state of `createSCCGraphFrom` when it returns. -/
def createSCCGraphState (pdg : PDG) : BuildState :=
  let sccDG := createInclusionNodes pdg
  pdg.edges.foldl (addSCCEdge pdg) { sccDG := sccDG, nodeSCCMap := buildNodeSCCMap sccDG }

/-- The function `SCCDG::createSCCGraphFrom`. -/
def SCCDG.createSCCGraphFrom (pdg : PDG) : SCCDG :=
  (createSCCGraphState pdg).sccDG

/-! ## `SCCDG::isPipeline` -/

/-- Modelled from the spec: the incoming edges of a node (`DGNode`, DG.hpp is not part of the
sources), in creation order; `numIncomingEdges()` is their number and, when there is one,
`*begin_incoming_nodes()` is its source. -/
def SCCDG.incomingEdges (g : SCCDG) (n : Nat) : List SCCEdge :=
  g.allEdges.filter (fun e => e.dst == n)

/-- Modelled from the spec: the outgoing edges of a node (`DGNode`, DG.hpp is not part of the
sources), in creation order; `numOutgoingEdges()` is their number and, when there is one,
`*begin_outgoing_nodes()` is its sink. -/
def SCCDG.outgoingEdges (g : SCCDG) (n : Nat) : List SCCEdge :=
  g.allEdges.filter (fun e => e.src == n)

/-- Lines 110-114, the upward loop.  `none`: the loop is still running when the fuel is spent;
`some none`: `return false`; `some (some t)`: the loop ends at `t`. -/
def SCCDG.walkToTop (g : SCCDG) : Nat → Nat → Option (Option Nat)
  | 0, _ => none
  | fuel + 1, topOfPipeline =>
    match g.incomingEdges topOfPipeline with
    | [] => some (some topOfPipeline)
    | [e] => g.walkToTop fuel e.src
    | _ :: _ :: _ => some none

/-- Lines 120-125, the downward loop, with the running value of `visitedNodes`. -/
def SCCDG.walkToBottom (g : SCCDG) : Nat → Nat → Nat → Option (Option Nat)
  | 0, _, _ => none
  | fuel + 1, topOfPipeline, visitedNodes =>
    match g.outgoingEdges topOfPipeline with
    | [] => some (some visitedNodes)
    | [e] => g.walkToBottom fuel e.dst (visitedNodes + 1)
    | _ :: _ :: _ => some none

/-- The function `SCCDG::isPipeline`.  `*begin_nodes()` is the first node of `allNodes` and
`numNodes()` is the number of nodes of the graph, inclusion and external nodes alike.  The
result is `none` when the graph has no node to start from or when one of the two loops does
not end within `numNodes()` rounds. -/
def SCCDG.isPipeline (g : SCCDG) : Option Bool :=
  match g.allNodes with
  | [] => none
  | first :: _ =>
    match g.walkToTop g.allNodes.length first.id with
    | none => none
    | some none => some false
    | some (some top) =>
      match g.walkToBottom g.allNodes.length top 1 with
      | none => none
      | some none => some false
      | some (some visitedNodes) => some (visitedNodes == g.allNodes.length)

/-! ## `SCCDAGAttrs`: dependence classification and SCC tagging -/

/-- The enumeration `SCCAttrs::SCCType`. -/
inductive SCCType where
  | INDEPENDENT
  | REDUCIBLE
  | SEQUENTIAL
deriving DecidableEq, Repr

/-- The fields of `SCCAttrs` read and written by `SCCDAGAttrs`.  Modelled from the spec (SCCAttrs.hpp
is not part of the sources), section 3: the type, the induction-variable and clonable flags, the
"set of PHIs in the SCC, set of accumulator instructions, set of (condition, terminator) control
pairs" and the caches `stronglyConnectedDataValues` / `weaklyConnectedDataValues`. -/
structure SCCAttrs where
  type : SCCType
  hasIV : Bool
  isClonable : Bool
  PHINodes : List Nat
  accumulators : List Nat
  controlPairs : List (Nat × Nat)
  stronglyConnectedDataValues : List Nat
  weaklyConnectedDataValues : List Nat
deriving DecidableEq, Repr

/-- The function `SCCAttrs::getType`. -/
def SCCAttrs.getType (a : SCCAttrs) : SCCType := a.type

/-- The function `SCCAttrs::setType`. -/
def SCCAttrs.setType (a : SCCAttrs) (t : SCCType) : SCCAttrs := { a with type := t }

/-- The function `SCCAttrs::mustExecuteSequentially`. -/
def SCCAttrs.mustExecuteSequentially (a : SCCAttrs) : Bool :=
  a.getType == SCCType.SEQUENTIAL

/-- The function `SCCAttrs::canExecuteReducibly`. -/
def SCCAttrs.canExecuteReducibly (a : SCCAttrs) : Bool :=
  a.getType == SCCType.REDUCIBLE

/-- The function `SCCAttrs::canExecuteIndependently`. -/
def SCCAttrs.canExecuteIndependently (a : SCCAttrs) : Bool :=
  a.getType == SCCType.INDEPENDENT

/-- The function `SCCAttrs::canBeCloned`. -/
def SCCAttrs.canBeCloned (a : SCCAttrs) : Bool := a.isClonable

/-- The function `SCCAttrs::isInductionVariableSCC`. -/
def SCCAttrs.isInductionVariableSCC (a : SCCAttrs) : Bool := a.hasIV

/-- The record `FixedIVBounds` filled by `checkIfIVHasFixedBounds`. -/
structure FixedIVBounds where
  start : Nat
  step : Int
  cmpIVTo : Nat
  cmpToDerivation : List Nat
  isCmpOnAccum : Bool
  isCmpIVLHS : Bool
  endOffset : Int
deriving DecidableEq, Repr

/-- The oracle `LoopsSummary`: `getLoop` of an instruction or of a basic block, `none` for
`nullptr`, and `isBasicBlockWithin` of a loop of the summary. -/
structure LoopsSummary where
  getLoop : Nat → Option Nat
  isBasicBlockWithin : Nat → Nat → Bool

/-- The oracle `DominatorSummary`: `DT.dominates`. -/
structure DominatorSummary where
  dominates : Nat → Nat → Bool

/-- A map from SCC objects to sets of dependence edges
(`std::unordered_map<SCC *, std::set<DGEdge<Value> *>>`): one entry per key. -/
abbrev DepMap := List (Nat × List DGEdge)

/-- The entry of a key (`find`), `none` for `end()`. -/
def DepMap.find (m : DepMap) (scc : Nat) : Option (List DGEdge) :=
  m.lookup scc

/-- The statement `m[scc].insert(edge)`: the entry is created when missing, the edge is added
unless the set has it. -/
def DepMap.insert (m : DepMap) (scc : Nat) (edge : DGEdge) : DepMap :=
  let deps := (m.lookup scc).getD []
  (scc, if edge ∈ deps then deps else deps ++ [edge]) :: m.filter (fun p => p.1 != scc)

/-- The function `SCC::isInternal`. -/
def SCC.isInternal (scc : SCC) (v : Nat) : Bool :=
  decide (v ∈ scc.nodes)

/-- The state of `SCCDAGAttrs` that `populate` reads and writes.  SCC objects are the keys,
given by the identity `SCCNode.id`. -/
structure SCCDAGAttrs where
  sccdag : SCCDG
  interIterDeps : DepMap
  intraIterDeps : DepMap
  interIterDepsInternalToSCC : DepMap
  sccToInfo : List (Nat × SCCAttrs)
  clonableSCCs : List Nat
  sccIVBounds : List (Nat × FixedIVBounds)
deriving Repr

/-- A fresh `SCCDAGAttrs` on which `populate` has set `this->sccdag`. -/
def SCCDAGAttrs.init (loopSCCDAG : SCCDG) : SCCDAGAttrs :=
  { sccdag := loopSCCDAG, interIterDeps := [], intraIterDeps := [],
    interIterDepsInternalToSCC := [], sccToInfo := [], clonableSCCs := [], sccIVBounds := [] }

/-- The function `SCCDAGAttrs::getSCCAttrs`, `none` for `nullptr`. -/
def SCCDAGAttrs.getSCCAttrs (attrs : SCCDAGAttrs) (scc : Nat) : Option SCCAttrs :=
  attrs.sccToInfo.lookup scc

/-- The assignment `sccToInfo[scc] = sccInfo`, also used for the writes through the pointer
`sccInfo`. -/
def SCCDAGAttrs.setSCCAttrs (attrs : SCCDAGAttrs) (scc : Nat) (sccInfo : SCCAttrs) : SCCDAGAttrs :=
  { attrs with sccToInfo := (scc, sccInfo) :: attrs.sccToInfo.filter (fun p => p.1 != scc) }

/-- Lines 274-287 of `collectDependencies`: the body of the loop over the edges of one SCC. -/
def SCCDAGAttrs.classifyEdge (isaInstruction : Nat → Bool) (LIS : LoopsSummary)
    (DS : DominatorSummary) (scc : Nat) (attrs : SCCDAGAttrs) (edge : DGEdge) : SCCDAGAttrs :=
  if !isaInstruction edge.src then attrs
  else if !isaInstruction edge.dst then attrs
  else if (LIS.getLoop edge.src).isNone || (LIS.getLoop edge.dst).isNone then attrs
  else if edge.src == edge.dst || !DS.dominates edge.src edge.dst then
    { attrs with interIterDeps := attrs.interIterDeps.insert scc edge }
  else
    { attrs with intraIterDeps := attrs.intraIterDeps.insert scc edge }

/-- Lines 290-296 of `collectDependencies`: the loop-carried dependences with both ends
internal to the SCC. -/
def SCCDAGAttrs.collectInternal (sccNode : SCCNode) (attrs : SCCDAGAttrs) : SCCDAGAttrs :=
  match attrs.interIterDeps.find sccNode.id with
  | none => attrs
  | some deps =>
    deps.foldl
      (fun attrs dependency =>
        if sccNode.scc.isInternal dependency.src && sccNode.scc.isInternal dependency.dst then
          { attrs with
            interIterDepsInternalToSCC := attrs.interIterDepsInternalToSCC.insert sccNode.id dependency }
        else attrs)
      attrs

/-- Lines 271-297 of `collectDependencies`: the body of the loop over the nodes of the SCCDAG. -/
def SCCDAGAttrs.collectDependenciesOf (isaInstruction : Nat → Bool) (LIS : LoopsSummary)
    (DS : DominatorSummary) (attrs : SCCDAGAttrs) (sccNode : SCCNode) : SCCDAGAttrs :=
  SCCDAGAttrs.collectInternal sccNode
    (sccNode.scc.edges.foldl (SCCDAGAttrs.classifyEdge isaInstruction LIS DS sccNode.id) attrs)

/-- The function `SCCDAGAttrs::collectDependencies`.  `isaInstruction` is the test `isa<Instruction>`. -/
def SCCDAGAttrs.collectDependencies (isaInstruction : Nat → Bool) (LIS : LoopsSummary)
    (DS : DominatorSummary) (attrs : SCCDAGAttrs) : SCCDAGAttrs :=
  attrs.sccdag.allNodes.foldl (SCCDAGAttrs.collectDependenciesOf isaInstruction LIS DS) attrs

/-- The function `SCCDAGAttrs::checkIfIndependent`. -/
def SCCDAGAttrs.checkIfIndependent (attrs : SCCDAGAttrs) (scc : Nat) : Bool :=
  (attrs.interIterDepsInternalToSCC.find scc).isNone

/-- The per-SCC analyses called by `populate` before it tags the SCC.  None of them writes a
dependence map.  Each reads the attributes computed so far, in which `sccToInfo` holds the
record of the SCC, and returns what it writes; `none` when the run stops in it (an assertion,
a failed `cast`, `abort()`, a null record).  The fields are: the constructor of `SCCAttrs`;
the record of the SCC after `checkIfInductionVariableSCC`, whose flag `populate` reads next;
the outcome of `checkIfIVHasFixedBounds` (`none`: no record; `some b`: the record stored in
`sccIVBounds`) with the record of the SCC after the call; the condition under which
`checkIfClonable` marks the SCC; the result of `checkIfReducible` with the record of the SCC
after the call. -/
structure SCCAnalyses where
  newSCCAttrs : SCC → SCCAttrs
  checkIfInductionVariableSCC : SCCDAGAttrs → SCCNode → Option SCCAttrs
  checkIfIVHasFixedBounds : SCCDAGAttrs → SCCNode → Option (Option FixedIVBounds × SCCAttrs)
  checkIfClonable : SCCDAGAttrs → SCCNode → Option Bool
  checkIfReducible : SCCDAGAttrs → SCCNode → Option (Bool × SCCAttrs)

/-- The assignment `sccIVBounds[scc] = fixedIVBounds` (line 639). -/
def SCCDAGAttrs.setIVBounds (attrs : SCCDAGAttrs) (scc : Nat) (b : FixedIVBounds) :
    SCCDAGAttrs :=
  { attrs with sccIVBounds := (scc, b) :: attrs.sccIVBounds.filter (fun p => p.1 != scc) }

/-- Lines 43-44 of `populate`: `checkIfIVHasFixedBounds` is run on induction-variable SCCs
only.  `sccInfo` is the record of the SCC; the result is the attributes and the record of the
SCC after the call, `none` when the run stops. -/
def SCCDAGAttrs.fixedBoundsStep (an : SCCAnalyses) (attrs : SCCDAGAttrs) (sccNode : SCCNode)
    (sccInfo : SCCAttrs) : Option (SCCDAGAttrs × SCCAttrs) :=
  if sccInfo.isInductionVariableSCC then
    match an.checkIfIVHasFixedBounds attrs sccNode with
    | none => none
    | some (none, sccInfo1) => some (attrs.setSCCAttrs sccNode.id sccInfo1, sccInfo1)
    | some (some b, sccInfo1) =>
      some ((attrs.setSCCAttrs sccNode.id sccInfo1).setIVBounds sccNode.id b, sccInfo1)
  else some (attrs, sccInfo)

/-- The attributes after `checkIfClonable` has marked the SCC: the flag of its record is set
and the SCC is in `clonableSCCs`. -/
def SCCDAGAttrs.markClonable (attrs : SCCDAGAttrs) (scc : Nat) (sccInfo : SCCAttrs) :
    SCCDAGAttrs :=
  { (attrs.setSCCAttrs scc { sccInfo with isClonable := true }) with
    clonableSCCs := if scc ∈ attrs.clonableSCCs then attrs.clonableSCCs
                    else attrs.clonableSCCs ++ [scc] }

/-- Line 45 of `populate`: `checkIfClonable`.  `none` when the run stops. -/
def SCCDAGAttrs.clonableStep (an : SCCAnalyses) (attrs : SCCDAGAttrs) (sccNode : SCCNode)
    (sccInfo : SCCAttrs) : Option (SCCDAGAttrs × SCCAttrs) :=
  match an.checkIfClonable attrs sccNode with
  | none => none
  | some true =>
    some (attrs.markClonable sccNode.id sccInfo, { sccInfo with isClonable := true })
  | some false => some (attrs, sccInfo)

/-- Lines 50-56 of `populate`: the type given to the SCC, with the record of the SCC after
the checks.  `checkIfReducible` is called only when `checkIfIndependent` fails.  `none` when
the run stops. -/
def SCCDAGAttrs.typeOf (an : SCCAnalyses) (attrs : SCCDAGAttrs) (sccNode : SCCNode)
    (sccInfo : SCCAttrs) : Option (SCCType × SCCAttrs) :=
  if attrs.checkIfIndependent sccNode.id then some (SCCType.INDEPENDENT, sccInfo)
  else
    match an.checkIfReducible attrs sccNode with
    | none => none
    | some (true, sccInfo1) => some (SCCType.REDUCIBLE, sccInfo1)
    | some (false, sccInfo1) => some (SCCType.SEQUENTIAL, sccInfo1)

/-- Lines 30-59 of `populate`: the callback run on every SCC.  The record of the SCC is
allocated and stored (lines 35-36); every analysis finds in `sccToInfo` the record as the
analyses before it left it; the type is written last.  `none` when the run stops. -/
def SCCDAGAttrs.tagSCC (an : SCCAnalyses) (attrs : SCCDAGAttrs) (sccNode : SCCNode) :
    Option SCCDAGAttrs :=
  let sccInfo := an.newSCCAttrs sccNode.scc
  let attrs1 := attrs.setSCCAttrs sccNode.id sccInfo
  match an.checkIfInductionVariableSCC attrs1 sccNode with
  | none => none
  | some sccInfo2 =>
    let attrs2 := attrs1.setSCCAttrs sccNode.id sccInfo2
    match SCCDAGAttrs.fixedBoundsStep an attrs2 sccNode sccInfo2 with
    | none => none
    | some r3 =>
      match SCCDAGAttrs.clonableStep an r3.1 sccNode r3.2 with
      | none => none
      | some r4 =>
        match SCCDAGAttrs.typeOf an r4.1 sccNode r4.2 with
        | none => none
        | some t => some (r4.1.setSCCAttrs sccNode.id (t.2.setType t.1))

/-- Modelled from the spec: `SCCDAG::iterateOverSCCs` (SCCDAG.cpp is not part of the sources):
the callback is run on the SCC of every node of the graph, in order; the callback of `populate`
always returns `false`, so no SCC is skipped.  `none` when a callback aborts. -/
def SCCDG.iterateOverSCCs (g : SCCDG) (f : SCCDAGAttrs → SCCNode → Option SCCDAGAttrs)
    (attrs : SCCDAGAttrs) : Option SCCDAGAttrs :=
  g.allNodes.foldlM f attrs

/-- The function `SCCDAGAttrs::populate` up to the tagging of the SCCs (lines 15-59).  The last statement,
`collectSCCGraphAssumingDistributedClones`, writes `parentsViaClones` and `edgesViaClones` only,
which are not part of this state. -/
def SCCDAGAttrs.populate (isaInstruction : Nat → Bool) (an : SCCAnalyses) (loopSCCDAG : SCCDG)
    (LIS : LoopsSummary) (DS : DominatorSummary) : Option SCCDAGAttrs :=
  loopSCCDAG.iterateOverSCCs (SCCDAGAttrs.tagSCC an)
    (SCCDAGAttrs.collectDependencies isaInstruction LIS DS (SCCDAGAttrs.init loopSCCDAG))

/-- The set stored for a key, empty when the key is missing. -/
def DepMap.get (m : DepMap) (scc : Nat) : List DGEdge :=
  (m.find scc).getD []

/-- Every entry of the map is a non-empty set. -/
def DepMap.NonEmptyEntries (m : DepMap) : Prop :=
  ∀ k s, m.find k = some s → s ≠ []

/-- The guards of lines 274-281 of `collectDependencies`: both ends of the edge are instructions
inside some loop. -/
def InLoops (isaInstruction : Nat → Bool) (LIS : LoopsSummary) (e : DGEdge) : Prop :=
  isaInstruction e.src = true ∧ isaInstruction e.dst = true ∧
    (LIS.getLoop e.src).isSome = true ∧ (LIS.getLoop e.dst).isSome = true

/-- The test of line 283: the source is the sink, or it does not dominate the sink. -/
def CarriedTest (DS : DominatorSummary) (e : DGEdge) : Prop :=
  e.src = e.dst ∨ DS.dominates e.src e.dst = false

/-! ## Sample inputs -/

/-- A dependence edge with no flag set. -/
def DGEdge.plain (src dst : Nat) : DGEdge :=
  { src := src, dst := dst, control := false, memory := false, must := false, raw := false }

/-- A loop SCCDAG with two SCCs: the cycle `1 → 2 → 1` and the single instruction `3`. -/
def sampleLoopSCCDAG : SCCDG :=
  { allNodes :=
      [{ id := 0, scc := { nodes := [1, 2], edges := [DGEdge.plain 1 2, DGEdge.plain 2 1] },
         inclusion := true },
       { id := 1, scc := { nodes := [3], edges := [] }, inclusion := true }],
    allEdges :=
      [{ src := 0, dst := 1, memory := false, must := false, raw := false,
         subEdges := [DGEdge.plain 2 3] }] }

/-- Every value is an instruction. -/
def sampleIsaInstruction : Nat → Bool := fun _ => true

/-- Every instruction is in loop `0`. -/
def sampleLIS : LoopsSummary :=
  { getLoop := fun _ => some 0, isBasicBlockWithin := fun _ _ => true }

/-- Instructions are laid out in order: `a` dominates `b` when `a ≤ b`. -/
def sampleDS : DominatorSummary := { dominates := fun a b => decide (a ≤ b) }

/-- Analyses that find no induction variable, no clonable and no reducible SCC. -/
def sampleAnalyses : SCCAnalyses :=
  { newSCCAttrs := fun _ =>
      { type := SCCType.SEQUENTIAL, hasIV := false, isClonable := false, PHINodes := [],
        accumulators := [], controlPairs := [], stronglyConnectedDataValues := [],
        weaklyConnectedDataValues := [] },
    checkIfInductionVariableSCC := fun attrs sccNode => attrs.getSCCAttrs sccNode.id,
    checkIfIVHasFixedBounds := fun attrs sccNode =>
      (attrs.getSCCAttrs sccNode.id).map (fun sccInfo => (none, sccInfo)),
    checkIfClonable := fun _ _ => some false,
    checkIfReducible := fun attrs sccNode =>
      (attrs.getSCCAttrs sccNode.id).map (fun sccInfo => (false, sccInfo)) }

/-- The attributes computed by `populate` on the sample loop. -/
def sampleAttrs : SCCDAGAttrs :=
  (SCCDAGAttrs.populate sampleIsaInstruction sampleAnalyses sampleLoopSCCDAG sampleLIS
    sampleDS).getD (SCCDAGAttrs.init sampleLoopSCCDAG)

/-! ## Invariant of the edge loop of `createSCCGraphFrom` -/

/-- The state of the edge loop after the PDG edges `done` have been handled: the SCC objects
are numbered in creation order, `nodeSCCMap` sends a node to an SCC that holds it, every
edge of the graph joins two different SCCs not both external, no two edges join the same pair,
the flags of an edge are the disjunction of the flags of its sub-edges, every handled PDG edge
between different SCCs not both external is a sub-edge of the edge between them, and every
sub-edge comes from a handled PDG edge between the two SCCs. -/
structure BuildInv (done : List DGEdge) (st : BuildState) : Prop where
  ids : st.sccDG.allNodes.map (fun n => n.id) = List.range st.sccDG.allNodes.length
  mapSound : ∀ v i, st.nodeSCCMap.lookup v = some i →
    ∃ n ∈ st.sccDG.allNodes, n.id = i ∧ v ∈ n.scc.nodes
  mapped : ∀ e ∈ done, (st.nodeSCCMap.lookup e.src).isSome = true ∧
    (st.nodeSCCMap.lookup e.dst).isSome = true
  ends : ∀ se ∈ st.sccDG.allEdges, se.src ≠ se.dst ∧
    ∃ a ∈ st.sccDG.allNodes, ∃ b ∈ st.sccDG.allNodes,
      a.id = se.src ∧ b.id = se.dst ∧ (a.inclusion = true ∨ b.inclusion = true)
  unique : st.sccDG.allEdges.Pairwise (fun a b => ¬ (a.src = b.src ∧ a.dst = b.dst))
  flags : ∀ se ∈ st.sccDG.allEdges,
    se.memory = se.subEdges.any (fun e => e.memory) ∧
    se.must = se.subEdges.any (fun e => e.must) ∧
    se.raw = se.subEdges.any (fun e => e.raw)
  covered : ∀ e ∈ done, ∀ a b, st.nodeSCCMap.lookup e.src = some a →
    st.nodeSCCMap.lookup e.dst = some b → a ≠ b →
    ¬ (st.sccDG.isExternal a = true ∧ st.sccDG.isExternal b = true) →
    ∃ se ∈ st.sccDG.allEdges, se.src = a ∧ se.dst = b ∧ e ∈ se.subEdges
  origin : ∀ se ∈ st.sccDG.allEdges, se.subEdges ≠ [] ∧
    ∀ e ∈ se.subEdges, e ∈ done ∧ st.nodeSCCMap.lookup e.src = some se.src ∧
      st.nodeSCCMap.lookup e.dst = some se.dst

/-- The node lists of the SCCs found in the components, in creation order (lines 29-42). -/
def inclusionSCCs (pdg : PDG) : List (List Nat) :=
  pdg.collectConnectedComponents.flatMap
    (fun componentNodes => (pdg.extractNodesFromSelfInto componentNodes componentNodes.head?).sccs)


/-- Every node of every SCC of the graph is sent to that SCC by `nodeSCCMap`. -/
def MapComplete (st : BuildState) : Prop :=
  ∀ n ∈ st.sccDG.allNodes, ∀ v ∈ n.scc.nodes, st.nodeSCCMap.lookup v = some n.id

/-- A PDG with the cycle `1 → 2 → 1`, two edges from it to instruction `3`, and the external
values `10` and `11`: `10` feeds `1`, `3` feeds `10`, and `10` feeds `11`. -/
def samplePDG : PDG :=
  { internalNodes := [1, 2, 3],
    externalNodes := [10, 11],
    edges := [DGEdge.plain 1 2, DGEdge.plain 2 1, DGEdge.plain 2 3,
              { src := 1, dst := 3, control := false, memory := true, must := false, raw := true },
              DGEdge.plain 10 1, DGEdge.plain 3 10, DGEdge.plain 10 11],
    entryNode := none }

/-! ## Relations used to state the properties of the graphs -/

/-- The relation "`(a, b)` is one of the pairs". -/
def EdgeRel (es : List (Nat × Nat)) (a b : Nat) : Prop :=
  (a, b) ∈ es

/-- The graph has an edge from the SCC `a` to the SCC `b`. -/
def SCCDG.HasEdge (g : SCCDG) (a b : Nat) : Prop :=
  ∃ se ∈ g.allEdges, se.src = a ∧ se.dst = b

/-- The SCC `a` is held by an inclusion (internal) node of the graph. -/
def SCCDG.IsInclusion (g : SCCDG) (a : Nat) : Prop :=
  ∃ n ∈ g.allNodes, n.id = a ∧ n.inclusion = true

/-- The graph has an edge between the inclusion SCCs `a` and `b`. -/
def SCCDG.HasInclusionEdge (g : SCCDG) (a b : Nat) : Prop :=
  g.HasEdge a b ∧ g.IsInclusion a ∧ g.IsInclusion b

/-- No non-empty directed path of edges leads from an SCC node back to itself. -/
def SCCDG.Acyclic (g : SCCDG) : Prop :=
  ∀ a, ¬ Relation.TransGen g.HasEdge a a

/-- The set is closed under the pairs. -/
def ClosedUnder (es : List (Nat × Nat)) (S : List Nat) : Prop :=
  ∀ y ∈ S, ∀ z, (y, z) ∈ es → z ∈ S


/-- The pairs along which the SCCs of the component `c` are computed. -/
def componentPairs (pdg : PDG) (c : List Nat) : List (Nat × Nat) :=
  (pdg.extractNodesFromSelfInto c c.head?).edgePairsWithin c

/-- In the graph returned by `createSCCGraphFrom`, the SCC `a` is an inclusion SCC found in the
component `c`, and `x` is its first node. -/
def PivotOf (pdg : PDG) (a : Nat) (c : List Nat) (x : Nat) : Prop :=
  ∃ A ∈ (SCCDG.createSCCGraphFrom pdg).allNodes, A.id = a ∧ A.inclusion = true ∧
    c ∈ pdg.collectConnectedComponents ∧
    A.scc.nodes ∈ (pdg.extractNodesFromSelfInto c c.head?).sccs ∧ A.scc.nodes.head? = some x

/-- The sample PDG without the dependence `3 → 10`: no external value has an incoming edge and
an outgoing edge. -/
def sampleDAGPDG : PDG :=
  { internalNodes := [1, 2, 3],
    externalNodes := [10, 11],
    edges := [DGEdge.plain 1 2, DGEdge.plain 2 1, DGEdge.plain 2 3,
              { src := 1, dst := 3, control := false, memory := true, must := false, raw := true },
              DGEdge.plain 10 1, DGEdge.plain 10 11],
    entryNode := none }

/-! ## Notions used to state the properties of `isPipeline` -/

/-- The identities of the SCC nodes of the graph, in the order of `allNodes`. -/
def SCCDG.nodeIds (g : SCCDG) : List Nat :=
  g.allNodes.map (fun n => n.id)

/-- The (source, sink) pairs of the edges of the graph, in the order of `allEdges`. -/
def SCCDG.edgePairs (g : SCCDG) : List (Nat × Nat) :=
  g.allEdges.map (fun e => (e.src, e.dst))

/-- A well-formed non-empty graph: it has a node, its nodes hold distinct SCC objects, and
every edge joins nodes of the graph. -/
structure SCCDG.WellFormed (g : SCCDG) : Prop where
  nonempty : g.allNodes ≠ []
  nodup : g.nodeIds.Nodup
  src_mem : ∀ e ∈ g.allEdges, e.src ∈ g.nodeIds
  dst_mem : ∀ e ∈ g.allEdges, e.dst ∈ g.nodeIds

/-- The whole graph is a simple chain: its nodes, internal and external, can be ordered
`n1 .. nk` so that its edges are exactly `n1 → n2`, ..., `n(k-1) → nk`. -/
def SCCDG.IsSimpleChain (g : SCCDG) : Prop :=
  ∃ order : List Nat, order.Perm g.nodeIds ∧ g.edgePairs.Perm (order.zip order.tail)

/-- The sub-graph of the inclusion (internal) nodes, with the edges joining two of them. -/
def SCCDG.internalSubgraph (g : SCCDG) : SCCDG :=
  { allNodes := g.allNodes.filter (fun n => n.inclusion),
    allEdges := g.allEdges.filter (fun e =>
      decide (e.src ∈ (g.allNodes.filter (fun n => n.inclusion)).map (fun n => n.id)) &&
      decide (e.dst ∈ (g.allNodes.filter (fun n => n.inclusion)).map (fun n => n.id))) }

/-- The consecutive pairs of a list. -/
def pairsOf : List Nat → List (Nat × Nat)
  | [] => []
  | [_] => []
  | x :: y :: r => (x, y) :: pairsOf (y :: r)

/-- A path that follows, from its first node, the only outgoing edge of each node and ends at a
node without outgoing edge. -/
def SCCDG.DownPath (g : SCCDG) : List Nat → Prop
  | [] => False
  | [a] => g.outgoingEdges a = []
  | a :: b :: r => (∃ e, g.outgoingEdges a = [e] ∧ e.dst = b) ∧ g.DownPath (b :: r)

/-- The SCC graph that `createSCCGraphFrom` builds for the PDG with the three instructions
`1 → 2 → 3`: SCC `0` holds `3`, SCC `1` holds `2`, SCC `2` holds `1`. -/
def sampleChainSCCDAG : SCCDG :=
  { allNodes :=
      [{ id := 0, scc := { nodes := [3], edges := [] }, inclusion := true },
       { id := 1, scc := { nodes := [2], edges := [] }, inclusion := true },
       { id := 2, scc := { nodes := [1], edges := [] }, inclusion := true }],
    allEdges :=
      [{ src := 2, dst := 1, memory := false, must := false, raw := false,
         subEdges := [DGEdge.plain 1 2] },
       { src := 1, dst := 0, memory := false, must := false, raw := false,
         subEdges := [DGEdge.plain 2 3] }] }

/-- The same graph with its nodes listed in another order. -/
def sampleChainSCCDAGReordered : SCCDG :=
  { allNodes :=
      [{ id := 1, scc := { nodes := [2], edges := [] }, inclusion := true },
       { id := 2, scc := { nodes := [1], edges := [] }, inclusion := true },
       { id := 0, scc := { nodes := [3], edges := [] }, inclusion := true }],
    allEdges := sampleChainSCCDAG.allEdges }

/-- The SCC graph that `createSCCGraphFrom` builds for one instruction `1` with the two
external operands `10` and `11`: the inclusion SCC `0` and the external SCCs `1` and `2`. -/
def sampleFanInSCCDAG : SCCDG :=
  { allNodes :=
      [{ id := 0, scc := { nodes := [1], edges := [] }, inclusion := true },
       { id := 1, scc := { nodes := [10], edges := [] }, inclusion := false },
       { id := 2, scc := { nodes := [11], edges := [] }, inclusion := false }],
    allEdges :=
      [{ src := 1, dst := 0, memory := false, must := false, raw := false,
         subEdges := [DGEdge.plain 10 1] },
       { src := 2, dst := 0, memory := false, must := false, raw := false,
         subEdges := [DGEdge.plain 11 1] }] }

/-- The SCC graph that `createSCCGraphFrom` builds for one instruction `1` beside a dependence
between the two external values `10` and `11`: the two external SCCs are created by
`fetchOrCreateSCC`, the edge between them is skipped. -/
def sampleLoneSCCDAG : SCCDG :=
  { allNodes :=
      [{ id := 0, scc := { nodes := [1], edges := [] }, inclusion := true },
       { id := 1, scc := { nodes := [10], edges := [] }, inclusion := false },
       { id := 2, scc := { nodes := [11], edges := [] }, inclusion := false }],
    allEdges := [] }

/-! ## The IR and the oracles read by the SCC classification -/

/-- The opcodes of the LLVM binary operators (`Instruction::BinaryOps`, the values returned by
`getOpcode` on an accumulator); `Other` stands for every other instruction. -/
inductive Opcode where
  | Add | FAdd | Sub | FSub | Mul | FMul | UDiv | SDiv | FDiv | URem | SRem | FRem
  | Shl | LShr | AShr | And | Or | Xor | Other
deriving DecidableEq, Repr

/-- The LLVM enumeration `CmpInst::Predicate`. -/
inductive Predicate where
  | FCMP_FALSE | FCMP_OEQ | FCMP_OGT | FCMP_OGE | FCMP_OLT | FCMP_OLE | FCMP_ONE | FCMP_ORD
  | FCMP_UNO | FCMP_UEQ | FCMP_UGT | FCMP_UGE | FCMP_ULT | FCMP_ULE | FCMP_UNE | FCMP_TRUE
  | ICMP_EQ | ICMP_NE | ICMP_UGT | ICMP_UGE | ICMP_ULT | ICMP_ULE
  | ICMP_SGT | ICMP_SGE | ICMP_SLT | ICMP_SLE
deriving DecidableEq, Repr

/-- The LLVM function `CmpInst::isUnsigned`. -/
def Predicate.isUnsigned : Predicate → Bool
  | .ICMP_UGT | .ICMP_UGE | .ICMP_ULT | .ICMP_ULE => true
  | _ => false

/-- The LLVM function `ICmpInst::getSignedPredicate`, called on unsigned predicates only. -/
def Predicate.getSignedPredicate : Predicate → Predicate
  | .ICMP_UGT => .ICMP_SGT
  | .ICMP_ULT => .ICMP_SLT
  | .ICMP_UGE => .ICMP_SGE
  | .ICMP_ULE => .ICMP_SLE
  | p => p

/-- The LLVM function `CmpInst::getSwappedPredicate`: the predicate of the comparison with its
operands exchanged. -/
def Predicate.getSwappedPredicate : Predicate → Predicate
  | .ICMP_SGT => .ICMP_SLT
  | .ICMP_SLT => .ICMP_SGT
  | .ICMP_SGE => .ICMP_SLE
  | .ICMP_SLE => .ICMP_SGE
  | .ICMP_UGT => .ICMP_ULT
  | .ICMP_ULT => .ICMP_UGT
  | .ICMP_UGE => .ICMP_ULE
  | .ICMP_ULE => .ICMP_UGE
  | .FCMP_OGT => .FCMP_OLT
  | .FCMP_OLT => .FCMP_OGT
  | .FCMP_OGE => .FCMP_OLE
  | .FCMP_OLE => .FCMP_OGE
  | .FCMP_UGT => .FCMP_ULT
  | .FCMP_ULT => .FCMP_UGT
  | .FCMP_UGE => .FCMP_ULE
  | .FCMP_ULE => .FCMP_UGE
  | p => p

/-- The IR as the analyses read it.  Values (instructions, constants, arguments, basic blocks)
are natural numbers; every field is the LLVM query of the same name: the `isa<...>` class tests,
`Instruction::isTerminator`, `getOpcode`, `getOperand(i)`, the (incoming value, incoming block)
pairs of a PHI in index order, the predicate of a comparison, `getSuccessor(i)` of a branch,
`getValue().getBitWidth()` of an integer constant, the basic block `getParent()` of an
instruction and the type `getType()` of a value (types are natural numbers too).
`getSExtValue` is the value of an integer constant read as a signed number of `getBitWidth`
bits: `getValue().getSExtValue()` returns it when it fits 64 bits, and its low 64 bits
otherwise (a build of LLVM with assertions stops there instead). -/
structure IROracle where
  isaInstruction : Nat → Bool
  isaPHINode : Nat → Bool
  isaCastInst : Nat → Bool
  isaCmpInst : Nat → Bool
  isaBranchInst : Nat → Bool
  isaGetElementPtrInst : Nat → Bool
  isaConstantInt : Nat → Bool
  isaConstantData : Nat → Bool
  isTerminator : Nat → Bool
  getOpcode : Nat → Opcode
  getOperand : Nat → Nat → Nat
  incoming : Nat → List (Nat × Nat)
  getPredicate : Nat → Predicate
  getSuccessor : Nat → Nat → Nat
  getSExtValue : Nat → Int
  getBitWidth : Nat → Nat
  getParent : Nat → Nat
  getType : Nat → Nat

/-- The LLVM enumeration `SCEVTypes`. -/
inductive SCEVTypes where
  | scConstant | scTruncate | scZeroExtend | scSignExtend | scAddExpr | scMulExpr | scUDivExpr
  | scAddRecExpr | scUMaxExpr | scSMaxExpr | scUnknown | scCouldNotCompute
deriving DecidableEq, Repr

/-- The oracle `ScalarEvolution`: `getSCEV(I)->getSCEVType()`. -/
structure ScalarEvolution where
  getSCEVType : Nat → SCEVTypes

/-- Modelled from the spec: the class `AccumulatorOpInfo` (AccumulatorOpInfo.hpp is not part of
the sources), the oracle of section 6: "`sideEffectFreeOps` (set of opcodes), `isMulOp(opcode)`,
`isSubOp(opcode)`", and `accumOpForType(opcode, type)`, which lifts the opcode of an accumulator
by the type of the PHI (section 4.5). -/
structure AccumulatorOpInfo where
  sideEffectFreeOps : List Opcode
  isMulOp : Opcode → Bool
  isSubOp : Opcode → Bool
  accumOpForType : Opcode → Nat → Opcode

/-! ## Accessors of `SCCAttrs` and of the graphs -/

/-- Modelled from the spec: `SCCAttrs::getPHIs` (SCCAttrs.cpp is not part of the sources), the
"set of PHIs in the SCC" of section 3. -/
def SCCAttrs.getPHIs (a : SCCAttrs) : List Nat := a.PHINodes

/-- Modelled from the spec: `SCCAttrs::getAccumulators` (SCCAttrs.cpp is not part of the
sources), the "set of accumulator instructions" of section 3. -/
def SCCAttrs.getAccumulators (a : SCCAttrs) : List Nat := a.accumulators

/-- Modelled from the spec: `SCCAttrs::numberOfAccumulators` (SCCAttrs.cpp is not part of the
sources): the size of the accumulator set ("at least one accumulator", section 4.5). -/
def SCCAttrs.numberOfAccumulators (a : SCCAttrs) : Nat := a.accumulators.length

/-- Modelled from the spec: `SCCAttrs::getSinglePHI` (SCCAttrs.cpp is not part of the sources):
the PHI when there is "exactly one PHI in the SCC" (section 4.5), `none` for `nullptr`. -/
def SCCAttrs.getSinglePHI (a : SCCAttrs) : Option Nat :=
  match a.PHINodes with
  | [phi] => some phi
  | _ => none

/-- Modelled from the spec: `SCCAttrs::getSingleAccumulator` (SCCAttrs.cpp is not part of the
sources): the accumulator when there is "a single accumulator" (section 4.5), `none` for
`nullptr`. -/
def SCCAttrs.getSingleAccumulator (a : SCCAttrs) : Option Nat :=
  match a.accumulators with
  | [accum] => some accum
  | _ => none

/-- Modelled from the spec: `SCCAttrs::getSingleInstructionThatControlLoopExit` (SCCAttrs.cpp is
not part of the sources): the (condition, terminator) pair when there is "exactly one
loop-exit-controlling instruction in the SCC" (section 4.5), `none` for `nullptr`. -/
def SCCAttrs.getSingleInstructionThatControlLoopExit (a : SCCAttrs) : Option (Nat × Nat) :=
  match a.controlPairs with
  | [pair] => some pair
  | _ => none

/-- Modelled from the spec: `SCCAttrs::doesItContainThisPHI` (SCCAttrs.cpp is not part of the
sources): membership in the set of PHIs of the SCC. -/
def SCCAttrs.doesItContainThisPHI (a : SCCAttrs) (phi : Nat) : Bool :=
  decide (phi ∈ a.PHINodes)

/-- Modelled from the spec: `SCCAttrs::doesItContainThisInstructionAsAccumulator` (SCCAttrs.cpp
is not part of the sources): membership in the set of accumulators of the SCC. -/
def SCCAttrs.doesItContainThisInstructionAsAccumulator (a : SCCAttrs) (inst : Nat) : Bool :=
  decide (inst ∈ a.accumulators)

/-- Modelled from the spec: `SCCAttrs::setSCCToBeInductionVariable` (SCCAttrs.cpp is not part of
the sources): writes the flag read by `isInductionVariableSCC`. -/
def SCCAttrs.setSCCToBeInductionVariable (a : SCCAttrs) (hasIV : Bool) : SCCAttrs :=
  { a with hasIV := hasIV }

/-- Modelled from the spec: `DG::isExternal` on the graph of an SCC (DG.hpp is not part of the
sources).  Section 3: "external nodes are referenced by edges but are not owned by this graph". -/
def SCC.isExternal (scc : SCC) (v : Nat) : Bool :=
  !scc.isInternal v && scc.edges.any (fun e => e.src == v || e.dst == v)

/-- Modelled from the spec: `DGNode::getOutgoingEdges` on a node of the graph of an SCC (DG.hpp
is not part of the sources): the edges of the graph that leave the node. -/
def SCC.getOutgoingEdges (scc : SCC) (node : Nat) : List DGEdge :=
  scc.edges.filter (fun e => e.src == node)

/-- Modelled from the spec: `DGNode::getIncomingEdges` on a node of the graph of an SCC (DG.hpp
is not part of the sources): the edges of the graph that enter the node. -/
def SCC.getIncomingEdges (scc : SCC) (node : Nat) : List DGEdge :=
  scc.edges.filter (fun e => e.dst == node)

/-- Modelled from the spec: `DG::fetchNode` on the SCCDAG (DG.hpp is not part of the sources):
the node that holds the SCC object. -/
def SCCDG.fetchNode (g : SCCDG) (scc : Nat) : Option SCCNode :=
  g.allNodes.find? (fun n => n.id == scc)

/-- Modelled from the spec: `DGNode::getAllConnectedEdges` (DG.hpp is not part of the sources):
the edges that enter or leave the node (section 4.5: "incoming or outgoing"). -/
def SCCDG.getAllConnectedEdges (g : SCCDG) (scc : Nat) : List SCCEdge :=
  g.allEdges.filter (fun e => e.src == scc || e.dst == scc)

/-! ## The derivation queries `isDerivedWithinSCC` and `isDerivedPHIOrAccumulator` -/

/-- The local state of one search loop of `isDerivedWithinSCC`: the queue, the set `seen` and
the flag `inCycle`. -/
structure SearchState where
  queue : List Nat
  seen : List Nat
  inCycle : Bool
deriving DecidableEq, Repr

/-- Lines 813-822 (and 842-851): the body of the loop over the edges of the node taken from the
queue.  `next` is the other end of the edge: `getIncomingNode` in the first search,
`getOutgoingNode` in the second. -/
def SCC.visitEdge (scc : SCC) (startNode : Nat) (next : DGEdge → Nat) (s : SearchState)
    (edge : DGEdge) : SearchState :=
  if edge.control then s
  else if scc.isExternal (next edge) then s
  else
    let s1 := if next edge == startNode then { s with inCycle := true } else s
    if next edge ∈ s1.seen then s1
    else { s1 with seen := s1.seen ++ [next edge], queue := s1.queue ++ [next edge] }

/-- Lines 809-825 (and 838-854): the `while` loop on the queue, which stops as soon as `inCycle`
is set; the result is the value of `inCycle` after the loop.  Every node enters the queue at most
once after the start, so the loop body runs at most once more than there are edges: this is the
fuel given by the callers. -/
def SCC.searchLoop (scc : SCC) (startNode : Nat) (edgesOf : Nat → List DGEdge)
    (next : DGEdge → Nat) : Nat → SearchState → Bool
  | 0, s => s.inCycle
  | fuel + 1, s =>
    match s.queue with
    | [] => s.inCycle
    | node :: rest =>
      let s1 := (edgesOf node).foldl (scc.visitEdge startNode next) { s with queue := rest }
      if s1.inCycle then true else SCC.searchLoop scc startNode edgesOf next fuel s1

/-- Lines 804-825: the search along outgoing data edges from the node of `val`. -/
def SCC.searchOutgoing (scc : SCC) (val : Nat) : Bool :=
  scc.searchLoop val scc.getOutgoingEdges (fun edge => edge.dst) (scc.edges.length + 1)
    { queue := [val], seen := [], inCycle := false }

/-- Lines 834-854: the search along incoming data edges from the node of `val`. -/
def SCC.searchIncoming (scc : SCC) (val : Nat) : Bool :=
  scc.searchLoop val scc.getIncomingEdges (fun edge => edge.src) (scc.edges.length + 1)
    { queue := [val], seen := [], inCycle := false }

/-- The function `SCCDAGAttrs::isDerivedWithinSCC`.  `sccInfo` is the record
`sccToInfo.find(scc)->second`, whose two caches the function reads and writes: the result comes
with the record after the call. -/
def SCCDAGAttrs.isDerivedWithinSCC (val : Nat) (scc : SCC) (sccInfo : SCCAttrs) :
    Bool × SCCAttrs :=
  if !scc.isInternal val then (false, sccInfo)
  else
    let isStrongly := decide (val ∈ sccInfo.stronglyConnectedDataValues)
    let isWeakly := decide (val ∈ sccInfo.weaklyConnectedDataValues)
    if isStrongly then (true, sccInfo)
    else if isWeakly then (false, sccInfo)
    else if !scc.searchOutgoing val then
      (false, { sccInfo with
        weaklyConnectedDataValues := sccInfo.weaklyConnectedDataValues ++ [val] })
    else if !scc.searchIncoming val then
      (false, { sccInfo with
        weaklyConnectedDataValues := sccInfo.weaklyConnectedDataValues ++ [val] })
    else
      (true, { sccInfo with
        stronglyConnectedDataValues := sccInfo.stronglyConnectedDataValues ++ [val] })

/-- The function `SCCDAGAttrs::isDerivedPHIOrAccumulator`, with the record after the call. -/
def SCCDAGAttrs.isDerivedPHIOrAccumulator (ir : IROracle) (val : Nat) (scc : SCC)
    (sccInfo : SCCAttrs) : Bool × SCCAttrs :=
  let derived := if ir.isaCastInst val then ir.getOperand val 0 else val
  let isInternalPHI := ir.isaPHINode derived && sccInfo.doesItContainThisPHI derived
  let isInternalAccum :=
    ir.isaInstruction derived && sccInfo.doesItContainThisInstructionAsAccumulator derived
  let r := SCCDAGAttrs.isDerivedWithinSCC derived scc sccInfo
  (r.1 && (isInternalPHI || isInternalAccum), r.2)

/-- A loop over a list that returns `false` at the first element whose check fails; the checks
read and write the record of the SCC. -/
def allThreaded {α : Type} (check : α → SCCAttrs → Bool × SCCAttrs) :
    List α → SCCAttrs → Bool × SCCAttrs
  | [], sccInfo => (true, sccInfo)
  | x :: rest, sccInfo =>
    let r := check x sccInfo
    if r.1 then allThreaded check rest r.2 else (false, r.2)

/-! ## `SCCDAGAttrs::checkIfReducible` -/

/-- Lines 313-325 of `checkIfReducible`: the loop over the internal nodes, `loopOfSCC` being
the loop recorded so far (`none` for `nullptr`).  `false` when the loop returns `false`. -/
def SCCDAGAttrs.sameLoopFrom (ir : IROracle) (LIS : LoopsSummary) : Option Nat → List Nat → Bool
  | _, [] => true
  | loopOfSCC, v :: rest =>
    if ir.isaInstruction v then
      if loopOfSCC.isNone then SCCDAGAttrs.sameLoopFrom ir LIS (LIS.getLoop v) rest
      else if loopOfSCC != LIS.getLoop v then false
      else SCCDAGAttrs.sameLoopFrom ir LIS loopOfSCC rest
    else SCCDAGAttrs.sameLoopFrom ir LIS loopOfSCC rest

/-- Lines 332-339 of `checkIfReducible`: some sub-edge of an edge connected to the node of the
SCC is a memory dependence. -/
def SCCDAGAttrs.hasMemorySubEdge (g : SCCDG) (scc : Nat) : Bool :=
  (g.getAllConnectedEdges scc).any (fun edge => edge.subEdges.any (fun subEdge => subEdge.memory))

/-- Lines 341-353 of `checkIfReducible`: every outgoing edge leads to the SCC itself or to an
SCC with at most one internal node whose node has no outgoing edge.  An edge of the C++ graph
always holds its two nodes; an edge whose sink is no node of the graph fails the check. -/
def SCCDAGAttrs.dependentSCCsAreTrivial (g : SCCDG) (scc : Nat) : Bool :=
  (g.outgoingEdges scc).all (fun edge =>
    if edge.dst == scc then true
    else
      match g.fetchNode edge.dst with
      | none => false
      | some dependentSCCNode =>
        !(decide (dependentSCCNode.scc.nodes.length > 1) ||
          decide ((g.outgoingEdges edge.dst).length > 0)))

/-- Lines 362-393 of `checkIfReducible`: the loop over the loop-carried dependences internal to
the SCC, with the 32-bit counter `loopCarriedDataDeps`.  `none` when the loop returns `false`. -/
def SCCDAGAttrs.countLoopCarriedDataDeps (ir : IROracle) : List DGEdge → Nat → Option Nat
  | [], loopCarriedDataDeps => some loopCarriedDataDeps
  | edge :: rest, loopCarriedDataDeps =>
    if edge.control then none
    else if edge.memory then none
    else if !ir.isaInstruction edge.src || !ir.isaInstruction edge.dst then none
    else SCCDAGAttrs.countLoopCarriedDataDeps ir rest ((loopCarriedDataDeps + 1) % 2 ^ 32)

/-- Lines 358-396 of `checkIfReducible`: the SCC has an entry in `interIterDepsInternalToSCC`,
every dependence of the entry passes the three tests, and the counter is at most one. -/
def SCCDAGAttrs.hasSingleLoopCarriedDataDep (ir : IROracle) (attrs : SCCDAGAttrs) (scc : Nat) :
    Bool :=
  match attrs.interIterDepsInternalToSCC.find scc with
  | none => false
  | some deps =>
    match SCCDAGAttrs.countLoopCarriedDataDeps ir deps 0 with
    | none => false
    | some loopCarriedDataDeps => !decide (loopCarriedDataDeps > 1)

/-- Lines 423-457 of `checkIfReducible`: the loop over the incoming values of one PHI. -/
def SCCDAGAttrs.checkIncomingValues (ir : IROracle) (LIS : LoopsSummary) (scc : SCC)
    (phi : Nat) (sccInfo : SCCAttrs) : Bool × SCCAttrs :=
  let loopOfPHI := LIS.getLoop phi
  allThreaded
    (fun (inc : Nat × Nat) sccInfo =>
      let incomingValue := inc.1
      let incomingBB := inc.2
      let loopOfIncoming := LIS.getLoop incomingBB
      if loopOfIncoming.isNone then (true, sccInfo)
      else if loopOfIncoming != loopOfPHI then (true, sccInfo)
      else SCCDAGAttrs.isDerivedPHIOrAccumulator ir incomingValue scc sccInfo)
    (ir.incoming phi) sccInfo

/-- Lines 470-482 of `checkIfReducible`: the checks on one accumulator. -/
def SCCDAGAttrs.checkAccumulator (ir : IROracle) (accumOpInfo : AccumulatorOpInfo) (scc : SCC)
    (accum : Nat) (sccInfo : SCCAttrs) : Bool × SCCAttrs :=
  let opCode := ir.getOpcode accum
  if opCode ∉ accumOpInfo.sideEffectFreeOps then (false, sccInfo)
  else
    let opL := ir.getOperand accum 0
    let opR := ir.getOperand accum 1
    let dL := SCCDAGAttrs.isDerivedWithinSCC opL scc sccInfo
    let dR := SCCDAGAttrs.isDerivedWithinSCC opR scc dL.2
    if !(xor dL.1 dR.1) then (false, dR.2)
    else
      let pL := SCCDAGAttrs.isDerivedPHIOrAccumulator ir opL scc dR.2
      let pR := SCCDAGAttrs.isDerivedPHIOrAccumulator ir opR scc pL.2
      if !(xor pL.1 pR.1) then (false, pR.2) else (true, pR.2)

/-- Lines 489-500 of `checkIfReducible`: every accumulator is multiplicative exactly when the
first one is, and no subtraction has an internal second operand. -/
def SCCDAGAttrs.checkAccumulatorKinds (ir : IROracle) (accumOpInfo : AccumulatorOpInfo)
    (scc : SCC) (accums : List Nat) : Bool :=
  match accums with
  | [] => true
  | first :: _ =>
    let isFirstMul := accumOpInfo.isMulOp (ir.getOpcode first)
    accums.all (fun accum =>
      let isMul := accumOpInfo.isMulOp (ir.getOpcode accum)
      if xor isMul isFirstMul then false
      else if accumOpInfo.isSubOp (ir.getOpcode accum) then
        !scc.isInternal (ir.getOperand accum 1)
      else true)

/-- The function `SCCDAGAttrs::checkIfReducible`.  `sccInfo` is the record fetched at line 308
(`getSCCAttrs(scc)`); the result comes with the record after the call, whose caches the
derivation queries may have filled. -/
def SCCDAGAttrs.checkIfReducible (ir : IROracle) (accumOpInfo : AccumulatorOpInfo)
    (LIS : LoopsSummary) (attrs : SCCDAGAttrs) (sccNode : SCCNode) (sccInfo : SCCAttrs) :
    Bool × SCCAttrs :=
  if !SCCDAGAttrs.sameLoopFrom ir LIS none sccNode.scc.nodes then (false, sccInfo)
  else if SCCDAGAttrs.hasMemorySubEdge attrs.sccdag sccNode.id then (false, sccInfo)
  else if !SCCDAGAttrs.dependentSCCsAreTrivial attrs.sccdag sccNode.id then (false, sccInfo)
  else if !SCCDAGAttrs.hasSingleLoopCarriedDataDep ir attrs sccNode.id then (false, sccInfo)
  else if sccInfo.controlPairs.any (fun pair => sccNode.scc.isInternal pair.1) then
    (false, sccInfo)
  else
    let r1 := allThreaded (SCCDAGAttrs.checkIncomingValues ir LIS sccNode.scc) sccInfo.getPHIs
      sccInfo
    if !r1.1 then (false, r1.2)
    else if r1.2.numberOfAccumulators == 0 then (false, r1.2)
    else
      let accums := r1.2.getAccumulators
      let r2 := allThreaded (SCCDAGAttrs.checkAccumulator ir accumOpInfo sccNode.scc) accums r1.2
      if !r2.1 then (false, r2.2)
      else (SCCDAGAttrs.checkAccumulatorKinds ir accumOpInfo sccNode.scc accums, r2.2)

/-! ## `SCCDAGAttrs::checkIfInductionVariableSCC` -/

/-- Lines 514-517 of `checkIfInductionVariableSCC`: the lambda `setHasIV`. -/
def SCCDAGAttrs.setHasIV (sccInfo : SCCAttrs) (hasIV : Bool) : Bool × SCCAttrs :=
  ((sccInfo.setSCCToBeInductionVariable hasIV).isInductionVariableSCC,
    sccInfo.setSCCToBeInductionVariable hasIV)

/-- The function `SCCDAGAttrs::checkIfInductionVariableSCC`.  `sccInfo` is the record fetched at
line 513; the result comes with the record after the call.  `none`: the assertion of line 532
fails.  The loop of lines 552-562 over the incoming values of the single PHI is the loop of
lines 423-457. -/
def SCCDAGAttrs.checkIfInductionVariableSCC (ir : IROracle) (SE : ScalarEvolution)
    (LIS : LoopsSummary) (scc : SCC) (sccInfo : SCCAttrs) : Option (Bool × SCCAttrs) :=
  match sccInfo.getSingleInstructionThatControlLoopExit with
  | none => some (SCCDAGAttrs.setHasIV sccInfo false)
  | some termPair =>
    let term := termPair.2
    if !ir.isTerminator term then none
    else if !ir.isaBranchInst term then some (SCCDAGAttrs.setHasIV sccInfo false)
    else
      let condition := termPair.1
      if !ir.isaCmpInst condition then some (SCCDAGAttrs.setHasIV sccInfo false)
      else
        let opL := ir.getOperand condition 0
        let opR := ir.getOperand condition 1
        let dL := SCCDAGAttrs.isDerivedWithinSCC opL scc sccInfo
        let dR := SCCDAGAttrs.isDerivedWithinSCC opR scc dL.2
        if !(xor dL.1 dR.1) then some (SCCDAGAttrs.setHasIV dR.2 false)
        else
          let pL := SCCDAGAttrs.isDerivedPHIOrAccumulator ir opL scc dR.2
          let pR := SCCDAGAttrs.isDerivedPHIOrAccumulator ir opR scc pL.2
          if !(xor pL.1 pR.1) then some (SCCDAGAttrs.setHasIV pR.2 false)
          else
            match pR.2.getSinglePHI with
            | none => some (SCCDAGAttrs.setHasIV pR.2 false)
            | some singlePHI =>
              let r := SCCDAGAttrs.checkIncomingValues ir LIS scc singlePHI pR.2
              if !r.1 then some (SCCDAGAttrs.setHasIV r.2 false)
              else if r.2.getAccumulators.all
                  (fun I => SE.getSCEVType I == SCEVTypes.scAddRecExpr) then
                some (SCCDAGAttrs.setHasIV r.2 true)
              else some (SCCDAGAttrs.setHasIV r.2 false)

/-! ## `SCCDAGAttrs::isIVUpperBoundSimple` -/

/-- The conversion of the 64-bit result of `getSExtValue` to `int` (`int stepSize = ...`). -/
def toInt32 (v : Int) : Int :=
  (v + 2 ^ 31) % 2 ^ 32 - 2 ^ 31

/-- Lines 669-713 of `isIVUpperBoundSimple`: the four `switch` statements.  A case that assigns
`endOffset` falls through to the `break` of the next ones; `none`: `cmpPredAbort()`. -/
def SCCDAGAttrs.endOffsetSwitch (exitOnCmp : Bool) (stepSize : Int) (signedPred : Predicate)
    (IVBounds : FixedIVBounds) : Option FixedIVBounds :=
  if !exitOnCmp then
    if stepSize == 1 then
      match signedPred with
      | .ICMP_SLE => some { IVBounds with endOffset := 1 }
      | .ICMP_NE => some IVBounds
      | .ICMP_SLT => some IVBounds
      | _ => none
    else
      match signedPred with
      | .ICMP_SGE => some { IVBounds with endOffset := -1 }
      | .ICMP_NE => some IVBounds
      | .ICMP_SGT => some IVBounds
      | _ => none
  else
    if stepSize == 1 then
      match signedPred with
      | .ICMP_SGT => some { IVBounds with endOffset := 1 }
      | .ICMP_SGE => some IVBounds
      | .ICMP_EQ => some IVBounds
      | _ => none
    else
      match signedPred with
      | .ICMP_SLT => some { IVBounds with endOffset := -1 }
      | .ICMP_SLE => some IVBounds
      | .ICMP_EQ => some IVBounds
      | _ => none

/-- The function `SCCDAGAttrs::isIVUpperBoundSimple`: the returned value and the record
`IVBounds` after the call.  `FixedIVBounds.step` holds the signed value of the constant
`IVBounds.step`.  `none`: the run stops, on the assertion of line 647, on a `cast` to a class
the value does not have, on `LIS.getLoop(br)` being `nullptr`, or in `cmpPredAbort`. -/
def SCCDAGAttrs.isIVUpperBoundSimple (ir : IROracle) (LIS : LoopsSummary) (sccInfo : SCCAttrs)
    (IVBounds : FixedIVBounds) : Option (Bool × FixedIVBounds) :=
  match sccInfo.getSingleInstructionThatControlLoopExit with
  | none => none
  | some singleControlPair =>
    let cmp := singleControlPair.1
    let br := singleControlPair.2
    if !ir.isaCmpInst cmp || !ir.isaBranchInst br then none
    else
      match LIS.getLoop br with
      | none => none
      | some loop =>
        let brLHSInLoop := LIS.isBasicBlockWithin loop (ir.getSuccessor br 0)
        let brRHSInLoop := LIS.isBasicBlockWithin loop (ir.getSuccessor br 1)
        if !(xor brLHSInLoop brRHSInLoop) then some (false, IVBounds)
        else
          let exitOnCmp := !brLHSInLoop
          let signedPred :=
            if (ir.getPredicate cmp).isUnsigned then (ir.getPredicate cmp).getSignedPredicate
            else ir.getPredicate cmp
          let signedPred :=
            if IVBounds.isCmpIVLHS then signedPred else signedPred.getSwappedPredicate
          let stepSize := toInt32 IVBounds.step
          match SCCDAGAttrs.endOffsetSwitch exitOnCmp stepSize signedPred IVBounds with
          | none => none
          | some IVBounds1 =>
            some (true, { IVBounds1 with
              endOffset := IVBounds1.endOffset -
                stepSize * (if IVBounds1.isCmpOnAccum then 1 else 0) })

/-- The end-offset table of section 6 of the specification: the offset of the row
(step, exit-on-cmp, predicate), `none` when the table has no such row. -/
def specEndOffsetTable (step : Int) (exitOnCmp : Bool) (pred : Predicate) : Option Int :=
  if step = 1 ∧ exitOnCmp = false ∧ pred = Predicate.ICMP_SLE then some 1
  else if step = 1 ∧ exitOnCmp = false ∧ (pred = Predicate.ICMP_NE ∨ pred = Predicate.ICMP_SLT)
    then some 0
  else if step = -1 ∧ exitOnCmp = false ∧ pred = Predicate.ICMP_SGE then some (-1)
  else if step = -1 ∧ exitOnCmp = false ∧ (pred = Predicate.ICMP_NE ∨ pred = Predicate.ICMP_SGT)
    then some 0
  else if step = 1 ∧ exitOnCmp = true ∧ pred = Predicate.ICMP_SGT then some 1
  else if step = 1 ∧ exitOnCmp = true ∧ (pred = Predicate.ICMP_SGE ∨ pred = Predicate.ICMP_EQ)
    then some 0
  else if step = -1 ∧ exitOnCmp = true ∧ pred = Predicate.ICMP_SLT then some (-1)
  else if step = -1 ∧ exitOnCmp = true ∧ (pred = Predicate.ICMP_SLE ∨ pred = Predicate.ICMP_EQ)
    then some 0
  else none

/-! ## Sample loops for the SCC classification -/

/-- The instructions of the sample loops.  A sum reduction `10: s = phi [60, block 100],
[11, block 101]`, `11: s.next = add s, 20`, read by the cast `30`; the same reduction with the
opcode `or` on `70`, `71`; a counter `50: i = phi [60, block 100], [51, block 101]`,
`51: i.next = add i, 61`, `52: icmp slt i, 62`, `53: br 52, block 101, block 102`; and the
instruction `9`.  `60`, `61` and `62` are the 32-bit constants 0, 1 and 100.  The instructions
`10` to `53` sit in the block `101`, the others in the block `100`; every value has the integer
type `0`. -/
def sampleIR : IROracle :=
  { isaInstruction := fun v => decide (v ∈ [9, 10, 11, 20, 30, 50, 51, 52, 53, 70, 71]),
    isaPHINode := fun v => decide (v ∈ [10, 50, 70]),
    isaCastInst := fun v => v == 30,
    isaCmpInst := fun v => v == 52,
    isaBranchInst := fun v => v == 53,
    isaGetElementPtrInst := fun _ => false,
    isaConstantInt := fun v => decide (v ∈ [60, 61, 62]),
    isaConstantData := fun v => decide (v ∈ [60, 61, 62]),
    isTerminator := fun v => v == 53,
    getOpcode := fun v =>
      if v == 11 || v == 51 then Opcode.Add else if v == 71 then Opcode.Or else Opcode.Other,
    getOperand := fun v i =>
      if v == 11 then (if i == 0 then 10 else 20)
      else if v == 71 then (if i == 0 then 70 else 20)
      else if v == 51 then (if i == 0 then 50 else 61)
      else if v == 52 then (if i == 0 then 50 else 62)
      else if v == 30 then 11
      else if v == 53 then 52
      else 0,
    incoming := fun v =>
      if v == 10 then [(60, 100), (11, 101)]
      else if v == 70 then [(60, 100), (71, 101)]
      else if v == 50 then [(60, 100), (51, 101)]
      else [],
    getPredicate := fun v => if v == 52 then Predicate.ICMP_SLT else Predicate.ICMP_EQ,
    getSuccessor := fun v i => if v == 53 then (if i == 0 then 101 else 102) else 0,
    getSExtValue := fun v => if v == 61 then 1 else if v == 62 then 100 else 0,
    getBitWidth := fun _ => 32,
    getParent := fun v => if 10 ≤ v && v ≤ 53 then 101 else 100,
    getType := fun _ => 0 }

/-- The loop `0` of the samples: its body is block `101`; the blocks `100` and `102` and the
instruction `9` are in no loop. -/
def sampleLoopLIS : LoopsSummary :=
  { getLoop := fun v => if v == 100 || v == 102 || v == 9 then none else some 0,
    isBasicBlockWithin := fun _ bb => bb == 101 }

/-- Scalar evolution finds an add-recurrence for the counter increment `51` only. -/
def sampleSE : ScalarEvolution :=
  { getSCEVType := fun v => if v == 51 then SCEVTypes.scAddRecExpr else SCEVTypes.scUnknown }

/-- An `AccumulatorOpInfo` whose side-effect-free opcodes are the additions, subtractions,
multiplications and the bitwise `or` and `and`; the type `1` is a floating-point type, for
which `accumOpForType` gives the floating-point opcode. -/
def sampleAccumOpInfo : AccumulatorOpInfo :=
  { sideEffectFreeOps := [Opcode.Add, Opcode.FAdd, Opcode.Mul, Opcode.FMul, Opcode.Sub,
      Opcode.FSub, Opcode.Or, Opcode.And],
    isMulOp := fun op => op == Opcode.Mul || op == Opcode.FMul,
    isSubOp := fun op => op == Opcode.Sub || op == Opcode.FSub,
    accumOpForType := fun op type =>
      if type == 1 then
        (if op == Opcode.Add then Opcode.FAdd else if op == Opcode.Sub then Opcode.FSub
          else if op == Opcode.Mul then Opcode.FMul else op)
      else op }

/-- The SCC of the sum reduction, with the edge from the load `20` and the edge to the cast
`30`. -/
def sampleReductionSCC : SCC :=
  { nodes := [10, 11],
    edges := [DGEdge.plain 10 11, DGEdge.plain 11 10, DGEdge.plain 20 11, DGEdge.plain 11 30] }

/-- The SCCDAG of the sum reduction: the load, the reduction and the cast. -/
def sampleReductionSCCDAG : SCCDG :=
  { allNodes :=
      [{ id := 0, scc := sampleReductionSCC, inclusion := true },
       { id := 1, scc := { nodes := [20], edges := [] }, inclusion := true },
       { id := 2, scc := { nodes := [30], edges := [] }, inclusion := true }],
    allEdges :=
      [{ src := 1, dst := 0, memory := false, must := false, raw := false,
         subEdges := [DGEdge.plain 20 11] },
       { src := 0, dst := 2, memory := false, must := false, raw := false,
         subEdges := [DGEdge.plain 11 30] }] }

/-- The record of the reduction SCC: one PHI, one accumulator, no control pair, empty caches. -/
def sampleReductionInfo : SCCAttrs :=
  { type := SCCType.SEQUENTIAL, hasIV := false, isClonable := false, PHINodes := [10],
    accumulators := [11], controlPairs := [], stronglyConnectedDataValues := [],
    weaklyConnectedDataValues := [] }

/-- The dependence maps computed by `collectDependencies` on the sum reduction. -/
def sampleReductionAttrs : SCCDAGAttrs :=
  SCCDAGAttrs.collectDependencies sampleIR.isaInstruction sampleLoopLIS sampleDS
    (SCCDAGAttrs.init sampleReductionSCCDAG)

/-- The SCC of the `or` reduction. -/
def sampleOrSCC : SCC :=
  { nodes := [70, 71], edges := [DGEdge.plain 70 71, DGEdge.plain 71 70, DGEdge.plain 20 71] }

/-- The SCCDAG of the `or` reduction: the load and the reduction. -/
def sampleOrSCCDAG : SCCDG :=
  { allNodes :=
      [{ id := 0, scc := sampleOrSCC, inclusion := true },
       { id := 1, scc := { nodes := [20], edges := [] }, inclusion := true }],
    allEdges :=
      [{ src := 1, dst := 0, memory := false, must := false, raw := false,
         subEdges := [DGEdge.plain 20 71] }] }

/-- The record of the `or` reduction SCC. -/
def sampleOrInfo : SCCAttrs :=
  { type := SCCType.SEQUENTIAL, hasIV := false, isClonable := false, PHINodes := [70],
    accumulators := [71], controlPairs := [], stronglyConnectedDataValues := [],
    weaklyConnectedDataValues := [] }

/-- The dependence maps computed by `collectDependencies` on the `or` reduction. -/
def sampleOrAttrs : SCCDAGAttrs :=
  SCCDAGAttrs.collectDependencies sampleIR.isaInstruction sampleLoopLIS sampleDS
    (SCCDAGAttrs.init sampleOrSCCDAG)

/-- The SCC of the counter: PHI, increment, comparison and branch; the branch controls the
three others. -/
def sampleCounterSCC : SCC :=
  { nodes := [50, 51, 52, 53],
    edges := [DGEdge.plain 50 51, DGEdge.plain 51 50, DGEdge.plain 50 52, DGEdge.plain 52 53,
      { src := 53, dst := 50, control := true, memory := false, must := false, raw := false },
      { src := 53, dst := 51, control := true, memory := false, must := false, raw := false },
      { src := 53, dst := 52, control := true, memory := false, must := false, raw := false }] }

/-- The record of the counter SCC: one PHI, one accumulator, one control pair, empty caches. -/
def sampleCounterInfo : SCCAttrs :=
  { type := SCCType.SEQUENTIAL, hasIV := false, isClonable := false, PHINodes := [50],
    accumulators := [51], controlPairs := [(52, 53)], stronglyConnectedDataValues := [],
    weaklyConnectedDataValues := [] }

/-- The record `FixedIVBounds` as `checkIfIVHasFixedBounds` passes it to `isIVUpperBoundSimple`
on the counter: start `60`, step `+1`, the comparison is `i < 62` with the PHI on the left. -/
def sampleCounterBounds : FixedIVBounds :=
  { start := 60, step := 1, cmpIVTo := 62, cmpToDerivation := [], isCmpOnAccum := false,
    isCmpIVLHS := true, endOffset := 0 }

/-! ## Notions used to state the properties of the SCC classification -/

/-- The record `b` gives the same answers as the record `a`: the two records differ at most by
their caches, and `isDerivedWithinSCC` returns the same value on both for every query. -/
def SCCAttrs.SameAnswers (scc : SCC) (a b : SCCAttrs) : Prop :=
  b.PHINodes = a.PHINodes ∧ b.accumulators = a.accumulators ∧
  b.controlPairs = a.controlPairs ∧ b.type = a.type ∧ b.hasIV = a.hasIV ∧
  b.isClonable = a.isClonable ∧
  ∀ v, (SCCDAGAttrs.isDerivedWithinSCC v scc b).1 = (SCCDAGAttrs.isDerivedWithinSCC v scc a).1

/-! ## More sample graphs -/

/-- The diamond of scenario S6: the SCCs `A`, `B`, `C`, `D` are the objects `0`, `1`, `2`, `3`,
with the edges `A → B`, `A → C`, `B → D`, `C → D`. -/
def sampleDiamondSCCDAG : SCCDG :=
  { allNodes :=
      [{ id := 0, scc := { nodes := [1], edges := [] }, inclusion := true },
       { id := 1, scc := { nodes := [2], edges := [] }, inclusion := true },
       { id := 2, scc := { nodes := [3], edges := [] }, inclusion := true },
       { id := 3, scc := { nodes := [4], edges := [] }, inclusion := true }],
    allEdges :=
      [{ src := 0, dst := 1, memory := false, must := false, raw := false,
         subEdges := [DGEdge.plain 1 2] },
       { src := 0, dst := 2, memory := false, must := false, raw := false,
         subEdges := [DGEdge.plain 1 3] },
       { src := 1, dst := 3, memory := false, must := false, raw := false,
         subEdges := [DGEdge.plain 2 4] },
       { src := 2, dst := 3, memory := false, must := false, raw := false,
         subEdges := [DGEdge.plain 3 4] }] }

/-! ## `SCCDAGAttrs::areAllLiveOutValuesReducable` -/

/-- Modelled from the spec: the class `LoopEnvironment` (LoopEnvironment.hpp is not part of the
sources), as far as section 4.5 reads it: the indices of the live-out variables of the loop, in
the order of `getEnvIndicesOfLiveOutVars`, and the producer of each variable. -/
structure LoopEnvironment where
  getEnvIndicesOfLiveOutVars : List Nat
  producerAt : Nat → Nat

/-- Modelled from the spec: `SCCDAG::sccOfValue` (SCCDAG.hpp is not part of the sources), "the
SCC containing" the value of section 4.5: the first node of the graph whose SCC has the value
as an internal node, `none` for `nullptr`. -/
def SCCDG.sccOfValue (g : SCCDG) (val : Nat) : Option Nat :=
  (g.allNodes.find? (fun n => n.scc.isInternal val)).map (fun n => n.id)

/-- Lines 191-211 of `areAllLiveOutValuesReducable`: the loop over the live-out variables.
`none`: the record of the SCC is `nullptr` and is dereferenced. -/
def SCCDAGAttrs.liveOutLoop (attrs : SCCDAGAttrs) (env : LoopEnvironment) :
    List Nat → Option Bool
  | [] => some true
  | envIndex :: rest =>
    match attrs.sccdag.sccOfValue (env.producerAt envIndex) with
    | none => none
    | some scc =>
      match attrs.getSCCAttrs scc with
      | none => none
      | some sccInfo =>
        if sccInfo.getType == SCCType.INDEPENDENT then SCCDAGAttrs.liveOutLoop attrs env rest
        else if sccInfo.getType == SCCType.REDUCIBLE then
          SCCDAGAttrs.liveOutLoop attrs env rest
        else some false

/-- The function `SCCDAGAttrs::areAllLiveOutValuesReducable`. -/
def SCCDAGAttrs.areAllLiveOutValuesReducable (attrs : SCCDAGAttrs) (env : LoopEnvironment) :
    Option Bool :=
  SCCDAGAttrs.liveOutLoop attrs env env.getEnvIndicesOfLiveOutVars

/-- The type of the SCC that contains the producer of a variable is INDEPENDENT or REDUCIBLE. -/
def SCCDAGAttrs.ProducerIsReducible (attrs : SCCDAGAttrs) (env : LoopEnvironment)
    (envIndex : Nat) : Prop :=
  ∃ scc sccInfo, attrs.sccdag.sccOfValue (env.producerAt envIndex) = some scc ∧
    attrs.getSCCAttrs scc = some sccInfo ∧
    (sccInfo.getType = SCCType.INDEPENDENT ∨ sccInfo.getType = SCCType.REDUCIBLE)

/-- The SCC that contains the producer of a variable has a record of attributes. -/
def SCCDAGAttrs.ProducerHasAttrs (attrs : SCCDAGAttrs) (env : LoopEnvironment)
    (envIndex : Nat) : Prop :=
  ∃ scc sccInfo, attrs.sccdag.sccOfValue (env.producerAt envIndex) = some scc ∧
    attrs.getSCCAttrs scc = some sccInfo

/-- The record of an INDEPENDENT SCC without PHI, accumulator and control pair. -/
def sampleIndependentInfo : SCCAttrs :=
  { type := SCCType.INDEPENDENT, hasIV := false, isClonable := false, PHINodes := [],
    accumulators := [], controlPairs := [], stronglyConnectedDataValues := [],
    weaklyConnectedDataValues := [] }

/-- The record of the reduction SCC once it is tagged REDUCIBLE. -/
def sampleReducibleInfo : SCCAttrs :=
  sampleReductionInfo.setType SCCType.REDUCIBLE

/-- The attributes of the sum reduction after the classification: the reduction SCC `0` is
REDUCIBLE, the load and the cast are INDEPENDENT. -/
def sampleTaggedAttrs : SCCDAGAttrs :=
  { sccdag := sampleReductionSCCDAG, interIterDeps := [], intraIterDeps := [],
    interIterDepsInternalToSCC := [],
    sccToInfo := [(0, sampleReducibleInfo), (1, sampleIndependentInfo),
      (2, sampleIndependentInfo)],
    clonableSCCs := [], sccIVBounds := [] }

/-- The environment of scenario S3: one live-out variable, produced by the PHI `s`. -/
def sampleEnv : LoopEnvironment :=
  { getEnvIndicesOfLiveOutVars := [0], producerAt := fun _ => 10 }

/-! ## `Task`: the task identifiers -/

/-- The process state read and written by the constructor of `Task`: the static counter
`Task::currentID` (a `uint64_t`, line 412) and, for every module, the functions
`noelle_task_<n>` that have a body, each given by the pair of the module and of `n`. -/
structure TaskWorld where
  currentID : Nat
  definedTasks : List (Nat × Nat)
deriving DecidableEq, Repr

/-- The state of a process that has run no constructor of `Task`: the counter has its initial
value `0` and no module defines a task function. -/
def TaskWorld.init : TaskWorld :=
  { currentID := 0, definedTasks := [] }

/-- The fields of a `Task` read by the functions of this file: `ID`, and the two maps
`instructionClones` (original to clone) and `instructionCloneToOriginal` (clone to original),
empty in a task just built for a function without body.  The maps are declared in Task.hpp,
which is not part of the sources; they are used through `find`, `at`, `operator[]` and `erase`,
as maps from pointer to pointer with one entry per key.  A pointer to an instruction is its
number, `none` is `nullptr`. -/
structure Task where
  ID : Nat
  instructionClones : List (Option Nat × Option Nat) := []
  instructionCloneToOriginal : List (Option Nat × Option Nat) := []
deriving DecidableEq, Repr

/-- The constructor `Task::Task` (lines 26-62) on the module `M`.  The member `ID` is declared in
Task.hpp, which is not part of the sources: its width in bits is the parameter `idWidth`.  The
assignment of line 33 converts the counter to that width, line 34 increments the 64-bit
counter.  `none`: the function `noelle_task_<ID>` of the module already has a body and the
constructor calls `abort()`; otherwise the constructor gives the function its entry and exit
blocks. -/
def Task.construct (idWidth : Nat) (M : Nat) (w : TaskWorld) : Option (Task × TaskWorld) :=
  let ID := w.currentID % 2 ^ idWidth
  let currentID := (w.currentID + 1) % 2 ^ 64
  if (M, ID) ∈ w.definedTasks then none
  else some ({ ID := ID }, { currentID := currentID, definedTasks := (M, ID) :: w.definedTasks })

/-- The function `Task::getID`, whose result type is `uint32_t`. -/
def Task.getID (t : Task) : Nat :=
  t.ID % 2 ^ 32

/-- A sequence of constructions of `Task`, one for each module of the list, in one process: the
tasks in the order of their construction and the state of the process after the last one. -/
def Task.constructAll (idWidth : Nat) : List Nat → TaskWorld → Option (List Task × TaskWorld)
  | [], w => some ([], w)
  | M :: rest, w =>
    match Task.construct idWidth M w with
    | none => none
    | some (t, w1) =>
      match Task.constructAll idWidth rest w1 with
      | none => none
      | some (ts, w2) => some (t :: ts, w2)

/-! ## `Task`: the maps between original instructions and clones -/

/-- The assignment `m[key] = value` on a map from pointer to pointer. -/
def Task.mapAssign (m : List (Option Nat × Option Nat)) (key value : Option Nat) :
    List (Option Nat × Option Nat) :=
  (key, value) :: m.filter (fun p => p.1 != key)

/-- The function `Task::isAnOriginalInstruction` (lines 353-359). -/
def Task.isAnOriginalInstruction (t : Task) (i : Option Nat) : Bool :=
  if (t.instructionClones.lookup i).isNone then false else true

/-- The function `Task::getOriginalInstructionOfClone` (lines 343-351): `nullptr` when the clone
has no entry, the value of its entry otherwise. -/
def Task.getOriginalInstructionOfClone (t : Task) (c : Option Nat) : Option Nat :=
  match t.instructionCloneToOriginal.lookup c with
  | none => none
  | some o => o

/-- The function `Task::getCloneOfOriginalInstruction` (lines 335-341). -/
def Task.getCloneOfOriginalInstruction (t : Task) (o : Option Nat) : Option Nat :=
  if !t.isAnOriginalInstruction o then none
  else (t.instructionClones.lookup o).getD none

/-- The function `Task::addInstruction` (lines 369-376). -/
def Task.addInstruction (t : Task) (original internal : Option Nat) : Task :=
  { t with
    instructionClones := Task.mapAssign t.instructionClones original internal,
    instructionCloneToOriginal :=
      Task.mapAssign t.instructionCloneToOriginal internal original }

/-- One turn of the loop of lines 399-403 of `removeOriginalInstruction`, on the element
`element` of the map `instructionCloneToOriginal`.  The loop variable is declared
`auto pair`, without `&`: it is a copy of the element.  The assignment of line 401 writes the
copy, which ends with the turn; the map, the state of the loop, is returned as it was. -/
def Task.removeOriginalInstructionTurn (o : Option Nat)
    (instructionCloneToOriginal : List (Option Nat × Option Nat))
    (element : Option Nat × Option Nat) : List (Option Nat × Option Nat) :=
  let pair := element
  let _pair := if pair.2 = o then (pair.1, none) else pair
  instructionCloneToOriginal

/-- The function `Task::removeOriginalInstruction` (lines 397-406): the entry of `o` is erased
from `instructionClones`, then the loop runs over the elements of
`instructionCloneToOriginal`. -/
def Task.removeOriginalInstruction (t : Task) (o : Option Nat) : Task :=
  { t with
    instructionClones := t.instructionClones.filter (fun p => p.1 != o),
    instructionCloneToOriginal :=
      t.instructionCloneToOriginal.foldl (Task.removeOriginalInstructionTurn o)
        t.instructionCloneToOriginal }

/-- A task in which the clone `8` has been registered for the original instruction `7`. -/
def sampleCloneTask : Task :=
  Task.addInstruction { ID := 0 } (some 7) (some 8)

/-! ## `Reduction::Reduction` -/

/-- The ways in which the constructor of `Reduction` stops instead of returning: the call of
`abort()` of line 69 (`fatal`), a `cast<Instruction>` on a value that is no instruction
(`badCast`), and the dereference of `begin()` on an empty set of accumulators
(`noAccumulator`). -/
inductive ReductionError where
  | fatal
  | badCast
  | noAccumulator
deriving DecidableEq, Repr

/-- The class `Reduction`: the record of its base class `SCCAttrs` and the field
`reductionOperation`. -/
structure Reduction where
  attrs : SCCAttrs
  reductionOperation : Opcode
deriving DecidableEq, Repr

/-- Lines 54-63 of the constructor: the loop over the nodes of the SCC that looks for a PHI in
the header of the loop; `none` when the loop ends with `phiInst == nullptr`. -/
def Reduction.findHeaderPHI (ir : IROracle) (header : Nat) :
    List Nat → Except ReductionError (Option Nat)
  | [] => .ok none
  | n :: rest =>
    if !ir.isaInstruction n then .error ReductionError.badCast
    else if ir.getParent n != header then Reduction.findHeaderPHI ir header rest
    else if ir.isaPHINode n then .ok (some n)
    else Reduction.findHeaderPHI ir header rest

/-- The constructor `Reduction::Reduction` (lines 36-80).  `nodes` holds the values of the nodes
of the SCC in the order of `s->getNodes()`, `sccInfo` is the record built by the constructor of
the base class `SCCAttrs(s, opInfo, loop)`, `header` is `loop->getHeader()`; the three pointers
tested by the assertions of lines 41-43 are not null. -/
def Reduction.construct (ir : IROracle) (opInfo : AccumulatorOpInfo) (nodes : List Nat)
    (sccInfo : SCCAttrs) (header : Nat) : Except ReductionError Reduction :=
  match Reduction.findHeaderPHI ir header nodes with
  | .error e => .error e
  | .ok none => .error ReductionError.fatal
  | .ok (some phiInst) =>
    match sccInfo.getAccumulators with
    | [] => .error ReductionError.noAccumulator
    | firstAccumI :: _ =>
      .ok { attrs := sccInfo,
            reductionOperation :=
              opInfo.accumOpForType (ir.getOpcode firstAccumI) (ir.getType phiInst) }

/-- The function `Reduction::getReductionOperation`. -/
def Reduction.getReductionOperation (r : Reduction) : Opcode :=
  r.reductionOperation

/-! ## `SCCDAGAttrs::checkIfClonable` -/

/-- Modelled from the spec: `SCCAttrs::setSCCToBeClonable` (SCCAttrs.cpp is not part of the
sources), called without argument: it sets the flag `isClonable` of section 3, which
`canBeCloned` reads. -/
def SCCAttrs.setSCCToBeClonable (a : SCCAttrs) : SCCAttrs :=
  { a with isClonable := true }

/-- The function `SCCDAGAttrs::isClonableByInductionVars`.  `sccNode` is the node
`fetchNode(scc)` of the SCCDAG, `sccInfo` the record `getSCCAttrs(scc)`. -/
def SCCDAGAttrs.isClonableByInductionVars (attrs : SCCDAGAttrs) (sccNode : SCCNode)
    (sccInfo : SCCAttrs) : Bool :=
  if (attrs.sccdag.outgoingEdges sccNode.id).length == 0 then false
  else sccInfo.isInductionVariableSCC

/-- The function `SCCDAGAttrs::isClonableBySyntacticSugarInstrs`.  `I` is the first internal
node; an SCC without internal node, on which the C++ code reads past the end of the map, gives
`false`. -/
def SCCDAGAttrs.isClonableBySyntacticSugarInstrs (ir : IROracle) (attrs : SCCDAGAttrs)
    (sccNode : SCCNode) : Bool :=
  if (attrs.sccdag.outgoingEdges sccNode.id).length == 0 then false
  else if sccNode.scc.nodes.length > 1 then false
  else
    match sccNode.scc.nodes.head? with
    | none => false
    | some I => ir.isaPHINode I || ir.isaGetElementPtrInst I || ir.isaCastInst I

/-- The function `SCCDAGAttrs::isClonableByCmpBrInstrs`. -/
def SCCDAGAttrs.isClonableByCmpBrInstrs (ir : IROracle) (scc : SCC) : Bool :=
  scc.nodes.all (fun V => ir.isaInstruction V && (ir.isaCmpInst V || ir.isTerminator V))

/-- The condition of lines 724-728 of `checkIfClonable`. -/
def SCCDAGAttrs.isClonableBySomeCase (ir : IROracle) (attrs : SCCDAGAttrs) (sccNode : SCCNode)
    (sccInfo : SCCAttrs) : Bool :=
  false || SCCDAGAttrs.isClonableByInductionVars attrs sccNode sccInfo
    || SCCDAGAttrs.isClonableBySyntacticSugarInstrs ir attrs sccNode
    || SCCDAGAttrs.isClonableByCmpBrInstrs ir sccNode.scc

/-- The function `SCCDAGAttrs::checkIfClonable`: the attributes and the record of the SCC
after the call.  `clonableSCCs` is a set: the insertion of a member changes nothing. -/
def SCCDAGAttrs.checkIfClonable (ir : IROracle) (attrs : SCCDAGAttrs) (sccNode : SCCNode)
    (sccInfo : SCCAttrs) : SCCDAGAttrs × SCCAttrs :=
  if SCCDAGAttrs.isClonableBySomeCase ir attrs sccNode sccInfo then
    ({ (attrs.setSCCAttrs sccNode.id sccInfo.setSCCToBeClonable) with
        clonableSCCs := if sccNode.id ∈ attrs.clonableSCCs then attrs.clonableSCCs
                        else attrs.clonableSCCs ++ [sccNode.id] },
     sccInfo.setSCCToBeClonable)
  else (attrs, sccInfo)

/-- The conditions of section 4.5 under which an SCC is clonable: it is an induction-variable
SCC whose node has an outgoing edge; or it is a single instruction that is a PHI, a GEP or a
cast and its node has an outgoing edge; or every internal value of the SCC is an instruction
that is a comparison or a terminator. -/
def SCCDAGAttrs.ClonableCase (ir : IROracle) (attrs : SCCDAGAttrs) (sccNode : SCCNode)
    (sccInfo : SCCAttrs) : Prop :=
  (sccInfo.isInductionVariableSCC = true ∧ 1 ≤ (attrs.sccdag.outgoingEdges sccNode.id).length) ∨
  ((∃ I, sccNode.scc.nodes = [I] ∧
      (ir.isaPHINode I = true ∨ ir.isaGetElementPtrInst I = true ∨ ir.isaCastInst I = true)) ∧
    1 ≤ (attrs.sccdag.outgoingEdges sccNode.id).length) ∨
  (∀ V ∈ sccNode.scc.nodes, ir.isaInstruction V = true ∧
    (ir.isaCmpInst V = true ∨ ir.isTerminator V = true))

/-- The SCCDAG of the counter followed by the cast `30`. -/
def sampleCounterSCCDAG : SCCDG :=
  { allNodes :=
      [{ id := 0, scc := sampleCounterSCC, inclusion := true },
       { id := 1, scc := { nodes := [30], edges := [] }, inclusion := true }],
    allEdges :=
      [{ src := 0, dst := 1, memory := false, must := false, raw := false,
         subEdges := [DGEdge.plain 50 30] }] }

/-- The record of the counter SCC once it is found to be an induction variable. -/
def sampleCounterIVInfo : SCCAttrs :=
  sampleCounterInfo.setSCCToBeInductionVariable true

/-- The node of the counter SCC in `sampleCounterSCCDAG`. -/
def sampleCounterNode : SCCNode :=
  { id := 0, scc := sampleCounterSCC, inclusion := true }

/-! ## `SCCDAGAttrs::collectDerivationChain` and `SCCDAGAttrs::checkIfIVHasFixedBounds` -/

/-- Lines 886-916 of `collectDerivationChain`: the `while` loop.  `derivingI` is the variable
`deriving`; the result is the returned value and the vector `chain` at that point.  Every turn
that goes on adds a new internal value to `valuesSeen`: the caller gives one unit of fuel more
than there are internal nodes; `none` when the fuel runs out. -/
def SCC.collectDerivationChainLoop (ir : IROracle) (scc : SCC) :
    Nat → Nat → List Nat → List Nat → Option (Bool × List Nat)
  | 0, _, _, _ => none
  | fuel + 1, derivingI, chain, valuesSeen =>
    if !scc.isInternal derivingI then some (true, chain)
    else if derivingI ∈ valuesSeen then some (false, chain ++ [derivingI])
    else
      let incomingDataDeps :=
        ((((scc.getIncomingEdges derivingI).filter (fun edge => !edge.control)).map
          (fun edge => edge.src)).dedup).erase derivingI
      match incomingDataDeps with
      | [] => some (true, chain ++ [derivingI])
      | [V] =>
        if !ir.isaInstruction V then some (false, chain ++ [derivingI])
        else SCC.collectDerivationChainLoop ir scc fuel V (chain ++ [derivingI])
          (valuesSeen ++ [derivingI])
      | _ => some (false, chain ++ [derivingI])

/-- The function `SCCDAGAttrs::collectDerivationChain` on the vector `[first]`, as
`checkIfIVHasFixedBounds` calls it: the returned value and the vector after the call. -/
def SCCDAGAttrs.collectDerivationChain (ir : IROracle) (first : Nat) (scc : SCC) :
    Option (Bool × List Nat) :=
  if !scc.isInternal first then some (true, [first])
  else SCC.collectDerivationChainLoop ir scc (scc.nodes.length + 1) first [] []

/-- The LLVM comparison `APInt::operator==(uint64_t)` on the value of an integer constant: the
unsigned value of the constant, read on its `getBitWidth()` bits, is equal to `val`. -/
def IROracle.apIntEq (ir : IROracle) (v : Nat) (val : Nat) : Bool :=
  decide (ir.getSExtValue v % (2 : Int) ^ ir.getBitWidth v = (val : Int))

/-- Lines 618-629 of `checkIfIVHasFixedBounds`: the comparison value is a constant, or the
start of a chain of instructions whose end is not derived within the SCC.  The result is the
record `IVBounds`, `none` after `notSimple()`, and the record of the SCC after the call of
`isDerivedWithinSCC`; `none`: the chain loop does not end, or `back()` is read on an empty
vector. -/
def SCCDAGAttrs.checkCmpToDerivation (ir : IROracle) (scc : SCC) (sccInfo : SCCAttrs)
    (IVBounds : FixedIVBounds) : Option (Option FixedIVBounds × SCCAttrs) :=
  if ir.isaConstantData IVBounds.cmpIVTo then some (some IVBounds, sccInfo)
  else if !ir.isaInstruction IVBounds.cmpIVTo then some (none, sccInfo)
  else
    match SCCDAGAttrs.collectDerivationChain ir IVBounds.cmpIVTo scc with
    | none => none
    | some (false, _) => some (none, sccInfo)
    | some (true, chain) =>
      match chain.getLast? with
      | none => none
      | some chainEnd =>
        let d := SCCDAGAttrs.isDerivedWithinSCC chainEnd scc sccInfo
        if d.1 then some (none, d.2)
        else some (some { IVBounds with cmpToDerivation := chain }, d.2)

/-- The function `SCCDAGAttrs::checkIfIVHasFixedBounds`.  `sccInfo` is the record
`getSCCAttrs(scc)`.  The result is the record stored in `sccIVBounds[scc]`, `none` after
`notSimple()`, and the record of the SCC after the call; `none`: the run stops, on the
`cast<CmpInst>` of line 609, in `checkCmpToDerivation` or in `isIVUpperBoundSimple`.
`FixedIVBounds.step` holds the signed value of the constant `IVBounds.step`; the literal `-1`
of line 607 is converted to `uint64_t`.
Modelled from the spec: the fields of a fresh `FixedIVBounds` (its declaration is not part of
the sources): the derivation chain is empty and `endOffset` is the offset `0` of the rows of
section 6 that assign nothing. -/
def SCCDAGAttrs.checkIfIVHasFixedBounds (ir : IROracle) (LIS : LoopsSummary) (scc : SCC)
    (sccInfo : SCCAttrs) : Option (Option FixedIVBounds × SCCAttrs) :=
  match sccInfo.getSinglePHI, sccInfo.getSingleAccumulator with
  | some singlePHI, some singleAccumulator =>
    match ir.incoming singlePHI with
    | [incoming0, incoming1] =>
      match sccInfo.getSingleInstructionThatControlLoopExit with
      | none => some (none, sccInfo)
      | some singleControlPair =>
        let accum := singleAccumulator
        let incomingStart := if incoming0.1 == accum then incoming1.1 else incoming0.1
        let stepValue :=
          if ir.getOperand accum 0 == singlePHI then ir.getOperand accum 1
          else ir.getOperand accum 0
        if !ir.isaConstantInt stepValue then some (none, sccInfo)
        else if !ir.apIntEq stepValue 1 && !ir.apIntEq stepValue (2 ^ 64 - 1) then
          some (none, sccInfo)
        else if !ir.isaCmpInst singleControlPair.1 then none
        else
          let cmp := singleControlPair.1
          let cmpLHS := ir.getOperand cmp 0
          let cmpToInd : Nat := if cmpLHS == singlePHI || cmpLHS == accum then 1 else 0
          let IVBounds : FixedIVBounds :=
            { start := incomingStart, step := ir.getSExtValue stepValue,
              cmpIVTo := ir.getOperand cmp cmpToInd, cmpToDerivation := [],
              isCmpOnAccum := ir.getOperand cmp ((cmpToInd + 1) % 2) == accum,
              isCmpIVLHS := cmpToInd != 0, endOffset := 0 }
          match SCCDAGAttrs.checkCmpToDerivation ir scc sccInfo IVBounds with
          | none => none
          | some (none, sccInfo1) => some (none, sccInfo1)
          | some (some IVBounds1, sccInfo1) =>
            match SCCDAGAttrs.isIVUpperBoundSimple ir LIS sccInfo1 IVBounds1 with
            | none => none
            | some (false, _) => some (none, sccInfo1)
            | some (true, IVBounds2) => some (some IVBounds2, sccInfo1)
    | _ => some (none, sccInfo)
  | _, _ => some (none, sccInfo)

/-! ## The analyses run by `populate` -/

/-- The analyses of `populate` given by the functions of SCCDAGAttrs.cpp.  Each one fetches the
record `getSCCAttrs(scc)`, which `populate` has stored before the first call, and runs the
function of the same name on it; the record it returns carries the writes of the function:
the flag set by `setHasIV` and the values entered into the two caches by `isDerivedWithinSCC`.
`none`: the function stops (the assertion of line 532, a failed `cast`, `abort()`), or the
record is missing.  `newSCCAttrs` stands for the constructor of `SCCAttrs`, which is not part
of the sources. -/
def SCCDAGAttrs.analyses (ir : IROracle) (SE : ScalarEvolution) (accumOpInfo : AccumulatorOpInfo)
    (LIS : LoopsSummary) (newSCCAttrs : SCC → SCCAttrs) : SCCAnalyses :=
  { newSCCAttrs := newSCCAttrs,
    checkIfInductionVariableSCC := fun attrs sccNode =>
      match attrs.getSCCAttrs sccNode.id with
      | none => none
      | some sccInfo =>
        (SCCDAGAttrs.checkIfInductionVariableSCC ir SE LIS sccNode.scc sccInfo).map
          (fun r => r.2),
    checkIfIVHasFixedBounds := fun attrs sccNode =>
      match attrs.getSCCAttrs sccNode.id with
      | none => none
      | some sccInfo => SCCDAGAttrs.checkIfIVHasFixedBounds ir LIS sccNode.scc sccInfo,
    checkIfClonable := fun attrs sccNode =>
      match attrs.getSCCAttrs sccNode.id with
      | none => none
      | some sccInfo => some (SCCDAGAttrs.isClonableBySomeCase ir attrs sccNode sccInfo),
    checkIfReducible := fun attrs sccNode =>
      match attrs.getSCCAttrs sccNode.id with
      | none => none
      | some sccInfo =>
        some (SCCDAGAttrs.checkIfReducible ir accumOpInfo LIS attrs sccNode sccInfo) }

/-- The integer constants of the IR have at least one bit and a value that fits their width
and the 64 bits of the result of `getSExtValue`. -/
def IROracle.ConstantsFit (ir : IROracle) : Prop :=
  ∀ v, ir.isaConstantInt v = true →
    1 ≤ ir.getBitWidth v ∧
    -(2 : Int) ^ (ir.getBitWidth v - 1) ≤ ir.getSExtValue v ∧
    ir.getSExtValue v < (2 : Int) ^ (ir.getBitWidth v - 1) ∧
    -(2 : Int) ^ 63 ≤ ir.getSExtValue v ∧ ir.getSExtValue v < (2 : Int) ^ 63

/-- The step operand of an accumulator: its operand that is not the PHI (lines 603-604 of
`checkIfIVHasFixedBounds`). -/
def IROracle.stepValueOf (ir : IROracle) (phi accum : Nat) : Nat :=
  if ir.getOperand accum 0 == phi then ir.getOperand accum 1 else ir.getOperand accum 0

/-- The records built by the constructor of `SCCAttrs` on the sample SCCs: the record of the
counter for the counter SCC, a record without PHI, accumulator and control pair otherwise. -/
def sampleNewSCCAttrs (scc : SCC) : SCCAttrs :=
  if scc = sampleCounterSCC then sampleCounterInfo
  else
    { type := SCCType.SEQUENTIAL, hasIV := false, isClonable := false, PHINodes := [],
      accumulators := [], controlPairs := [], stronglyConnectedDataValues := [],
      weaklyConnectedDataValues := [] }

/-- The attributes computed by `populate`, with the analyses of SCCDAGAttrs.cpp, on the SCCDAG
of the counter. -/
def sampleCounterAttrs : SCCDAGAttrs :=
  (SCCDAGAttrs.populate sampleIR.isaInstruction
    (SCCDAGAttrs.analyses sampleIR sampleSE sampleAccumOpInfo sampleLoopLIS sampleNewSCCAttrs)
    sampleCounterSCCDAG sampleLoopLIS sampleDS).getD (SCCDAGAttrs.init sampleCounterSCCDAG)

/-- The IR of the counter when the counter has the type `i128`: the step of the addition `51`
is the constant `61` of value `2^64 - 1` (a positive number of 128 bits), and the loop goes on
while `icmp ne` holds. -/
def sampleWideIR : IROracle :=
  { sampleIR with
    getSExtValue := fun v => if v == 61 then 2 ^ 64 - 1 else if v == 62 then 100 else 0,
    getBitWidth := fun _ => 128,
    getPredicate := fun v => if v == 52 then Predicate.ICMP_NE else Predicate.ICMP_EQ }

/-- The attributes computed by `populate`, with the analyses of SCCDAGAttrs.cpp, on the SCCDAG
of the counter of type `i128`. -/
def sampleWideAttrs : SCCDAGAttrs :=
  (SCCDAGAttrs.populate sampleWideIR.isaInstruction
    (SCCDAGAttrs.analyses sampleWideIR sampleSE sampleAccumOpInfo sampleLoopLIS
      sampleNewSCCAttrs)
    sampleCounterSCCDAG sampleLoopLIS sampleDS).getD (SCCDAGAttrs.init sampleCounterSCCDAG)

/-- The record stored for the counter of type `i128`. -/
def sampleWideBounds : FixedIVBounds :=
  { start := 60, step := 2 ^ 64 - 1, cmpIVTo := 62, cmpToDerivation := [],
    isCmpOnAccum := false, isCmpIVLHS := true, endOffset := 0 }

/-- The IR of a counter of type `i32` that counts down: the step of the addition `51` is the
constant `61` of value `-1`, and the loop goes on while `icmp ne` holds. -/
def sampleDownIR : IROracle :=
  { sampleIR with
    getSExtValue := fun v => if v == 61 then -1 else if v == 62 then 100 else 0,
    getPredicate := fun v => if v == 52 then Predicate.ICMP_NE else Predicate.ICMP_EQ }

/-- The attributes computed by `populate`, with the analyses of SCCDAGAttrs.cpp, on the SCCDAG
of the counter that counts down. -/
def sampleDownAttrs : SCCDAGAttrs :=
  (SCCDAGAttrs.populate sampleDownIR.isaInstruction
    (SCCDAGAttrs.analyses sampleDownIR sampleSE sampleAccumOpInfo sampleLoopLIS
      sampleNewSCCAttrs)
    sampleCounterSCCDAG sampleLoopLIS sampleDS).getD (SCCDAGAttrs.init sampleCounterSCCDAG)

/-! ## Data cycles of an SCC -/

/-- A data edge between internal nodes: an edge of the SCC from `a` to `b` that is no control
dependence, `a` and `b` being internal nodes. -/
def SCC.DataEdge (scc : SCC) (a b : Nat) : Prop :=
  ∃ e ∈ scc.edges, e.src = a ∧ e.dst = b ∧ e.control = false ∧
    scc.isInternal a = true ∧ scc.isInternal b = true

/-- There is a cycle through the node of `v` made only of data edges between internal nodes. -/
def SCC.OnDataCycle (scc : SCC) (v : Nat) : Prop :=
  Relation.TransGen scc.DataEdge v v

/-- The edges followed by a search: no control dependence, and the other end `next` is no
external node. -/
def SCC.followed (scc : SCC) (next : DGEdge → Nat) (e : DGEdge) : Prop :=
  e.control = false ∧ scc.isExternal (next e) = false

/-- One step of a search loop of `isDerivedWithinSCC`: from the node `a`, along a followed edge
of `edgesOf a`, to its other end. -/
def SCC.SearchStep (scc : SCC) (edgesOf : Nat → List DGEdge) (next : DGEdge → Nat)
    (a b : Nat) : Prop :=
  ∃ e ∈ edgesOf a, scc.followed next e ∧ next e = b

/-- The state of a search loop of `isDerivedWithinSCC` at the head of the loop, for the
candidate nodes `C`: the flag is not set, the start is not marked, the marked nodes are
distinct candidates reached from the start, the nodes of the queue are the start or marked,
and every node already taken from the queue has all its successors marked. -/
structure SCC.SearchInv (scc : SCC) (start : Nat) (edgesOf : Nat → List DGEdge)
    (next : DGEdge → Nat) (C : List Nat) (s : SearchState) : Prop where
  flag : s.inCycle = false
  start_not_seen : start ∉ s.seen
  nodup : s.seen.Nodup
  subset : ∀ x ∈ s.seen, x ∈ C
  queue : ∀ x ∈ s.queue, x = start ∨ x ∈ s.seen
  reach : ∀ x ∈ s.seen, Relation.TransGen (scc.SearchStep edgesOf next) start x
  closed : ∀ x, (x = start ∨ x ∈ s.seen) → x ∉ s.queue →
    ∀ y, scc.SearchStep edgesOf next x y → y ∈ s.seen

/-! ## The queue loops of `isLoopGovernedByIV` and `collectSCCGraphAssumingDistributedClones` -/

/-- A `while (!queue.empty())` loop that pops the front node, runs `step` on it and pushes the
nodes `step` returns at the back of the queue.  `σ` is the state the loop writes; `step`
returns `none` when the run stops on a null pointer.  The loop keeps no set of visited nodes:
the number of its turns is not bounded by the size of the graph, and it is given as fuel;
`none` also when the fuel runs out before the queue is empty. -/
def worklist {σ : Type} (step : Nat → σ → Option (List Nat × σ)) :
    Nat → List Nat → σ → Option σ
  | _, [], st => some st
  | 0, _ :: _, _ => none
  | fuel + 1, node :: rest, st =>
    match step node st with
    | none => none
    | some (pushed, st1) => worklist step fuel (rest ++ pushed) st1

/-- Modelled from the spec: `DG::getTopLevelNodes` on the SCCDAG (DG.hpp is not part of the
sources), section 4.1: "`topLevelNodes() → set of Node`: internal nodes with no incoming edge
from an internal node". -/
def SCCDG.getTopLevelNodes (g : SCCDG) : List Nat :=
  ((g.allNodes.filter (fun n => n.inclusion)).filter (fun n =>
    (g.incomingEdges n.id).all (fun e =>
      !g.allNodes.any (fun m => m.id == e.src && m.inclusion)))).map (fun n => n.id)

/-- Modelled from the spec: `DG::getNextDepthNodes` on the SCCDAG (DG.hpp is not part of the
sources), section 4.5: the traversal skips an INDEPENDENT SCC by "descending through their
successors": the distinct sinks of the outgoing edges of the node. -/
def SCCDG.getNextDepthNodes (g : SCCDG) (node : Nat) : List Nat :=
  ((g.outgoingEdges node).map (fun e => e.dst)).dedup

/-- Lines 159-175 of `isLoopGovernedByIV`: the body of the loop, on the node taken from
`toTraverse`, with the set `topLevelSCCs`. -/
def SCCDAGAttrs.topLevelStep (attrs : SCCDAGAttrs) (node : Nat) (topLevelSCCs : List Nat) :
    Option (List Nat × List Nat) :=
  match attrs.getSCCAttrs node with
  | none => none
  | some sccInfo =>
    if sccInfo.canExecuteIndependently then
      some (attrs.sccdag.getNextDepthNodes node, topLevelSCCs)
    else
      some ([], if node ∈ topLevelSCCs then topLevelSCCs else topLevelSCCs ++ [node])

/-- The function `SCCDAGAttrs::isLoopGovernedByIV`, with the fuel of its loop.  `none`: the
loop does not end within the fuel, or the record of an SCC is `nullptr`. -/
def SCCDAGAttrs.isLoopGovernedByIV (attrs : SCCDAGAttrs) (fuel : Nat) : Option Bool :=
  match worklist attrs.topLevelStep fuel attrs.sccdag.getTopLevelNodes [] with
  | none => none
  | some topLevelSCCs =>
    match topLevelSCCs with
    | [topLevelSCC] =>
      match attrs.getSCCAttrs topLevelSCC with
      | none => none
      | some topLevelSCCInfo => some topLevelSCCInfo.isInductionVariableSCC
    | _ => some false

/-- The SCC `x` is the first SCC that is not INDEPENDENT on a path that starts at the SCC `n`
and descends through INDEPENDENT SCCs only. -/
inductive SCCDAGAttrs.StopsAt (attrs : SCCDAGAttrs) : Nat → Nat → Prop where
  | here (n : Nat) (sccInfo : SCCAttrs) (h1 : attrs.getSCCAttrs n = some sccInfo)
      (h2 : sccInfo.canExecuteIndependently = false) : SCCDAGAttrs.StopsAt attrs n n
  | down (n m x : Nat) (sccInfo : SCCAttrs) (h1 : attrs.getSCCAttrs n = some sccInfo)
      (h2 : sccInfo.canExecuteIndependently = true)
      (h3 : m ∈ attrs.sccdag.getNextDepthNodes n) (h4 : SCCDAGAttrs.StopsAt attrs m x) :
      SCCDAGAttrs.StopsAt attrs n x

/-- The set of section 4.5: the SCCs reached from the top-level nodes by descending only
through INDEPENDENT SCCs and stopping at the first SCC that is not INDEPENDENT. -/
def SCCDAGAttrs.IsTopLevelSCC (attrs : SCCDAGAttrs) (x : Nat) : Prop :=
  ∃ t ∈ attrs.sccdag.getTopLevelNodes, attrs.StopsAt t x

/-- Every SCC of the graph has a record of attributes. -/
def SCCDAGAttrs.AllHaveAttrs (attrs : SCCDAGAttrs) : Prop :=
  ∀ n ∈ attrs.sccdag.nodeIds, (attrs.getSCCAttrs n).isSome = true

/-- The attributes of the counter followed by the cast: the counter SCC `0` is a SEQUENTIAL
induction-variable SCC, the cast is INDEPENDENT. -/
def sampleGovernedAttrs : SCCDAGAttrs :=
  { sccdag := sampleCounterSCCDAG, interIterDeps := [], intraIterDeps := [],
    interIterDepsInternalToSCC := [],
    sccToInfo := [(0, sampleCounterIVInfo), (1, sampleIndependentInfo)],
    clonableSCCs := [], sccIVBounds := [] }

/-- The attributes of the chain `a → b → c` of three singleton SCCs, all INDEPENDENT. -/
def sampleChainAttrs : SCCDAGAttrs :=
  { sccdag := sampleChainSCCDAG, interIterDeps := [], intraIterDeps := [],
    interIterDepsInternalToSCC := [],
    sccToInfo := [(0, sampleIndependentInfo), (1, sampleIndependentInfo),
      (2, sampleIndependentInfo)],
    clonableSCCs := [], sccIVBounds := [] }

/-! ## `SCCDAGAttrs::collectSCCGraphAssumingDistributedClones` -/

/-- The two maps written by `collectSCCGraphAssumingDistributedClones`, each a map from an SCC
to a set, given by the set of its (key, member) pairs: `parentsViaClones` and
`edgesViaClones`. -/
structure ClonesGraph where
  parentsViaClones : List (Nat × Nat)
  edgesViaClones : List (Nat × SCCEdge)
deriving DecidableEq, Repr

/-- Lines 239-247: the lambda `addIncomingNodes` on the node `node`: the nodes it pushes on the
queue, which are the distinct sources of the incoming edges of the node, and the maps after
the edges are inserted in `edgesViaClones[scc]`. -/
def SCCDAGAttrs.addIncomingNodes (attrs : SCCDAGAttrs) (node : Nat) (st : ClonesGraph) :
    List Nat × ClonesGraph :=
  (((attrs.sccdag.incomingEdges node).map (fun edge => edge.src)).dedup,
   { st with
     edgesViaClones := (attrs.sccdag.incomingEdges node).foldl
       (fun acc edge => if (node, edge) ∈ acc then acc else acc ++ [(node, edge)])
       st.edgesViaClones })

/-- Lines 254-263: the body of the loop of the backward walk from `childSCC`, on the node taken
from `nodesToCheck`.  `none`: the record of the SCC is `nullptr`. -/
def SCCDAGAttrs.clonesStep (attrs : SCCDAGAttrs) (childSCC : Nat) (node : Nat)
    (st : ClonesGraph) : Option (List Nat × ClonesGraph) :=
  match attrs.getSCCAttrs node with
  | none => none
  | some sccInfo =>
    let st1 : ClonesGraph :=
      { st with
        parentsViaClones :=
          if (childSCC, node) ∈ st.parentsViaClones then st.parentsViaClones
          else st.parentsViaClones ++ [(childSCC, node)] }
    if sccInfo.canBeCloned then some (attrs.addIncomingNodes node st1) else some ([], st1)

/-- Lines 249-264: the body of the loop over the nodes of the SCCDAG: the backward walk from
the child `childSCCNode`, with the fuel of its `while` loop. -/
def SCCDAGAttrs.clonesOfChild (attrs : SCCDAGAttrs) (fuel : Nat) (st : ClonesGraph)
    (childSCCNode : SCCNode) : Option ClonesGraph :=
  worklist (attrs.clonesStep childSCCNode.id) fuel
    (attrs.addIncomingNodes childSCCNode.id st).1 (attrs.addIncomingNodes childSCCNode.id st).2

/-- The function `SCCDAGAttrs::collectSCCGraphAssumingDistributedClones`, run on empty maps:
the two maps after the call.  `none`: some walk does not end within the fuel, or the record of
an SCC is `nullptr`. -/
def SCCDAGAttrs.collectSCCGraphAssumingDistributedClones (attrs : SCCDAGAttrs) (fuel : Nat) :
    Option ClonesGraph :=
  attrs.sccdag.allNodes.foldlM (attrs.clonesOfChild fuel)
    { parentsViaClones := [], edgesViaClones := [] }

/-- The SCC has a record of attributes that says it can be cloned. -/
def SCCDAGAttrs.IsClonable (attrs : SCCDAGAttrs) (n : Nat) : Prop :=
  ∃ sccInfo, attrs.getSCCAttrs n = some sccInfo ∧ sccInfo.canBeCloned = true

/-- An edge of the SCCDAG between two clonable SCCs. -/
def SCCDAGAttrs.ClonableEdge (attrs : SCCDAGAttrs) (a b : Nat) : Prop :=
  attrs.sccdag.HasEdge a b ∧ attrs.IsClonable a ∧ attrs.IsClonable b

/-- No cycle of the SCCDAG is made of clonable SCCs only. -/
def SCCDAGAttrs.NoClonableCycle (attrs : SCCDAGAttrs) : Prop :=
  ∀ a, ¬ Relation.TransGen attrs.ClonableEdge a a

/-- The record of a clonable SCC. -/
def sampleClonableInfo : SCCAttrs :=
  sampleIndependentInfo.setSCCToBeClonable

/-- A graph with the cycle `0 → 1 → 0`. -/
def sampleCycleSCCDAG : SCCDG :=
  { allNodes :=
      [{ id := 0, scc := { nodes := [1], edges := [] }, inclusion := true },
       { id := 1, scc := { nodes := [2], edges := [] }, inclusion := true }],
    allEdges :=
      [{ src := 0, dst := 1, memory := false, must := false, raw := false,
         subEdges := [DGEdge.plain 1 2] },
       { src := 1, dst := 0, memory := false, must := false, raw := false,
         subEdges := [DGEdge.plain 2 1] }] }

/-- Attributes on the cycle `0 → 1 → 0` that make both SCCs clonable. -/
def sampleCycleAttrs : SCCDAGAttrs :=
  { sccdag := sampleCycleSCCDAG, interIterDeps := [], intraIterDeps := [],
    interIterDepsInternalToSCC := [],
    sccToInfo := [(0, sampleClonableInfo), (1, sampleClonableInfo)],
    clonableSCCs := [0, 1], sccIVBounds := [] }

/-- The attributes of the counter followed by the cast once the counter SCC is marked
clonable. -/
def sampleClonedAttrs : SCCDAGAttrs :=
  { sccdag := sampleCounterSCCDAG, interIterDeps := [], intraIterDeps := [],
    interIterDepsInternalToSCC := [],
    sccToInfo := [(0, sampleCounterIVInfo.setSCCToBeClonable), (1, sampleIndependentInfo)],
    clonableSCCs := [0], sccIVBounds := [] }

/-! ## `SCCDAGPartition` and `Heuristics::adjustParallelizationPartitionForDSWP` -/

/-- Modelled from the spec: the class `SCCDAGPartition` (SCCDAGPartition.hpp is not part of the
sources), section 4.6: "A partition is an equivalence relation over SCCDAG nodes".  `subsetOf`
gives, for every SCC of the SCCDAG in the order of its nodes, the identity of its subset. -/
structure SCCDAGPartition where
  sccdag : SCCDG
  subsetOf : List (Nat × Nat)
deriving DecidableEq, Repr

/-- Modelled from the spec: `initialize(one-subset-per-SCC)` of section 4.6 (SCCDAGPartition.cpp
is not part of the sources): the subset of an SCC is named after the SCC. -/
def SCCDAGPartition.ofSingletons (g : SCCDG) : SCCDAGPartition :=
  { sccdag := g, subsetOf := g.allNodes.map (fun n => (n.id, n.id)) }

/-- The subsets of the partition, without repetition. -/
def SCCDAGPartition.subsetIds (p : SCCDAGPartition) : List Nat :=
  (p.subsetOf.map Prod.snd).dedup

/-- The number of subsets of the partition. -/
def SCCDAGPartition.numberOfSubsets (p : SCCDAGPartition) : Nat :=
  p.subsetIds.length

/-- The edges of the subset-level graph of section 4.6: the pairs of two different subsets
joined by an edge of the SCCDAG from an SCC of the first to an SCC of the second. -/
def SCCDAGPartition.subsetEdges (p : SCCDAGPartition) : List (Nat × Nat) :=
  p.sccdag.allEdges.filterMap (fun e =>
    match p.subsetOf.lookup e.src, p.subsetOf.lookup e.dst with
    | some a, some b => if a = b then none else some (a, b)
    | _, _ => none)

/-- Two subsets are adjacent: an edge of the subset-level graph joins them. -/
def SCCDAGPartition.isAdjacent (p : SCCDAGPartition) (a b : Nat) : Bool :=
  decide ((a, b) ∈ p.subsetEdges) || decide ((b, a) ∈ p.subsetEdges)

/-- Some pair of the list closes a cycle: its source is reached from its sink.  `U` lists the
nodes of the pairs. -/
def hasCycle (es : List (Nat × Nat)) (U : List Nat) : Bool :=
  es.any (fun e => decide (e.1 ∈ reachFrom es U.length [e.2]))

/-- The partition in which the SCCs of the subset `b` are moved to the subset `a`. -/
def SCCDAGPartition.relabel (p : SCCDAGPartition) (a b : Nat) : SCCDAGPartition :=
  { p with subsetOf := p.subsetOf.map (fun q => if q.2 = b then (q.1, a) else q) }

/-- Modelled from the spec: `mergeSubsets(sA, sB) → sC` of section 4.6 (SCCDAGPartition.cpp is
not part of the sources), done "iff merging does not introduce a cycle in the subset-level
DAG.  Otherwise the operation is rejected": `none` when the operation is rejected. -/
def SCCDAGPartition.mergeSubsets (p : SCCDAGPartition) (a b : Nat) : Option SCCDAGPartition :=
  if a ∈ p.subsetIds ∧ b ∈ p.subsetIds ∧ a ≠ b then
    if hasCycle (p.relabel a b).subsetEdges (p.relabel a b).subsetIds then none
    else some (p.relabel a b)
  else none

/-- Modelled from the spec: the instruction count of a subset (section 4.6; the class is not
part of the sources): the number of instructions of the SCCs of the subset. -/
def SCCDAGPartition.instructionCount (p : SCCDAGPartition) (a : Nat) : Nat :=
  ((p.sccdag.allNodes.filter (fun n => p.subsetOf.lookup n.id == some a)).map
    (fun n => n.scc.nodes.length)).sum

/-- The largest instruction count of a subset of the partition. -/
def SCCDAGPartition.maxInstructionCount (p : SCCDAGPartition) : Nat :=
  (p.subsetIds.map p.instructionCount).foldl max 0

/-- The smallest instruction count of a subset of the partition. -/
def SCCDAGPartition.minInstructionCount (p : SCCDAGPartition) : Nat :=
  (p.subsetIds.map p.instructionCount).foldl min p.maxInstructionCount

/-- The spread between the largest and the smallest subset of the partition. -/
def SCCDAGPartition.spread (p : SCCDAGPartition) : Nat :=
  p.maxInstructionCount - p.minInstructionCount

/-- The adjacent subset pairs, each one once, in the order of the edges of the SCCDAG. -/
def SCCDAGPartition.adjacentPairs (p : SCCDAGPartition) : List (Nat × Nat) :=
  p.subsetEdges.dedup

/-- Modelled from the spec: the base state of a cost analysis (PartitionCostAnalysis.hpp is not
part of the sources; the constructor of SmallestSizePartitionAnalysis.hpp passes it the
partition, the attributes and the number of cores, for which the driver gives `idealThreads`;
the invocation latency is an opaque cost that the two rankings of section 4.6 do not read). -/
structure PartitionCostAnalysis where
  partition : SCCDAGPartition
  attrs : SCCDAGAttrs
  cores : Nat

/-- Modelled from the spec: the walk of a cost analysis (section 4.6: it "walks all adjacent
subset pairs and decides whether to request a merge", the merge being "bounded by
`idealThreads`"): no merge is requested when the partition has at most `cores` subsets (scenario
S4: three subsets are left as they are for `idealThreads = 3`); otherwise the function
`checkIfShouldMerge` of the analysis is called on every adjacent pair with the candidate kept
so far, and the last candidate is the merge requested. -/
def PartitionCostAnalysis.traverseAllPartitionSubsets (pca : PartitionCostAnalysis)
    (checkIfShouldMerge : Option (Nat × Nat) → Nat → Nat → Option (Nat × Nat)) :
    Option (Nat × Nat) :=
  if pca.partition.numberOfSubsets ≤ pca.cores then none
  else
    pca.partition.adjacentPairs.foldl
      (fun candidate pair => checkIfShouldMerge candidate pair.1 pair.2) none

/-- Modelled from the spec: `SmallestSizePartitionAnalysis::checkIfShouldMerge`
(SmallestSizePartitionAnalysis.hpp declares it; its body is not part of the sources), section
4.6: "rank adjacent pairs by combined instruction count; greedily merge the smallest pair", the
first pair of the ranking whose merge is not rejected (scenario S4).  The result is the
candidate kept after the pair `(sA, sB)`: the pair replaces the candidate when its merge is not
rejected and its combined instruction count is smaller. -/
def SmallestSizePartitionAnalysis.checkIfShouldMerge (pca : PartitionCostAnalysis)
    (candidate : Option (Nat × Nat)) (sA sB : Nat) : Option (Nat × Nat) :=
  if (pca.partition.mergeSubsets sA sB).isNone then candidate
  else
    match candidate with
    | none => some (sA, sB)
    | some best =>
      if pca.partition.instructionCount sA + pca.partition.instructionCount sB <
          pca.partition.instructionCount best.1 + pca.partition.instructionCount best.2 then
        some (sA, sB)
      else some best

/-- The rank of a pair for the min-max analysis: the spread between the largest and the
smallest subset after the merge of the pair, then the largest instruction count after it. -/
def MinMaxSizePartitionAnalysis.rank (pca : PartitionCostAnalysis) (sA sB : Nat) : Nat × Nat :=
  ((pca.partition.relabel sA sB).spread, (pca.partition.relabel sA sB).maxInstructionCount)

/-- Modelled from the spec: `MinMaxSizePartitionAnalysis::checkIfShouldMerge`
(MinMaxSizePartitionAnalysis.hpp is not part of the sources), section 4.6: "rank adjacent pairs
by the max instruction count after merging; greedily merge the pair that most reduces the
spread between largest and smallest subset".  The pair replaces the candidate when its merge is
not rejected and it leaves a smaller spread, or the same spread and a smaller largest subset. -/
def MinMaxSizePartitionAnalysis.checkIfShouldMerge (pca : PartitionCostAnalysis)
    (candidate : Option (Nat × Nat)) (sA sB : Nat) : Option (Nat × Nat) :=
  if (pca.partition.mergeSubsets sA sB).isNone then candidate
  else
    match candidate with
    | none => some (sA, sB)
    | some best =>
      let rankNew := MinMaxSizePartitionAnalysis.rank pca sA sB
      let rankOld := MinMaxSizePartitionAnalysis.rank pca best.1 best.2
      if rankNew.1 < rankOld.1 ∨ (rankNew.1 = rankOld.1 ∧ rankNew.2 < rankOld.2) then
        some (sA, sB)
      else some best

/-- The merge requested by an analysis is applied: the partition after it and whether a merge
was done. -/
def Heuristics.applyMerge (partition : SCCDAGPartition) (request : Option (Nat × Nat)) :
    SCCDAGPartition × Bool :=
  match request with
  | none => (partition, false)
  | some (a, b) =>
    match partition.mergeSubsets a b with
    | none => (partition, false)
    | some merged => (merged, true)

/-- Modelled from the spec: `Heuristics::smallestSizeMergePartition` (Heuristics.hpp, lines
39-43, declares it; Heuristics.cpp is not part of the sources): one run of the smallest-size
analysis on the partition. -/
def Heuristics.smallestSizeMergePartition (partition : SCCDAGPartition) (attrs : SCCDAGAttrs)
    (idealThreads : Nat) : SCCDAGPartition × Bool :=
  let PCA : PartitionCostAnalysis :=
    { partition := partition, attrs := attrs, cores := idealThreads }
  Heuristics.applyMerge partition
    (PCA.traverseAllPartitionSubsets (SmallestSizePartitionAnalysis.checkIfShouldMerge PCA))

/-- Modelled from the spec: `Heuristics::minMaxMergePartition` (Heuristics.hpp, lines 33-37,
declares it; Heuristics.cpp is not part of the sources): one run of the min-max analysis on the
partition. -/
def Heuristics.minMaxMergePartition (partition : SCCDAGPartition) (attrs : SCCDAGAttrs)
    (idealThreads : Nat) : SCCDAGPartition × Bool :=
  let PCA : PartitionCostAnalysis :=
    { partition := partition, attrs := attrs, cores := idealThreads }
  Heuristics.applyMerge partition
    (PCA.traverseAllPartitionSubsets (MinMaxSizePartitionAnalysis.checkIfShouldMerge PCA))

/-- The passes of the driver: each pass runs the two analyses one after the other, and the
passes go on "until a full pass yields no merge".  `none` when the fuel runs out. -/
def Heuristics.passes (attrs : SCCDAGAttrs) (idealThreads : Nat) :
    Nat → SCCDAGPartition → Option SCCDAGPartition
  | 0, _ => none
  | fuel + 1, partition =>
    let r1 := Heuristics.smallestSizeMergePartition partition attrs idealThreads
    let r2 := Heuristics.minMaxMergePartition r1.1 attrs idealThreads
    if r1.2 || r2.2 then Heuristics.passes attrs idealThreads fuel r2.1
    else some r2.1

/-- Modelled from the spec: `Heuristics::adjustParallelizationPartitionForDSWP` (Heuristics.cpp
is not part of the sources; Heuristics.hpp declares the function), section 4.6: the driver
"runs the two analyses in a fixed alternation until a full pass yields no merge".  A pass that
merges removes a subset: the passes get one unit of fuel more than there are subsets. -/
def Heuristics.adjustParallelizationPartitionForDSWP (partition : SCCDAGPartition)
    (attrs : SCCDAGAttrs) (idealThreads : Nat) : Option SCCDAGPartition :=
  Heuristics.passes attrs idealThreads (partition.numberOfSubsets + 1) partition

/-- The subset-level graph of the partition has no cycle. -/
def SCCDAGPartition.SubsetsAcyclic (p : SCCDAGPartition) : Prop :=
  ∀ a, ¬ Relation.TransGen (EdgeRel p.subsetEdges) a a

/-- The SCCDAG is weakly connected: any two of its SCCs are joined by a chain of edges, each
taken in one direction or the other. -/
def SCCDG.WeaklyConnected (g : SCCDG) : Prop :=
  ∀ a ∈ g.nodeIds, ∀ b ∈ g.nodeIds,
    Relation.ReflTransGen (fun x y => g.HasEdge x y ∨ g.HasEdge y x) a b

/-- The contraction of the subset `b` into the subset `a` on the names of the subsets. -/
def contractInto (a b : Nat) (x : Nat) : Nat :=
  if x = b then a else x

/-- What the walk needs of a function `checkIfShouldMerge` on the partition `p`: a pair whose
merge is rejected leaves the candidate, a pair whose merge is accepted becomes the candidate
or leaves a candidate that was there. -/
def ChecksMerges (p : SCCDAGPartition)
    (check : Option (Nat × Nat) → Nat → Nat → Option (Nat × Nat)) : Prop :=
  ∀ c sA sB,
    (p.mergeSubsets sA sB = none ∧ check c sA sB = c) ∨
    ((p.mergeSubsets sA sB).isSome = true ∧
      (check c sA sB = some (sA, sB) ∨ (check c sA sB = c ∧ c ≠ none)))

/-- An SCCDAG of two SCCs without any dependence between them. -/
def sampleTwoSCCDAG : SCCDG :=
  { allNodes :=
      [{ id := 0, scc := { nodes := [1], edges := [] }, inclusion := true },
       { id := 1, scc := { nodes := [2], edges := [] }, inclusion := true }],
    allEdges := [] }

/-! ## The queries on the loop-carried dependences -/

/-- The expression `m[scc]` of the map in a reading position (line 362): the set of the key and
the map after the access, which has gained an empty entry when the key was missing. -/
def DepMap.subscript (m : DepMap) (scc : Nat) : List DGEdge × DepMap :=
  match m.lookup scc with
  | some deps => (deps, m)
  | none => ([], m ++ [(scc, [])])

/-- The statement `sccs.insert(scc)` on a `std::set<SCC *>`. -/
def insertSCC (sccs : List Nat) (scc : Nat) : List Nat :=
  if scc ∈ sccs then sccs else sccs ++ [scc]

/-- The function `SCCDAGAttrs::getSCCsWithLoopCarriedDependencies` (lines 66-72): the keys of
`interIterDepsInternalToSCC`. -/
def SCCDAGAttrs.getSCCsWithLoopCarriedDependencies (attrs : SCCDAGAttrs) : List Nat :=
  attrs.interIterDepsInternalToSCC.foldl
    (fun sccs sccDependencies => insertSCC sccs sccDependencies.1) []

/-- The function `SCCDAGAttrs::getSCCsWithLoopCarriedControlDependencies` (lines 74-108): the
keys of `interIterDepsInternalToSCC` whose set holds a control dependence. -/
def SCCDAGAttrs.getSCCsWithLoopCarriedControlDependencies (attrs : SCCDAGAttrs) : List Nat :=
  attrs.interIterDepsInternalToSCC.foldl
    (fun sccs sccDependencies =>
      let deps := sccDependencies.2
      let isControl := deps.any (fun dep => dep.control)
      if isControl then insertSCC sccs sccDependencies.1 else sccs) []

/-! ## The caches of `isDerivedWithinSCC` -/

/-- The computation of `isDerivedWithinSCC` without its caches: the test of lines 788-790 and
the two searches of lines 802-861, with no read and no write of the two sets of the record. -/
def SCCDAGAttrs.isDerivedWithinSCCUncached (val : Nat) (scc : SCC) : Bool :=
  if !scc.isInternal val then false
  else if !scc.searchOutgoing val then false
  else if !scc.searchIncoming val then false
  else true

/-- A sequence of calls of `isDerivedWithinSCC` on one SCC, one for each value of the list: the
results in the order of the calls, and the record after the last call. -/
def SCCDAGAttrs.isDerivedWithinSCCCalls (scc : SCC) : List Nat → SCCAttrs → List Bool × SCCAttrs
  | [], sccInfo => ([], sccInfo)
  | val :: rest, sccInfo =>
    let r := SCCDAGAttrs.isDerivedWithinSCC val scc sccInfo
    let rs := SCCDAGAttrs.isDerivedWithinSCCCalls scc rest r.2
    (r.1 :: rs.1, rs.2)

/-- The two caches of the record agree with the computation without caches: no value is in
both, `stronglyConnectedDataValues` holds only values on which it yields `true`, and
`weaklyConnectedDataValues` only values on which it yields `false`. -/
def SCCAttrs.CachesSound (scc : SCC) (sccInfo : SCCAttrs) : Prop :=
  (∀ v, ¬ (v ∈ sccInfo.stronglyConnectedDataValues ∧ v ∈ sccInfo.weaklyConnectedDataValues)) ∧
  (∀ v ∈ sccInfo.stronglyConnectedDataValues,
    SCCDAGAttrs.isDerivedWithinSCCUncached v scc = true) ∧
  (∀ v ∈ sccInfo.weaklyConnectedDataValues,
    SCCDAGAttrs.isDerivedWithinSCCUncached v scc = false)

/-- The one-pass version of `isDerivedWithinSCC` named by the claim on the second search: the
function without lines 833-861, which returns the result of the search along outgoing edges. -/
def SCCDAGAttrs.isDerivedWithinSCCOnePass (val : Nat) (scc : SCC) (sccInfo : SCCAttrs) :
    Bool × SCCAttrs :=
  if !scc.isInternal val then (false, sccInfo)
  else
    let isStrongly := decide (val ∈ sccInfo.stronglyConnectedDataValues)
    let isWeakly := decide (val ∈ sccInfo.weaklyConnectedDataValues)
    if isStrongly then (true, sccInfo)
    else if isWeakly then (false, sccInfo)
    else if !scc.searchOutgoing val then
      (false, { sccInfo with
        weaklyConnectedDataValues := sccInfo.weaklyConnectedDataValues ++ [val] })
    else
      (true, { sccInfo with
        stronglyConnectedDataValues := sccInfo.stronglyConnectedDataValues ++ [val] })

/-- The record of the counter when the comparison is on the accumulator: start `60`, step `+1`,
`isCmpOnAccum` set, `endOffset` at its initial value `0`. -/
def sampleAccumBounds : FixedIVBounds :=
  { start := 60, step := 1, cmpIVTo := 62, cmpToDerivation := [], isCmpOnAccum := true,
    isCmpIVLHS := true, endOffset := 0 }

/-- The record that `isIVUpperBoundSimple` leaves for `sampleAccumBounds`. -/
def sampleAccumBoundsAfter : FixedIVBounds :=
  { start := 60, step := 1, cmpIVTo := 62, cmpToDerivation := [], isCmpOnAccum := true,
    isCmpIVLHS := true, endOffset := -1 }

/-! ## The walk of `collectDerivationChain` -/

/-- The set `incomingDataDeps` of lines 895-903 for the instruction `derivingI`: the sources of
its incoming edges that are no control dependence, without the instruction itself. -/
def SCC.incomingDataDeps (scc : SCC) (derivingI : Nat) : List Nat :=
  ((((scc.getIncomingEdges derivingI).filter (fun edge => !edge.control)).map
    (fun edge => edge.src)).dedup).erase derivingI

/-- The value `x` is the source of an incoming edge of `a` that is no control dependence. -/
def SCC.DataSource (scc : SCC) (a x : Nat) : Prop :=
  ∃ e ∈ scc.edges, e.dst = a ∧ e.src = x ∧ e.control = false

/-- The value `b` is the unique non-control incoming dependence source of `a` other than `a`
itself. -/
def SCC.UniqueSource (scc : SCC) (a b : Nat) : Prop :=
  ∀ x, (scc.DataSource a x ∧ x ≠ a) ↔ x = b

/-- The instruction `a` has two or more distinct incoming data sources other than itself. -/
def SCC.HasTwoDataSources (scc : SCC) (a : Nat) : Prop :=
  ∃ x y, x ≠ y ∧ x ≠ a ∧ y ≠ a ∧ scc.DataSource a x ∧ scc.DataSource a y

/-- One step of the walk of `collectDerivationChain`, from `a` to `b`: `b` is the unique data
source of `a` other than `a`, it is an instruction, and it is internal to the SCC. -/
def SCC.DerivationStep (ir : IROracle) (scc : SCC) (a b : Nat) : Prop :=
  scc.UniqueSource a b ∧ ir.isaInstruction b = true ∧ scc.isInternal b = true

/-- An SCC where the instruction `10` depends on itself and on `11`. -/
def sampleSelfLoopSCC : SCC :=
  { nodes := [10, 11], edges := [DGEdge.plain 10 10, DGEdge.plain 11 10] }

/-- An SCC where `10` and `11` derive from each other. -/
def sampleTwoCycleSCC : SCC :=
  { nodes := [10, 11], edges := [DGEdge.plain 10 11, DGEdge.plain 11 10] }

/-- An SCC where `10` derives from `11` and `11` from `20`. -/
def sampleLinearSCC : SCC :=
  { nodes := [10, 11, 20], edges := [DGEdge.plain 11 10, DGEdge.plain 20 11] }

/-- An SCC where `10` has the two data sources `11` and `20`. -/
def sampleForkSCC : SCC :=
  { nodes := [10, 11, 20], edges := [DGEdge.plain 11 10, DGEdge.plain 20 10] }
/-! ## Reachability -/

lemma mem_succsOf (es : List (Nat × Nat)) (S : List Nat) (z : Nat) :
    z ∈ succsOf es S ↔ ∃ y ∈ S, (y, z) ∈ es := by
  unfold succsOf
  simp only [List.mem_map, List.mem_filter, decide_eq_true_eq]
  constructor
  · rintro ⟨⟨y, z'⟩, ⟨h1, h2⟩, rfl⟩
    exact ⟨y, h2, h1⟩
  · rintro ⟨y, h1, h2⟩
    exact ⟨(y, z), ⟨h2, h1⟩, rfl⟩

lemma subset_reachFrom (es : List (Nat × Nat)) (fuel : Nat) (S : List Nat) :
    S ⊆ reachFrom es fuel S := by
  induction fuel generalizing S with
  | zero => exact fun _ h => h
  | succ fuel ih =>
    intro x hx
    exact ih _ (List.mem_append_left _ hx)

lemma reachFrom_sound (es : List (Nat × Nat)) (fuel : Nat) (S : List Nat) (y : Nat)
    (hy : y ∈ reachFrom es fuel S) : ∃ x ∈ S, Relation.ReflTransGen (EdgeRel es) x y := by
  induction fuel generalizing S with
  | zero => exact ⟨y, hy, Relation.ReflTransGen.refl⟩
  | succ fuel ih =>
    obtain ⟨x, hx, hxy⟩ := ih _ hy
    rcases List.mem_append.mp hx with hx | hx
    · exact ⟨x, hx, hxy⟩
    · have hx' : x ∈ succsOf es S := (List.mem_filter.mp (List.mem_dedup.mp hx)).1
      obtain ⟨w, hw, hwx⟩ := (mem_succsOf es S x).mp hx'
      exact ⟨w, hw, Relation.ReflTransGen.head hwx hxy⟩

lemma fresh_eq_nil_iff (es : List (Nat × Nat)) (S : List Nat) :
    ((succsOf es S).filter (fun v => decide (v ∉ S))).dedup = [] ↔ ClosedUnder es S := by
  constructor
  · intro h y hy z hz
    by_contra hzS
    have : z ∈ ((succsOf es S).filter (fun v => decide (v ∉ S))).dedup := by
      rw [List.mem_dedup, List.mem_filter]
      exact ⟨(mem_succsOf es S z).mpr ⟨y, hy, hz⟩, by simpa using hzS⟩
    rw [h] at this
    exact absurd this (List.not_mem_nil _)
  · intro h
    apply List.eq_nil_iff_forall_not_mem.mpr
    intro z hz
    rw [List.mem_dedup, List.mem_filter] at hz
    obtain ⟨y, hy, hyz⟩ := (mem_succsOf es S z).mp hz.1
    have := h y hy z hyz
    simp only [decide_not, Bool.not_eq_true', decide_eq_false_iff_not] at hz
    exact hz.2 this

lemma reachFrom_of_closed (es : List (Nat × Nat)) (fuel : Nat) (S : List Nat)
    (h : ClosedUnder es S) : reachFrom es fuel S = S := by
  induction fuel with
  | zero => rfl
  | succ fuel ih =>
    show reachFrom es fuel (S ++ _) = S
    rw [(fresh_eq_nil_iff es S).mpr h, List.append_nil, ih]

lemma reachFrom_closed (es : List (Nat × Nat)) (U : List Nat)
    (hes : ∀ p ∈ es, p.2 ∈ U) (fuel : Nat) (S : List Nat) (hnd : S.Nodup) (hsub : S ⊆ U)
    (hlen : U.length ≤ S.length + fuel) : ClosedUnder es (reachFrom es fuel S) := by
  induction fuel generalizing S with
  | zero =>
    have hperm : S.Perm U :=
      (List.subperm_of_subset hnd hsub).perm_of_length_le (by simpa using hlen)
    intro y _ z hz
    exact hperm.mem_iff.mpr (hes _ hz)
  | succ fuel ih =>
    by_cases hfresh : ((succsOf es S).filter (fun v => decide (v ∉ S))).dedup = []
    · have hcl := (fresh_eq_nil_iff es S).mp hfresh
      rw [reachFrom_of_closed es _ S hcl]
      exact hcl
    · show ClosedUnder es (reachFrom es fuel (S ++ _))
      apply ih
      · rw [List.nodup_append]
        refine ⟨hnd, List.nodup_dedup _, ?_⟩
        intro a ha1 ha2
        rw [List.mem_dedup, List.mem_filter] at ha2
        simp only [decide_not, Bool.not_eq_true', decide_eq_false_iff_not] at ha2
        exact ha2.2 ha1
      · intro a ha
        rcases List.mem_append.mp ha with ha | ha
        · exact hsub ha
        · rw [List.mem_dedup, List.mem_filter] at ha
          obtain ⟨y, _, hyz⟩ := (mem_succsOf es S a).mp ha.1
          exact hes _ hyz
      · have : 0 < (((succsOf es S).filter (fun v => decide (v ∉ S))).dedup).length :=
          List.length_pos.mpr hfresh
        rw [List.length_append]
        omega

/-- With as much fuel as there are nodes, `reachFrom` computes the nodes reachable along the
pairs. -/
lemma mem_reachFrom_iff (es : List (Nat × Nat)) (U : List Nat) (hes : ∀ p ∈ es, p.2 ∈ U)
    (x : Nat) (hx : x ∈ U) (y : Nat) :
    y ∈ reachFrom es U.length [x] ↔ Relation.ReflTransGen (EdgeRel es) x y := by
  constructor
  · intro h
    obtain ⟨x', hx', hxy⟩ := reachFrom_sound es _ _ y h
    simp only [List.mem_singleton] at hx'
    subst hx'
    exact hxy
  · intro h
    have hcl : ClosedUnder es (reachFrom es U.length [x]) :=
      reachFrom_closed es U hes U.length [x] (List.nodup_singleton x)
        (by intro a ha; simp only [List.mem_singleton] at ha; subst ha; exact hx)
        (by simp)
    induction h with
    | refl => exact subset_reachFrom es _ _ (List.mem_singleton_self x)
    | tail _ hbc ih => exact hcl _ ih _ hbc
/-! ## Classes -/

lemma classesAux_class (rel : Nat → Nat → Bool) (fuel : Nat) (l : List Nat) (C : List Nat)
    (hC : C ∈ classesAux rel fuel l) :
    ∃ x rest, C = x :: rest ∧ x ∈ l ∧ ∀ y ∈ rest, rel x y = true ∧ y ∈ l := by
  induction fuel generalizing l with
  | zero => simp [classesAux] at hC
  | succ fuel ih =>
    cases l with
    | nil => simp [classesAux] at hC
    | cons x xs =>
      simp only [classesAux, List.mem_cons] at hC
      rcases hC with rfl | hC
      · refine ⟨x, _, rfl, List.mem_cons_self _ _, ?_⟩
        intro y hy
        rw [List.mem_filter] at hy
        exact ⟨hy.2, List.mem_cons_of_mem _ hy.1⟩
      · obtain ⟨p, rest, h1, h2, h3⟩ := ih _ hC
        refine ⟨p, rest, h1, List.mem_cons_of_mem _ (List.mem_filter.mp h2).1, ?_⟩
        intro y hy
        exact ⟨(h3 y hy).1, List.mem_cons_of_mem _ (List.mem_filter.mp (h3 y hy).2).1⟩

lemma classesAux_subset (rel : Nat → Nat → Bool) (fuel : Nat) (l : List Nat) (C : List Nat)
    (hC : C ∈ classesAux rel fuel l) : C ⊆ l := by
  obtain ⟨x, rest, rfl, hx, hrest⟩ := classesAux_class rel fuel l C hC
  intro y hy
  rcases List.mem_cons.mp hy with rfl | hy
  · exact hx
  · exact (hrest y hy).2

/-- The first element of a class is not related to any element of a later class. -/
lemma classesAux_pairwise (rel : Nat → Nat → Bool) (fuel : Nat) (l : List Nat) :
    (classesAux rel fuel l).Pairwise
      (fun C D => ∀ x ∈ C.head?, ∀ y ∈ D, rel x y = false) := by
  induction fuel generalizing l with
  | zero => simp [classesAux]
  | succ fuel ih =>
    cases l with
    | nil => simp [classesAux]
    | cons x xs =>
      simp only [classesAux, List.pairwise_cons]
      refine ⟨?_, ih _⟩
      intro D hD p hp y hy
      simp only [List.head?_cons, Option.mem_def, Option.some.injEq] at hp
      subst hp
      have := classesAux_subset rel fuel _ D hD hy
      rw [List.mem_filter] at this
      simpa using this.2

/-- When the relation holds between a node and itself and is carried along a symmetric
adjacency, a class holds every node of the list adjacent to one of its nodes. -/
lemma classesAux_closed (rel : Nat → Nat → Bool) (adj : Nat → Nat → Prop) (U : List Nat)
    (hsymm : ∀ a b, adj a b → adj b a) (hrefl : ∀ x, rel x x = true)
    (hstep : ∀ x ∈ U, ∀ u v, rel x u = true → adj u v → rel x v = true)
    (fuel : Nat) (l : List Nat) (hl : l ⊆ U) (C : List Nat) (hC : C ∈ classesAux rel fuel l)
    (u v : Nat) (hu : u ∈ C) (huv : adj u v) (hv : v ∈ l) : v ∈ C := by
  induction fuel generalizing l with
  | zero => simp [classesAux] at hC
  | succ fuel ih =>
    cases l with
    | nil => simp [classesAux] at hC
    | cons x xs =>
      have hxU : x ∈ U := hl (List.mem_cons_self _ _)
      simp only [classesAux, List.mem_cons] at hC
      rcases hC with rfl | hC
      · have hxu : rel x u = true := by
          rcases List.mem_cons.mp hu with rfl | hu
          · exact hrefl _
          · exact (List.mem_filter.mp hu).2
        have hxv := hstep x hxU u v hxu huv
        rcases List.mem_cons.mp hv with rfl | hv
        · exact List.mem_cons_self _ _
        · exact List.mem_cons_of_mem _ (List.mem_filter.mpr ⟨hv, hxv⟩)
      · have hu' := classesAux_subset rel fuel _ C hC hu
        rw [List.mem_filter] at hu'
        have hnxu : rel x u = false := by simpa using hu'.2
        have hnxv : rel x v = false := by
          by_contra hcon
          have hxv : rel x v = true := by simpa using hcon
          have := hstep x hxU v u hxv (hsymm _ _ huv)
          rw [hnxu] at this
          exact absurd this (by simp)
        have hvx : v ≠ x := by
          rintro rfl
          rw [hrefl] at hnxv
          exact absurd hnxv (by simp)
        have hv' : v ∈ xs.filter (fun y => !rel x y) := by
          rw [List.mem_filter]
          refine ⟨?_, by simp [hnxv]⟩
          rcases List.mem_cons.mp hv with h | h
          · exact absurd h hvx
          · exact h
        have hl' : xs.filter (fun y => !rel x y) ⊆ U := by
          intro a ha
          exact hl (List.mem_cons_of_mem _ (List.mem_filter.mp ha).1)
        exact ih _ hl' hC hv'
/-! ## The edge loop of `createSCCGraphFrom` -/

lemma lookup_cons_self {β : Type} (k : Nat) (b : β) (es : List (Nat × β)) :
    ((k, b) :: es).lookup k = some b := by
  simp [List.lookup_cons]

lemma lookup_cons_ne {β : Type} (a k : Nat) (b : β) (es : List (Nat × β)) (h : a ≠ k) :
    ((k, b) :: es).lookup a = es.lookup a := by
  have h1 : (a == k) = false := by simpa using h
  simp [List.lookup_cons, h1]

lemma isExternal_iff (g : SCCDG) (i : Nat) :
    g.isExternal i = true ↔ ∃ n ∈ g.allNodes, n.id = i ∧ n.inclusion = false := by
  simp [SCCDG.isExternal]

lemma ids_lt {g : SCCDG} (h : g.allNodes.map (fun n => n.id) = List.range g.allNodes.length)
    {n : SCCNode} (hn : n ∈ g.allNodes) : n.id < g.allNodes.length := by
  have : n.id ∈ g.allNodes.map (fun n => n.id) := List.mem_map_of_mem (fun n => n.id) hn
  rw [h] at this
  exact List.mem_range.mp this

lemma ids_inj {g : SCCDG} (h : g.allNodes.map (fun n => n.id) = List.range g.allNodes.length)
    {a b : SCCNode} (ha : a ∈ g.allNodes) (hb : b ∈ g.allNodes) (hab : a.id = b.id) : a = b := by
  have hnd : (g.allNodes.map (fun n => n.id)).Nodup := by
    rw [h]; exact List.nodup_range _
  exact List.inj_on_of_nodup_map hnd ha hb hab

lemma ids_createNodeFrom {g : SCCDG}
    (h : g.allNodes.map (fun n => n.id) = List.range g.allNodes.length) (scc : SCC) (b : Bool) :
    (g.createNodeFrom scc b).allNodes.map (fun n => n.id)
      = List.range (g.createNodeFrom scc b).allNodes.length := by
  simp [SCCDG.createNodeFrom, h, List.range_succ]

/-- What `fetchOrCreateSCC` does to the state when the node has no SCC yet. -/
lemma fetchOrCreateSCC_none (pdg : PDG) (st : BuildState) (v : Nat)
    (h : st.nodeSCCMap.lookup v = none) :
    fetchOrCreateSCC pdg st v =
      ({ sccDG := st.sccDG.createNodeFrom (SCC.ofNodes pdg [v]) false,
         nodeSCCMap := (v, st.sccDG.allNodes.length) :: st.nodeSCCMap },
       st.sccDG.allNodes.length) := by
  unfold fetchOrCreateSCC
  rw [h]

lemma fetchOrCreateSCC_some (pdg : PDG) (st : BuildState) (v i : Nat)
    (h : st.nodeSCCMap.lookup v = some i) :
    fetchOrCreateSCC pdg st v = (st, i) := by
  unfold fetchOrCreateSCC
  rw [h]

lemma fetchOrCreateSCC_lookup (pdg : PDG) (st : BuildState) (v : Nat) :
    (fetchOrCreateSCC pdg st v).1.nodeSCCMap.lookup v = some (fetchOrCreateSCC pdg st v).2 := by
  cases h : st.nodeSCCMap.lookup v with
  | none => rw [fetchOrCreateSCC_none pdg st v h]; exact lookup_cons_self _ _ _
  | some i => rw [fetchOrCreateSCC_some pdg st v i h]; exact h

lemma fetchOrCreateSCC_edges (pdg : PDG) (st : BuildState) (v : Nat) :
    (fetchOrCreateSCC pdg st v).1.sccDG.allEdges = st.sccDG.allEdges := by
  cases h : st.nodeSCCMap.lookup v with
  | none => rw [fetchOrCreateSCC_none pdg st v h]; rfl
  | some i => rw [fetchOrCreateSCC_some pdg st v i h]

lemma fetchOrCreateSCC_stable (pdg : PDG) (st : BuildState) (v w j : Nat)
    (h : st.nodeSCCMap.lookup w = some j) :
    (fetchOrCreateSCC pdg st v).1.nodeSCCMap.lookup w = some j := by
  cases hv : st.nodeSCCMap.lookup v with
  | none =>
    rw [fetchOrCreateSCC_none pdg st v hv]
    have : w ≠ v := by
      rintro rfl
      rw [hv] at h
      exact absurd h (by simp)
    show ((v, _) :: st.nodeSCCMap).lookup w = some j
    rw [lookup_cons_ne _ _ _ _ this]
    exact h
  | some i => rw [fetchOrCreateSCC_some pdg st v i hv]; exact h

/-- The invariant of the edge loop is kept by `fetchOrCreateSCC`. -/
lemma buildInv_fetchOrCreateSCC {done : List DGEdge} {st : BuildState} (pdg : PDG)
    (inv : BuildInv done st) (v : Nat) : BuildInv done (fetchOrCreateSCC pdg st v).1 := by
  cases hv : st.nodeSCCMap.lookup v with
  | some i => rw [fetchOrCreateSCC_some pdg st v i hv]; exact inv
  | none =>
    rw [fetchOrCreateSCC_none pdg st v hv]
    have hold : ∀ w j, st.nodeSCCMap.lookup w = some j → w ≠ v := by
      rintro w j h rfl
      rw [hv] at h
      exact absurd h (by simp)
    have hnodes : ∀ n, n ∈ (st.sccDG.createNodeFrom (SCC.ofNodes pdg [v]) false).allNodes ↔
        n ∈ st.sccDG.allNodes ∨
          n = { id := st.sccDG.allNodes.length, scc := SCC.ofNodes pdg [v], inclusion := false } := by
      intro n
      simp [SCCDG.createNodeFrom]
    have hext : ∀ a, a < st.sccDG.allNodes.length →
        ((st.sccDG.createNodeFrom (SCC.ofNodes pdg [v]) false).isExternal a = true ↔
          st.sccDG.isExternal a = true) := by
      intro a ha
      rw [isExternal_iff, isExternal_iff]
      constructor
      · rintro ⟨n, hn, h1, h2⟩
        rcases (hnodes n).mp hn with hn | rfl
        · exact ⟨n, hn, h1, h2⟩
        · simp at h1; omega
      · rintro ⟨n, hn, h1, h2⟩
        exact ⟨n, (hnodes n).mpr (Or.inl hn), h1, h2⟩
    have hlt : ∀ w j, st.nodeSCCMap.lookup w = some j → j < st.sccDG.allNodes.length := by
      intro w j h
      obtain ⟨n, hn, h1, _⟩ := inv.mapSound w j h
      rw [← h1]
      exact ids_lt inv.ids hn
    refine ⟨ids_createNodeFrom inv.ids _ _, ?_, ?_, ?_, inv.unique, inv.flags, ?_, ?_⟩
    · intro w i h
      by_cases hw : w = v
      · subst hw
        rw [lookup_cons_self] at h
        injection h with h
        refine ⟨_, (hnodes _).mpr (Or.inr rfl), h, ?_⟩
        simp [SCC.ofNodes]
      · rw [lookup_cons_ne _ _ _ _ hw] at h
        obtain ⟨n, hn, h1, h2⟩ := inv.mapSound w i h
        exact ⟨n, (hnodes n).mpr (Or.inl hn), h1, h2⟩
    · intro e he
      obtain ⟨h1, h2⟩ := inv.mapped e he
      obtain ⟨a, ha⟩ := Option.isSome_iff_exists.mp h1
      obtain ⟨b, hb⟩ := Option.isSome_iff_exists.mp h2
      constructor
      · show (((v, _) :: st.nodeSCCMap).lookup e.src).isSome = true
        rw [lookup_cons_ne _ _ _ _ (hold _ _ ha)]; exact h1
      · show (((v, _) :: st.nodeSCCMap).lookup e.dst).isSome = true
        rw [lookup_cons_ne _ _ _ _ (hold _ _ hb)]; exact h2
    · intro se hse
      obtain ⟨h1, a, ha, b, hb, h2⟩ := inv.ends se hse
      exact ⟨h1, a, (hnodes a).mpr (Or.inl ha), b, (hnodes b).mpr (Or.inl hb), h2⟩
    · intro e he a b h1 h2 hab hx
      obtain ⟨m1, m2⟩ := inv.mapped e he
      obtain ⟨a', ha'⟩ := Option.isSome_iff_exists.mp m1
      obtain ⟨b', hb'⟩ := Option.isSome_iff_exists.mp m2
      have e1 : ((v, st.sccDG.allNodes.length) :: st.nodeSCCMap).lookup e.src = some a := h1
      have e2 : ((v, st.sccDG.allNodes.length) :: st.nodeSCCMap).lookup e.dst = some b := h2
      rw [lookup_cons_ne _ _ _ _ (hold _ _ ha')] at e1
      rw [lookup_cons_ne _ _ _ _ (hold _ _ hb')] at e2
      apply inv.covered e he a b e1 e2 hab
      rintro ⟨x1, x2⟩
      exact hx ⟨(hext a (hlt _ _ e1)).mpr x1, (hext b (hlt _ _ e2)).mpr x2⟩
    · intro se hse
      obtain ⟨h1, h2⟩ := inv.origin se hse
      refine ⟨h1, ?_⟩
      intro e he
      obtain ⟨d, l1, l2⟩ := h2 e he
      refine ⟨d, ?_, ?_⟩
      · show ((v, _) :: st.nodeSCCMap).lookup e.src = some se.src
        rw [lookup_cons_ne _ _ _ _ (hold _ _ l1)]; exact l1
      · show ((v, _) :: st.nodeSCCMap).lookup e.dst = some se.dst
        rw [lookup_cons_ne _ _ _ _ (hold _ _ l2)]; exact l2

lemma mapComplete_fetchOrCreateSCC (pdg : PDG) (st : BuildState) (h : MapComplete st) (v : Nat) :
    MapComplete (fetchOrCreateSCC pdg st v).1 := by
  cases hv : st.nodeSCCMap.lookup v with
  | some i => rw [fetchOrCreateSCC_some pdg st v i hv]; exact h
  | none =>
    rw [fetchOrCreateSCC_none pdg st v hv]
    intro n hn w hw
    simp only [SCCDG.createNodeFrom, List.mem_append, List.mem_singleton] at hn
    rcases hn with hn | rfl
    · have := h n hn w hw
      have hne : w ≠ v := by
        rintro rfl
        rw [hv] at this
        exact absurd this (by simp)
      show ((v, _) :: st.nodeSCCMap).lookup w = some n.id
      rw [lookup_cons_ne _ _ _ _ hne]
      exact this
    · simp [SCC.ofNodes] at hw
      subst hw
      exact lookup_cons_self _ _ _
/-- The mutation made through the pointer returned by `createEdgeFromTo` (lines 89-90). -/
lemma setMemMustRaw_addSubEdge_ends (se : SCCEdge) (e : DGEdge) :
    ((se.setMemMustRaw e.memory e.must e.raw).addSubEdge e).src = se.src ∧
    ((se.setMemMustRaw e.memory e.must e.raw).addSubEdge e).dst = se.dst ∧
    ((se.setMemMustRaw e.memory e.must e.raw).addSubEdge e).subEdges = se.subEdges ++ [e] ∧
    ((se.setMemMustRaw e.memory e.must e.raw).addSubEdge e).memory = (se.memory || e.memory) ∧
    ((se.setMemMustRaw e.memory e.must e.raw).addSubEdge e).must = (se.must || e.must) ∧
    ((se.setMemMustRaw e.memory e.must e.raw).addSubEdge e).raw = (se.raw || e.raw) :=
  ⟨rfl, rfl, rfl, rfl, rfl, rfl⟩

/-- The edges of the graph after lines 88-90 have run for the PDG edge `e` between the SCCs `a`
and `b`. -/
lemma mem_edges_after_merge (g : SCCDG) (a b : Nat) (e : DGEdge) (se' : SCCEdge) :
    se' ∈ ((g.createEdgeFromTo a b).updateEdge a b
        (fun sccEdge => (sccEdge.setMemMustRaw e.memory e.must e.raw).addSubEdge e)).allEdges ↔
      (se' ∈ g.allEdges ∧ ¬ (se'.src = a ∧ se'.dst = b)) ∨
      (∃ se ∈ g.allEdges, se.src = a ∧ se.dst = b ∧
        se' = (se.setMemMustRaw e.memory e.must e.raw).addSubEdge e) ∨
      ((∀ se ∈ g.allEdges, ¬ (se.src = a ∧ se.dst = b)) ∧
        se' = { src := a, dst := b, memory := e.memory, must := e.must, raw := e.raw,
                subEdges := [e] }) := by
  unfold SCCDG.createEdgeFromTo SCCDG.updateEdge
  by_cases hex : g.allEdges.any (fun e => e.src == a && e.dst == b) = true
  · simp only [hex, if_true, List.mem_map]
    have hex' : ∃ se ∈ g.allEdges, se.src = a ∧ se.dst = b := by simpa using hex
    constructor
    · rintro ⟨se, hse, rfl⟩
      by_cases hm : se.src = a ∧ se.dst = b
      · right; left
        refine ⟨se, hse, hm.1, hm.2, ?_⟩
        simp [hm.1, hm.2]
      · left
        have : (se.src == a && se.dst == b) = false := by
          simpa using hm
        simp only [this]
        exact ⟨hse, hm⟩
    · rintro (⟨hse, hm⟩ | ⟨se, hse, h1, h2, rfl⟩ | ⟨hno, _⟩)
      · refine ⟨se', hse, ?_⟩
        have : (se'.src == a && se'.dst == b) = false := by
          simpa using hm
        simp [this]
      · refine ⟨se, hse, ?_⟩
        simp [h1, h2]
      · obtain ⟨se, hse, h1, h2⟩ := hex'
        exact absurd ⟨h1, h2⟩ (hno se hse)
  · have hno : ∀ se ∈ g.allEdges, ¬ (se.src = a ∧ se.dst = b) := by simpa using hex
    simp only [hex, Bool.false_eq_true, if_false, List.map_append, List.mem_append, List.mem_map,
      List.map_cons, List.map_nil, List.mem_singleton]
    constructor
    · rintro (⟨se, hse, rfl⟩ | h)
      · left
        have : (se.src == a && se.dst == b) = false := by
          simpa using hno se hse
        simp only [this]
        exact ⟨hse, hno se hse⟩
      · right; right
        refine ⟨hno, ?_⟩
        rw [h]
        simp [SCCEdge.setMemMustRaw, SCCEdge.addSubEdge]
    · rintro (⟨hse, hm⟩ | ⟨se, hse, h1, h2, rfl⟩ | ⟨_, rfl⟩)
      · left
        refine ⟨se', hse, ?_⟩
        have : (se'.src == a && se'.dst == b) = false := by
          simpa using hm
        simp [this]
      · exact absurd ⟨h1, h2⟩ (hno se hse)
      · right
        simp [SCCEdge.setMemMustRaw, SCCEdge.addSubEdge]

lemma pairwise_edges_after_merge (g : SCCDG) (a b : Nat) (e : DGEdge)
    (h : g.allEdges.Pairwise (fun x y => ¬ (x.src = y.src ∧ x.dst = y.dst))) :
    ((g.createEdgeFromTo a b).updateEdge a b
        (fun sccEdge => (sccEdge.setMemMustRaw e.memory e.must e.raw).addSubEdge e)).allEdges.Pairwise
      (fun x y => ¬ (x.src = y.src ∧ x.dst = y.dst)) := by
  have hmap : ∀ l : List SCCEdge, l.Pairwise (fun x y => ¬ (x.src = y.src ∧ x.dst = y.dst)) →
      (l.map (fun x => if x.src == a && x.dst == b then
          (x.setMemMustRaw e.memory e.must e.raw).addSubEdge e else x)).Pairwise
        (fun x y => ¬ (x.src = y.src ∧ x.dst = y.dst)) := by
    intro l hl
    rw [List.pairwise_map]
    apply hl.imp
    intro x y hxy
    have hx : ∀ z : SCCEdge, (if z.src == a && z.dst == b then
          (z.setMemMustRaw e.memory e.must e.raw).addSubEdge e else z).src = z.src ∧
        (if z.src == a && z.dst == b then
          (z.setMemMustRaw e.memory e.must e.raw).addSubEdge e else z).dst = z.dst := by
      intro z
      split <;> exact ⟨rfl, rfl⟩
    rw [(hx x).1, (hx x).2, (hx y).1, (hx y).2]
    exact hxy
  unfold SCCDG.createEdgeFromTo SCCDG.updateEdge
  by_cases hex : g.allEdges.any (fun e => e.src == a && e.dst == b) = true
  · simp only [hex, if_true]
    exact hmap _ h
  · have hno : ∀ se ∈ g.allEdges, ¬ (se.src = a ∧ se.dst = b) := by simpa using hex
    simp only [hex, Bool.false_eq_true, if_false]
    apply hmap
    rw [List.pairwise_append]
    refine ⟨h, List.pairwise_singleton _ _, ?_⟩
    intro x hx y hy
    simp only [List.mem_singleton] at hy
    subst hy
    exact hno x hx

lemma any_append_singleton (l : List DGEdge) (e : DGEdge) (p : DGEdge → Bool) :
    (l ++ [e]).any p = (l.any p || p e) := by
  simp [List.any_append]

/-- The invariant of the edge loop is kept by one round of the loop. -/
lemma buildInv_addSCCEdge {done : List DGEdge} {st : BuildState} (pdg : PDG)
    (inv : BuildInv done st) (e : DGEdge) : BuildInv (done ++ [e]) (addSCCEdge pdg st e) := by
  have inv1 := buildInv_fetchOrCreateSCC pdg inv e.src
  have inv2 := buildInv_fetchOrCreateSCC pdg inv1 e.dst
  have la : (fetchOrCreateSCC pdg (fetchOrCreateSCC pdg st e.src).1 e.dst).1.nodeSCCMap.lookup e.src
      = some (fetchOrCreateSCC pdg st e.src).2 :=
    fetchOrCreateSCC_stable pdg _ e.dst e.src _ (fetchOrCreateSCC_lookup pdg st e.src)
  have lb : (fetchOrCreateSCC pdg (fetchOrCreateSCC pdg st e.src).1 e.dst).1.nodeSCCMap.lookup e.dst
      = some (fetchOrCreateSCC pdg (fetchOrCreateSCC pdg st e.src).1 e.dst).2 :=
    fetchOrCreateSCC_lookup pdg _ e.dst
  unfold addSCCEdge
  simp only
  generalize (fetchOrCreateSCC pdg (fetchOrCreateSCC pdg st e.src).1 e.dst).1 = st2 at *
  generalize (fetchOrCreateSCC pdg (fetchOrCreateSCC pdg st e.src).1 e.dst).2 = b at *
  generalize (fetchOrCreateSCC pdg st e.src).2 = a at *
  have hmapped : ∀ d ∈ done ++ [e], (st2.nodeSCCMap.lookup d.src).isSome = true ∧
      (st2.nodeSCCMap.lookup d.dst).isSome = true := by
    intro d hd
    rcases List.mem_append.mp hd with hd | hd
    · exact inv2.mapped d hd
    · simp only [List.mem_singleton] at hd
      subst hd
      rw [la, lb]
      exact ⟨rfl, rfl⟩
  split_ifs with hc
  · -- the edge is ignored
    refine ⟨inv2.ids, inv2.mapSound, hmapped, inv2.ends, inv2.unique,
      inv2.flags, ?_, ?_⟩
    · intro d hd a' b' h1 h2 hab hx
      rcases List.mem_append.mp hd with hd | hd
      · exact inv2.covered d hd a' b' h1 h2 hab hx
      · simp only [List.mem_singleton] at hd
        subst hd
        rw [la] at h1
        rw [lb] at h2
        injection h1 with h1
        injection h2 with h2
        subst h1 h2
        exfalso
        simp only [Bool.or_eq_true, Bool.and_eq_true, beq_iff_eq] at hc
        rcases hc with hc | hc
        · exact hx hc
        · exact hab hc
    · intro se hse
      obtain ⟨h1, h2⟩ := inv2.origin se hse
      refine ⟨h1, fun d hd => ?_⟩
      obtain ⟨d1, d2, d3⟩ := h2 d hd
      exact ⟨List.mem_append_left _ d1, d2, d3⟩
  · -- the edge is added to the edge between the two SCCs
    simp only [Bool.or_eq_true, Bool.and_eq_true, beq_iff_eq, not_or] at hc
    obtain ⟨hx, hab⟩ := hc
    obtain ⟨A, hA, hAid, -⟩ := inv2.mapSound _ _ la
    obtain ⟨B, hB, hBid, -⟩ := inv2.mapSound _ _ lb
    have hincl : A.inclusion = true ∨ B.inclusion = true := by
      by_contra hcon
      simp only [not_or, Bool.not_eq_true] at hcon
      exact hx ⟨(isExternal_iff _ _).mpr ⟨A, hA, hAid, hcon.1⟩,
        (isExternal_iff _ _).mpr ⟨B, hB, hBid, hcon.2⟩⟩
    have hmem := mem_edges_after_merge st2.sccDG a b e
    have hnodes : ((st2.sccDG.createEdgeFromTo a b).updateEdge a b
        (fun sccEdge => (sccEdge.setMemMustRaw e.memory e.must e.raw).addSubEdge e)).allNodes
          = st2.sccDG.allNodes := by
      unfold SCCDG.createEdgeFromTo SCCDG.updateEdge
      split <;> rfl
    have hext : ∀ i, ((st2.sccDG.createEdgeFromTo a b).updateEdge a b
        (fun sccEdge => (sccEdge.setMemMustRaw e.memory e.must e.raw).addSubEdge e)).isExternal i
          = st2.sccDG.isExternal i := by
      intro i
      unfold SCCDG.isExternal
      rw [hnodes]
    refine ⟨?_, ?_, hmapped, ?_, pairwise_edges_after_merge _ a b e inv2.unique, ?_, ?_, ?_⟩
    · show List.map _ (SCCDG.allNodes _) = List.range (SCCDG.allNodes _).length
      rw [hnodes]; exact inv2.ids
    · intro v i h
      show ∃ n ∈ SCCDG.allNodes _, _
      rw [hnodes]; exact inv2.mapSound v i h
    · intro se' hse'
      show _ ∧ ∃ x ∈ SCCDG.allNodes _, ∃ y ∈ SCCDG.allNodes _, _
      rw [hnodes]
      rcases (hmem se').mp hse' with ⟨h1, _⟩ | ⟨se, hse, _, _, rfl⟩ | ⟨_, rfl⟩
      · exact inv2.ends se' h1
      · exact inv2.ends se hse
      · exact ⟨hab, A, hA, B, hB, hAid, hBid, hincl⟩
    · intro se' hse'
      rcases (hmem se').mp hse' with ⟨h1, _⟩ | ⟨se, hse, _, _, rfl⟩ | ⟨_, rfl⟩
      · exact inv2.flags se' h1
      · obtain ⟨f1, f2, f3⟩ := inv2.flags se hse
        obtain ⟨_, _, s3, s4, s5, s6⟩ := setMemMustRaw_addSubEdge_ends se e
        rw [s3, s4, s5, s6, any_append_singleton, any_append_singleton, any_append_singleton,
          ← f1, ← f2, ← f3]
        exact ⟨rfl, rfl, rfl⟩
      · simp
    · intro d hd a' b' h1 h2 hab' hx'
      show ∃ se ∈ SCCDG.allEdges _, _
      rw [hext, hext] at hx'
      rcases List.mem_append.mp hd with hd | hd
      · obtain ⟨se, hse, s1, s2, s3⟩ := inv2.covered d hd a' b' h1 h2 hab' hx'
        by_cases hm : se.src = a ∧ se.dst = b
        · refine ⟨(se.setMemMustRaw e.memory e.must e.raw).addSubEdge e,
            (hmem _).mpr (Or.inr (Or.inl ⟨se, hse, hm.1, hm.2, rfl⟩)), s1, s2, ?_⟩
          exact List.mem_append_left _ s3
        · exact ⟨se, (hmem _).mpr (Or.inl ⟨hse, hm⟩), s1, s2, s3⟩
      · simp only [List.mem_singleton] at hd
        subst hd
        rw [la] at h1
        rw [lb] at h2
        injection h1 with h1
        injection h2 with h2
        subst h1 h2
        by_cases hex : ∃ se ∈ st2.sccDG.allEdges, se.src = a ∧ se.dst = b
        · obtain ⟨se, hse, s1, s2⟩ := hex
          refine ⟨(se.setMemMustRaw d.memory d.must d.raw).addSubEdge d,
            (hmem _).mpr (Or.inr (Or.inl ⟨se, hse, s1, s2, rfl⟩)), s1, s2, ?_⟩
          exact List.mem_append_right _ (List.mem_singleton_self _)
        · have hno : ∀ se ∈ st2.sccDG.allEdges, ¬ (se.src = a ∧ se.dst = b) := by
            intro se hse hh
            exact hex ⟨se, hse, hh⟩
          exact ⟨_, (hmem _).mpr (Or.inr (Or.inr ⟨hno, rfl⟩)), rfl, rfl,
            List.mem_singleton_self _⟩
    · intro se' hse'
      rcases (hmem se').mp hse' with ⟨h1, _⟩ | ⟨se, hse, s1, s2, rfl⟩ | ⟨_, rfl⟩
      · obtain ⟨o1, o2⟩ := inv2.origin se' h1
        refine ⟨o1, fun d hd => ?_⟩
        obtain ⟨d1, d2, d3⟩ := o2 d hd
        exact ⟨List.mem_append_left _ d1, d2, d3⟩
      · obtain ⟨o1, o2⟩ := inv2.origin se hse
        refine ⟨by simp [SCCEdge.addSubEdge], fun d hd => ?_⟩
        have hd' : d ∈ se.subEdges ++ [e] := hd
        rcases List.mem_append.mp hd' with hd' | hd'
        · obtain ⟨d1, d2, d3⟩ := o2 d hd'
          exact ⟨List.mem_append_left _ d1, d2, d3⟩
        · simp only [List.mem_singleton] at hd'
          subst hd'
          refine ⟨List.mem_append_right _ (List.mem_singleton_self _), ?_, ?_⟩
          · show _ = some se.src
            rw [s1]; exact la
          · show _ = some se.dst
            rw [s2]; exact lb
      · refine ⟨by simp, fun d hd => ?_⟩
        simp only [List.mem_singleton] at hd
        subst hd
        exact ⟨List.mem_append_right _ (List.mem_singleton_self _), la, lb⟩

lemma mapComplete_addSCCEdge (pdg : PDG) (st : BuildState) (h : MapComplete st) (e : DGEdge) :
    MapComplete (addSCCEdge pdg st e) := by
  have h2 := mapComplete_fetchOrCreateSCC pdg _ (mapComplete_fetchOrCreateSCC pdg st h e.src) e.dst
  unfold addSCCEdge
  simp only
  split_ifs
  · exact h2
  · intro n hn
    have hn' : n ∈ (fetchOrCreateSCC pdg (fetchOrCreateSCC pdg st e.src).1 e.dst).1.sccDG.allNodes := by
      unfold SCCDG.createEdgeFromTo SCCDG.updateEdge at hn
      split at hn <;> exact hn
    exact h2 n hn'
/-! ## The inclusion nodes: components and SCCs partition the internal nodes -/

lemma classesAux_flatten_perm (rel : Nat → Nat → Bool) (fuel : Nat) (l : List Nat)
    (h : l.length ≤ fuel) : (classesAux rel fuel l).flatten.Perm l := by
  induction fuel generalizing l with
  | zero =>
    have : l = [] := List.length_eq_zero.mp (Nat.le_zero.mp h)
    subst this
    simp [classesAux]
  | succ fuel ih =>
    cases l with
    | nil => simp [classesAux]
    | cons x xs =>
      simp only [classesAux, List.flatten_cons, List.cons_append]
      apply List.Perm.cons
      have hlen : (xs.filter (fun y => !rel x y)).length ≤ fuel := by
        have := List.length_filter_le (fun y => !rel x y) xs
        simp only [List.length_cons] at h
        omega
      refine (List.Perm.append_left _ (ih _ hlen)).trans ?_
      exact List.filter_append_perm (fun y => rel x y) xs

lemma classes_flatten_perm (rel : Nat → Nat → Bool) (l : List Nat) :
    (classes rel l).flatten.Perm l :=
  classesAux_flatten_perm rel l.length l (le_refl _)

lemma collectConnectedComponents_flatten_perm (pdg : PDG) :
    pdg.collectConnectedComponents.flatten.Perm pdg.internalNodes :=
  classes_flatten_perm _ _

lemma sccs_perm_classes (g : PDG) :
    g.sccs.Perm (classes
      (fun a b => decide (b ∈ reachFrom (g.edgePairsWithin g.internalNodes)
          g.internalNodes.length [a]) &&
        decide (a ∈ reachFrom (g.edgePairsWithin g.internalNodes) g.internalNodes.length [b]))
      g.internalNodes) :=
  List.perm_insertionSort _ _

lemma sccs_flatten_perm (g : PDG) : g.sccs.flatten.Perm g.internalNodes :=
  (sccs_perm_classes g).flatten.trans (classes_flatten_perm _ _)

lemma flatMap_sccs_flatten_perm (pdg : PDG) (comps : List (List Nat)) :
    (comps.flatMap
      (fun c => (pdg.extractNodesFromSelfInto c c.head?).sccs)).flatten.Perm comps.flatten := by
  induction comps with
  | nil => simp
  | cons c cs ih =>
    simp only [List.flatMap_cons, List.flatten_append, List.flatten_cons]
    exact List.Perm.append (sccs_flatten_perm _) ih

lemma inclusionSCCs_flatten_perm (pdg : PDG) :
    (inclusionSCCs pdg).flatten.Perm pdg.internalNodes :=
  (flatMap_sccs_flatten_perm pdg _).trans (collectConnectedComponents_flatten_perm pdg)

lemma foldl_createNodeFrom_spec (mk : List Nat → SCC) (hmk : ∀ l, (mk l).nodes = l)
    (l : List (List Nat)) (g : SCCDG)
    (hids : g.allNodes.map (fun n => n.id) = List.range g.allNodes.length) :
    let g' := l.foldl (fun sccDG nodes => sccDG.createNodeFrom (mk nodes) true) g
    g'.allEdges = g.allEdges ∧
    g'.allNodes.map (fun n => n.id) = List.range g'.allNodes.length ∧
    g'.allNodes.map (fun n => n.scc.nodes) = g.allNodes.map (fun n => n.scc.nodes) ++ l ∧
    ((∀ n ∈ g.allNodes, n.inclusion = true) → ∀ n ∈ g'.allNodes, n.inclusion = true) := by
  induction l generalizing g with
  | nil => simp [hids]
  | cons x xs ih =>
    simp only [List.foldl_cons]
    obtain ⟨i1, i2, i3, i4⟩ := ih (g.createNodeFrom (mk x) true) (ids_createNodeFrom hids _ _)
    refine ⟨i1, i2, ?_, ?_⟩
    · rw [i3]
      simp [SCCDG.createNodeFrom, hmk]
    · intro h
      apply i4
      intro n hn
      simp only [SCCDG.createNodeFrom, List.mem_append, List.mem_singleton] at hn
      rcases hn with hn | rfl
      · exact h n hn
      · rfl

lemma createInclusionNodes_aux (pdg : PDG) (comps : List (List Nat)) (g : SCCDG)
    (hids : g.allNodes.map (fun n => n.id) = List.range g.allNodes.length) :
    let g' := comps.foldl
      (fun sccDG componentNodes =>
        (pdg.extractNodesFromSelfInto componentNodes componentNodes.head?).sccs.foldl
          (fun sccDG nodes => sccDG.createNodeFrom
            (SCC.ofNodes (pdg.extractNodesFromSelfInto componentNodes componentNodes.head?) nodes)
            true)
          sccDG) g
    g'.allEdges = g.allEdges ∧
    g'.allNodes.map (fun n => n.id) = List.range g'.allNodes.length ∧
    g'.allNodes.map (fun n => n.scc.nodes) = g.allNodes.map (fun n => n.scc.nodes) ++
      comps.flatMap (fun c => (pdg.extractNodesFromSelfInto c c.head?).sccs) ∧
    ((∀ n ∈ g.allNodes, n.inclusion = true) → ∀ n ∈ g'.allNodes, n.inclusion = true) := by
  induction comps generalizing g with
  | nil => simp [hids]
  | cons c cs ih =>
    simp only [List.foldl_cons]
    obtain ⟨j1, j2, j3, j4⟩ := foldl_createNodeFrom_spec
      (SCC.ofNodes (pdg.extractNodesFromSelfInto c c.head?)) (fun _ => rfl)
      (pdg.extractNodesFromSelfInto c c.head?).sccs g hids
    obtain ⟨i1, i2, i3, i4⟩ := ih _ j2
    refine ⟨i1.trans j1, i2, ?_, fun h => i4 (j4 h)⟩
    rw [i3, j3]
    simp

/-- The graph after lines 27-42: no edge, SCC objects numbered in creation order, one inclusion
node for every SCC of every component. -/
lemma createInclusionNodes_spec (pdg : PDG) :
    (createInclusionNodes pdg).allEdges = [] ∧
    (createInclusionNodes pdg).allNodes.map (fun n => n.id)
      = List.range (createInclusionNodes pdg).allNodes.length ∧
    (createInclusionNodes pdg).allNodes.map (fun n => n.scc.nodes) = inclusionSCCs pdg ∧
    (∀ n ∈ (createInclusionNodes pdg).allNodes, n.inclusion = true) := by
  obtain ⟨i1, i2, i3, i4⟩ := createInclusionNodes_aux pdg pdg.collectConnectedComponents
    { allNodes := [], allEdges := [] } rfl
  refine ⟨i1, i2, ?_, i4 (by simp)⟩
  simpa [inclusionSCCs] using i3
/-! ## `nodeSCCMap` and the state before the edge loop -/

lemma mem_of_lookup_eq_some {β : Type} (m : List (Nat × β)) (v : Nat) (i : β)
    (h : m.lookup v = some i) : (v, i) ∈ m := by
  induction m with
  | nil => simp at h
  | cons p m ih =>
    obtain ⟨k, b⟩ := p
    by_cases hk : v = k
    · subst hk
      rw [lookup_cons_self] at h
      injection h with h
      subst h
      exact List.mem_cons_self _ _
    · rw [lookup_cons_ne _ _ _ _ hk] at h
      exact List.mem_cons_of_mem _ (ih h)

lemma lookup_eq_some_of_unique {β : Type} (m : List (Nat × β)) (v : Nat) (i : β)
    (h : (v, i) ∈ m) (hu : ∀ j, (v, j) ∈ m → j = i) : m.lookup v = some i := by
  induction m with
  | nil => simp at h
  | cons p m ih =>
    obtain ⟨k, b⟩ := p
    by_cases hk : v = k
    · subst hk
      rw [lookup_cons_self, hu b (List.mem_cons_self _ _)]
    · rw [lookup_cons_ne _ _ _ _ hk]
      apply ih
      · rcases List.mem_cons.mp h with h | h
        · injection h with h1 _
          exact absurd h1 hk
        · exact h
      · intro j hj
        exact hu j (List.mem_cons_of_mem _ hj)

lemma mem_foldl_cons_pairs (id : Nat) (nodes : List Nat) (m : List (Nat × Nat)) (v i : Nat) :
    (v, i) ∈ nodes.foldl (fun m node => (node, id) :: m) m ↔
      (v, i) ∈ m ∨ (i = id ∧ v ∈ nodes) := by
  induction nodes generalizing m with
  | nil => simp
  | cons x xs ih =>
    rw [List.foldl_cons, ih]
    simp only [List.mem_cons, Prod.mk.injEq]
    constructor
    · rintro ((⟨rfl, rfl⟩ | h) | ⟨h1, h2⟩)
      · exact Or.inr ⟨rfl, Or.inl rfl⟩
      · exact Or.inl h
      · exact Or.inr ⟨h1, Or.inr h2⟩
    · rintro (h | ⟨h1, rfl | h2⟩)
      · exact Or.inl (Or.inr h)
      · exact Or.inl (Or.inl ⟨rfl, h1⟩)
      · exact Or.inr ⟨h1, h2⟩

lemma mem_foldl_nodeSCCMap (l : List SCCNode) (m : List (Nat × Nat)) (v i : Nat) :
    (v, i) ∈ l.foldl
        (fun m sccNode => sccNode.scc.nodes.foldl (fun m node => (node, sccNode.id) :: m) m) m ↔
      (v, i) ∈ m ∨ ∃ n ∈ l, n.id = i ∧ v ∈ n.scc.nodes := by
  induction l generalizing m with
  | nil => simp
  | cons x xs ih =>
    rw [List.foldl_cons, ih, mem_foldl_cons_pairs]
    constructor
    · rintro ((h | ⟨h1, h2⟩) | ⟨n, hn, h⟩)
      · exact Or.inl h
      · exact Or.inr ⟨x, List.mem_cons_self _ _, h1.symm, h2⟩
      · exact Or.inr ⟨n, List.mem_cons_of_mem _ hn, h⟩
    · rintro (h | ⟨n, hn, h1, h2⟩)
      · exact Or.inl (Or.inl h)
      · rcases List.mem_cons.mp hn with rfl | hn
        · exact Or.inl (Or.inr ⟨h1.symm, h2⟩)
        · exact Or.inr ⟨n, hn, h1, h2⟩

lemma mem_buildNodeSCCMap (g : SCCDG) (v i : Nat) :
    (v, i) ∈ buildNodeSCCMap g ↔ ∃ n ∈ g.allNodes, n.id = i ∧ v ∈ n.scc.nodes := by
  unfold buildNodeSCCMap
  rw [mem_foldl_nodeSCCMap]
  simp

/-- In a graph whose SCCs have pairwise disjoint node lists, a node lies in one SCC only. -/
lemma node_unique_of_nodup (l : List SCCNode)
    (hnd : (l.map (fun n => n.scc.nodes)).flatten.Nodup) (a b : SCCNode) (ha : a ∈ l)
    (hb : b ∈ l) (v : Nat) (hva : v ∈ a.scc.nodes) (hvb : v ∈ b.scc.nodes) : a = b := by
  by_contra hab
  have hpw := (List.nodup_flatten.mp hnd).2
  rw [List.pairwise_map] at hpw
  have hsymm : Symmetric (fun a b : SCCNode => List.Disjoint a.scc.nodes b.scc.nodes) :=
    fun _ _ h => h.symm
  exact hpw.forall hsymm ha hb hab hva hvb

/-- The invariant of the edge loop holds when the loop starts. -/
lemma buildInv_init (pdg : PDG) :
    BuildInv [] { sccDG := createInclusionNodes pdg,
                  nodeSCCMap := buildNodeSCCMap (createInclusionNodes pdg) } := by
  obtain ⟨h1, h2, h3, h4⟩ := createInclusionNodes_spec pdg
  refine ⟨h2, ?_, by simp, by simp [h1], by simp [h1], by simp [h1], by simp, by simp [h1]⟩
  intro v i h
  exact (mem_buildNodeSCCMap _ v i).mp (mem_of_lookup_eq_some _ v i h)

/-- When the internal nodes of the PDG are pairwise distinct, `nodeSCCMap` sends every node of
an SCC to that SCC when the edge loop starts. -/
lemma mapComplete_init (pdg : PDG) (hnd : pdg.internalNodes.Nodup) :
    MapComplete { sccDG := createInclusionNodes pdg,
                  nodeSCCMap := buildNodeSCCMap (createInclusionNodes pdg) } := by
  obtain ⟨h1, h2, h3, h4⟩ := createInclusionNodes_spec pdg
  have hflat : ((createInclusionNodes pdg).allNodes.map (fun n => n.scc.nodes)).flatten.Nodup := by
    rw [h3]
    exact (inclusionSCCs_flatten_perm pdg).nodup_iff.mpr hnd
  intro n hn v hv
  apply lookup_eq_some_of_unique
  · exact (mem_buildNodeSCCMap _ v n.id).mpr ⟨n, hn, rfl, hv⟩
  · intro j hj
    obtain ⟨n', hn', hid, hv'⟩ := (mem_buildNodeSCCMap _ v j).mp hj
    rw [← hid, node_unique_of_nodup _ hflat n' n hn' hn v hv' hv]

lemma buildInv_foldl (pdg : PDG) (l done : List DGEdge) (st : BuildState)
    (inv : BuildInv done st) : BuildInv (done ++ l) (l.foldl (addSCCEdge pdg) st) := by
  induction l generalizing done st with
  | nil => simpa using inv
  | cons e es ih =>
    rw [List.foldl_cons]
    have := ih (done ++ [e]) _ (buildInv_addSCCEdge pdg inv e)
    simpa using this

/-- The invariant of the edge loop holds when `createSCCGraphFrom` returns. -/
lemma buildInv_final (pdg : PDG) : BuildInv pdg.edges (createSCCGraphState pdg) := by
  have := buildInv_foldl pdg pdg.edges [] _ (buildInv_init pdg)
  simpa [createSCCGraphState] using this

lemma mapComplete_foldl (pdg : PDG) (l : List DGEdge) (st : BuildState) (h : MapComplete st) :
    MapComplete (l.foldl (addSCCEdge pdg) st) := by
  induction l generalizing st with
  | nil => exact h
  | cons e es ih =>
    rw [List.foldl_cons]
    exact ih _ (mapComplete_addSCCEdge pdg st h e)

lemma mapComplete_final (pdg : PDG) (hnd : pdg.internalNodes.Nodup) :
    MapComplete (createSCCGraphState pdg) :=
  mapComplete_foldl pdg pdg.edges _ (mapComplete_init pdg hnd)

lemma createSCCGraphFrom_eq (pdg : PDG) :
    SCCDG.createSCCGraphFrom pdg = (createSCCGraphState pdg).sccDG := rfl

/-! ## Components and SCCs of a PDG -/

lemma mem_edgePairsWithin (pdg : PDG) (nodes : List Nat) (a b : Nat) :
    (a, b) ∈ pdg.edgePairsWithin nodes ↔
      ∃ e ∈ pdg.edges, e.src = a ∧ e.dst = b ∧ a ∈ nodes ∧ b ∈ nodes := by
  unfold PDG.edgePairsWithin
  simp only [List.mem_map, List.mem_filter, Bool.and_eq_true, decide_eq_true_eq, Prod.mk.injEq]
  constructor
  · rintro ⟨e, ⟨he, h1, h2⟩, rfl, rfl⟩
    exact ⟨e, he, rfl, rfl, h1, h2⟩
  · rintro ⟨e, he, rfl, rfl, h1, h2⟩
    exact ⟨e, ⟨he, h1, h2⟩, rfl, rfl⟩

lemma edgePairsWithin_snd_mem (pdg : PDG) (nodes : List Nat) :
    ∀ p ∈ pdg.edgePairsWithin nodes, p.2 ∈ nodes := by
  rintro ⟨a, b⟩ hp
  obtain ⟨_, _, _, _, _, hb⟩ := (mem_edgePairsWithin pdg nodes a b).mp hp
  exact hb

lemma mem_symmPairs (es : List (Nat × Nat)) (a b : Nat) :
    (a, b) ∈ symmPairs es ↔ (a, b) ∈ es ∨ (b, a) ∈ es := by
  unfold symmPairs
  simp only [List.mem_append, List.mem_map, Prod.swap, Prod.mk.injEq, Prod.exists]
  constructor
  · rintro (h | ⟨x, y, h, rfl, rfl⟩)
    · exact Or.inl h
    · exact Or.inr h
  · rintro (h | h)
    · exact Or.inl h
    · exact Or.inr ⟨b, a, h, rfl, rfl⟩

/-- A connected component holds every internal node joined by an edge, in either direction, to
one of its nodes. -/
lemma component_closed (pdg : PDG) (c : List Nat) (hc : c ∈ pdg.collectConnectedComponents)
    (e : DGEdge) (he : e ∈ pdg.edges) (hs : e.src ∈ pdg.internalNodes)
    (hd : e.dst ∈ pdg.internalNodes) : e.src ∈ c ↔ e.dst ∈ c := by
  have hes : ∀ p ∈ symmPairs (pdg.edgePairsWithin pdg.internalNodes), p.2 ∈ pdg.internalNodes := by
    rintro ⟨a, b⟩ hp
    rcases (mem_symmPairs _ a b).mp hp with h | h
    · obtain ⟨_, _, _, _, _, hb⟩ := (mem_edgePairsWithin pdg _ a b).mp h
      exact hb
    · obtain ⟨_, _, _, _, hb, _⟩ := (mem_edgePairsWithin pdg _ b a).mp h
      exact hb
  have key := classesAux_closed
    (fun a b => decide (b ∈ reachFrom (symmPairs (pdg.edgePairsWithin pdg.internalNodes))
      pdg.internalNodes.length [a]))
    (fun a b => (a, b) ∈ symmPairs (pdg.edgePairsWithin pdg.internalNodes))
    pdg.internalNodes
    (by
      intro a b h
      rw [mem_symmPairs] at h ⊢
      exact h.symm)
    (by
      intro x
      simp only [decide_eq_true_eq]
      exact subset_reachFrom _ _ _ (List.mem_singleton_self x))
    (by
      intro x hx u v h1 h2
      simp only [decide_eq_true_eq] at h1 ⊢
      rw [mem_reachFrom_iff _ _ hes x hx] at h1 ⊢
      exact Relation.ReflTransGen.tail h1 h2)
    pdg.internalNodes.length pdg.internalNodes (fun _ h => h) c hc
  have hpair : (e.src, e.dst) ∈ pdg.edgePairsWithin pdg.internalNodes :=
    (mem_edgePairsWithin pdg _ _ _).mpr ⟨e, he, rfl, rfl, hs, hd⟩
  constructor
  · intro hu
    exact key e.src e.dst hu ((mem_symmPairs _ _ _).mpr (Or.inl hpair)) hd
  · intro hv
    exact key e.dst e.src hv ((mem_symmPairs _ _ _).mpr (Or.inr hpair)) hs

lemma component_subset (pdg : PDG) (c : List Nat) (hc : c ∈ pdg.collectConnectedComponents) :
    c ⊆ pdg.internalNodes :=
  classesAux_subset _ _ _ c hc

lemma list_unique_of_nodup_flatten (L : List (List Nat)) (hnd : L.flatten.Nodup)
    (C D : List Nat) (hC : C ∈ L) (hD : D ∈ L) (v : Nat) (hvC : v ∈ C) (hvD : v ∈ D) :
    C = D := by
  by_contra hne
  have hpw := (List.nodup_flatten.mp hnd).2
  have hsymm : Symmetric (fun a b : List Nat => List.Disjoint a b) := fun _ _ h => h.symm
  exact hpw.forall hsymm hC hD hne hvC hvD

lemma component_unique (pdg : PDG) (hnd : pdg.internalNodes.Nodup) (c d : List Nat)
    (hc : c ∈ pdg.collectConnectedComponents) (hd : d ∈ pdg.collectConnectedComponents)
    (v : Nat) (hvc : v ∈ c) (hvd : v ∈ d) : c = d :=
  list_unique_of_nodup_flatten _
    ((collectConnectedComponents_flatten_perm pdg).nodup_iff.mpr hnd) c d hc hd v hvc hvd

lemma componentPairs_of_edge (pdg : PDG) (c : List Nat) (e : DGEdge) (he : e ∈ pdg.edges)
    (hs : e.src ∈ c) (hd : e.dst ∈ c) : EdgeRel (componentPairs pdg c) e.src e.dst := by
  unfold EdgeRel componentPairs
  rw [mem_edgePairsWithin]
  refine ⟨e, ?_, rfl, rfl, hs, hd⟩
  simp only [PDG.extractNodesFromSelfInto, List.mem_filter, Bool.or_eq_true, decide_eq_true_eq]
  exact ⟨he, Or.inl hs⟩

lemma mem_sccs_iff (pdg : PDG) (c C : List Nat) :
    C ∈ (pdg.extractNodesFromSelfInto c c.head?).sccs ↔
      C ∈ classes
        (fun a b => decide (b ∈ reachFrom (componentPairs pdg c) c.length [a]) &&
          decide (a ∈ reachFrom (componentPairs pdg c) c.length [b])) c :=
  (sccs_perm_classes (pdg.extractNodesFromSelfInto c c.head?)).mem_iff

lemma sccRel_iff (pdg : PDG) (c : List Nat) (a b : Nat) (ha : a ∈ c) (hb : b ∈ c) :
    (decide (b ∈ reachFrom (componentPairs pdg c) c.length [a]) &&
      decide (a ∈ reachFrom (componentPairs pdg c) c.length [b])) = true ↔
    Relation.ReflTransGen (EdgeRel (componentPairs pdg c)) a b ∧
      Relation.ReflTransGen (EdgeRel (componentPairs pdg c)) b a := by
  have hes : ∀ p ∈ componentPairs pdg c, p.2 ∈ c := edgePairsWithin_snd_mem _ _
  simp only [Bool.and_eq_true, decide_eq_true_eq]
  rw [mem_reachFrom_iff _ _ hes a ha, mem_reachFrom_iff _ _ hes b hb]

/-- An SCC of a component is a non-empty list of nodes of the component, each of which reaches
the first node and is reached from it along edges inside the component. -/
lemma scc_members (pdg : PDG) (c C : List Nat)
    (hC : C ∈ (pdg.extractNodesFromSelfInto c c.head?).sccs) :
    ∃ x, C.head? = some x ∧ x ∈ c ∧ ∀ y ∈ C, y ∈ c ∧
      Relation.ReflTransGen (EdgeRel (componentPairs pdg c)) x y ∧
      Relation.ReflTransGen (EdgeRel (componentPairs pdg c)) y x := by
  rw [mem_sccs_iff] at hC
  obtain ⟨x, rest, rfl, hx, hrest⟩ := classesAux_class _ _ _ C hC
  refine ⟨x, rfl, hx, ?_⟩
  intro y hy
  rcases List.mem_cons.mp hy with rfl | hy
  · exact ⟨hx, Relation.ReflTransGen.refl, Relation.ReflTransGen.refl⟩
  · obtain ⟨h1, h2⟩ := hrest y hy
    exact ⟨h2, (sccRel_iff pdg c x y hx h2).mp h1⟩

lemma pairwise_either {α : Type} {R : α → α → Prop} {l : List α} (h : l.Pairwise R) {a b : α}
    (ha : a ∈ l) (hb : b ∈ l) (hne : a ≠ b) : R a b ∨ R b a := by
  have h' : l.Pairwise (fun a b => R a b ∨ R b a) := h.imp (fun h => Or.inl h)
  exact h'.forall (fun _ _ h => h.symm) ha hb hne

/-- The first nodes of two different SCCs of a component do not reach each other. -/
lemma scc_heads_apart (pdg : PDG) (c C D : List Nat)
    (hC : C ∈ (pdg.extractNodesFromSelfInto c c.head?).sccs)
    (hD : D ∈ (pdg.extractNodesFromSelfInto c c.head?).sccs) (hne : C ≠ D) (x y : Nat)
    (hx : C.head? = some x) (hy : D.head? = some y)
    (hxy : Relation.ReflTransGen (EdgeRel (componentPairs pdg c)) x y)
    (hyx : Relation.ReflTransGen (EdgeRel (componentPairs pdg c)) y x) : False := by
  obtain ⟨x', hx', hxc, _⟩ := scc_members pdg c C hC
  obtain ⟨y', hy', hyc, _⟩ := scc_members pdg c D hD
  rw [hx] at hx'
  rw [hy] at hy'
  injection hx' with hx'
  injection hy' with hy'
  subst hx' hy'
  rw [mem_sccs_iff] at hC hD
  have hpw := classesAux_pairwise
    (fun a b => decide (b ∈ reachFrom (componentPairs pdg c) c.length [a]) &&
      decide (a ∈ reachFrom (componentPairs pdg c) c.length [b])) c.length c
  have hyD : y ∈ D := List.mem_of_mem_head? hy
  have hxC : x ∈ C := List.mem_of_mem_head? hx
  rcases pairwise_either hpw hC hD hne with h | h
  · have := h x hx y hyD
    rw [(sccRel_iff pdg c x y hxc hyc).mpr ⟨hxy, hyx⟩] at this
    exact absurd this (by simp)
  · have := h y hy x hxC
    rw [(sccRel_iff pdg c y x hyc hxc).mpr ⟨hyx, hxy⟩] at this
    exact absurd this (by simp)
/-! ## The nodes added by the edge loop are external singletons -/

lemma fetchOrCreateSCC_nodes (pdg : PDG) (st : BuildState) (v : Nat) :
    ∃ extras, (fetchOrCreateSCC pdg st v).1.sccDG.allNodes = st.sccDG.allNodes ++ extras ∧
      ∀ n ∈ extras, n.inclusion = false ∧ ∃ w, n.scc.nodes = [w] := by
  cases hv : st.nodeSCCMap.lookup v with
  | some i =>
    rw [fetchOrCreateSCC_some pdg st v i hv]
    exact ⟨[], by simp, by simp⟩
  | none =>
    rw [fetchOrCreateSCC_none pdg st v hv]
    refine ⟨[_], rfl, ?_⟩
    intro n hn
    simp only [List.mem_singleton] at hn
    subst hn
    exact ⟨rfl, v, rfl⟩

lemma addSCCEdge_nodes (pdg : PDG) (st : BuildState) (e : DGEdge) :
    ∃ extras, (addSCCEdge pdg st e).sccDG.allNodes = st.sccDG.allNodes ++ extras ∧
      ∀ n ∈ extras, n.inclusion = false ∧ ∃ w, n.scc.nodes = [w] := by
  obtain ⟨x1, h1, f1⟩ := fetchOrCreateSCC_nodes pdg st e.src
  obtain ⟨x2, h2, f2⟩ := fetchOrCreateSCC_nodes pdg (fetchOrCreateSCC pdg st e.src).1 e.dst
  have hall : ∀ n ∈ x1 ++ x2, n.inclusion = false ∧ ∃ w, n.scc.nodes = [w] := by
    intro n hn
    rcases List.mem_append.mp hn with hn | hn
    · exact f1 n hn
    · exact f2 n hn
  refine ⟨x1 ++ x2, ?_, hall⟩
  unfold addSCCEdge
  simp only
  split_ifs
  · rw [h2, h1, List.append_assoc]
  · have : ∀ g : SCCDG, ∀ a b f, ((g.createEdgeFromTo a b).updateEdge a b f).allNodes
        = g.allNodes := by
      intro g a b f
      unfold SCCDG.createEdgeFromTo SCCDG.updateEdge
      split <;> rfl
    show SCCDG.allNodes _ = _
    rw [this, h2, h1, List.append_assoc]

lemma foldl_addSCCEdge_nodes (pdg : PDG) (l : List DGEdge) (st : BuildState) :
    ∃ extras, (l.foldl (addSCCEdge pdg) st).sccDG.allNodes = st.sccDG.allNodes ++ extras ∧
      ∀ n ∈ extras, n.inclusion = false ∧ ∃ w, n.scc.nodes = [w] := by
  induction l generalizing st with
  | nil => exact ⟨[], by simp, by simp⟩
  | cons e es ih =>
    rw [List.foldl_cons]
    obtain ⟨x1, h1, f1⟩ := addSCCEdge_nodes pdg st e
    obtain ⟨x2, h2, f2⟩ := ih (addSCCEdge pdg st e)
    refine ⟨x1 ++ x2, by rw [h2, h1, List.append_assoc], ?_⟩
    intro n hn
    rcases List.mem_append.mp hn with hn | hn
    · exact f1 n hn
    · exact f2 n hn

/-- The inclusion nodes of the graph returned by `createSCCGraphFrom` are the nodes created by
lines 27-42, in the same order. -/
lemma createSCCGraphFrom_inclusion_nodes (pdg : PDG) :
    (SCCDG.createSCCGraphFrom pdg).allNodes.filter (fun n => n.inclusion)
      = (createInclusionNodes pdg).allNodes := by
  obtain ⟨extras, h, f⟩ := foldl_addSCCEdge_nodes pdg pdg.edges
    { sccDG := createInclusionNodes pdg,
      nodeSCCMap := buildNodeSCCMap (createInclusionNodes pdg) }
  obtain ⟨_, _, _, hincl⟩ := createInclusionNodes_spec pdg
  have h' : (SCCDG.createSCCGraphFrom pdg).allNodes
      = (createInclusionNodes pdg).allNodes ++ extras := h
  rw [h', List.filter_append]
  have e1 : (createInclusionNodes pdg).allNodes.filter (fun n => n.inclusion)
      = (createInclusionNodes pdg).allNodes :=
    List.filter_eq_self.mpr (fun n hn => hincl n hn)
  have e2 : extras.filter (fun n => n.inclusion) = [] := by
    rw [List.filter_eq_nil_iff]
    intro n hn
    rw [(f n hn).1]
    simp
  rw [e1, e2, List.append_nil]

lemma count_containing_eq_one (l : List SCCNode) (v : Nat)
    (hnd : (l.map (fun n => n.scc.nodes)).flatten.Nodup)
    (hv : v ∈ (l.map (fun n => n.scc.nodes)).flatten) :
    (l.filter (fun n => decide (v ∈ n.scc.nodes))).length = 1 := by
  induction l with
  | nil => simp at hv
  | cons x xs ih =>
    simp only [List.map_cons, List.flatten_cons] at hnd hv
    rw [List.nodup_append] at hnd
    obtain ⟨_, hnd2, hdisj⟩ := hnd
    by_cases hx : v ∈ x.scc.nodes
    · have hrest : xs.filter (fun n => decide (v ∈ n.scc.nodes)) = [] := by
        rw [List.filter_eq_nil_iff]
        intro n hn hc
        simp only [decide_eq_true_eq] at hc
        exact hdisj hx (List.mem_flatten.mpr ⟨_, List.mem_map_of_mem _ hn, hc⟩)
      simp [List.filter_cons, hx, hrest]
    · have hv' : v ∈ (xs.map (fun n => n.scc.nodes)).flatten := by
        rcases List.mem_append.mp hv with h | h
        · exact absurd h hx
        · exact h
      simp only [List.filter_cons, hx, decide_False, Bool.false_eq_true, if_false]
      exact ih hnd2 hv'

/-! ## No cycle among the inclusion SCCs -/

lemma transGen_restrict {α : Type} {R : α → α → Prop} {P : α → Prop}
    (h : ∀ x a y, R x a → R a y → P a) {a b : α} (hab : Relation.TransGen R a b)
    (hb : ∃ y, R b y) :
    (∃ x, R x a) → Relation.TransGen (fun u v => R u v ∧ P u ∧ P v) a b := by
  induction hab using Relation.TransGen.head_induction_on with
  | base hab =>
    rintro ⟨x, hx⟩
    obtain ⟨y, hy⟩ := hb
    exact Relation.TransGen.single ⟨hab, h x _ _ hx hab, h _ _ y hab hy⟩
  | ih hac hcb ih =>
    rintro ⟨x, hx⟩
    obtain ⟨w, hcw, _⟩ := Relation.TransGen.head'_iff.mp hcb
    exact Relation.TransGen.head ⟨hac, h x _ _ hx hac, h _ _ w hac hcw⟩ (ih ⟨_, hac⟩)

lemma pivot_exists (pdg : PDG) (a : Nat)
    (ha : (SCCDG.createSCCGraphFrom pdg).IsInclusion a) : ∃ c x, PivotOf pdg a c x := by
  obtain ⟨A, hA, hid, hincl⟩ := ha
  have hA0 : A ∈ (createInclusionNodes pdg).allNodes := by
    rw [← createSCCGraphFrom_inclusion_nodes, List.mem_filter]
    exact ⟨hA, hincl⟩
  obtain ⟨_, _, h3, _⟩ := createInclusionNodes_spec pdg
  have hmem : A.scc.nodes ∈ inclusionSCCs pdg := by
    rw [← h3]
    exact List.mem_map_of_mem (fun n => n.scc.nodes) hA0
  unfold inclusionSCCs at hmem
  rw [List.mem_flatMap] at hmem
  obtain ⟨c, hc, hC⟩ := hmem
  obtain ⟨x, hx, _⟩ := scc_members pdg c _ hC
  exact ⟨c, x, A, hA, hid, hincl, hc, hC, hx⟩

lemma pivot_unique (pdg : PDG) (hnd : pdg.internalNodes.Nodup) (a : Nat) (c d : List Nat)
    (x y : Nat) (h1 : PivotOf pdg a c x) (h2 : PivotOf pdg a d y) : c = d ∧ x = y := by
  obtain ⟨A, hA, hid, _, hc, hC, hx⟩ := h1
  obtain ⟨B, hB, hid', _, hd, hD, hy⟩ := h2
  have hAB : A = B := ids_inj (buildInv_final pdg).ids hA hB (hid.trans hid'.symm)
  subst hAB
  rw [hx] at hy
  injection hy with hy
  subst hy
  obtain ⟨x', hx', hxc, _⟩ := scc_members pdg c _ hC
  obtain ⟨y', hy', hyd, _⟩ := scc_members pdg d _ hD
  rw [hx] at hx' hy'
  injection hx' with hx'
  injection hy' with hy'
  subst hx'
  subst hy'
  exact ⟨component_unique pdg hnd c d hc hd x hxc hyd, rfl⟩

/-- An edge of the graph comes from a PDG edge between nodes of its two SCCs. -/
lemma edge_has_subEdge (pdg : PDG) (a b : Nat)
    (h : (SCCDG.createSCCGraphFrom pdg).HasEdge a b) :
    a ≠ b ∧ ∃ e ∈ pdg.edges,
      (∀ A ∈ (SCCDG.createSCCGraphFrom pdg).allNodes, A.id = a → e.src ∈ A.scc.nodes) ∧
      (∀ B ∈ (SCCDG.createSCCGraphFrom pdg).allNodes, B.id = b → e.dst ∈ B.scc.nodes) := by
  have inv := buildInv_final pdg
  obtain ⟨se, hse, rfl, rfl⟩ := h
  rw [createSCCGraphFrom_eq] at hse ⊢
  obtain ⟨o1, o2⟩ := inv.origin se hse
  obtain ⟨e, he⟩ := List.exists_mem_of_ne_nil _ o1
  obtain ⟨d1, d2, d3⟩ := o2 e he
  refine ⟨(inv.ends se hse).1, e, d1, ?_, ?_⟩
  · intro A hA hid
    obtain ⟨n, hn, h1, h2⟩ := inv.mapSound _ _ d2
    rw [ids_inj inv.ids hA hn (hid.trans h1.symm)]
    exact h2
  · intro B hB hid
    obtain ⟨n, hn, h1, h2⟩ := inv.mapSound _ _ d3
    rw [ids_inj inv.ids hB hn (hid.trans h1.symm)]
    exact h2

lemma pivot_step (pdg : PDG) (hnd : pdg.internalNodes.Nodup) (a b : Nat) (c : List Nat)
    (x : Nat) (hp : PivotOf pdg a c x)
    (hab : (SCCDG.createSCCGraphFrom pdg).HasInclusionEdge a b) :
    ∃ y, PivotOf pdg b c y ∧ Relation.ReflTransGen (EdgeRel (componentPairs pdg c)) x y := by
  obtain ⟨hedge, _, hib⟩ := hab
  obtain ⟨d, y, hq⟩ := pivot_exists pdg b hib
  obtain ⟨_, e, he, hsrc, hdst⟩ := edge_has_subEdge pdg a b hedge
  obtain ⟨A, hA, hidA, _, hc, hC, hx⟩ := id hp
  obtain ⟨B, hB, hidB, _, hd, hD, hy⟩ := id hq
  obtain ⟨x', hx', _, hCm⟩ := scc_members pdg c _ hC
  obtain ⟨y', hy', _, hDm⟩ := scc_members pdg d _ hD
  rw [hx] at hx'
  rw [hy] at hy'
  injection hx' with hx'
  injection hy' with hy'
  subst hx'
  subst hy'
  obtain ⟨s1, s2, _⟩ := hCm _ (hsrc A hA hidA)
  obtain ⟨t1, _, t3⟩ := hDm _ (hdst B hB hidB)
  have hdc : e.dst ∈ c :=
    (component_closed pdg c hc e he (component_subset pdg c hc s1)
      (component_subset pdg d hd t1)).mp s1
  have hcd : c = d := component_unique pdg hnd c d hc hd e.dst hdc t1
  subst hcd
  refine ⟨y, hq, ?_⟩
  exact (s2.tail (componentPairs_of_edge pdg c e he s1 hdc)).trans t3

lemma pivot_path (pdg : PDG) (hnd : pdg.internalNodes.Nodup) (a b : Nat) (c : List Nat)
    (x : Nat) (hp : PivotOf pdg a c x)
    (hab : Relation.ReflTransGen (SCCDG.createSCCGraphFrom pdg).HasInclusionEdge a b) :
    ∃ y, PivotOf pdg b c y ∧ Relation.ReflTransGen (EdgeRel (componentPairs pdg c)) x y := by
  induction hab with
  | refl => exact ⟨x, hp, Relation.ReflTransGen.refl⟩
  | tail _ hstep ih =>
    obtain ⟨y, hy, hxy⟩ := ih
    obtain ⟨z, hz, hyz⟩ := pivot_step pdg hnd _ _ c y hy hstep
    exact ⟨z, hz, hxy.trans hyz⟩

/-- No non-empty path of edges between inclusion SCCs leads from an SCC back to itself. -/
lemma no_inclusion_cycle (pdg : PDG) (hnd : pdg.internalNodes.Nodup) (a : Nat) :
    ¬ Relation.TransGen (SCCDG.createSCCGraphFrom pdg).HasInclusionEdge a a := by
  intro hcyc
  obtain ⟨b, hab, hba⟩ := Relation.TransGen.head'_iff.mp hcyc
  obtain ⟨c, x, hp⟩ := pivot_exists pdg a hab.2.1
  obtain ⟨y, hq, hxy⟩ := pivot_step pdg hnd a b c x hp hab
  obtain ⟨x', hp', hyx⟩ := pivot_path pdg hnd b a c y hq hba
  obtain ⟨_, hxx⟩ := pivot_unique pdg hnd a c c x x' hp hp'
  subst hxx
  obtain ⟨hne, _⟩ := edge_has_subEdge pdg a b hab.1
  obtain ⟨A, hA, hidA, _, _, hC, hx⟩ := hp
  obtain ⟨B, hB, hidB, _, _, hD, hy⟩ := hq
  have hCD : A.scc.nodes ≠ B.scc.nodes := by
    intro heq
    have hxA : x ∈ A.scc.nodes := List.mem_of_mem_head? hx
    have hxB : x ∈ B.scc.nodes := heq ▸ hxA
    have hmc := mapComplete_final pdg hnd
    have l1 := hmc A hA x hxA
    have l2 := hmc B hB x hxB
    rw [l1] at l2
    injection l2 with l2
    exact hne (hidA.symm.trans (l2.trans hidB))
  exact scc_heads_apart pdg c _ _ hC hD hCD x y hx hy hxy hyx

lemma external_singleton (pdg : PDG) (N : SCCNode)
    (hN : N ∈ (SCCDG.createSCCGraphFrom pdg).allNodes) (h : N.inclusion = false) :
    ∃ w, N.scc.nodes = [w] := by
  obtain ⟨extras, hx, f⟩ := foldl_addSCCEdge_nodes pdg pdg.edges
    { sccDG := createInclusionNodes pdg,
      nodeSCCMap := buildNodeSCCMap (createInclusionNodes pdg) }
  have hx' : (SCCDG.createSCCGraphFrom pdg).allNodes
      = (createInclusionNodes pdg).allNodes ++ extras := hx
  rw [hx'] at hN
  rcases List.mem_append.mp hN with hN | hN
  · have := (createInclusionNodes_spec pdg).2.2.2 N hN
    rw [h] at this
    exact absurd this (by simp)
  · exact (f N hN).2

lemma internal_in_inclusion (pdg : PDG) (v : Nat) (hv : v ∈ pdg.internalNodes) :
    ∃ N ∈ (SCCDG.createSCCGraphFrom pdg).allNodes, N.inclusion = true ∧ v ∈ N.scc.nodes := by
  obtain ⟨_, _, h3, _⟩ := createInclusionNodes_spec pdg
  have hperm := inclusionSCCs_flatten_perm pdg
  rw [← h3] at hperm
  have hv' := hperm.mem_iff.mpr hv
  rw [List.mem_flatten] at hv'
  obtain ⟨l, hl, hvl⟩ := hv'
  rw [List.mem_map] at hl
  obtain ⟨N, hN, rfl⟩ := hl
  rw [← createSCCGraphFrom_inclusion_nodes, List.mem_filter] at hN
  exact ⟨N, hN.1, hN.2, hvl⟩

/-- When no node outside the internal nodes of the PDG has both an incoming and an outgoing
edge, an SCC with an incoming and an outgoing edge is an inclusion SCC. -/
lemma middle_is_inclusion (pdg : PDG) (hnd : pdg.internalNodes.Nodup)
    (hext : ∀ e1 ∈ pdg.edges, ∀ e2 ∈ pdg.edges, e1.dst = e2.src → e1.dst ∈ pdg.internalNodes)
    (x a y : Nat) (hxa : (SCCDG.createSCCGraphFrom pdg).HasEdge x a)
    (hay : (SCCDG.createSCCGraphFrom pdg).HasEdge a y) :
    (SCCDG.createSCCGraphFrom pdg).IsInclusion a := by
  have inv := buildInv_final pdg
  have hmc := mapComplete_final pdg hnd
  obtain ⟨_, e1, he1, _, hd1⟩ := edge_has_subEdge pdg x a hxa
  obtain ⟨_, e2, he2, hs2, _⟩ := edge_has_subEdge pdg a y hay
  obtain ⟨se, hse, _, hdst⟩ := hxa
  obtain ⟨_, _, _, N, hN, _, hNid, _⟩ := inv.ends se hse
  rw [hdst] at hNid
  have hN' : N ∈ (SCCDG.createSCCGraphFrom pdg).allNodes := hN
  refine ⟨N, hN', hNid, ?_⟩
  by_contra hcon
  have hfalse : N.inclusion = false := by simpa using hcon
  obtain ⟨w, hw⟩ := external_singleton pdg N hN' hfalse
  have m1 := hd1 N hN' hNid
  have m2 := hs2 N hN' hNid
  rw [hw, List.mem_singleton] at m1 m2
  have hint := hext e1 he1 e2 he2 (m1.trans m2.symm)
  obtain ⟨M, hM, hMincl, hMv⟩ := internal_in_inclusion pdg e1.dst hint
  have l1 := hmc M hM _ hMv
  have l2 := hmc N hN' e1.dst (by rw [hw, List.mem_singleton]; exact m1)
  rw [l1] at l2
  injection l2 with l2
  have : M = N := ids_inj inv.ids hM hN l2
  rw [this, hfalse] at hMincl
  exact absurd hMincl (by simp)
/-! ## Consecutive pairs of a list -/

lemma zip_tail_eq_pairsOf (l : List Nat) : l.zip l.tail = pairsOf l := by
  induction l with
  | nil => rfl
  | cons x r ih =>
    cases r with
    | nil => rfl
    | cons y r' =>
      simp only [List.tail_cons, List.zip_cons_cons, pairsOf] at ih ⊢
      rw [ih]

lemma mem_pairsOf_left {l : List Nat} {p : Nat × Nat} (h : p ∈ pairsOf l) : p.1 ∈ l := by
  induction l with
  | nil => simp [pairsOf] at h
  | cons x r ih =>
    cases r with
    | nil => simp [pairsOf] at h
    | cons y r' =>
      simp only [pairsOf, List.mem_cons] at h
      rcases h with rfl | h
      · exact List.mem_cons_self _ _
      · exact List.mem_cons_of_mem _ (ih h)

lemma mem_pairsOf_right {l : List Nat} {p : Nat × Nat} (h : p ∈ pairsOf l) : p.2 ∈ l.tail := by
  induction l with
  | nil => simp [pairsOf] at h
  | cons x r ih =>
    cases r with
    | nil => simp [pairsOf] at h
    | cons y r' =>
      simp only [pairsOf, List.mem_cons] at h
      rcases h with rfl | h
      · exact List.mem_cons_self _ _
      · exact List.mem_cons_of_mem _ (ih h)

lemma pairsOf_fst_nodup {l : List Nat} (h : l.Nodup) : ((pairsOf l).map Prod.fst).Nodup := by
  induction l with
  | nil => simp [pairsOf]
  | cons x r ih =>
    cases r with
    | nil => simp [pairsOf]
    | cons y r' =>
      simp only [pairsOf, List.map_cons, List.nodup_cons]
      refine ⟨?_, ih (List.nodup_cons.mp h).2⟩
      intro hx
      obtain ⟨p, hp, rfl⟩ := List.mem_map.mp hx
      exact (List.nodup_cons.mp h).1 (mem_pairsOf_left hp)

lemma pairsOf_snd_nodup {l : List Nat} (h : l.Nodup) : ((pairsOf l).map Prod.snd).Nodup := by
  induction l with
  | nil => simp [pairsOf]
  | cons x r ih =>
    cases r with
    | nil => simp [pairsOf]
    | cons y r' =>
      simp only [pairsOf, List.map_cons, List.nodup_cons]
      refine ⟨?_, ih (List.nodup_cons.mp h).2⟩
      intro hy
      obtain ⟨p, hp, hpe⟩ := List.mem_map.mp hy
      have := mem_pairsOf_right hp
      rw [hpe] at this
      simp only [List.tail_cons] at this
      exact (List.nodup_cons.mp (List.nodup_cons.mp h).2).1 this

lemma getLast_not_mem_pairsOf_fst {l : List Nat} (h : l.Nodup) (hne : l ≠ []) :
    l.getLast hne ∉ (pairsOf l).map Prod.fst := by
  induction l with
  | nil => exact absurd rfl hne
  | cons x r ih =>
    cases r with
    | nil => simp [pairsOf]
    | cons y r' =>
      simp only [pairsOf, List.map_cons, List.mem_cons, not_or]
      rw [List.getLast_cons (List.cons_ne_nil y r')]
      constructor
      · intro heq
        have : x ∈ y :: r' := heq ▸ List.getLast_mem _
        exact (List.nodup_cons.mp h).1 this
      · exact ih (List.nodup_cons.mp h).2 (List.cons_ne_nil y r')

lemma filter_fst_eq_singleton (L : List (Nat × Nat)) (hnd : (L.map Prod.fst).Nodup)
    (a b : Nat) (h : (a, b) ∈ L) : L.filter (fun p => p.1 == a) = [(a, b)] := by
  induction L with
  | nil => simp at h
  | cons q qs ih =>
    simp only [List.map_cons, List.nodup_cons] at hnd
    rcases List.mem_cons.mp h with heq | hmem
    · subst heq
      have hrest : qs.filter (fun p => p.1 == a) = [] := by
        rw [List.filter_eq_nil_iff]
        intro p hp hc
        simp only [beq_iff_eq] at hc
        have hmem : p.1 ∈ qs.map Prod.fst := List.mem_map_of_mem Prod.fst hp
        rw [hc] at hmem
        exact hnd.1 hmem
      simp [List.filter_cons, hrest]
    · have hq : q.1 ≠ a := by
        intro hc
        exact hnd.1 (hc ▸ List.mem_map_of_mem Prod.fst hmem)
      have hq' : (q.1 == a) = false := by simpa using hq
      rw [List.filter_cons, hq']
      exact ih hnd.2 hmem

lemma filter_fst_eq_nil (L : List (Nat × Nat)) (a : Nat) (h : a ∉ L.map Prod.fst) :
    L.filter (fun p => p.1 == a) = [] := by
  rw [List.filter_eq_nil_iff]
  intro p hp hc
  simp only [beq_iff_eq] at hc
  have hmem : p.1 ∈ L.map Prod.fst := List.mem_map_of_mem Prod.fst hp
  rw [hc] at hmem
  exact h hmem

lemma filter_snd_length_le_one (L : List (Nat × Nat)) (hnd : (L.map Prod.snd).Nodup)
    (a : Nat) : (L.filter (fun p => p.2 == a)).length ≤ 1 := by
  induction L with
  | nil => simp
  | cons q qs ih =>
    simp only [List.map_cons, List.nodup_cons] at hnd
    by_cases hq : q.2 = a
    · have hrest : qs.filter (fun p => p.2 == a) = [] := by
        rw [List.filter_eq_nil_iff]
        intro p hp hc
        simp only [beq_iff_eq] at hc
        have hmem : p.2 ∈ qs.map Prod.snd := List.mem_map_of_mem Prod.snd hp
        rw [hc, ← hq] at hmem
        exact hnd.1 hmem
      simp [List.filter_cons, hq, hrest]
    · have hq' : (q.2 == a) = false := by simpa using hq
      rw [List.filter_cons, hq']
      exact ih hnd.2
/-! ## The two loops of `isPipeline` -/

lemma mem_outgoingEdges {g : SCCDG} {a : Nat} {e : SCCEdge} (h : e ∈ g.outgoingEdges a) :
    e ∈ g.allEdges ∧ e.src = a ∧ g.HasEdge a e.dst := by
  unfold SCCDG.outgoingEdges at h
  rw [List.mem_filter] at h
  simp only [beq_iff_eq] at h
  exact ⟨h.1, h.2, e, h.1, h.2, rfl⟩

lemma mem_incomingEdges {g : SCCDG} {a : Nat} {e : SCCEdge} (h : e ∈ g.incomingEdges a) :
    e ∈ g.allEdges ∧ e.dst = a ∧ g.HasEdge e.src a := by
  unfold SCCDG.incomingEdges at h
  rw [List.mem_filter] at h
  simp only [beq_iff_eq] at h
  exact ⟨h.1, h.2, e, h.1, rfl, h.2⟩

lemma length_le_of_nodup_subset {p U : List Nat} (hnd : p.Nodup) (hsub : ∀ x ∈ p, x ∈ U) :
    p.length ≤ U.length :=
  (List.subperm_of_subset hnd hsub).length_le

/-- The upward loop ends on an acyclic graph: `p` is the list of nodes left behind. -/
lemma walkToTop_isSome (g : SCCDG) (hwf : g.WellFormed) (hac : g.Acyclic) (fuel : Nat) (t : Nat)
    (p : List Nat) (hnd : p.Nodup) (hsub : ∀ x ∈ p, x ∈ g.nodeIds) (ht : t ∈ g.nodeIds)
    (htp : t ∉ p) (hreach : ∀ x ∈ p, Relation.TransGen g.HasEdge t x)
    (hlen : g.nodeIds.length ≤ p.length + fuel) : (g.walkToTop fuel t).isSome = true := by
  induction fuel generalizing t p with
  | zero =>
    have h1 : (t :: p).length ≤ g.nodeIds.length :=
      length_le_of_nodup_subset (List.nodup_cons.mpr ⟨htp, hnd⟩)
        (by
          intro x hx
          rcases List.mem_cons.mp hx with rfl | hx
          · exact ht
          · exact hsub x hx)
    simp only [List.length_cons] at h1
    omega
  | succ fuel ih =>
    unfold SCCDG.walkToTop
    split
    · rfl
    · rename_i e heq
      have he : e ∈ g.incomingEdges t := by rw [heq]; exact List.mem_singleton_self e
      obtain ⟨he1, _, he3⟩ := mem_incomingEdges he
      apply ih e.src (t :: p) (List.nodup_cons.mpr ⟨htp, hnd⟩)
      · intro x hx
        rcases List.mem_cons.mp hx with rfl | hx
        · exact ht
        · exact hsub x hx
      · exact hwf.src_mem e he1
      · intro hmem
        rcases List.mem_cons.mp hmem with heq' | hmem
        · rw [heq'] at he3
          exact hac t (Relation.TransGen.single he3)
        · exact hac t ((hreach _ hmem).tail he3)
      · intro x hx
        rcases List.mem_cons.mp hx with rfl | hx
        · exact Relation.TransGen.single he3
        · exact Relation.TransGen.head he3 (hreach x hx)
      · simp only [List.length_cons]
        omega
    · rfl

/-- The downward loop ends on an acyclic graph. -/
lemma walkToBottom_isSome (g : SCCDG) (hwf : g.WellFormed) (hac : g.Acyclic) (fuel : Nat)
    (t v : Nat) (p : List Nat) (hnd : p.Nodup) (hsub : ∀ x ∈ p, x ∈ g.nodeIds)
    (ht : t ∈ g.nodeIds) (htp : t ∉ p) (hreach : ∀ x ∈ p, Relation.TransGen g.HasEdge x t)
    (hlen : g.nodeIds.length ≤ p.length + fuel) : (g.walkToBottom fuel t v).isSome = true := by
  induction fuel generalizing t v p with
  | zero =>
    have h1 : (t :: p).length ≤ g.nodeIds.length :=
      length_le_of_nodup_subset (List.nodup_cons.mpr ⟨htp, hnd⟩)
        (by
          intro x hx
          rcases List.mem_cons.mp hx with rfl | hx
          · exact ht
          · exact hsub x hx)
    simp only [List.length_cons] at h1
    omega
  | succ fuel ih =>
    unfold SCCDG.walkToBottom
    split
    · rfl
    · rename_i e heq
      have he : e ∈ g.outgoingEdges t := by rw [heq]; exact List.mem_singleton_self e
      obtain ⟨he1, _, he3⟩ := mem_outgoingEdges he
      apply ih e.dst (v + 1) (t :: p) (List.nodup_cons.mpr ⟨htp, hnd⟩)
      · intro x hx
        rcases List.mem_cons.mp hx with rfl | hx
        · exact ht
        · exact hsub x hx
      · exact hwf.dst_mem e he1
      · intro hmem
        rcases List.mem_cons.mp hmem with heq' | hmem
        · rw [heq'] at he3
          exact hac t (Relation.TransGen.single he3)
        · exact hac t (Relation.TransGen.head he3 (hreach _ hmem))
      · intro x hx
        rcases List.mem_cons.mp hx with rfl | hx
        · exact Relation.TransGen.single he3
        · exact (hreach x hx).tail he3
      · simp only [List.length_cons]
        omega
    · rfl

lemma walkToTop_some_some (g : SCCDG) (hwf : g.WellFormed) (fuel : Nat) (h t : Nat)
    (hh : h ∈ g.nodeIds) (hres : g.walkToTop fuel h = some (some t)) :
    g.incomingEdges t = [] ∧ t ∈ g.nodeIds := by
  induction fuel generalizing h with
  | zero => simp [SCCDG.walkToTop] at hres
  | succ fuel ih =>
    unfold SCCDG.walkToTop at hres
    split at hres
    · rename_i heq
      injection hres with hres
      injection hres with hres
      subst hres
      exact ⟨heq, hh⟩
    · rename_i e heq
      have he : e ∈ g.incomingEdges h := by rw [heq]; exact List.mem_singleton_self e
      exact ih e.src (hwf.src_mem e (mem_incomingEdges he).1) hres
    · simp at hres

lemma walkToTop_some_none (g : SCCDG) (fuel : Nat) (h : Nat)
    (hres : g.walkToTop fuel h = some none) : ∃ a, 2 ≤ (g.incomingEdges a).length := by
  induction fuel generalizing h with
  | zero => simp [SCCDG.walkToTop] at hres
  | succ fuel ih =>
    unfold SCCDG.walkToTop at hres
    split at hres
    · simp at hres
    · exact ih _ hres
    · rename_i heq
      exact ⟨h, by rw [heq]; simp⟩

lemma walkToBottom_some_none (g : SCCDG) (fuel : Nat) (t v : Nat)
    (hres : g.walkToBottom fuel t v = some none) : ∃ a, 2 ≤ (g.outgoingEdges a).length := by
  induction fuel generalizing t v with
  | zero => simp [SCCDG.walkToBottom] at hres
  | succ fuel ih =>
    unfold SCCDG.walkToBottom at hres
    split at hres
    · simp at hres
    · exact ih _ _ hres
    · rename_i heq
      exact ⟨t, by rw [heq]; simp⟩

/-- When the downward loop ends normally, it has followed a path and counted its nodes. -/
lemma walkToBottom_some_some (g : SCCDG) (fuel : Nat) (t v v' : Nat)
    (hres : g.walkToBottom fuel t v = some (some v')) :
    ∃ m, g.DownPath (t :: m) ∧ v' = v + m.length := by
  induction fuel generalizing t v with
  | zero => simp [SCCDG.walkToBottom] at hres
  | succ fuel ih =>
    unfold SCCDG.walkToBottom at hres
    split at hres
    · rename_i heq
      injection hres with hres
      injection hres with hres
      exact ⟨[], heq, by simp [hres]⟩
    · rename_i e heq
      obtain ⟨m, hm, hv⟩ := ih _ _ hres
      refine ⟨e.dst :: m, ⟨⟨e, heq, rfl⟩, hm⟩, ?_⟩
      simp only [List.length_cons]
      omega
    · simp at hres

/-- Along a path of the graph the downward loop counts the nodes of the path. -/
lemma walkToBottom_of_downPath (g : SCCDG) (fuel : Nat) (a v : Nat) (m : List Nat)
    (hm : g.DownPath (a :: m)) (hfuel : m.length < fuel) :
    g.walkToBottom fuel a v = some (some (v + m.length)) := by
  induction fuel generalizing a v m with
  | zero => omega
  | succ fuel ih =>
    unfold SCCDG.walkToBottom
    cases m with
    | nil =>
      have : g.outgoingEdges a = [] := hm
      rw [this]
      rfl
    | cons b r =>
      obtain ⟨⟨e, he, hb⟩, hrest⟩ := hm
      rw [he]
      simp only
      rw [hb, ih b (v + 1) r hrest (by simp only [List.length_cons] at hfuel; omega)]
      simp only [List.length_cons]
      congr 2
      omega
/-! ## Paths and chains -/

lemma downPath_reach (g : SCCDG) (a : Nat) (q : List Nat) (h : g.DownPath (a :: q)) :
    ∀ b ∈ q, Relation.TransGen g.HasEdge a b := by
  induction q generalizing a with
  | nil => intro b hb; simp at hb
  | cons c r ih =>
    obtain ⟨⟨e, he, hc⟩, hrest⟩ := h
    have hedge : g.HasEdge a c := by
      have := (mem_outgoingEdges (by rw [he]; exact List.mem_singleton_self e :
        e ∈ g.outgoingEdges a)).2.2
      rwa [hc] at this
    intro b hb
    rcases List.mem_cons.mp hb with rfl | hb
    · exact Relation.TransGen.single hedge
    · exact Relation.TransGen.head hedge (ih c hrest b hb)

lemma downPath_nodup (g : SCCDG) (hac : g.Acyclic) (m : List Nat) (h : g.DownPath m) :
    m.Nodup := by
  induction m with
  | nil => exact List.nodup_nil
  | cons a q ih =>
    rw [List.nodup_cons]
    constructor
    · intro ha
      exact hac a (downPath_reach g a q h a ha)
    · cases q with
      | nil => exact List.nodup_nil
      | cons b r => exact ih h.2

lemma downPath_subset (g : SCCDG) (hwf : g.WellFormed) (a : Nat) (q : List Nat)
    (h : g.DownPath (a :: q)) (ha : a ∈ g.nodeIds) : ∀ x ∈ a :: q, x ∈ g.nodeIds := by
  induction q generalizing a with
  | nil =>
    intro x hx
    simp only [List.mem_singleton] at hx
    subst hx
    exact ha
  | cons c r ih =>
    obtain ⟨⟨e, he, hc⟩, hrest⟩ := h
    have hmem : e ∈ g.allEdges :=
      (mem_outgoingEdges (by rw [he]; exact List.mem_singleton_self e :
        e ∈ g.outgoingEdges a)).1
    have hcn : c ∈ g.nodeIds := hc ▸ hwf.dst_mem e hmem
    intro x hx
    rcases List.mem_cons.mp hx with rfl | hx
    · exact ha
    · exact ih c hrest hcn x hx

lemma downPath_unique (g : SCCDG) (m s : List Nat) (hm : g.DownPath m) (hs : g.DownPath s)
    (hhead : m.head? = s.head?) : m = s := by
  induction m generalizing s with
  | nil => exact absurd hm (by simp [SCCDG.DownPath])
  | cons a q ih =>
    cases s with
    | nil => exact absurd hs (by simp [SCCDG.DownPath])
    | cons a' q' =>
      simp only [List.head?_cons, Option.some.injEq] at hhead
      subst hhead
      cases q with
      | nil =>
        cases q' with
        | nil => rfl
        | cons b' r' =>
          obtain ⟨⟨e, he, _⟩, _⟩ := hs
          have : g.outgoingEdges a = [] := hm
          rw [this] at he
          exact absurd he (by simp)
      | cons b r =>
        cases q' with
        | nil =>
          obtain ⟨⟨e, he, _⟩, _⟩ := hm
          have : g.outgoingEdges a = [] := hs
          rw [this] at he
          exact absurd he (by simp)
        | cons b' r' =>
          obtain ⟨⟨e, he, hb⟩, hrest⟩ := hm
          obtain ⟨⟨e', he', hb'⟩, hrest'⟩ := hs
          rw [he] at he'
          injection he' with he' _
          subst he'
          rw [hb] at hb'
          subst hb'
          rw [ih (b :: r') hrest hrest' rfl]

lemma filter_src_cons_perm (l : List SCCEdge) (a : Nat) (s : List Nat) (ha : a ∉ s) :
    (l.filter (fun e => decide (e.src ∈ a :: s))).Perm
      (l.filter (fun e => e.src == a) ++ l.filter (fun e => decide (e.src ∈ s))) := by
  induction l with
  | nil => simp
  | cons e es ih =>
    by_cases h1 : e.src = a
    · have h2 : e.src ∉ s := h1 ▸ ha
      simp only [List.filter_cons, h1, List.mem_cons, true_or, decide_True, if_true, beq_self_eq_true,
        List.cons_append]
      have h2' : a ∉ s := ha
      simp only [h2', decide_False, Bool.false_eq_true, if_false]
      apply List.Perm.cons
      have := ih
      simp only [List.mem_cons] at this
      rw [h1] at h2
      exact this
    · by_cases h3 : e.src ∈ s
      · have hb : (e.src == a) = false := by simpa using h1
        simp only [List.filter_cons, List.mem_cons, h3, or_true, decide_True, if_true, hb,
          Bool.false_eq_true, if_false]
        refine (List.Perm.cons _ ?_).trans List.perm_middle.symm
        simpa only [List.mem_cons] using ih
      · have hb : (e.src == a) = false := by simpa using h1
        simp only [List.filter_cons, List.mem_cons, h1, h3, or_self, decide_False,
          Bool.false_eq_true, if_false, hb]
        simpa only [List.mem_cons] using ih

/-- The edges leaving the nodes of a path without repeated node are the edges of the path. -/
lemma downPath_edges (g : SCCDG) (s : List Nat) (h : g.DownPath s) (hnd : s.Nodup) :
    ((g.allEdges.filter (fun e => decide (e.src ∈ s))).map (fun e => (e.src, e.dst))).Perm
      (pairsOf s) := by
  induction s with
  | nil => exact absurd h (by simp [SCCDG.DownPath])
  | cons a q ih =>
    have ha : a ∉ q := (List.nodup_cons.mp hnd).1
    have hperm := (filter_src_cons_perm g.allEdges a q ha).map (fun e => (e.src, e.dst))
    refine hperm.trans ?_
    rw [List.map_append]
    cases q with
    | nil =>
      have h0 : g.allEdges.filter (fun e => e.src == a) = [] := h
      simp [h0, pairsOf]
    | cons b r =>
      obtain ⟨⟨e, he, hb⟩, hrest⟩ := h
      have h0 : g.allEdges.filter (fun e => e.src == a) = [e] := he
      have hsrc : e.src = a :=
        (mem_outgoingEdges (by rw [he]; exact List.mem_singleton_self e :
          e ∈ g.outgoingEdges a)).2.1
      rw [h0]
      simp only [List.map_cons, List.map_nil, List.singleton_append, pairsOf, hsrc, hb]
      exact List.Perm.cons _ (ih hrest (List.nodup_cons.mp hnd).2)
/-! ## `isPipeline` and simple chains -/

lemma nodeIds_length (g : SCCDG) : g.nodeIds.length = g.allNodes.length := by
  simp [SCCDG.nodeIds]

/-- A path over all the nodes of the graph, as followed by the downward loop, shows that the
graph is a simple chain. -/
lemma isSimpleChain_of_downPath (g : SCCDG) (hwf : g.WellFormed) (hac : g.Acyclic) (t : Nat)
    (m : List Nat) (ht : t ∈ g.nodeIds) (hm : g.DownPath (t :: m))
    (hlen : 1 + m.length = g.allNodes.length) : g.IsSimpleChain := by
  have hnd := downPath_nodup g hac _ hm
  have hsub := downPath_subset g hwf t m hm ht
  have hperm : (t :: m).Perm g.nodeIds :=
    (List.subperm_of_subset hnd hsub).perm_of_length_le
      (by rw [nodeIds_length, List.length_cons]; omega)
  refine ⟨t :: m, hperm, ?_⟩
  rw [zip_tail_eq_pairsOf]
  have hall : g.allEdges.filter (fun e => decide (e.src ∈ t :: m)) = g.allEdges := by
    rw [List.filter_eq_self]
    intro e he
    simp only [decide_eq_true_eq]
    exact hperm.mem_iff.mpr (hwf.src_mem e he)
  have := downPath_edges g (t :: m) hm hnd
  rw [hall] at this
  exact this

lemma outgoing_map_perm (g : SCCDG) (L : List (Nat × Nat)) (hperm : g.edgePairs.Perm L)
    (a : Nat) :
    ((g.outgoingEdges a).map (fun e => (e.src, e.dst))).Perm (L.filter (fun p => p.1 == a)) := by
  have h1 : (g.outgoingEdges a).map (fun e => (e.src, e.dst))
      = g.edgePairs.filter (fun p => p.1 == a) := by
    unfold SCCDG.outgoingEdges SCCDG.edgePairs
    rw [List.filter_map]
    rfl
  rw [h1]
  exact hperm.filter _

lemma incoming_map_perm (g : SCCDG) (L : List (Nat × Nat)) (hperm : g.edgePairs.Perm L)
    (a : Nat) :
    ((g.incomingEdges a).map (fun e => (e.src, e.dst))).Perm (L.filter (fun p => p.2 == a)) := by
  have h1 : (g.incomingEdges a).map (fun e => (e.src, e.dst))
      = g.edgePairs.filter (fun p => p.2 == a) := by
    unfold SCCDG.incomingEdges SCCDG.edgePairs
    rw [List.filter_map]
    rfl
  rw [h1]
  exact hperm.filter _

lemma map_eq_singleton {α β : Type} {f : α → β} {l : List α} {b : β} (h : l.map f = [b]) :
    ∃ a, l = [a] ∧ f a = b := by
  cases l with
  | nil => simp at h
  | cons x xs =>
    cases xs with
    | nil =>
      simp only [List.map_cons, List.map_nil, List.cons.injEq, and_true] at h
      exact ⟨x, rfl, h⟩
    | cons y ys => simp at h

/-- In a simple chain every list of consecutive nodes of the order that ends at its last node
is a path of the graph. -/
lemma downPath_of_chain (g : SCCDG) (order : List Nat) (hnd : order.Nodup)
    (hperm : g.edgePairs.Perm (pairsOf order)) (s : List Nat) (hne : s ≠ [])
    (hpairs : ∀ p ∈ pairsOf s, p ∈ pairsOf order)
    (hlast : s.getLast hne ∉ (pairsOf order).map Prod.fst) : g.DownPath s := by
  induction s with
  | nil => exact absurd rfl hne
  | cons a q ih =>
    cases q with
    | nil =>
      have h1 := outgoing_map_perm g _ hperm a
      simp only [List.getLast_singleton] at hlast
      rw [filter_fst_eq_nil _ a hlast] at h1
      have : (g.outgoingEdges a).map (fun e => (e.src, e.dst)) = [] := List.Perm.eq_nil h1
      exact List.map_eq_nil_iff.mp this
    | cons b r =>
      have hab : (a, b) ∈ pairsOf order := hpairs _ (by simp [pairsOf])
      have h1 := outgoing_map_perm g _ hperm a
      rw [filter_fst_eq_singleton _ (pairsOf_fst_nodup hnd) a b hab] at h1
      have h2 : (g.outgoingEdges a).map (fun e => (e.src, e.dst)) = [(a, b)] :=
        List.perm_singleton.mp h1
      obtain ⟨e, he, hpe⟩ := map_eq_singleton h2
      refine ⟨⟨e, he, ?_⟩, ?_⟩
      · injection hpe
      · apply ih (List.cons_ne_nil b r)
        · intro p hp
          exact hpairs p (by simp only [pairsOf, List.mem_cons]; exact Or.inr hp)
        · rw [List.getLast_cons (List.cons_ne_nil b r)] at hlast
          exact hlast

lemma exists_pair_of_mem_tail (l : List Nat) (b : Nat) (hb : b ∈ l.tail) :
    ∃ a, (a, b) ∈ pairsOf l := by
  induction l with
  | nil => simp at hb
  | cons x r ih =>
    cases r with
    | nil => simp at hb
    | cons y r' =>
      simp only [List.tail_cons] at hb
      rcases List.mem_cons.mp hb with rfl | hb
      · exact ⟨x, by simp [pairsOf]⟩
      · obtain ⟨a, ha⟩ := ih (by simpa using hb)
        exact ⟨a, by simp only [pairsOf, List.mem_cons]; exact Or.inr ha⟩

/-- On a well-formed acyclic graph that is a simple chain, `isPipeline` returns `true`. -/
lemma isPipeline_of_chain (g : SCCDG) (hwf : g.WellFormed) (hac : g.Acyclic)
    (hchain : g.IsSimpleChain) : g.isPipeline = some true := by
  obtain ⟨order, hord, hedges⟩ := hchain
  rw [zip_tail_eq_pairsOf] at hedges
  have hnd : order.Nodup := hord.nodup_iff.mpr hwf.nodup
  cases hnodes : g.allNodes with
  | nil => exact absurd hnodes hwf.nonempty
  | cons first rest =>
    have hfirst : first.id ∈ g.nodeIds := by
      unfold SCCDG.nodeIds
      rw [hnodes]
      exact List.mem_cons_self _ _
    -- the upward loop
    have htop := walkToTop_isSome g hwf hac g.allNodes.length first.id [] List.nodup_nil
      (by simp) hfirst (by simp) (by simp) (by rw [nodeIds_length]; simp)
    have hin : ∀ a, (g.incomingEdges a).length ≤ 1 := by
      intro a
      have := (incoming_map_perm g _ hedges a).length_eq
      rw [List.length_map] at this
      rw [this]
      exact filter_snd_length_le_one _ (pairsOf_snd_nodup hnd) a
    obtain ⟨r, hr⟩ := Option.isSome_iff_exists.mp htop
    cases r with
    | none =>
      obtain ⟨a, ha⟩ := walkToTop_some_none g _ _ hr
      have := hin a
      omega
    | some t =>
      obtain ⟨ht0, htn⟩ := walkToTop_some_some g hwf _ _ _ hfirst hr
      have hto : t ∈ order := hord.mem_iff.mpr htn
      -- the top is the first node of the order
      cases horder : order with
      | nil => rw [horder] at hto; simp at hto
      | cons n1 m =>
        have ht1 : t = n1 := by
          rw [horder] at hto
          rcases List.mem_cons.mp hto with h | h
          · exact h
          · exfalso
            obtain ⟨a, ha⟩ := exists_pair_of_mem_tail order t (by rw [horder]; exact h)
            have hmem : (a, t) ∈ g.edgePairs := hedges.mem_iff.mpr ha
            unfold SCCDG.edgePairs at hmem
            obtain ⟨e, he, hpe⟩ := List.mem_map.mp hmem
            injection hpe with _ hdst
            have : e ∈ g.incomingEdges t := by
              unfold SCCDG.incomingEdges
              rw [List.mem_filter]
              exact ⟨he, by simpa using hdst⟩
            rw [ht0] at this
            simp at this
        subst ht1
        -- the downward loop
        have hdown : g.DownPath order :=
          downPath_of_chain g order hnd hedges order (by rw [horder]; simp)
            (fun _ hp => hp) (getLast_not_mem_pairsOf_fst hnd _)
        rw [horder] at hdown
        have hlen : order.length = g.allNodes.length := by
          rw [hord.length_eq, nodeIds_length]
        rw [horder, List.length_cons] at hlen
        have hbot := walkToBottom_of_downPath g g.allNodes.length t 1 m hdown (by omega)
        unfold SCCDG.isPipeline
        rw [hnodes] at hr hbot ⊢
        simp only [hr, hbot]
        rw [hnodes] at hlen
        simp only [Option.some.injEq, beq_iff_eq]
        omega

/-- On a well-formed acyclic graph that is not a simple chain, `isPipeline` returns `false`. -/
lemma isPipeline_of_not_chain (g : SCCDG) (hwf : g.WellFormed) (hac : g.Acyclic)
    (hchain : ¬ g.IsSimpleChain) : g.isPipeline = some false := by
  cases hnodes : g.allNodes with
  | nil => exact absurd hnodes hwf.nonempty
  | cons first rest =>
    have hfirst : first.id ∈ g.nodeIds := by
      unfold SCCDG.nodeIds
      rw [hnodes]
      exact List.mem_cons_self _ _
    have htop := walkToTop_isSome g hwf hac g.allNodes.length first.id [] List.nodup_nil
      (by simp) hfirst (by simp) (by simp) (by rw [nodeIds_length]; simp)
    obtain ⟨r, hr⟩ := Option.isSome_iff_exists.mp htop
    cases r with
    | none =>
      unfold SCCDG.isPipeline
      rw [hnodes] at hr ⊢
      simp only [hr]
    | some t =>
      obtain ⟨_, htn⟩ := walkToTop_some_some g hwf _ _ _ hfirst hr
      have hbot := walkToBottom_isSome g hwf hac g.allNodes.length t 1 [] List.nodup_nil
        (by simp) htn (by simp) (by simp) (by rw [nodeIds_length]; simp)
      obtain ⟨r2, hr2⟩ := Option.isSome_iff_exists.mp hbot
      cases r2 with
      | none =>
        unfold SCCDG.isPipeline
        rw [hnodes] at hr hr2 ⊢
        simp only [hr, hr2]
      | some v =>
        obtain ⟨m, hm, hv⟩ := walkToBottom_some_some g _ _ _ _ hr2
        have hne : v ≠ g.allNodes.length := by
          intro heq
          exact hchain (isSimpleChain_of_downPath g hwf hac t m htn hm (by omega))
        unfold SCCDG.isPipeline
        rw [hnodes] at hr hr2 hne ⊢
        simp only [hr, hr2, Option.some.injEq, beq_eq_false_iff_ne, ne_eq]
        exact hne

/-- A well-formed graph without external node is its own internal sub-graph. -/
lemma internalSubgraph_eq_self (g : SCCDG) (hwf : g.WellFormed)
    (hall : ∀ n ∈ g.allNodes, n.inclusion = true) : g.internalSubgraph = g := by
  have hnodes : g.allNodes.filter (fun n => n.inclusion) = g.allNodes :=
    List.filter_eq_self.mpr hall
  unfold SCCDG.internalSubgraph
  rw [hnodes]
  have hedges : g.allEdges.filter (fun e =>
      decide (e.src ∈ g.allNodes.map (fun n => n.id)) &&
      decide (e.dst ∈ g.allNodes.map (fun n => n.id))) = g.allEdges := by
    rw [List.filter_eq_self]
    intro e he
    simp only [Bool.and_eq_true, decide_eq_true_eq]
    exact ⟨hwf.src_mem e he, hwf.dst_mem e he⟩
  rw [hedges]
/-! ## The order of the SCC enumeration -/

lemma reachFrom_nodup (es : List (Nat × Nat)) (fuel : Nat) (S : List Nat) (h : S.Nodup) :
    (reachFrom es fuel S).Nodup := by
  induction fuel generalizing S with
  | zero => exact h
  | succ fuel ih =>
    apply ih
    rw [List.nodup_append]
    refine ⟨h, List.nodup_dedup _, ?_⟩
    intro a ha1 ha2
    rw [List.mem_dedup, List.mem_filter] at ha2
    simp only [decide_not, Bool.not_eq_true', decide_eq_false_iff_not] at ha2
    exact ha2.2 ha1

lemma nodup_of_flatten_nodup (L : List (List Nat)) (hnd : L.flatten.Nodup)
    (hne : ∀ C ∈ L, C ≠ []) : L.Nodup := by
  have hpw := (List.nodup_flatten.mp hnd).2
  refine hpw.imp_of_mem ?_
  intro C D hC _ hdisj heq
  subst heq
  obtain ⟨x, hx⟩ := List.exists_mem_of_ne_nil C (hne C hC)
  exact hdisj hx hx

/-- The SCC enumeration is in reverse topological order: no edge of the component leads from an
SCC to an SCC enumerated after it. -/
lemma sccs_reverse_topological (pdg : PDG) (c : List Nat) (hc : c.Nodup) :
    (pdg.extractNodesFromSelfInto c c.head?).sccs.Pairwise
      (fun C D => ∀ u ∈ C, ∀ v ∈ D, ¬ EdgeRel (componentPairs pdg c) u v) := by
  have hes : ∀ p ∈ componentPairs pdg c, p.2 ∈ c := edgePairsWithin_snd_mem _ _
  -- the enumeration is sorted by the number of reachable nodes
  have hsorted : (pdg.extractNodesFromSelfInto c c.head?).sccs.Pairwise
      (fun C D => reachCount (componentPairs pdg c) c.length C
        ≤ reachCount (componentPairs pdg c) c.length D) := by
    haveI : IsTotal (List Nat) (fun C D => reachCount (componentPairs pdg c) c.length C
        ≤ reachCount (componentPairs pdg c) c.length D) := ⟨fun _ _ => le_total _ _⟩
    haveI : IsTrans (List Nat) (fun C D => reachCount (componentPairs pdg c) c.length C
        ≤ reachCount (componentPairs pdg c) c.length D) := ⟨fun _ _ _ h1 h2 => le_trans h1 h2⟩
    exact List.sorted_insertionSort _ _
  -- its members are pairwise different
  have hnd : (pdg.extractNodesFromSelfInto c c.head?).sccs.Nodup := by
    apply nodup_of_flatten_nodup
    · exact (sccs_flatten_perm _).nodup_iff.mpr hc
    · intro C hC
      obtain ⟨x, hx, _⟩ := scc_members pdg c C hC
      intro h
      rw [h] at hx
      simp at hx
  refine (hsorted.and hnd).imp_of_mem ?_
  rintro C D hC hD ⟨hle, hne⟩ u hu v hv huv
  obtain ⟨x, hx, hxc, hCm⟩ := scc_members pdg c C hC
  obtain ⟨y, hy, hyc, hDm⟩ := scc_members pdg c D hD
  have hxy : Relation.ReflTransGen (EdgeRel (componentPairs pdg c)) x y :=
    ((hCm u hu).2.1.tail huv).trans (hDm v hv).2.2
  have hCx : C.take 1 = [x] := by
    cases C with
    | nil => simp at hx
    | cons a r =>
      simp only [List.head?_cons, Option.some.injEq] at hx
      subst hx
      rfl
  have hDy : D.take 1 = [y] := by
    cases D with
    | nil => simp at hy
    | cons a r =>
      simp only [List.head?_cons, Option.some.injEq] at hy
      subst hy
      rfl
  have hlt : reachCount (componentPairs pdg c) c.length D
      < reachCount (componentPairs pdg c) c.length C := by
    unfold reachCount
    rw [hCx, hDy]
    have hsub : ∀ z ∈ x :: reachFrom (componentPairs pdg c) c.length [y],
        z ∈ reachFrom (componentPairs pdg c) c.length [x] := by
      intro z hz
      rcases List.mem_cons.mp hz with rfl | hz
      · exact subset_reachFrom _ _ _ (List.mem_singleton_self _)
      · rw [mem_reachFrom_iff _ _ hes x hxc]
        rw [mem_reachFrom_iff _ _ hes y hyc] at hz
        exact hxy.trans hz
    have hxn : x ∉ reachFrom (componentPairs pdg c) c.length [y] := by
      intro hmem
      rw [mem_reachFrom_iff _ _ hes y hyc] at hmem
      exact scc_heads_apart pdg c C D hC hD hne x y hx hy hxy hmem
    have := length_le_of_nodup_subset
      (List.nodup_cons.mpr ⟨hxn, reachFrom_nodup _ _ _ (List.nodup_singleton y)⟩) hsub
    simp only [List.length_cons] at this
    omega
  omega
/-! ## Dependence maps -/

lemma lookup_filter_ne {β : Type} (m : List (Nat × β)) (k k' : Nat) (h : k' ≠ k) :
    (m.filter (fun p => p.1 != k)).lookup k' = m.lookup k' := by
  induction m with
  | nil => rfl
  | cons p m ih =>
    obtain ⟨a, b⟩ := p
    by_cases ha : a = k
    · subst ha
      have h1 : (k' == a) = false := by simpa using h
      simp [List.filter_cons, List.lookup_cons, h1, ih]
    · have h2 : (a != k) = true := by simpa using ha
      simp only [List.filter_cons, h2, if_true, List.lookup_cons, ih]

lemma DepMap.find_insert_self (m : DepMap) (k : Nat) (e : DGEdge) :
    (m.insert k e).find k = some (if e ∈ m.get k then m.get k else m.get k ++ [e]) := by
  simp [DepMap.insert, DepMap.find, DepMap.get, List.lookup_cons]

lemma DepMap.find_insert_ne (m : DepMap) (k k' : Nat) (e : DGEdge) (h : k' ≠ k) :
    (m.insert k e).find k' = m.find k' := by
  have h1 : (k' == k) = false := by simpa using h
  simp [DepMap.insert, DepMap.find, List.lookup_cons, h1, lookup_filter_ne _ _ _ h]

lemma DepMap.mem_get_insert (m : DepMap) (k k' : Nat) (e x : DGEdge) :
    x ∈ (m.insert k e).get k' ↔ x ∈ m.get k' ∨ (k' = k ∧ x = e) := by
  by_cases h : k' = k
  · subst h
    have := DepMap.find_insert_self m k' e
    unfold DepMap.get at *
    rw [this]
    by_cases he : e ∈ (m.find k').getD []
    · simp only [he, if_true, Option.getD_some]
      constructor
      · intro hx; exact Or.inl hx
      · rintro (hx | ⟨_, rfl⟩)
        · exact hx
        · exact he
    · simp [he]
  · have := DepMap.find_insert_ne m k k' e h
    unfold DepMap.get
    rw [this]
    simp [h]

lemma DepMap.nonEmptyEntries_insert (m : DepMap) (k : Nat) (e : DGEdge)
    (h : m.NonEmptyEntries) : (m.insert k e).NonEmptyEntries := by
  intro k' s hs
  by_cases hk : k' = k
  · subst hk
    rw [DepMap.find_insert_self] at hs
    injection hs with hs
    subst hs
    split
    · rename_i he
      exact List.ne_nil_of_mem he
    · simp
  · rw [DepMap.find_insert_ne _ _ _ _ hk] at hs
    exact h k' s hs

lemma DepMap.find_isNone_iff (m : DepMap) (h : m.NonEmptyEntries) (k : Nat) :
    (m.find k).isNone = true ↔ m.get k = [] := by
  unfold DepMap.get
  cases hf : m.find k with
  | none => simp
  | some s => simpa using h k s hf
/-! ## `collectDependencies` -/

section CollectDependencies

variable (isa : Nat → Bool) (LIS : LoopsSummary) (DS : DominatorSummary)

lemma classifyEdge_internal (scc : Nat) (attrs : SCCDAGAttrs) (edge : DGEdge) :
    (SCCDAGAttrs.classifyEdge isa LIS DS scc attrs edge).interIterDepsInternalToSCC
      = attrs.interIterDepsInternalToSCC := by
  unfold SCCDAGAttrs.classifyEdge
  split_ifs <;> rfl

lemma classifyEdge_sccdag (scc : Nat) (attrs : SCCDAGAttrs) (edge : DGEdge) :
    (SCCDAGAttrs.classifyEdge isa LIS DS scc attrs edge).sccdag = attrs.sccdag := by
  unfold SCCDAGAttrs.classifyEdge
  split_ifs <;> rfl

lemma classifyEdge_inter (scc : Nat) (attrs : SCCDAGAttrs) (edge : DGEdge) (k : Nat)
    (x : DGEdge) :
    x ∈ (SCCDAGAttrs.classifyEdge isa LIS DS scc attrs edge).interIterDeps.get k ↔
      x ∈ attrs.interIterDeps.get k ∨
        (k = scc ∧ x = edge ∧ InLoops isa LIS edge ∧ CarriedTest DS edge) := by
  unfold SCCDAGAttrs.classifyEdge InLoops CarriedTest
  split_ifs with h1 h2 h3 h4
  · simp at h1; simp [h1]
  · simp at h2; simp [h2]
  · have : ¬ ((LIS.getLoop edge.src).isSome = true ∧ (LIS.getLoop edge.dst).isSome = true) := by
      intro ⟨a, b⟩
      cases hs : LIS.getLoop edge.src <;> cases hd : LIS.getLoop edge.dst <;> simp_all
    constructor
    · intro hx; exact Or.inl hx
    · rintro (hx | ⟨_, _, ⟨_, _, a, b⟩, _⟩)
      · exact hx
      · exact absurd ⟨a, b⟩ this
  · simp only [DepMap.mem_get_insert]
    simp at h1 h2 h3 h4
    have a1 : (LIS.getLoop edge.src).isSome = true := by
      cases hs : LIS.getLoop edge.src <;> simp_all
    have a2 : (LIS.getLoop edge.dst).isSome = true := by
      cases hs : LIS.getLoop edge.dst <;> simp_all
    constructor
    · rintro (hx | ⟨hk, hx⟩)
      · exact Or.inl hx
      · exact Or.inr ⟨hk, hx, ⟨h1, h2, a1, a2⟩, h4⟩
    · rintro (hx | ⟨hk, hx, _⟩)
      · exact Or.inl hx
      · exact Or.inr ⟨hk, hx⟩
  · simp at h4
    constructor
    · intro hx; exact Or.inl hx
    · rintro (hx | ⟨_, _, _, hc⟩)
      · exact hx
      · rcases hc with hc | hc
        · exact absurd hc h4.1
        · rw [h4.2] at hc; exact absurd hc (by simp)

lemma classifyEdge_intra (scc : Nat) (attrs : SCCDAGAttrs) (edge : DGEdge) (k : Nat)
    (x : DGEdge) :
    x ∈ (SCCDAGAttrs.classifyEdge isa LIS DS scc attrs edge).intraIterDeps.get k ↔
      x ∈ attrs.intraIterDeps.get k ∨
        (k = scc ∧ x = edge ∧ InLoops isa LIS edge ∧ ¬ CarriedTest DS edge) := by
  unfold SCCDAGAttrs.classifyEdge InLoops CarriedTest
  split_ifs with h1 h2 h3 h4
  · simp at h1; simp [h1]
  · simp at h2; simp [h2]
  · have : ¬ ((LIS.getLoop edge.src).isSome = true ∧ (LIS.getLoop edge.dst).isSome = true) := by
      intro ⟨a, b⟩
      cases hs : LIS.getLoop edge.src <;> cases hd : LIS.getLoop edge.dst <;> simp_all
    constructor
    · intro hx; exact Or.inl hx
    · rintro (hx | ⟨_, _, ⟨_, _, a, b⟩, _⟩)
      · exact hx
      · exact absurd ⟨a, b⟩ this
  · simp at h4
    constructor
    · intro hx; exact Or.inl hx
    · rintro (hx | ⟨_, _, _, hc⟩)
      · exact hx
      · exfalso
        apply hc
        rcases h4 with h4 | h4
        · exact Or.inl h4
        · exact Or.inr h4
  · simp only [DepMap.mem_get_insert]
    simp at h1 h2 h3 h4
    have a1 : (LIS.getLoop edge.src).isSome = true := by
      cases hs : LIS.getLoop edge.src <;> simp_all
    have a2 : (LIS.getLoop edge.dst).isSome = true := by
      cases hs : LIS.getLoop edge.dst <;> simp_all
    constructor
    · rintro (hx | ⟨hk, hx⟩)
      · exact Or.inl hx
      · refine Or.inr ⟨hk, hx, ⟨h1, h2, a1, a2⟩, ?_⟩
        rintro (hc | hc)
        · exact h4.1 hc
        · rw [h4.2] at hc; exact absurd hc (by simp)
    · rintro (hx | ⟨hk, hx, _⟩)
      · exact Or.inl hx
      · exact Or.inr ⟨hk, hx⟩


lemma foldl_classify_internal (scc : Nat) (edges : List DGEdge) (attrs : SCCDAGAttrs) :
    (edges.foldl (SCCDAGAttrs.classifyEdge isa LIS DS scc) attrs).interIterDepsInternalToSCC
      = attrs.interIterDepsInternalToSCC := by
  induction edges generalizing attrs with
  | nil => rfl
  | cons e es ih => simp only [List.foldl_cons, ih, classifyEdge_internal]

lemma foldl_classify_sccdag (scc : Nat) (edges : List DGEdge) (attrs : SCCDAGAttrs) :
    (edges.foldl (SCCDAGAttrs.classifyEdge isa LIS DS scc) attrs).sccdag = attrs.sccdag := by
  induction edges generalizing attrs with
  | nil => rfl
  | cons e es ih => simp only [List.foldl_cons, ih, classifyEdge_sccdag]

lemma foldl_classify_inter (scc : Nat) (edges : List DGEdge) (attrs : SCCDAGAttrs) (k : Nat)
    (x : DGEdge) :
    x ∈ (edges.foldl (SCCDAGAttrs.classifyEdge isa LIS DS scc) attrs).interIterDeps.get k ↔
      x ∈ attrs.interIterDeps.get k ∨
        (k = scc ∧ x ∈ edges ∧ InLoops isa LIS x ∧ CarriedTest DS x) := by
  induction edges generalizing attrs with
  | nil => simp
  | cons e es ih =>
    rw [List.foldl_cons, ih, classifyEdge_inter]
    constructor
    · rintro ((h | ⟨hk, rfl, h1, h2⟩) | ⟨hk, hx, h1, h2⟩)
      · exact Or.inl h
      · exact Or.inr ⟨hk, List.mem_cons_self _ _, h1, h2⟩
      · exact Or.inr ⟨hk, List.mem_cons_of_mem _ hx, h1, h2⟩
    · rintro (h | ⟨hk, hx, h1, h2⟩)
      · exact Or.inl (Or.inl h)
      · rcases List.mem_cons.mp hx with rfl | hx
        · exact Or.inl (Or.inr ⟨hk, rfl, h1, h2⟩)
        · exact Or.inr ⟨hk, hx, h1, h2⟩

lemma foldl_classify_intra (scc : Nat) (edges : List DGEdge) (attrs : SCCDAGAttrs) (k : Nat)
    (x : DGEdge) :
    x ∈ (edges.foldl (SCCDAGAttrs.classifyEdge isa LIS DS scc) attrs).intraIterDeps.get k ↔
      x ∈ attrs.intraIterDeps.get k ∨
        (k = scc ∧ x ∈ edges ∧ InLoops isa LIS x ∧ ¬ CarriedTest DS x) := by
  induction edges generalizing attrs with
  | nil => simp
  | cons e es ih =>
    rw [List.foldl_cons, ih, classifyEdge_intra]
    constructor
    · rintro ((h | ⟨hk, rfl, h1, h2⟩) | ⟨hk, hx, h1, h2⟩)
      · exact Or.inl h
      · exact Or.inr ⟨hk, List.mem_cons_self _ _, h1, h2⟩
      · exact Or.inr ⟨hk, List.mem_cons_of_mem _ hx, h1, h2⟩
    · rintro (h | ⟨hk, hx, h1, h2⟩)
      · exact Or.inl (Or.inl h)
      · rcases List.mem_cons.mp hx with rfl | hx
        · exact Or.inl (Or.inr ⟨hk, rfl, h1, h2⟩)
        · exact Or.inr ⟨hk, hx, h1, h2⟩

/-- The loop of lines 291-295 on an arbitrary list of dependences. -/
lemma foldl_internal_spec (n : SCCNode) (deps : List DGEdge) (attrs : SCCDAGAttrs) :
    let r := deps.foldl
      (fun (attrs : SCCDAGAttrs) dependency =>
        if n.scc.isInternal dependency.src && n.scc.isInternal dependency.dst then
          { attrs with
            interIterDepsInternalToSCC := attrs.interIterDepsInternalToSCC.insert n.id dependency }
        else attrs)
      attrs
    r.interIterDeps = attrs.interIterDeps ∧ r.intraIterDeps = attrs.intraIterDeps ∧
    r.sccdag = attrs.sccdag ∧
    (attrs.interIterDepsInternalToSCC.NonEmptyEntries →
      r.interIterDepsInternalToSCC.NonEmptyEntries) ∧
    ∀ k x, x ∈ r.interIterDepsInternalToSCC.get k ↔
      x ∈ attrs.interIterDepsInternalToSCC.get k ∨
        (k = n.id ∧ x ∈ deps ∧ n.scc.isInternal x.src = true ∧ n.scc.isInternal x.dst = true) := by
  induction deps generalizing attrs with
  | nil => simp
  | cons d ds ih =>
    simp only [List.foldl_cons]
    by_cases hc : (n.scc.isInternal d.src && n.scc.isInternal d.dst) = true
    · simp only [hc, if_true]
      obtain ⟨i1, i2, i3, i4, i5⟩ := ih
        { attrs with
          interIterDepsInternalToSCC := attrs.interIterDepsInternalToSCC.insert n.id d }
      refine ⟨i1, i2, i3, fun h => i4 (DepMap.nonEmptyEntries_insert _ _ _ h), ?_⟩
      intro k x
      rw [i5, DepMap.mem_get_insert]
      simp only [Bool.and_eq_true] at hc
      constructor
      · rintro ((h | ⟨hk, rfl⟩) | ⟨hk, hx, h1, h2⟩)
        · exact Or.inl h
        · exact Or.inr ⟨hk, List.mem_cons_self _ _, hc.1, hc.2⟩
        · exact Or.inr ⟨hk, List.mem_cons_of_mem _ hx, h1, h2⟩
      · rintro (h | ⟨hk, hx, h1, h2⟩)
        · exact Or.inl (Or.inl h)
        · rcases List.mem_cons.mp hx with rfl | hx
          · exact Or.inl (Or.inr ⟨hk, rfl⟩)
          · exact Or.inr ⟨hk, hx, h1, h2⟩
    · simp only [hc, if_false, Bool.false_eq_true]
      obtain ⟨i1, i2, i3, i4, i5⟩ := ih attrs
      refine ⟨i1, i2, i3, i4, ?_⟩
      intro k x
      rw [i5]
      simp only [Bool.and_eq_true, not_and] at hc
      constructor
      · rintro (h | ⟨hk, hx, h1, h2⟩)
        · exact Or.inl h
        · exact Or.inr ⟨hk, List.mem_cons_of_mem _ hx, h1, h2⟩
      · rintro (h | ⟨hk, hx, h1, h2⟩)
        · exact Or.inl h
        · rcases List.mem_cons.mp hx with rfl | hx
          · exact absurd h2 (hc h1)
          · exact Or.inr ⟨hk, hx, h1, h2⟩

lemma collectInternal_spec (n : SCCNode) (attrs : SCCDAGAttrs) :
    let r := SCCDAGAttrs.collectInternal n attrs
    r.interIterDeps = attrs.interIterDeps ∧ r.intraIterDeps = attrs.intraIterDeps ∧
    r.sccdag = attrs.sccdag ∧
    (attrs.interIterDepsInternalToSCC.NonEmptyEntries →
      r.interIterDepsInternalToSCC.NonEmptyEntries) ∧
    ∀ k x, x ∈ r.interIterDepsInternalToSCC.get k ↔
      x ∈ attrs.interIterDepsInternalToSCC.get k ∨
        (k = n.id ∧ x ∈ attrs.interIterDeps.get n.id ∧
          n.scc.isInternal x.src = true ∧ n.scc.isInternal x.dst = true) := by
  unfold SCCDAGAttrs.collectInternal
  cases hf : attrs.interIterDeps.find n.id with
  | none =>
    have : attrs.interIterDeps.get n.id = [] := by simp [DepMap.get, hf]
    simp [this]
  | some deps =>
    have : attrs.interIterDeps.get n.id = deps := by simp [DepMap.get, hf]
    rw [this]
    exact foldl_internal_spec n deps attrs


lemma collectDependenciesOf_inter (attrs : SCCDAGAttrs) (n : SCCNode) (k : Nat) (x : DGEdge) :
    x ∈ (SCCDAGAttrs.collectDependenciesOf isa LIS DS attrs n).interIterDeps.get k ↔
      x ∈ attrs.interIterDeps.get k ∨
        (k = n.id ∧ x ∈ n.scc.edges ∧ InLoops isa LIS x ∧ CarriedTest DS x) := by
  unfold SCCDAGAttrs.collectDependenciesOf
  rw [(collectInternal_spec n _).1, foldl_classify_inter]

lemma collectDependenciesOf_intra (attrs : SCCDAGAttrs) (n : SCCNode) (k : Nat) (x : DGEdge) :
    x ∈ (SCCDAGAttrs.collectDependenciesOf isa LIS DS attrs n).intraIterDeps.get k ↔
      x ∈ attrs.intraIterDeps.get k ∨
        (k = n.id ∧ x ∈ n.scc.edges ∧ InLoops isa LIS x ∧ ¬ CarriedTest DS x) := by
  unfold SCCDAGAttrs.collectDependenciesOf
  rw [(collectInternal_spec n _).2.1, foldl_classify_intra]

lemma collectDependenciesOf_internal (attrs : SCCDAGAttrs) (n : SCCNode) (k : Nat) (x : DGEdge) :
    x ∈ (SCCDAGAttrs.collectDependenciesOf isa LIS DS attrs n).interIterDepsInternalToSCC.get k ↔
      x ∈ attrs.interIterDepsInternalToSCC.get k ∨
        (k = n.id ∧
          (x ∈ attrs.interIterDeps.get n.id ∨
            (x ∈ n.scc.edges ∧ InLoops isa LIS x ∧ CarriedTest DS x)) ∧
          n.scc.isInternal x.src = true ∧ n.scc.isInternal x.dst = true) := by
  unfold SCCDAGAttrs.collectDependenciesOf
  rw [(collectInternal_spec n _).2.2.2.2, foldl_classify_inter, foldl_classify_internal]
  simp

lemma collectDependenciesOf_nonEmpty (attrs : SCCDAGAttrs) (n : SCCNode)
    (h : attrs.interIterDepsInternalToSCC.NonEmptyEntries) :
    (SCCDAGAttrs.collectDependenciesOf isa LIS DS attrs
      n).interIterDepsInternalToSCC.NonEmptyEntries := by
  unfold SCCDAGAttrs.collectDependenciesOf
  apply (collectInternal_spec n _).2.2.2.1
  rw [foldl_classify_internal]
  exact h

/-- The dependence maps after the loop of `collectDependencies` has run over `l`. -/
lemma foldl_collect_inter_intra (l : List SCCNode) (attrs : SCCDAGAttrs) (k : Nat) (x : DGEdge) :
    (x ∈ (l.foldl (SCCDAGAttrs.collectDependenciesOf isa LIS DS) attrs).interIterDeps.get k ↔
      x ∈ attrs.interIterDeps.get k ∨
        ∃ n ∈ l, n.id = k ∧ x ∈ n.scc.edges ∧ InLoops isa LIS x ∧ CarriedTest DS x) ∧
    (x ∈ (l.foldl (SCCDAGAttrs.collectDependenciesOf isa LIS DS) attrs).intraIterDeps.get k ↔
      x ∈ attrs.intraIterDeps.get k ∨
        ∃ n ∈ l, n.id = k ∧ x ∈ n.scc.edges ∧ InLoops isa LIS x ∧ ¬ CarriedTest DS x) := by
  induction l generalizing attrs with
  | nil => simp
  | cons n ns ih =>
    simp only [List.foldl_cons]
    obtain ⟨i1, i2⟩ := ih (SCCDAGAttrs.collectDependenciesOf isa LIS DS attrs n)
    rw [i1, i2, collectDependenciesOf_inter, collectDependenciesOf_intra]
    constructor
    · constructor
      · rintro ((h | ⟨hk, h⟩) | ⟨m, hm, h⟩)
        · exact Or.inl h
        · exact Or.inr ⟨n, List.mem_cons_self _ _, hk.symm, h⟩
        · exact Or.inr ⟨m, List.mem_cons_of_mem _ hm, h⟩
      · rintro (h | ⟨m, hm, hk, h⟩)
        · exact Or.inl (Or.inl h)
        · rcases List.mem_cons.mp hm with rfl | hm
          · exact Or.inl (Or.inr ⟨hk.symm, h⟩)
          · exact Or.inr ⟨m, hm, hk, h⟩
    · constructor
      · rintro ((h | ⟨hk, h⟩) | ⟨m, hm, h⟩)
        · exact Or.inl h
        · exact Or.inr ⟨n, List.mem_cons_self _ _, hk.symm, h⟩
        · exact Or.inr ⟨m, List.mem_cons_of_mem _ hm, h⟩
      · rintro (h | ⟨m, hm, hk, h⟩)
        · exact Or.inl (Or.inl h)
        · rcases List.mem_cons.mp hm with rfl | hm
          · exact Or.inl (Or.inr ⟨hk.symm, h⟩)
          · exact Or.inr ⟨m, hm, hk, h⟩

/-- The map `interIterDepsInternalToSCC` after the loop of `collectDependencies` has run over `l`, when
no SCC of `l` has an entry in `interIterDeps` yet and the SCCs of `l` are distinct objects. -/
lemma foldl_collect_internal (l : List SCCNode) (attrs : SCCDAGAttrs)
    (hfresh : ∀ n ∈ l, attrs.interIterDeps.get n.id = [])
    (hnd : (l.map (fun n => n.id)).Nodup) (k : Nat) (x : DGEdge) :
    x ∈ (l.foldl (SCCDAGAttrs.collectDependenciesOf isa LIS DS)
        attrs).interIterDepsInternalToSCC.get k ↔
      x ∈ attrs.interIterDepsInternalToSCC.get k ∨
        ∃ n ∈ l, n.id = k ∧ x ∈ n.scc.edges ∧ InLoops isa LIS x ∧ CarriedTest DS x ∧
          n.scc.isInternal x.src = true ∧ n.scc.isInternal x.dst = true := by
  induction l generalizing attrs with
  | nil => simp
  | cons n ns ih =>
    simp only [List.foldl_cons]
    have hnd' : (ns.map (fun n => n.id)).Nodup := (List.nodup_cons.mp hnd).2
    have hnot : ∀ m ∈ ns, m.id ≠ n.id := by
      intro m hm heq
      have h1 : m.id ∈ ns.map (fun n => n.id) := List.mem_map_of_mem (fun n => n.id) hm
      rw [heq] at h1
      exact (List.nodup_cons.mp hnd).1 h1
    have hfresh' : ∀ m ∈ ns,
        (SCCDAGAttrs.collectDependenciesOf isa LIS DS attrs n).interIterDeps.get m.id = [] := by
      intro m hm
      apply List.eq_nil_iff_forall_not_mem.mpr
      intro y hy
      rw [collectDependenciesOf_inter] at hy
      rcases hy with hy | ⟨hk, _⟩
      · rw [hfresh m (List.mem_cons_of_mem _ hm)] at hy
        exact absurd hy (List.not_mem_nil _)
      · exact hnot m hm hk
    rw [ih _ hfresh' hnd', collectDependenciesOf_internal, hfresh n (List.mem_cons_self _ _)]
    constructor
    · rintro ((h | ⟨hk, (h | ⟨h1, h2, h3⟩), h4, h5⟩) | ⟨m, hm, h⟩)
      · exact Or.inl h
      · exact absurd h (List.not_mem_nil _)
      · exact Or.inr ⟨n, List.mem_cons_self _ _, hk.symm, h1, h2, h3, h4, h5⟩
      · exact Or.inr ⟨m, List.mem_cons_of_mem _ hm, h⟩
    · rintro (h | ⟨m, hm, hk, h1, h2, h3, h4, h5⟩)
      · exact Or.inl (Or.inl h)
      · rcases List.mem_cons.mp hm with rfl | hm
        · exact Or.inl (Or.inr ⟨hk.symm, Or.inr ⟨h1, h2, h3⟩, h4, h5⟩)
        · exact Or.inr ⟨m, hm, hk, h1, h2, h3, h4, h5⟩

lemma foldl_collect_nonEmpty (l : List SCCNode) (attrs : SCCDAGAttrs)
    (h : attrs.interIterDepsInternalToSCC.NonEmptyEntries) :
    (l.foldl (SCCDAGAttrs.collectDependenciesOf isa LIS DS)
      attrs).interIterDepsInternalToSCC.NonEmptyEntries := by
  induction l generalizing attrs with
  | nil => exact h
  | cons n ns ih =>
    simp only [List.foldl_cons]
    exact ih _ (collectDependenciesOf_nonEmpty isa LIS DS attrs n h)

lemma DepMap.get_nil (k : Nat) : DepMap.get [] k = [] := rfl

lemma DepMap.nonEmptyEntries_nil : DepMap.NonEmptyEntries [] := by
  intro k s h
  simp [DepMap.find] at h

/-- The test `checkIfIndependent` on the maps computed by `collectDependencies`: the SCC has no entry in
`interIterDepsInternalToSCC` exactly when none of its edges passes all the tests. -/
lemma checkIfIndependent_collectDependencies (g : SCCDG)
    (hnd : (g.allNodes.map (fun n => n.id)).Nodup) (n : SCCNode) (hn : n ∈ g.allNodes) :
    (SCCDAGAttrs.collectDependencies isa LIS DS (SCCDAGAttrs.init g)).checkIfIndependent n.id = true
      ↔ ¬ ∃ x ∈ n.scc.edges, InLoops isa LIS x ∧ CarriedTest DS x ∧
          n.scc.isInternal x.src = true ∧ n.scc.isInternal x.dst = true := by
  unfold SCCDAGAttrs.checkIfIndependent SCCDAGAttrs.collectDependencies
  have hne := foldl_collect_nonEmpty isa LIS DS g.allNodes (SCCDAGAttrs.init g)
    DepMap.nonEmptyEntries_nil
  simp only [SCCDAGAttrs.init] at hne ⊢
  rw [DepMap.find_isNone_iff _ hne, List.eq_nil_iff_forall_not_mem]
  have key := fun x => foldl_collect_internal isa LIS DS g.allNodes (SCCDAGAttrs.init g)
    (fun _ _ => rfl) hnd n.id x
  simp only [SCCDAGAttrs.init] at key
  constructor
  · rintro h ⟨x, hx, h1, h2, h3, h4⟩
    exact h x ((key x).mpr (Or.inr ⟨n, hn, rfl, hx, h1, h2, h3, h4⟩))
  · intro h x hx
    rcases (key x).mp hx with hx | ⟨m, hm, hk, h1, h2, h3, h4, h5⟩
    · exact absurd hx (List.not_mem_nil _)
    · have hmn : m = n := by
        have := List.inj_on_of_nodup_map hnd hm hn hk
        exact this
      subst hmn
      exact h ⟨x, h1, h2, h3, h4, h5⟩

end CollectDependencies
/-! ## The tagging loop of `populate` -/

lemma getSCCAttrs_setSCCAttrs_self (attrs : SCCDAGAttrs) (k : Nat) (info : SCCAttrs) :
    (attrs.setSCCAttrs k info).getSCCAttrs k = some info := by
  simp [SCCDAGAttrs.setSCCAttrs, SCCDAGAttrs.getSCCAttrs, List.lookup_cons]

lemma getSCCAttrs_setSCCAttrs_ne (attrs : SCCDAGAttrs) (k k' : Nat) (info : SCCAttrs)
    (h : k' ≠ k) : (attrs.setSCCAttrs k info).getSCCAttrs k' = attrs.getSCCAttrs k' := by
  have h1 : (k' == k) = false := by simpa using h
  simp [SCCDAGAttrs.setSCCAttrs, SCCDAGAttrs.getSCCAttrs, List.lookup_cons, h1,
    lookup_filter_ne _ _ _ h]

lemma setSCCAttrs_deps (attrs : SCCDAGAttrs) (k : Nat) (info : SCCAttrs) :
    (attrs.setSCCAttrs k info).interIterDepsInternalToSCC = attrs.interIterDepsInternalToSCC :=
  rfl

lemma fixedBoundsStep_spec (an : SCCAnalyses) (attrs : SCCDAGAttrs) (n : SCCNode)
    (info : SCCAttrs) (r : SCCDAGAttrs × SCCAttrs)
    (h : SCCDAGAttrs.fixedBoundsStep an attrs n info = some r) :
    r.1.interIterDepsInternalToSCC = attrs.interIterDepsInternalToSCC ∧
      ∀ k, k ≠ n.id → r.1.getSCCAttrs k = attrs.getSCCAttrs k := by
  unfold SCCDAGAttrs.fixedBoundsStep at h
  split at h
  · split at h
    · exact absurd h (by simp)
    · injection h with h; subst h
      exact ⟨rfl, fun k hk => getSCCAttrs_setSCCAttrs_ne _ _ _ _ hk⟩
    · injection h with h; subst h
      exact ⟨rfl, fun k hk => getSCCAttrs_setSCCAttrs_ne _ _ _ _ hk⟩
  · injection h with h; subst h; exact ⟨rfl, fun _ _ => rfl⟩

lemma clonableStep_spec (an : SCCAnalyses) (attrs : SCCDAGAttrs) (n : SCCNode)
    (info : SCCAttrs) (r : SCCDAGAttrs × SCCAttrs)
    (h : SCCDAGAttrs.clonableStep an attrs n info = some r) :
    r.1.interIterDepsInternalToSCC = attrs.interIterDepsInternalToSCC ∧
      ∀ k, k ≠ n.id → r.1.getSCCAttrs k = attrs.getSCCAttrs k := by
  unfold SCCDAGAttrs.clonableStep at h
  split at h
  · exact absurd h (by simp)
  · injection h with h; subst h
    exact ⟨rfl, fun k hk => getSCCAttrs_setSCCAttrs_ne attrs n.id k _ hk⟩
  · injection h with h; subst h; exact ⟨rfl, fun _ _ => rfl⟩

lemma typeOf_independent_iff (an : SCCAnalyses) (attrs : SCCDAGAttrs) (n : SCCNode)
    (info : SCCAttrs) (t : SCCType × SCCAttrs)
    (h : SCCDAGAttrs.typeOf an attrs n info = some t) :
    t.1 = SCCType.INDEPENDENT ↔ attrs.checkIfIndependent n.id = true := by
  unfold SCCDAGAttrs.typeOf at h
  by_cases hc : attrs.checkIfIndependent n.id = true
  · rw [if_pos hc] at h
    injection h with h; subst h
    simp [hc]
  · rw [if_neg hc] at h
    split at h
    · exact absurd h (by simp)
    · injection h with h; subst h; simp [hc]
    · injection h with h; subst h; simp [hc]

/-- One run of the callback of `populate`: the dependence map read by `checkIfIndependent` is
not written, the attributes of the other SCCs are kept, and the SCC gets attributes whose type
is INDEPENDENT exactly when `checkIfIndependent` holds. -/
lemma tagSCC_spec (an : SCCAnalyses) (attrs attrs' : SCCDAGAttrs) (n : SCCNode)
    (h : SCCDAGAttrs.tagSCC an attrs n = some attrs') :
    attrs'.interIterDepsInternalToSCC = attrs.interIterDepsInternalToSCC ∧
      (∀ k, k ≠ n.id → attrs'.getSCCAttrs k = attrs.getSCCAttrs k) ∧
      ∃ info, attrs'.getSCCAttrs n.id = some info ∧
        (info.getType = SCCType.INDEPENDENT ↔ attrs.checkIfIndependent n.id = true) := by
  unfold SCCDAGAttrs.tagSCC at h
  simp only at h
  cases h2 : an.checkIfInductionVariableSCC
      (attrs.setSCCAttrs n.id (an.newSCCAttrs n.scc)) n with
  | none => rw [h2] at h; exact absurd h (by simp)
  | some info2 =>
    rw [h2] at h
    simp only at h
    cases h3 : SCCDAGAttrs.fixedBoundsStep an
        ((attrs.setSCCAttrs n.id (an.newSCCAttrs n.scc)).setSCCAttrs n.id info2) n info2 with
    | none => rw [h3] at h; exact absurd h (by simp)
    | some r3 =>
      rw [h3] at h
      simp only at h
      cases h4 : SCCDAGAttrs.clonableStep an r3.1 n r3.2 with
      | none => rw [h4] at h; exact absurd h (by simp)
      | some r4 =>
        rw [h4] at h
        simp only at h
        cases h5 : SCCDAGAttrs.typeOf an r4.1 n r4.2 with
        | none => rw [h5] at h; exact absurd h (by simp)
        | some t =>
          rw [h5] at h
          simp only [Option.some.injEq] at h
          subst h
          obtain ⟨f1, f2⟩ := fixedBoundsStep_spec an _ n info2 r3 h3
          obtain ⟨c1, c2⟩ := clonableStep_spec an r3.1 n r3.2 r4 h4
          have hdeps : r4.1.interIterDepsInternalToSCC = attrs.interIterDepsInternalToSCC := by
            rw [c1, f1]
            rfl
          refine ⟨hdeps, ?_, ?_⟩
          · intro k hk
            rw [getSCCAttrs_setSCCAttrs_ne _ _ _ _ hk, c2 k hk, f2 k hk,
              getSCCAttrs_setSCCAttrs_ne _ _ _ _ hk, getSCCAttrs_setSCCAttrs_ne _ _ _ _ hk]
          · refine ⟨_, getSCCAttrs_setSCCAttrs_self _ _ _, ?_⟩
            show t.1 = SCCType.INDEPENDENT ↔ _
            rw [typeOf_independent_iff an r4.1 n r4.2 t h5]
            unfold SCCDAGAttrs.checkIfIndependent
            rw [hdeps]

/-- The callback of `populate` ends unless one of the analyses stops. -/
lemma tagSCC_isSome (an : SCCAnalyses) (attrs : SCCDAGAttrs) (n : SCCNode)
    (h1 : ∀ a m, an.checkIfInductionVariableSCC a m ≠ none)
    (h2 : ∀ a m, an.checkIfIVHasFixedBounds a m ≠ none)
    (h3 : ∀ a m, an.checkIfClonable a m ≠ none)
    (h4 : ∀ a m, an.checkIfReducible a m ≠ none) :
    (SCCDAGAttrs.tagSCC an attrs n).isSome = true := by
  unfold SCCDAGAttrs.tagSCC
  simp only
  cases e1 : an.checkIfInductionVariableSCC
      (attrs.setSCCAttrs n.id (an.newSCCAttrs n.scc)) n with
  | none => exact absurd e1 (h1 _ _)
  | some info2 =>
    simp only
    have s3 : ∀ a i, (SCCDAGAttrs.fixedBoundsStep an a n i).isSome = true := by
      intro a i
      unfold SCCDAGAttrs.fixedBoundsStep
      split
      · cases e : an.checkIfIVHasFixedBounds a n with
        | none => exact absurd e (h2 _ _)
        | some r =>
          obtain ⟨ob, i1⟩ := r
          cases ob <;> rfl
      · rfl
    have s4 : ∀ a i, (SCCDAGAttrs.clonableStep an a n i).isSome = true := by
      intro a i
      unfold SCCDAGAttrs.clonableStep
      cases e : an.checkIfClonable a n with
      | none => exact absurd e (h3 _ _)
      | some b => cases b <;> rfl
    have s5 : ∀ a i, (SCCDAGAttrs.typeOf an a n i).isSome = true := by
      intro a i
      unfold SCCDAGAttrs.typeOf
      split
      · rfl
      · cases e : an.checkIfReducible a n with
        | none => exact absurd e (h4 _ _)
        | some r =>
          obtain ⟨b, i1⟩ := r
          cases b <;> rfl
    obtain ⟨r3, e3⟩ := Option.isSome_iff_exists.mp (s3
      ((attrs.setSCCAttrs n.id (an.newSCCAttrs n.scc)).setSCCAttrs n.id info2) info2)
    rw [e3]
    simp only
    obtain ⟨r4, e4⟩ := Option.isSome_iff_exists.mp (s4 r3.1 r3.2)
    rw [e4]
    simp only
    obtain ⟨t, e5⟩ := Option.isSome_iff_exists.mp (s5 r4.1 r4.2)
    rw [e5]
    rfl

lemma foldlM_tagSCC_spec (an : SCCAnalyses) (l : List SCCNode) (attrs attrs' : SCCDAGAttrs)
    (h : l.foldlM (SCCDAGAttrs.tagSCC an) attrs = some attrs') :
    attrs'.interIterDepsInternalToSCC = attrs.interIterDepsInternalToSCC ∧
      (∀ k, k ∉ l.map (fun n => n.id) → attrs'.getSCCAttrs k = attrs.getSCCAttrs k) ∧
      (∀ k, (attrs.getSCCAttrs k).isSome = true → (attrs'.getSCCAttrs k).isSome = true) ∧
      (∀ n ∈ l, (attrs'.getSCCAttrs n.id).isSome = true) ∧
      ((l.map (fun n => n.id)).Nodup → ∀ n ∈ l, ∃ info, attrs'.getSCCAttrs n.id = some info ∧
        (info.getType = SCCType.INDEPENDENT ↔ attrs.checkIfIndependent n.id = true)) := by
  induction l generalizing attrs with
  | nil =>
    simp only [List.foldlM_nil] at h
    injection h with h
    subst h
    simp
  | cons n ns ih =>
    rw [List.foldlM_cons] at h
    cases h1 : SCCDAGAttrs.tagSCC an attrs n with
    | none => rw [h1] at h; exact absurd h (by simp)
    | some a1 =>
      rw [h1] at h
      simp only [Option.some_bind, Option.bind_eq_bind] at h
      obtain ⟨t1, t2, info, t3, t4⟩ := tagSCC_spec an attrs a1 n h1
      obtain ⟨i1, i2, i3, i4, i5⟩ := ih a1 h
      have keep : ∀ k, (attrs.getSCCAttrs k).isSome = true → (a1.getSCCAttrs k).isSome = true := by
        intro k hk
        by_cases hkn : k = n.id
        · subst hkn; rw [t3]; rfl
        · rw [t2 k hkn]; exact hk
      refine ⟨i1.trans t1, ?_, ?_, ?_, ?_⟩
      · intro k hk
        simp only [List.map_cons, List.mem_cons, not_or] at hk
        rw [i2 k hk.2, t2 k hk.1]
      · intro k hk
        exact i3 k (keep k hk)
      · intro m hm
        rcases List.mem_cons.mp hm with rfl | hm
        · apply i3; rw [t3]; rfl
        · exact i4 m hm
      · intro hnd m hm
        simp only [List.map_cons, List.nodup_cons] at hnd
        rcases List.mem_cons.mp hm with rfl | hm
        · refine ⟨info, ?_, t4⟩
          rw [i2 _ hnd.1, t3]
        · obtain ⟨info', j1, j2⟩ := i5 hnd.2 m hm
          refine ⟨info', j1, ?_⟩
          rw [j2]
          unfold SCCDAGAttrs.checkIfIndependent
          rw [t1]

lemma foldlM_tagSCC_isSome (an : SCCAnalyses) (l : List SCCNode) (attrs : SCCDAGAttrs)
    (h1 : ∀ a m, an.checkIfInductionVariableSCC a m ≠ none)
    (h2 : ∀ a m, an.checkIfIVHasFixedBounds a m ≠ none)
    (h3 : ∀ a m, an.checkIfClonable a m ≠ none)
    (h4 : ∀ a m, an.checkIfReducible a m ≠ none) :
    (l.foldlM (SCCDAGAttrs.tagSCC an) attrs).isSome = true := by
  induction l generalizing attrs with
  | nil => rfl
  | cons n ns ih =>
    rw [List.foldlM_cons]
    have := tagSCC_isSome an attrs n h1 h2 h3 h4
    cases e : SCCDAGAttrs.tagSCC an attrs n with
    | none => rw [e] at this; exact absurd this (by simp)
    | some a1 => exact ih a1

/-- The function `populate` returns unless one of the analyses stops on some SCC. -/
theorem populate_isSome (isa : Nat → Bool) (an : SCCAnalyses) (g : SCCDG) (LIS : LoopsSummary)
    (DS : DominatorSummary)
    (h1 : ∀ a m, an.checkIfInductionVariableSCC a m ≠ none)
    (h2 : ∀ a m, an.checkIfIVHasFixedBounds a m ≠ none)
    (h3 : ∀ a m, an.checkIfClonable a m ≠ none)
    (h4 : ∀ a m, an.checkIfReducible a m ≠ none) :
    (SCCDAGAttrs.populate isa an g LIS DS).isSome = true :=
  foldlM_tagSCC_isSome an g.allNodes _ h1 h2 h3 h4

/-! ## `collectDependencies` writes no fixed-bounds record -/

lemma foldl_frame {σ α γ : Type} (f : σ → α → σ) (g : σ → γ)
    (hstep : ∀ s x, g (f s x) = g s) (l : List α) (s : σ) : g (l.foldl f s) = g s := by
  induction l generalizing s with
  | nil => rfl
  | cons x xs ih => rw [List.foldl_cons, ih, hstep]

lemma collectDependenciesOf_sccIVBounds (isa : Nat → Bool) (LIS : LoopsSummary)
    (DS : DominatorSummary) (attrs : SCCDAGAttrs) (n : SCCNode) :
    (SCCDAGAttrs.collectDependenciesOf isa LIS DS attrs n).sccIVBounds = attrs.sccIVBounds := by
  unfold SCCDAGAttrs.collectDependenciesOf SCCDAGAttrs.collectInternal
  have h1 : ∀ a : SCCDAGAttrs,
      (n.scc.edges.foldl (SCCDAGAttrs.classifyEdge isa LIS DS n.id) a).sccIVBounds
        = a.sccIVBounds := by
    intro a
    apply foldl_frame _ (fun s : SCCDAGAttrs => s.sccIVBounds)
    intro s x
    unfold SCCDAGAttrs.classifyEdge
    split_ifs <;> rfl
  split
  · exact h1 attrs
  · rw [foldl_frame _ (fun s : SCCDAGAttrs => s.sccIVBounds)]
    · exact h1 attrs
    · intro s x
      split_ifs <;> rfl

lemma collectDependencies_sccIVBounds (isa : Nat → Bool) (LIS : LoopsSummary)
    (DS : DominatorSummary) (attrs : SCCDAGAttrs) :
    (SCCDAGAttrs.collectDependencies isa LIS DS attrs).sccIVBounds = attrs.sccIVBounds := by
  unfold SCCDAGAttrs.collectDependencies
  exact foldl_frame _ (fun s : SCCDAGAttrs => s.sccIVBounds)
    (fun s x => collectDependenciesOf_sccIVBounds isa LIS DS s x) _ _

/-! ## The keys of `interIterDepsInternalToSCC` -/

lemma mem_insertSCC (sccs : List Nat) (scc k : Nat) :
    k ∈ insertSCC sccs scc ↔ k ∈ sccs ∨ k = scc := by
  unfold insertSCC
  by_cases h : scc ∈ sccs
  · rw [if_pos h]
    constructor
    · exact Or.inl
    · rintro (h1 | h1)
      · exact h1
      · rw [h1]; exact h
  · rw [if_neg h]
    simp

lemma mem_foldl_insertSCC (m : DepMap) (acc : List Nat) (k : Nat) :
    k ∈ m.foldl (fun sccs sccDependencies => insertSCC sccs sccDependencies.1) acc ↔
      k ∈ acc ∨ k ∈ m.map Prod.fst := by
  induction m generalizing acc with
  | nil => simp
  | cons p ps ih =>
    rw [List.foldl_cons, ih, mem_insertSCC, List.map_cons, List.mem_cons]
    constructor
    · rintro ((h | h) | h)
      · exact Or.inl h
      · exact Or.inr (Or.inl h)
      · exact Or.inr (Or.inr h)
    · rintro (h | h | h)
      · exact Or.inl (Or.inl h)
      · exact Or.inl (Or.inr h)
      · exact Or.inr h

lemma mem_foldl_insertSCC_control (m : DepMap) (acc : List Nat) (k : Nat) :
    k ∈ m.foldl (fun sccs (sccDependencies : Nat × List DGEdge) =>
        let deps := sccDependencies.2
        let isControl := deps.any (fun dep => dep.control)
        if isControl then insertSCC sccs sccDependencies.1 else sccs) acc ↔
      k ∈ acc ∨ ∃ p ∈ m, p.1 = k ∧ ∃ dep ∈ p.2, dep.control = true := by
  induction m generalizing acc with
  | nil => simp
  | cons p ps ih =>
    rw [List.foldl_cons, ih]
    by_cases hc : p.2.any (fun dep => dep.control) = true
    · have hc1 : ∃ dep ∈ p.2, dep.control = true := by simpa using hc
      simp only [hc, if_true, mem_insertSCC, List.mem_cons, exists_eq_or_imp]
      constructor
      · rintro ((h | h) | h)
        · exact Or.inl h
        · exact Or.inr (Or.inl ⟨h.symm, hc1⟩)
        · exact Or.inr (Or.inr h)
      · rintro (h | ⟨h, _⟩ | h)
        · exact Or.inl (Or.inl h)
        · exact Or.inl (Or.inr h.symm)
        · exact Or.inr h
    · have hc1 : ¬ ∃ dep ∈ p.2, dep.control = true := by simpa using hc
      simp only [hc, List.mem_cons, exists_eq_or_imp]
      constructor
      · rintro (h | h)
        · exact Or.inl h
        · exact Or.inr (Or.inr h)
      · rintro (h | ⟨_, h⟩ | h)
        · exact Or.inl h
        · exact absurd h hc1
        · exact Or.inr h

lemma lookup_isSome_iff_mem_keys {β : Type} (m : List (Nat × β)) (k : Nat) :
    (m.lookup k).isSome = true ↔ k ∈ m.map Prod.fst := by
  induction m with
  | nil => simp
  | cons p ps ih =>
    obtain ⟨a, b⟩ := p
    by_cases hk : k = a
    · subst hk
      simp [List.lookup_cons]
    · have h1 : (k == a) = false := by simpa using hk
      simp [List.lookup_cons, h1, ih, hk]

/-- The SCCs returned by `getSCCsWithLoopCarriedDependencies` are the keys found by `find`. -/
lemma mem_getSCCsWithLoopCarriedDependencies (attrs : SCCDAGAttrs) (k : Nat) :
    k ∈ attrs.getSCCsWithLoopCarriedDependencies ↔
      (attrs.interIterDepsInternalToSCC.find k).isSome = true := by
  unfold SCCDAGAttrs.getSCCsWithLoopCarriedDependencies DepMap.find
  rw [mem_foldl_insertSCC, lookup_isSome_iff_mem_keys]
  simp

/-- An SCC returned by `getSCCsWithLoopCarriedControlDependencies` is a key of the map. -/
lemma mem_getSCCsWithLoopCarriedControlDependencies (attrs : SCCDAGAttrs) (k : Nat)
    (h : k ∈ attrs.getSCCsWithLoopCarriedControlDependencies) :
    k ∈ attrs.getSCCsWithLoopCarriedDependencies ∧
      ∃ p ∈ attrs.interIterDepsInternalToSCC, p.1 = k ∧ ∃ dep ∈ p.2, dep.control = true := by
  unfold SCCDAGAttrs.getSCCsWithLoopCarriedControlDependencies at h
  rw [mem_foldl_insertSCC_control] at h
  rcases h with h | ⟨p, hp, hk, hc⟩
  · exact absurd h (List.not_mem_nil _)
  · refine ⟨?_, p, hp, hk, hc⟩
    unfold SCCDAGAttrs.getSCCsWithLoopCarriedDependencies
    rw [mem_foldl_insertSCC]
    exact Or.inr (List.mem_map.mpr ⟨p, hp, hk⟩)

/-- Line 362 is reached only after `find` has found the key (line 359): the access `m[scc]`
returns the set found and leaves the map as it is. -/
lemma DepMap.subscript_of_find (m : DepMap) (k : Nat) (h : (m.find k).isSome = true) :
    m.subscript k = (m.get k, m) := by
  unfold DepMap.subscript DepMap.get
  unfold DepMap.find at h ⊢
  cases hl : m.lookup k with
  | none => rw [hl] at h; exact absurd h (by simp)
  | some s => rfl

section Keys

variable (isa : Nat → Bool) (LIS : LoopsSummary) (DS : DominatorSummary)

/-- Every key of `interIterDepsInternalToSCC` after `collectDependencies` is an SCC of the
graph, and its set is not empty. -/
lemma collectDependencies_keys (g : SCCDG) (hnd : (g.allNodes.map (fun n => n.id)).Nodup)
    (k : Nat) (s : List DGEdge)
    (h : (SCCDAGAttrs.collectDependencies isa LIS DS
      (SCCDAGAttrs.init g)).interIterDepsInternalToSCC.find k = some s) :
    s ≠ [] ∧ ∃ n ∈ g.allNodes, n.id = k := by
  unfold SCCDAGAttrs.collectDependencies at h
  have hne := foldl_collect_nonEmpty isa LIS DS g.allNodes (SCCDAGAttrs.init g)
    DepMap.nonEmptyEntries_nil
  simp only [SCCDAGAttrs.init] at hne h
  have hs := hne k s h
  refine ⟨hs, ?_⟩
  obtain ⟨x, hx⟩ := List.exists_mem_of_ne_nil s hs
  have key := foldl_collect_internal isa LIS DS g.allNodes (SCCDAGAttrs.init g)
    (fun _ _ => rfl) hnd k x
  simp only [SCCDAGAttrs.init] at key
  have hx1 : x ∈ DepMap.get ((g.allNodes.foldl (SCCDAGAttrs.collectDependenciesOf isa LIS DS)
      { sccdag := g, interIterDeps := [], intraIterDeps := [],
        interIterDepsInternalToSCC := [], sccToInfo := [], clonableSCCs := [],
        sccIVBounds := [] }).interIterDepsInternalToSCC) k := by
    unfold DepMap.get
    rw [h]
    exact hx
  rcases key.mp hx1 with h1 | ⟨n, hn, hk, _⟩
  · exact absurd h1 (List.not_mem_nil _)
  · exact ⟨n, hn, hk⟩

end Keys
/-! ## The caches of the derivation queries do not change their answers -/

lemma isDerivedWithinSCC_fst (v : Nat) (scc : SCC) (a : SCCAttrs) :
    (SCCDAGAttrs.isDerivedWithinSCC v scc a).1 =
      (scc.isInternal v &&
        (decide (v ∈ a.stronglyConnectedDataValues) ||
          (!decide (v ∈ a.weaklyConnectedDataValues) &&
            (scc.searchOutgoing v && scc.searchIncoming v)))) := by
  unfold SCCDAGAttrs.isDerivedWithinSCC
  cases scc.isInternal v <;> cases decide (v ∈ a.stronglyConnectedDataValues) <;>
    cases decide (v ∈ a.weaklyConnectedDataValues) <;> cases scc.searchOutgoing v <;>
    cases scc.searchIncoming v <;> rfl

lemma isDerivedWithinSCC_frame (v : Nat) (scc : SCC) (a : SCCAttrs) :
    (SCCDAGAttrs.isDerivedWithinSCC v scc a).2.PHINodes = a.PHINodes ∧
    (SCCDAGAttrs.isDerivedWithinSCC v scc a).2.accumulators = a.accumulators ∧
    (SCCDAGAttrs.isDerivedWithinSCC v scc a).2.controlPairs = a.controlPairs ∧
    (SCCDAGAttrs.isDerivedWithinSCC v scc a).2.type = a.type ∧
    (SCCDAGAttrs.isDerivedWithinSCC v scc a).2.hasIV = a.hasIV ∧
    (SCCDAGAttrs.isDerivedWithinSCC v scc a).2.isClonable = a.isClonable := by
  unfold SCCDAGAttrs.isDerivedWithinSCC
  cases scc.isInternal v <;> cases decide (v ∈ a.stronglyConnectedDataValues) <;>
    cases decide (v ∈ a.weaklyConnectedDataValues) <;> cases scc.searchOutgoing v <;>
    cases scc.searchIncoming v <;> exact ⟨rfl, rfl, rfl, rfl, rfl, rfl⟩

lemma isDerivedWithinSCC_strongly (v w : Nat) (scc : SCC) (a : SCCAttrs) :
    w ∈ (SCCDAGAttrs.isDerivedWithinSCC v scc a).2.stronglyConnectedDataValues ↔
      w ∈ a.stronglyConnectedDataValues ∨
        (w = v ∧ scc.isInternal v = true ∧ v ∉ a.weaklyConnectedDataValues ∧
          scc.searchOutgoing v = true ∧ scc.searchIncoming v = true) := by
  unfold SCCDAGAttrs.isDerivedWithinSCC
  by_cases h1 : scc.isInternal v = true <;> by_cases h2 : v ∈ a.stronglyConnectedDataValues <;>
    by_cases h3 : v ∈ a.weaklyConnectedDataValues <;>
    by_cases h4 : scc.searchOutgoing v = true <;>
    by_cases h5 : scc.searchIncoming v = true <;>
    (simp [h1, h2, h3, h4, h5]; try aesop)

lemma isDerivedWithinSCC_weakly (v w : Nat) (scc : SCC) (a : SCCAttrs) :
    w ∈ (SCCDAGAttrs.isDerivedWithinSCC v scc a).2.weaklyConnectedDataValues ↔
      w ∈ a.weaklyConnectedDataValues ∨
        (w = v ∧ scc.isInternal v = true ∧ v ∉ a.stronglyConnectedDataValues ∧
          ¬ (scc.searchOutgoing v = true ∧ scc.searchIncoming v = true)) := by
  unfold SCCDAGAttrs.isDerivedWithinSCC
  by_cases h1 : scc.isInternal v = true <;> by_cases h2 : v ∈ a.stronglyConnectedDataValues <;>
    by_cases h3 : v ∈ a.weaklyConnectedDataValues <;>
    by_cases h4 : scc.searchOutgoing v = true <;>
    by_cases h5 : scc.searchIncoming v = true <;>
    simp [h1, h2, h3, h4, h5] <;> aesop
lemma isDerivedWithinSCC_step (v w : Nat) (scc : SCC) (a : SCCAttrs) :
    (SCCDAGAttrs.isDerivedWithinSCC w scc (SCCDAGAttrs.isDerivedWithinSCC v scc a).2).1
      = (SCCDAGAttrs.isDerivedWithinSCC w scc a).1 := by
  rw [isDerivedWithinSCC_fst, isDerivedWithinSCC_fst]
  have hs := isDerivedWithinSCC_strongly v w scc a
  have hw := isDerivedWithinSCC_weakly v w scc a
  by_cases hwv : w = v
  · subst hwv
    by_cases h1 : scc.isInternal w = true <;> by_cases h2 : w ∈ a.stronglyConnectedDataValues <;>
      by_cases h3 : w ∈ a.weaklyConnectedDataValues <;>
      by_cases h4 : scc.searchOutgoing w = true <;>
      by_cases h5 : scc.searchIncoming w = true <;>
      simp [h1, h2, h3, h4, h5] at hs hw ⊢ <;> simp [hs, hw]
  · have hs' : w ∈ (SCCDAGAttrs.isDerivedWithinSCC v scc a).2.stronglyConnectedDataValues ↔
        w ∈ a.stronglyConnectedDataValues := by
      rw [hs]; simp [hwv]
    have hw' : w ∈ (SCCDAGAttrs.isDerivedWithinSCC v scc a).2.weaklyConnectedDataValues ↔
        w ∈ a.weaklyConnectedDataValues := by
      rw [hw]; simp [hwv]
    simp only [hs', hw']

lemma sameAnswers_refl (scc : SCC) (a : SCCAttrs) : SCCAttrs.SameAnswers scc a a :=
  ⟨rfl, rfl, rfl, rfl, rfl, rfl, fun _ => rfl⟩

/-- A query on a record that gives the same answers as `a` returns the answer of `a` and leaves
a record that gives the same answers as `a`. -/
lemma sameAnswers_isDerivedWithinSCC (scc : SCC) (a b : SCCAttrs)
    (h : SCCAttrs.SameAnswers scc a b) (v : Nat) :
    (SCCDAGAttrs.isDerivedWithinSCC v scc b).1 = (SCCDAGAttrs.isDerivedWithinSCC v scc a).1 ∧
      SCCAttrs.SameAnswers scc a (SCCDAGAttrs.isDerivedWithinSCC v scc b).2 := by
  obtain ⟨h1, h2, h3, h4, h5, h6, h7⟩ := h
  obtain ⟨f1, f2, f3, f4, f5, f6⟩ := isDerivedWithinSCC_frame v scc b
  refine ⟨h7 v, f1.trans h1, f2.trans h2, f3.trans h3, f4.trans h4, f5.trans h5, f6.trans h6, ?_⟩
  intro w
  rw [isDerivedWithinSCC_step, h7]

lemma sameAnswers_isDerivedPHIOrAccumulator (ir : IROracle) (scc : SCC) (a b : SCCAttrs)
    (h : SCCAttrs.SameAnswers scc a b) (v : Nat) :
    (SCCDAGAttrs.isDerivedPHIOrAccumulator ir v scc b).1
        = (SCCDAGAttrs.isDerivedPHIOrAccumulator ir v scc a).1 ∧
      SCCAttrs.SameAnswers scc a (SCCDAGAttrs.isDerivedPHIOrAccumulator ir v scc b).2 := by
  unfold SCCDAGAttrs.isDerivedPHIOrAccumulator
  simp only []
  obtain ⟨e, hsame⟩ := sameAnswers_isDerivedWithinSCC scc a b h
    (if ir.isaCastInst v then ir.getOperand v 0 else v)
  refine ⟨?_, hsame⟩
  rw [e]
  unfold SCCAttrs.doesItContainThisPHI SCCAttrs.doesItContainThisInstructionAsAccumulator
  rw [h.1, h.2.1]

lemma allThreaded_spec {α : Type} (R : SCCAttrs → Prop)
    (check : α → SCCAttrs → Bool × SCCAttrs) (p : α → Bool)
    (hcheck : ∀ x s, R s → (check x s).1 = p x ∧ R (check x s).2) :
    ∀ (xs : List α) (s : SCCAttrs), R s →
      (allThreaded check xs s).1 = xs.all p ∧ R (allThreaded check xs s).2 := by
  intro xs
  induction xs with
  | nil => intro s hs; exact ⟨rfl, hs⟩
  | cons x rest ih =>
    intro s hs
    obtain ⟨e, hr⟩ := hcheck x s hs
    unfold allThreaded
    simp only [List.all_cons]
    by_cases hp : p x = true
    · rw [e, hp]
      simp only [if_true, Bool.true_and]
      exact ih _ hr
    · have hp' : p x = false := by simpa using hp
      rw [e, hp']
      simp only [Bool.false_and, Bool.false_eq_true, if_false]
      exact ⟨trivial, hr⟩

/-! ## The caches of `isDerivedWithinSCC` -/

lemma isDerivedWithinSCCUncached_eq (v : Nat) (scc : SCC) :
    SCCDAGAttrs.isDerivedWithinSCCUncached v scc =
      (scc.isInternal v && (scc.searchOutgoing v && scc.searchIncoming v)) := by
  unfold SCCDAGAttrs.isDerivedWithinSCCUncached
  cases scc.isInternal v <;> cases scc.searchOutgoing v <;> cases scc.searchIncoming v <;> rfl

/-- The computation without caches is the call on a record whose two caches are empty. -/
lemma isDerivedWithinSCC_of_empty (v : Nat) (scc : SCC) (a : SCCAttrs)
    (hs : a.stronglyConnectedDataValues = []) (hw : a.weaklyConnectedDataValues = []) :
    (SCCDAGAttrs.isDerivedWithinSCC v scc a).1 = SCCDAGAttrs.isDerivedWithinSCCUncached v scc := by
  rw [isDerivedWithinSCC_fst, isDerivedWithinSCCUncached_eq, hs, hw]
  simp

lemma cachesSound_of_empty (scc : SCC) (a : SCCAttrs)
    (hs : a.stronglyConnectedDataValues = []) (hw : a.weaklyConnectedDataValues = []) :
    a.CachesSound scc := by
  unfold SCCAttrs.CachesSound
  rw [hs, hw]
  simp

/-- One call on sound caches returns the result of the computation without caches and leaves
the caches sound. -/
lemma isDerivedWithinSCC_cachesSound (v : Nat) (scc : SCC) (a : SCCAttrs)
    (h : a.CachesSound scc) :
    (SCCDAGAttrs.isDerivedWithinSCC v scc a).1 = SCCDAGAttrs.isDerivedWithinSCCUncached v scc ∧
      (SCCDAGAttrs.isDerivedWithinSCC v scc a).2.CachesSound scc := by
  obtain ⟨hd, hs, hw⟩ := h
  constructor
  · rw [isDerivedWithinSCC_fst]
    by_cases h1 : v ∈ a.stronglyConnectedDataValues
    · have h2 := hs v h1
      have h3 := h2
      rw [isDerivedWithinSCCUncached_eq] at h3
      rw [h2]
      simp only [Bool.and_eq_true] at h3
      simp [h1, h3.1]
    · by_cases h2 : v ∈ a.weaklyConnectedDataValues
      · have h3 := hw v h2
        have h4 := h3
        rw [isDerivedWithinSCCUncached_eq] at h4
        rw [h3]
        simp [h1, h2]
      · rw [isDerivedWithinSCCUncached_eq]
        simp [h1, h2]
  · refine ⟨?_, ?_, ?_⟩
    · rintro w ⟨hw1, hw2⟩
      rw [isDerivedWithinSCC_strongly] at hw1
      rw [isDerivedWithinSCC_weakly] at hw2
      rcases hw1 with hw1 | ⟨e1, _, n1, s1, s2⟩
      · rcases hw2 with hw2 | ⟨e2, _, n2, _⟩
        · exact hd w ⟨hw1, hw2⟩
        · exact n2 (e2 ▸ hw1)
      · rcases hw2 with hw2 | ⟨_, _, _, n3⟩
        · exact n1 (e1 ▸ hw2)
        · exact n3 ⟨s1, s2⟩
    · intro w hw1
      rw [isDerivedWithinSCC_strongly] at hw1
      rcases hw1 with hw1 | ⟨e1, i1, _, s1, s2⟩
      · exact hs w hw1
      · rw [e1, isDerivedWithinSCCUncached_eq, i1, s1, s2]
        rfl
    · intro w hw2
      rw [isDerivedWithinSCC_weakly] at hw2
      rcases hw2 with hw2 | ⟨e2, _, _, n3⟩
      · exact hw w hw2
      · rw [e2, isDerivedWithinSCCUncached_eq]
        cases h4 : scc.searchOutgoing v
        · simp
        · cases h5 : scc.searchIncoming v
          · simp
          · exact absurd ⟨h4, h5⟩ n3

/-- A sequence of calls on sound caches: every call returns the result of the computation
without caches, and the caches are sound after the last call. -/
lemma isDerivedWithinSCCCalls_cachesSound (scc : SCC) (vals : List Nat) (a : SCCAttrs)
    (h : a.CachesSound scc) :
    (SCCDAGAttrs.isDerivedWithinSCCCalls scc vals a).1 =
        vals.map (fun v => SCCDAGAttrs.isDerivedWithinSCCUncached v scc) ∧
      (SCCDAGAttrs.isDerivedWithinSCCCalls scc vals a).2.CachesSound scc := by
  induction vals generalizing a with
  | nil => exact ⟨rfl, h⟩
  | cons v vs ih =>
    obtain ⟨h1, h2⟩ := isDerivedWithinSCC_cachesSound v scc a h
    obtain ⟨h3, h4⟩ := ih _ h2
    unfold SCCDAGAttrs.isDerivedWithinSCCCalls
    simp only [List.map_cons]
    exact ⟨by rw [h1, h3], h4⟩

/-! ## The search loops of `isDerivedWithinSCC` find the cycles -/

section Search

variable (scc : SCC) (start : Nat) (edgesOf : Nat → List DGEdge) (next : DGEdge → Nat)

lemma visitEdge_spec (s : SearchState) (e : DGEdge) :
    (∃ added, (scc.visitEdge start next s e).seen = s.seen ++ added ∧
      (scc.visitEdge start next s e).queue = s.queue ++ added ∧
      (∀ x, x ∈ added ↔ (x ∉ s.seen ∧ scc.followed next e ∧ next e = x)) ∧
      (s.seen.Nodup → (s.seen ++ added).Nodup)) ∧
    ((scc.visitEdge start next s e).inCycle = true ↔
      s.inCycle = true ∨ (scc.followed next e ∧ next e = start)) := by
  unfold SCC.visitEdge SCC.followed
  by_cases h1 : e.control = true
  · simp only [h1, if_true]
    exact ⟨⟨[], by simp, by simp, by simp, by simp⟩, by simp⟩
  · have h1f : e.control = false := by simpa using h1
    by_cases h2 : scc.isExternal (next e) = true
    · simp only [h1f, h2, if_true]
      exact ⟨⟨[], by simp, by simp, by simp, by simp⟩, by simp⟩
    · have h2f : scc.isExternal (next e) = false := by simpa using h2
      simp only [h1f, h2f, Bool.false_eq_true, if_false]
      by_cases h3 : next e = start
      · by_cases h4 : next e ∈ s.seen
        · simp only [h3] at h4 ⊢
          simp only [beq_self_eq_true, if_true, h4]
          refine ⟨⟨[], by simp, by simp, ?_, by simp⟩, by simp⟩
          intro x
          constructor
          · intro hx; simp at hx
          · rintro ⟨hx1, _, hx2⟩
            exact absurd (hx2 ▸ h4) hx1
        · simp only [h3] at h4 ⊢
          simp only [beq_self_eq_true, if_true, h4, if_false]
          refine ⟨⟨[start], rfl, rfl, ?_, ?_⟩, by simp⟩
          · intro x
            simp only [List.mem_singleton, true_and]
            constructor
            · rintro rfl; exact ⟨h4, rfl⟩
            · rintro ⟨_, hx⟩; exact hx.symm
          · intro hnd
            exact List.Nodup.append hnd (List.nodup_singleton _) (by simpa using h4)
      · have h3f : (next e == start) = false := by simpa using h3
        by_cases h4 : next e ∈ s.seen
        · simp only [h3f, Bool.false_eq_true, if_false, h4, if_true]
          refine ⟨⟨[], by simp, by simp, ?_, by simp⟩, by simp [h3]⟩
          intro x
          constructor
          · intro hx; simp at hx
          · rintro ⟨hx1, _, hx2⟩
            exact absurd (hx2 ▸ h4) hx1
        · simp only [h3f, Bool.false_eq_true, if_false, h4]
          refine ⟨⟨[next e], rfl, rfl, ?_, ?_⟩, by simp [h3]⟩
          · intro x
            simp only [List.mem_singleton, true_and]
            constructor
            · rintro rfl; exact ⟨h4, rfl⟩
            · rintro ⟨_, hx⟩; exact hx.symm
          · intro hnd
            exact List.Nodup.append hnd (List.nodup_singleton _) (by simpa using h4)

lemma foldl_visitEdge_spec (es : List DGEdge) (s : SearchState) :
    (∃ added, (es.foldl (scc.visitEdge start next) s).seen = s.seen ++ added ∧
      (es.foldl (scc.visitEdge start next) s).queue = s.queue ++ added ∧
      (∀ x, x ∈ added ↔ (x ∉ s.seen ∧ ∃ e ∈ es, scc.followed next e ∧ next e = x)) ∧
      (s.seen.Nodup → (s.seen ++ added).Nodup)) ∧
    ((es.foldl (scc.visitEdge start next) s).inCycle = true ↔
      s.inCycle = true ∨ ∃ e ∈ es, scc.followed next e ∧ next e = start) := by
  induction es generalizing s with
  | nil => exact ⟨⟨[], by simp, by simp, by simp, by simp⟩, by simp⟩
  | cons e es ih =>
    obtain ⟨⟨added1, a1, a2, a3, a4⟩, a5⟩ := visitEdge_spec scc start next s e
    obtain ⟨⟨added2, b1, b2, b3, b4⟩, b5⟩ := ih (scc.visitEdge start next s e)
    rw [List.foldl_cons]
    constructor
    · refine ⟨added1 ++ added2, ?_, ?_, ?_, ?_⟩
      · rw [b1, a1, List.append_assoc]
      · rw [b2, a2, List.append_assoc]
      · intro x
        rw [List.mem_append, a3, b3, a1]
        constructor
        · rintro (⟨h1, h2, h3⟩ | ⟨h1, e', he', h2, h3⟩)
          · exact ⟨h1, e, List.mem_cons_self _ _, h2, h3⟩
          · exact ⟨fun hx => h1 (List.mem_append_left _ hx), e', List.mem_cons_of_mem _ he',
              h2, h3⟩
        · rintro ⟨h1, e', he', h2, h3⟩
          rcases List.mem_cons.mp he' with rfl | he'
          · exact Or.inl ⟨h1, h2, h3⟩
          · by_cases hx : x ∈ added1
            · left
              exact (a3 x).mp hx
            · right
              refine ⟨?_, e', he', h2, h3⟩
              rw [List.mem_append]
              rintro (h | h)
              · exact h1 h
              · exact hx h
      · intro hnd
        rw [← List.append_assoc, ← a1]
        apply b4
        rw [a1]
        exact a4 hnd
    · rw [b5, a5]
      constructor
      · rintro ((h | ⟨h1, h2⟩) | ⟨e', he', h1, h2⟩)
        · exact Or.inl h
        · exact Or.inr ⟨e, List.mem_cons_self _ _, h1, h2⟩
        · exact Or.inr ⟨e', List.mem_cons_of_mem _ he', h1, h2⟩
      · rintro (h | ⟨e', he', h1, h2⟩)
        · exact Or.inl (Or.inl h)
        · rcases List.mem_cons.mp he' with rfl | he'
          · exact Or.inl (Or.inr ⟨h1, h2⟩)
          · exact Or.inr ⟨e', he', h1, h2⟩

lemma searchInv_no_cycle (C : List Nat) (s : SearchState)
    (hinv : scc.SearchInv start edgesOf next C s) (hq : s.queue = []) :
    ¬ Relation.TransGen (scc.SearchStep edgesOf next) start start := by
  have key : ∀ y, Relation.TransGen (scc.SearchStep edgesOf next) start y → y ∈ s.seen := by
    intro y hy
    induction hy with
    | single h => exact hinv.closed start (Or.inl rfl) (by rw [hq]; simp) _ h
    | tail _ h ih => exact hinv.closed _ (Or.inr ih) (by rw [hq]; simp) _ h
  intro h
  exact hinv.start_not_seen (key start h)

lemma searchInv_reach (C : List Nat) (s : SearchState)
    (hinv : scc.SearchInv start edgesOf next C s) (node : Nat) (hn : node ∈ s.queue) (y : Nat)
    (hy : scc.SearchStep edgesOf next node y) :
    Relation.TransGen (scc.SearchStep edgesOf next) start y := by
  rcases hinv.queue node hn with rfl | h
  · exact Relation.TransGen.single hy
  · exact Relation.TransGen.tail (hinv.reach node h) hy

/-- One turn of the search loop: either the flag is set, and there is a cycle through the
start; or the invariant holds again, with one node less to handle. -/
lemma searchInv_step (C : List Nat) (hC : ∀ a e, e ∈ edgesOf a → next e ∈ C) (s : SearchState)
    (hinv : scc.SearchInv start edgesOf next C s) (node : Nat) (rest : List Nat)
    (hq : s.queue = node :: rest) :
    (((edgesOf node).foldl (scc.visitEdge start next) { s with queue := rest }).inCycle = true →
      Relation.TransGen (scc.SearchStep edgesOf next) start start) ∧
    (((edgesOf node).foldl (scc.visitEdge start next) { s with queue := rest }).inCycle = false →
      scc.SearchInv start edgesOf next C
        ((edgesOf node).foldl (scc.visitEdge start next) { s with queue := rest }) ∧
      ((edgesOf node).foldl (scc.visitEdge start next) { s with queue := rest }).queue.length
          + s.seen.length + 1 =
        s.queue.length +
          ((edgesOf node).foldl (scc.visitEdge start next) { s with queue := rest }).seen.length)
    := by
  obtain ⟨⟨added, a1, a2, a3, a4⟩, a5⟩ :=
    foldl_visitEdge_spec scc start next (edgesOf node) { s with queue := rest }
  simp only [] at a1 a2 a3 a4 a5
  have hnode : node ∈ s.queue := by rw [hq]; exact List.mem_cons_self _ _
  constructor
  · intro hc
    rw [a5, hinv.flag] at hc
    simp only [Bool.false_eq_true, false_or] at hc
    obtain ⟨e, he, h1, h2⟩ := hc
    exact searchInv_reach scc start edgesOf next C s hinv node hnode start ⟨e, he, h1, h2⟩
  · intro hc
    have hno : ¬ ∃ e ∈ edgesOf node, scc.followed next e ∧ next e = start := by
      intro hex
      have := a5.mpr (Or.inr hex)
      rw [hc] at this
      exact absurd this (by simp)
    constructor
    · refine ⟨hc, ?_, ?_, ?_, ?_, ?_, ?_⟩
      · rw [a1, List.mem_append]
        rintro (h | h)
        · exact hinv.start_not_seen h
        · exact hno ((a3 start).mp h).2
      · rw [a1]
        exact a4 hinv.nodup
      · intro x hx
        rw [a1, List.mem_append] at hx
        rcases hx with h | h
        · exact hinv.subset x h
        · obtain ⟨_, e, he, _, rfl⟩ := (a3 x).mp h
          exact hC node e he
      · intro x hx
        rw [a2, List.mem_append] at hx
        rw [a1, List.mem_append]
        rcases hx with h | h
        · rcases hinv.queue x (by rw [hq]; exact List.mem_cons_of_mem _ h) with h1 | h1
          · exact Or.inl h1
          · exact Or.inr (Or.inl h1)
        · exact Or.inr (Or.inr h)
      · intro x hx
        rw [a1, List.mem_append] at hx
        rcases hx with h | h
        · exact hinv.reach x h
        · obtain ⟨_, e, he, h1, h2⟩ := (a3 x).mp h
          exact searchInv_reach scc start edgesOf next C s hinv node hnode x ⟨e, he, h1, h2⟩
      · intro x hx hxq y hy
        rw [a2, List.mem_append, not_or] at hxq
        rw [a1, List.mem_append]
        by_cases hxn : x = node
        · subst hxn
          obtain ⟨e, he, h1, h2⟩ := hy
          by_cases hys : y ∈ s.seen
          · exact Or.inl hys
          · exact Or.inr ((a3 y).mpr ⟨hys, e, he, h1, h2⟩)
        · have hx1 : x = start ∨ x ∈ s.seen := by
            rcases hx with h | h
            · exact Or.inl h
            · rw [a1, List.mem_append] at h
              rcases h with h | h
              · exact Or.inr h
              · exact absurd h hxq.2
          have hx2 : x ∉ s.queue := by
            rw [hq]
            intro h
            rcases List.mem_cons.mp h with h | h
            · exact hxn h
            · exact hxq.1 h
          exact Or.inl (hinv.closed x hx1 hx2 y hy)
    · rw [a1, a2, hq]
      simp only [List.length_append, List.length_cons]
      omega

/-- With enough fuel the search loop returns `true` exactly when there is a cycle of search
steps through the start. -/
lemma searchLoop_spec (C : List Nat) (hC : ∀ a e, e ∈ edgesOf a → next e ∈ C) (fuel : Nat)
    (s : SearchState) (hinv : scc.SearchInv start edgesOf next C s)
    (hfuel : s.queue.length + C.length ≤ fuel + s.seen.length) :
    scc.searchLoop start edgesOf next fuel s = true ↔
      Relation.TransGen (scc.SearchStep edgesOf next) start start := by
  have hlen : s.seen.length ≤ C.length :=
    (List.subperm_of_subset hinv.nodup hinv.subset).length_le
  induction fuel generalizing s with
  | zero =>
    have hq : s.queue = [] := List.length_eq_zero.mp (by omega)
    simp only [SCC.searchLoop, hinv.flag, Bool.false_eq_true, false_iff]
    exact searchInv_no_cycle scc start edgesOf next C s hinv hq
  | succ fuel ih =>
    cases hq : s.queue with
    | nil =>
      simp only [SCC.searchLoop, hq, hinv.flag, Bool.false_eq_true, false_iff]
      exact searchInv_no_cycle scc start edgesOf next C s hinv hq
    | cons node rest =>
      obtain ⟨st1, st2⟩ := searchInv_step scc start edgesOf next C hC s hinv node rest hq
      simp only [SCC.searchLoop, hq]
      cases hc : ((edgesOf node).foldl (scc.visitEdge start next)
          { s with queue := rest }).inCycle with
      | true =>
        simp only [if_true, true_iff]
        exact st1 hc
      | false =>
        simp only [Bool.false_eq_true, if_false]
        obtain ⟨hinv1, hl⟩ := st2 hc
        exact ih _ hinv1 (by omega)
          ((List.subperm_of_subset hinv1.nodup hinv1.subset).length_le)

lemma searchInv_init (C : List Nat) :
    scc.SearchInv start edgesOf next C { queue := [start], seen := [], inCycle := false } :=
  { flag := rfl,
    start_not_seen := by simp,
    nodup := List.nodup_nil,
    subset := by simp,
    queue := by simp,
    reach := by simp,
    closed := by
      intro x hx hxq
      simp only [List.not_mem_nil, or_false] at hx
      simp only [List.mem_singleton] at hxq
      exact absurd hx hxq }

end Search

lemma searchOutgoing_iff (scc : SCC) (v : Nat) :
    scc.searchOutgoing v = true ↔
      Relation.TransGen (scc.SearchStep scc.getOutgoingEdges (fun edge => edge.dst)) v v := by
  unfold SCC.searchOutgoing
  apply searchLoop_spec scc v _ _ (scc.edges.map (fun edge => edge.dst))
  · intro a e he
    unfold SCC.getOutgoingEdges at he
    exact List.mem_map_of_mem _ (List.mem_filter.mp he).1
  · exact searchInv_init scc v _ _ _
  · simp only [List.length_singleton, List.length_map, List.length_nil]
    omega

lemma searchIncoming_iff (scc : SCC) (v : Nat) :
    scc.searchIncoming v = true ↔
      Relation.TransGen (scc.SearchStep scc.getIncomingEdges (fun edge => edge.src)) v v := by
  unfold SCC.searchIncoming
  apply searchLoop_spec scc v _ _ (scc.edges.map (fun edge => edge.src))
  · intro a e he
    unfold SCC.getIncomingEdges at he
    exact List.mem_map_of_mem _ (List.mem_filter.mp he).1
  · exact searchInv_init scc v _ _ _
  · simp only [List.length_singleton, List.length_map, List.length_nil]
    omega

/-! ## Search steps and data edges -/

lemma isExternal_of_mem_edges (scc : SCC) (e : DGEdge) (he : e ∈ scc.edges) :
    (scc.isExternal e.src = false ↔ scc.isInternal e.src = true) ∧
    (scc.isExternal e.dst = false ↔ scc.isInternal e.dst = true) := by
  have h1 : scc.edges.any (fun e' => e'.src == e.src || e'.dst == e.src) = true :=
    List.any_eq_true.mpr ⟨e, he, by simp⟩
  have h2 : scc.edges.any (fun e' => e'.src == e.dst || e'.dst == e.dst) = true :=
    List.any_eq_true.mpr ⟨e, he, by simp⟩
  unfold SCC.isExternal
  rw [h1, h2]
  constructor <;> simp

lemma searchStep_outgoing_iff (scc : SCC) (a b : Nat) :
    scc.SearchStep scc.getOutgoingEdges (fun edge => edge.dst) a b ↔
      ∃ e ∈ scc.edges, e.src = a ∧ e.dst = b ∧ e.control = false ∧
        scc.isInternal b = true := by
  unfold SCC.SearchStep SCC.followed SCC.getOutgoingEdges
  constructor
  · rintro ⟨e, he, ⟨h1, h2⟩, h3⟩
    rw [List.mem_filter] at he
    simp only [beq_iff_eq] at he h3
    refine ⟨e, he.1, he.2, h3, h1, ?_⟩
    rw [← h3]
    exact (isExternal_of_mem_edges scc e he.1).2.mp h2
  · rintro ⟨e, he, h1, h2, h3, h4⟩
    refine ⟨e, List.mem_filter.mpr ⟨he, by simpa using h1⟩, ⟨h3, ?_⟩, h2⟩
    apply (isExternal_of_mem_edges scc e he).2.mpr
    rw [h2]
    exact h4

lemma searchStep_incoming_iff (scc : SCC) (a b : Nat) :
    scc.SearchStep scc.getIncomingEdges (fun edge => edge.src) a b ↔
      ∃ e ∈ scc.edges, e.src = b ∧ e.dst = a ∧ e.control = false ∧
        scc.isInternal b = true := by
  unfold SCC.SearchStep SCC.followed SCC.getIncomingEdges
  constructor
  · rintro ⟨e, he, ⟨h1, h2⟩, h3⟩
    rw [List.mem_filter] at he
    simp only [beq_iff_eq] at he h3
    refine ⟨e, he.1, h3, he.2, h1, ?_⟩
    rw [← h3]
    exact (isExternal_of_mem_edges scc e he.1).1.mp h2
  · rintro ⟨e, he, h1, h2, h3, h4⟩
    refine ⟨e, List.mem_filter.mpr ⟨he, by simpa using h2⟩, ⟨h3, ?_⟩, h1⟩
    apply (isExternal_of_mem_edges scc e he).1.mpr
    rw [h1]
    exact h4

/-- From an internal node the steps of the forward search are the data edges between internal
nodes. -/
lemma transGen_outgoing_iff (scc : SCC) (v : Nat) (hv : scc.isInternal v = true) :
    Relation.TransGen (scc.SearchStep scc.getOutgoingEdges (fun edge => edge.dst)) v v ↔
      Relation.TransGen scc.DataEdge v v := by
  constructor
  · intro h
    have key : ∀ b, Relation.TransGen
        (scc.SearchStep scc.getOutgoingEdges (fun edge => edge.dst)) v b →
        Relation.TransGen scc.DataEdge v b ∧ scc.isInternal b = true := by
      intro b hb
      induction hb with
      | single h1 =>
        obtain ⟨e, he, h2, h3, h4, h5⟩ := (searchStep_outgoing_iff scc _ _).mp h1
        exact ⟨Relation.TransGen.single ⟨e, he, h2, h3, h4, hv, h5⟩, h5⟩
      | tail _ h1 ih =>
        obtain ⟨e, he, h2, h3, h4, h5⟩ := (searchStep_outgoing_iff scc _ _).mp h1
        exact ⟨Relation.TransGen.tail ih.1 ⟨e, he, h2, h3, h4, ih.2, h5⟩, h5⟩
    exact (key v h).1
  · intro h
    refine Relation.TransGen.mono ?_ h
    rintro a b ⟨e, he, h2, h3, h4, _, h6⟩
    exact (searchStep_outgoing_iff scc a b).mpr ⟨e, he, h2, h3, h4, h6⟩

/-- From an internal node the steps of the backward search are the data edges between internal
nodes, taken backwards. -/
lemma transGen_incoming_iff (scc : SCC) (v : Nat) (hv : scc.isInternal v = true) :
    Relation.TransGen (scc.SearchStep scc.getIncomingEdges (fun edge => edge.src)) v v ↔
      Relation.TransGen scc.DataEdge v v := by
  refine Iff.trans ?_ (Relation.transGen_swap (r := scc.DataEdge))
  constructor
  · intro h
    have key : ∀ b, Relation.TransGen
        (scc.SearchStep scc.getIncomingEdges (fun edge => edge.src)) v b →
        Relation.TransGen (Function.swap scc.DataEdge) v b ∧ scc.isInternal b = true := by
      intro b hb
      induction hb with
      | single h1 =>
        obtain ⟨e, he, h2, h3, h4, h5⟩ := (searchStep_incoming_iff scc _ _).mp h1
        exact ⟨Relation.TransGen.single ⟨e, he, h2, h3, h4, h5, hv⟩, h5⟩
      | tail _ h1 ih =>
        obtain ⟨e, he, h2, h3, h4, h5⟩ := (searchStep_incoming_iff scc _ _).mp h1
        exact ⟨Relation.TransGen.tail ih.1 ⟨e, he, h2, h3, h4, h5, ih.2⟩, h5⟩
    exact (key v h).1
  · intro h
    refine Relation.TransGen.mono ?_ h
    rintro a b ⟨e, he, h2, h3, h4, h5, _⟩
    exact (searchStep_incoming_iff scc a b).mpr ⟨e, he, h2, h3, h4, h5⟩
/-! ## `checkIfReducible` as a conjunction of tests on the record it is given -/

lemma checkIncomingValues_spec (ir : IROracle) (LIS : LoopsSummary) (scc : SCC)
    (a b : SCCAttrs) (h : SCCAttrs.SameAnswers scc a b) (phi : Nat) :
    (SCCDAGAttrs.checkIncomingValues ir LIS scc phi b).1 =
        (ir.incoming phi).all (fun inc =>
          (LIS.getLoop inc.2).isNone || (LIS.getLoop inc.2 != LIS.getLoop phi) ||
            (SCCDAGAttrs.isDerivedPHIOrAccumulator ir inc.1 scc a).1) ∧
      SCCAttrs.SameAnswers scc a (SCCDAGAttrs.checkIncomingValues ir LIS scc phi b).2 := by
  unfold SCCDAGAttrs.checkIncomingValues
  apply allThreaded_spec (SCCAttrs.SameAnswers scc a)
  · intro inc s hs
    by_cases h1 : (LIS.getLoop inc.2).isNone = true
    · simp only [h1, if_true, Bool.true_or]
      exact ⟨trivial, hs⟩
    · by_cases h2 : (LIS.getLoop inc.2 != LIS.getLoop phi) = true
      · simp only [h1, h2, if_true, Bool.true_or, Bool.or_true, Bool.false_eq_true, if_false]
        exact ⟨trivial, hs⟩
      · have h1' : (LIS.getLoop inc.2).isNone = false := Bool.eq_false_iff.mpr h1
        have h2' : (LIS.getLoop inc.2 != LIS.getLoop phi) = false := Bool.eq_false_iff.mpr h2
        simp only [h1', h2', Bool.false_eq_true, if_false, Bool.false_or]
        exact sameAnswers_isDerivedPHIOrAccumulator ir scc a s hs inc.1
  · exact h

lemma checkAccumulator_spec (ir : IROracle) (accumOpInfo : AccumulatorOpInfo) (scc : SCC)
    (a b : SCCAttrs) (h : SCCAttrs.SameAnswers scc a b) (accum : Nat) :
    (SCCDAGAttrs.checkAccumulator ir accumOpInfo scc accum b).1 =
        (decide (ir.getOpcode accum ∈ accumOpInfo.sideEffectFreeOps) &&
          xor (SCCDAGAttrs.isDerivedWithinSCC (ir.getOperand accum 0) scc a).1
            (SCCDAGAttrs.isDerivedWithinSCC (ir.getOperand accum 1) scc a).1 &&
          xor (SCCDAGAttrs.isDerivedPHIOrAccumulator ir (ir.getOperand accum 0) scc a).1
            (SCCDAGAttrs.isDerivedPHIOrAccumulator ir (ir.getOperand accum 1) scc a).1) ∧
      SCCAttrs.SameAnswers scc a (SCCDAGAttrs.checkAccumulator ir accumOpInfo scc accum b).2 := by
  unfold SCCDAGAttrs.checkAccumulator
  simp only []
  by_cases hop : ir.getOpcode accum ∈ accumOpInfo.sideEffectFreeOps
  · obtain ⟨e1, s1⟩ := sameAnswers_isDerivedWithinSCC scc a b h (ir.getOperand accum 0)
    obtain ⟨e2, s2⟩ := sameAnswers_isDerivedWithinSCC scc a _ s1 (ir.getOperand accum 1)
    obtain ⟨e3, s3⟩ := sameAnswers_isDerivedPHIOrAccumulator ir scc a _ s2 (ir.getOperand accum 0)
    obtain ⟨e4, s4⟩ := sameAnswers_isDerivedPHIOrAccumulator ir scc a _ s3 (ir.getOperand accum 1)
    simp only [hop, not_true_eq_false, if_false, decide_True, Bool.true_and]
    rw [e1, e2]
    by_cases hx : xor (SCCDAGAttrs.isDerivedWithinSCC (ir.getOperand accum 0) scc a).1
        (SCCDAGAttrs.isDerivedWithinSCC (ir.getOperand accum 1) scc a).1 = true
    · simp only [hx, Bool.not_true, Bool.false_eq_true, if_false, Bool.true_and]
      rw [e3, e4]
      by_cases hy : xor (SCCDAGAttrs.isDerivedPHIOrAccumulator ir (ir.getOperand accum 0) scc a).1
          (SCCDAGAttrs.isDerivedPHIOrAccumulator ir (ir.getOperand accum 1) scc a).1 = true
      · simp only [hy, Bool.not_true, Bool.false_eq_true, if_false]
        exact ⟨trivial, s4⟩
      · have hy' := Bool.eq_false_iff.mpr hy
        simp only [hy', Bool.not_false, if_true]
        exact ⟨trivial, s4⟩
    · have hx' := Bool.eq_false_iff.mpr hx
      simp only [hx', Bool.not_false, if_true, Bool.false_and]
      exact ⟨trivial, s2⟩
  · simp only [hop, not_false_eq_true, if_true, decide_False, Bool.false_and]
    exact ⟨trivial, h⟩
/-- The value returned by `checkIfReducible`: the conjunction of its tests, each read on the
record the function is given. -/
lemma checkIfReducible_fst (ir : IROracle) (accumOpInfo : AccumulatorOpInfo)
    (LIS : LoopsSummary) (attrs : SCCDAGAttrs) (n : SCCNode) (a : SCCAttrs) :
    (SCCDAGAttrs.checkIfReducible ir accumOpInfo LIS attrs n a).1 =
      (SCCDAGAttrs.sameLoopFrom ir LIS none n.scc.nodes &&
        !SCCDAGAttrs.hasMemorySubEdge attrs.sccdag n.id &&
        SCCDAGAttrs.dependentSCCsAreTrivial attrs.sccdag n.id &&
        SCCDAGAttrs.hasSingleLoopCarriedDataDep ir attrs n.id &&
        !a.controlPairs.any (fun pair => n.scc.isInternal pair.1) &&
        a.PHINodes.all (fun phi =>
          (ir.incoming phi).all (fun inc =>
            (LIS.getLoop inc.2).isNone || (LIS.getLoop inc.2 != LIS.getLoop phi) ||
              (SCCDAGAttrs.isDerivedPHIOrAccumulator ir inc.1 n.scc a).1)) &&
        !(a.accumulators.length == 0) &&
        a.accumulators.all (fun accum =>
          decide (ir.getOpcode accum ∈ accumOpInfo.sideEffectFreeOps) &&
          xor (SCCDAGAttrs.isDerivedWithinSCC (ir.getOperand accum 0) n.scc a).1
            (SCCDAGAttrs.isDerivedWithinSCC (ir.getOperand accum 1) n.scc a).1 &&
          xor (SCCDAGAttrs.isDerivedPHIOrAccumulator ir (ir.getOperand accum 0) n.scc a).1
            (SCCDAGAttrs.isDerivedPHIOrAccumulator ir (ir.getOperand accum 1) n.scc a).1) &&
        SCCDAGAttrs.checkAccumulatorKinds ir accumOpInfo n.scc a.accumulators) ∧
      SCCAttrs.SameAnswers n.scc a (SCCDAGAttrs.checkIfReducible ir accumOpInfo LIS attrs n a).2 := by
  have h1 := allThreaded_spec (SCCAttrs.SameAnswers n.scc a)
    (SCCDAGAttrs.checkIncomingValues ir LIS n.scc) _
    (fun phi s hs => checkIncomingValues_spec ir LIS n.scc a s hs phi) a.PHINodes a
    (sameAnswers_refl n.scc a)
  obtain ⟨e1, s1⟩ := h1
  have h2 := allThreaded_spec (SCCAttrs.SameAnswers n.scc a)
    (SCCDAGAttrs.checkAccumulator ir accumOpInfo n.scc) _
    (fun accum s hs => checkAccumulator_spec ir accumOpInfo n.scc a s hs accum)
    a.accumulators _ s1
  obtain ⟨e2, s2⟩ := h2
  have hacc := s1.2.1
  unfold SCCDAGAttrs.checkIfReducible
  simp only [SCCAttrs.numberOfAccumulators, SCCAttrs.getAccumulators, SCCAttrs.getPHIs, hacc,
    e1, e2]
  split_ifs with c1 c2 c3 c4 c5 c6 c7 c8
  all_goals refine ⟨?_, by first | exact sameAnswers_refl _ _ | exact s1 | exact s2⟩
  · simp only [Bool.not_eq_true'] at c1; simp [c1]
  · simp [c2]
  · simp only [Bool.not_eq_true'] at c3; simp [c3]
  · simp only [Bool.not_eq_true'] at c4; simp [c4]
  · simp [c5]
  · simp only [Bool.not_eq_true'] at c6; simp only [c6]; simp
  · simp only [c7]; simp
  · simp only [Bool.not_eq_true'] at c8; simp only [c8]; simp
  · simp only [Bool.not_eq_true', Bool.not_eq_false, Bool.not_eq_true] at c1 c2 c3 c4 c5 c6 c7 c8
    simp only [c1, c2, c3, c4, c5, c6, c7, c8]
    simp
/-! ## What the tests of `checkIfReducible` establish -/

lemma countLoopCarriedDataDeps_spec (ir : IROracle) :
    ∀ (deps : List DGEdge) (k c : Nat), k + deps.length < 2 ^ 32 →
      SCCDAGAttrs.countLoopCarriedDataDeps ir deps k = some c →
      c = k + deps.length ∧
        ∀ e ∈ deps, e.control = false ∧ e.memory = false ∧
          ir.isaInstruction e.src = true ∧ ir.isaInstruction e.dst = true := by
  intro deps
  induction deps with
  | nil =>
    intro k c _ h
    simp only [SCCDAGAttrs.countLoopCarriedDataDeps, Option.some.injEq] at h
    exact ⟨by simp [h], by simp⟩
  | cons e rest ih =>
    intro k c hk h
    simp only [List.length_cons] at hk
    unfold SCCDAGAttrs.countLoopCarriedDataDeps at h
    split_ifs at h with h1 h2 h3
    have hmod : (k + 1) % 2 ^ 32 = k + 1 := Nat.mod_eq_of_lt (by omega)
    rw [hmod] at h
    obtain ⟨hc, hall⟩ := ih (k + 1) c (by omega) h
    refine ⟨by simp only [List.length_cons]; omega, ?_⟩
    intro x hx
    rcases List.mem_cons.mp hx with rfl | hx
    · simp only [Bool.or_eq_true, Bool.not_eq_true', not_or, Bool.not_eq_false] at h3
      exact ⟨by simpa using h1, by simpa using h2, h3.1, h3.2⟩
    · exact hall x hx

/-- The test of lines 358-396 on maps without empty entry: the entry of the SCC holds exactly
one dependence, which is a data dependence through a variable between two instructions. -/
lemma hasSingleLoopCarriedDataDep_spec (ir : IROracle) (attrs : SCCDAGAttrs) (scc : Nat)
    (hne : attrs.interIterDepsInternalToSCC.NonEmptyEntries)
    (hsize : (attrs.interIterDepsInternalToSCC.get scc).length < 2 ^ 32)
    (h : SCCDAGAttrs.hasSingleLoopCarriedDataDep ir attrs scc = true) :
    ∃ e, attrs.interIterDepsInternalToSCC.get scc = [e] ∧ e.control = false ∧
      e.memory = false ∧ ir.isaInstruction e.src = true ∧ ir.isaInstruction e.dst = true := by
  unfold SCCDAGAttrs.hasSingleLoopCarriedDataDep at h
  cases hf : attrs.interIterDepsInternalToSCC.find scc with
  | none => rw [hf] at h; exact absurd h (by simp)
  | some deps =>
    rw [hf] at h
    simp only [] at h
    have hget : attrs.interIterDepsInternalToSCC.get scc = deps := by
      simp [DepMap.get, hf]
    rw [hget] at hsize
    cases hc : SCCDAGAttrs.countLoopCarriedDataDeps ir deps 0 with
    | none => rw [hc] at h; exact absurd h (by simp)
    | some c =>
      rw [hc] at h
      obtain ⟨hlen, hall⟩ := countLoopCarriedDataDeps_spec ir deps 0 c (by omega) hc
      have hc1 : c ≤ 1 := by simpa using h
      have hnil : deps ≠ [] := hne scc deps hf
      match deps, hnil, hlen, hall with
      | [e], _, _, hall => exact ⟨e, hget, hall e (by simp)⟩
      | _ :: _ :: _, _, hlen, _ => simp only [List.length_cons] at hlen; omega

lemma hasMemorySubEdge_false (g : SCCDG) (scc : Nat)
    (h : SCCDAGAttrs.hasMemorySubEdge g scc = false) :
    ∀ edge ∈ g.allEdges, (edge.src = scc ∨ edge.dst = scc) →
      ∀ subEdge ∈ edge.subEdges, subEdge.memory = false := by
  intro edge he hend sub hsub
  unfold SCCDAGAttrs.hasMemorySubEdge SCCDG.getAllConnectedEdges at h
  rw [List.any_eq_false] at h
  have hmem : edge ∈ g.allEdges.filter (fun e => e.src == scc || e.dst == scc) := by
    rw [List.mem_filter]
    refine ⟨he, ?_⟩
    rcases hend with h1 | h1 <;> simp [h1]
  have := h edge hmem
  simp only [Bool.not_eq_true] at this
  rw [List.any_eq_false] at this
  simpa using this sub hsub

lemma mem_of_fetchNode (g : SCCDG) (scc : Nat) (node : SCCNode)
    (h : g.fetchNode scc = some node) : node ∈ g.allNodes ∧ node.id = scc := by
  unfold SCCDG.fetchNode at h
  have h1 := List.mem_of_find?_eq_some h
  have h2 := List.find?_some h
  exact ⟨h1, by simpa using h2⟩

lemma dependentSCCsAreTrivial_spec (g : SCCDG) (scc : Nat)
    (h : SCCDAGAttrs.dependentSCCsAreTrivial g scc = true) :
    ∀ edge ∈ g.outgoingEdges scc, edge.dst ≠ scc →
      ∃ dependentSCCNode ∈ g.allNodes, dependentSCCNode.id = edge.dst ∧
        dependentSCCNode.scc.nodes.length ≤ 1 ∧ g.outgoingEdges edge.dst = [] := by
  intro edge he hne
  unfold SCCDAGAttrs.dependentSCCsAreTrivial at h
  rw [List.all_eq_true] at h
  have := h edge he
  have hne' : (edge.dst == scc) = false := by simpa using hne
  simp only [hne', Bool.false_eq_true, if_false] at this
  cases hf : g.fetchNode edge.dst with
  | none => rw [hf] at this; exact absurd this (by simp)
  | some node =>
    rw [hf] at this
    obtain ⟨hm, hid⟩ := mem_of_fetchNode g edge.dst node hf
    simp only [Bool.not_eq_true', Bool.or_eq_false_iff, decide_eq_false_iff_not, not_lt,
      Nat.le_zero_eq, List.length_eq_zero, gt_iff_lt] at this
    exact ⟨node, hm, hid, this.1, this.2⟩
lemma checkAccumulatorKinds_spec (ir : IROracle) (accumOpInfo : AccumulatorOpInfo) (scc : SCC)
    (accums : List Nat)
    (h : SCCDAGAttrs.checkAccumulatorKinds ir accumOpInfo scc accums = true) :
    ((∀ accum ∈ accums, accumOpInfo.isMulOp (ir.getOpcode accum) = true) ∨
      (∀ accum ∈ accums, accumOpInfo.isMulOp (ir.getOpcode accum) = false)) ∧
    ∀ accum ∈ accums, accumOpInfo.isSubOp (ir.getOpcode accum) = true →
      scc.isInternal (ir.getOperand accum 1) = false := by
  unfold SCCDAGAttrs.checkAccumulatorKinds at h
  match accums, h with
  | [], _ => exact ⟨Or.inl (by simp), by simp⟩
  | first :: rest, h =>
    simp only [] at h
    rw [List.all_eq_true] at h
    have key : ∀ accum ∈ first :: rest,
        accumOpInfo.isMulOp (ir.getOpcode accum) = accumOpInfo.isMulOp (ir.getOpcode first) ∧
        (accumOpInfo.isSubOp (ir.getOpcode accum) = true →
          scc.isInternal (ir.getOperand accum 1) = false) := by
      intro accum ha
      have := h accum ha
      cases h1 : accumOpInfo.isMulOp (ir.getOpcode accum) <;>
        cases h2 : accumOpInfo.isMulOp (ir.getOpcode first) <;>
        cases h3 : accumOpInfo.isSubOp (ir.getOpcode accum) <;>
        simp [h1, h2, h3] at this ⊢ <;> exact this
    refine ⟨?_, fun accum ha => (key accum ha).2⟩
    cases hfirst : accumOpInfo.isMulOp (ir.getOpcode first)
    · exact Or.inr (fun accum ha => (key accum ha).1.trans hfirst)
    · exact Or.inl (fun accum ha => (key accum ha).1.trans hfirst)

lemma sameLoopFrom_some (ir : IROracle) (LIS : LoopsSummary) (L : Nat) :
    ∀ nodes : List Nat, SCCDAGAttrs.sameLoopFrom ir LIS (some L) nodes = true →
      ∀ v ∈ nodes, ir.isaInstruction v = true → LIS.getLoop v = some L := by
  intro nodes
  induction nodes with
  | nil => intro _ v hv; exact absurd hv (List.not_mem_nil _)
  | cons x rest ih =>
    intro h v hv hisa
    unfold SCCDAGAttrs.sameLoopFrom at h
    by_cases hx : ir.isaInstruction x = true
    · simp only [hx, if_true, Option.isNone_some, Bool.false_eq_true, if_false] at h
      by_cases hne : (some L != LIS.getLoop x) = true
      · simp [hne] at h
      · simp only [hne, if_false] at h
        have hxl : LIS.getLoop x = some L := by
          have : ¬ (some L ≠ LIS.getLoop x) := by simpa using hne
          exact (not_not.mp this).symm
        rcases List.mem_cons.mp hv with rfl | hv
        · exact hxl
        · exact ih h v hv hisa
    · simp only [hx, Bool.false_eq_true, if_false] at h
      rcases List.mem_cons.mp hv with rfl | hv
      · exact absurd hisa hx
      · exact ih h v hv hisa

/-- The loop of lines 313-325 when every internal instruction lies in some loop: the
instructions are all in the same loop. -/
lemma sameLoopFrom_none (ir : IROracle) (LIS : LoopsSummary) :
    ∀ nodes : List Nat, SCCDAGAttrs.sameLoopFrom ir LIS none nodes = true →
      (∀ v ∈ nodes, ir.isaInstruction v = true → LIS.getLoop v ≠ none) →
      ∀ u ∈ nodes, ∀ v ∈ nodes, ir.isaInstruction u = true → ir.isaInstruction v = true →
        LIS.getLoop u = LIS.getLoop v := by
  intro nodes
  induction nodes with
  | nil => intro _ _ u hu; exact absurd hu (List.not_mem_nil _)
  | cons x rest ih =>
    intro h hin u hu v hv hiu hiv
    unfold SCCDAGAttrs.sameLoopFrom at h
    by_cases hx : ir.isaInstruction x = true
    · simp only [hx, if_true, Option.isNone_none] at h
      obtain ⟨L, hL⟩ := Option.ne_none_iff_exists'.mp (hin x (List.mem_cons_self _ _) hx)
      rw [hL] at h
      have hall : ∀ w ∈ x :: rest, ir.isaInstruction w = true → LIS.getLoop w = some L := by
        intro w hw hiw
        rcases List.mem_cons.mp hw with rfl | hw
        · exact hL
        · exact sameLoopFrom_some ir LIS L rest h w hw hiw
      rw [hall u hu hiu, hall v hv hiv]
    · simp only [hx, Bool.false_eq_true, if_false] at h
      have hrest : ∀ w ∈ x :: rest, ir.isaInstruction w = true → w ∈ rest := by
        intro w hw hiw
        rcases List.mem_cons.mp hw with rfl | hw
        · exact absurd hiw hx
        · exact hw
      exact ih h (fun w hw => hin w (List.mem_cons_of_mem _ hw)) u (hrest u hu hiu) v
        (hrest v hv hiv) hiu hiv

/-- The tests passed by an SCC for which `checkIfReducible` returns `true`. -/
lemma checkIfReducible_tests (ir : IROracle) (accumOpInfo : AccumulatorOpInfo)
    (LIS : LoopsSummary) (attrs : SCCDAGAttrs) (n : SCCNode) (a : SCCAttrs)
    (h : (SCCDAGAttrs.checkIfReducible ir accumOpInfo LIS attrs n a).1 = true) :
    SCCDAGAttrs.sameLoopFrom ir LIS none n.scc.nodes = true ∧
    SCCDAGAttrs.hasMemorySubEdge attrs.sccdag n.id = false ∧
    SCCDAGAttrs.dependentSCCsAreTrivial attrs.sccdag n.id = true ∧
    SCCDAGAttrs.hasSingleLoopCarriedDataDep ir attrs n.id = true ∧
    a.controlPairs.any (fun pair => n.scc.isInternal pair.1) = false ∧
    (∀ phi ∈ a.PHINodes, ∀ inc ∈ ir.incoming phi,
      LIS.getLoop inc.2 ≠ none → LIS.getLoop inc.2 = LIS.getLoop phi →
        (SCCDAGAttrs.isDerivedPHIOrAccumulator ir inc.1 n.scc a).1 = true) ∧
    a.accumulators ≠ [] ∧
    (∀ accum ∈ a.accumulators,
      ir.getOpcode accum ∈ accumOpInfo.sideEffectFreeOps ∧
      (SCCDAGAttrs.isDerivedWithinSCC (ir.getOperand accum 0) n.scc a).1 ≠
        (SCCDAGAttrs.isDerivedWithinSCC (ir.getOperand accum 1) n.scc a).1 ∧
      (SCCDAGAttrs.isDerivedPHIOrAccumulator ir (ir.getOperand accum 0) n.scc a).1 ≠
        (SCCDAGAttrs.isDerivedPHIOrAccumulator ir (ir.getOperand accum 1) n.scc a).1) ∧
    SCCDAGAttrs.checkAccumulatorKinds ir accumOpInfo n.scc a.accumulators = true := by
  rw [(checkIfReducible_fst ir accumOpInfo LIS attrs n a).1] at h
  simp only [Bool.and_eq_true] at h
  obtain ⟨⟨⟨⟨⟨⟨⟨⟨c1, c2⟩, c3⟩, c4⟩, c5⟩, c6⟩, c7⟩, c8⟩, c9⟩ := h
  refine ⟨c1, by simpa using c2, c3, c4, by simpa using c5, ?_, ?_, ?_, c9⟩
  · intro phi hphi inc hinc hne heq
    rw [List.all_eq_true] at c6
    have := c6 phi hphi
    rw [List.all_eq_true] at this
    have := this inc hinc
    simp only [Bool.or_eq_true, Option.isNone_iff_eq_none, bne_iff_ne, ne_eq] at this
    rcases this with (h1 | h1) | h1
    · exact absurd h1 hne
    · exact absurd heq h1
    · exact h1
  · intro hnil
    rw [hnil] at c7
    simp at c7
  · intro accum hacc
    rw [List.all_eq_true] at c8
    have := c8 accum hacc
    simp only [Bool.and_eq_true, decide_eq_true_eq] at this
    have hx : ∀ p q : Bool, xor p q = true → p ≠ q := by decide
    exact ⟨this.1.1, hx _ _ this.1.2, hx _ _ this.2⟩
/-! ## `checkIfInductionVariableSCC` as a conjunction of tests -/

lemma setHasIV_spec (a : SCCAttrs) (b : Bool) :
    (SCCDAGAttrs.setHasIV a b).1 = b ∧
      (SCCDAGAttrs.setHasIV a b).2.isInductionVariableSCC = b := ⟨rfl, rfl⟩

/-- The tests of `checkIfInductionVariableSCC`, read on the record the function is given. -/
lemma checkIfInductionVariableSCC_spec (ir : IROracle) (SE : ScalarEvolution)
    (LIS : LoopsSummary) (scc : SCC) (a : SCCAttrs)
    (hterm : ∀ pair ∈ a.controlPairs, ir.isTerminator pair.2 = true) :
    ∃ a', SCCDAGAttrs.checkIfInductionVariableSCC ir SE LIS scc a =
        some ((match a.controlPairs with
          | [pair] =>
            ir.isaBranchInst pair.2 && ir.isaCmpInst pair.1 &&
            xor (SCCDAGAttrs.isDerivedWithinSCC (ir.getOperand pair.1 0) scc a).1
              (SCCDAGAttrs.isDerivedWithinSCC (ir.getOperand pair.1 1) scc a).1 &&
            xor (SCCDAGAttrs.isDerivedPHIOrAccumulator ir (ir.getOperand pair.1 0) scc a).1
              (SCCDAGAttrs.isDerivedPHIOrAccumulator ir (ir.getOperand pair.1 1) scc a).1 &&
            (match a.PHINodes with
              | [phi] =>
                (ir.incoming phi).all (fun inc =>
                  (LIS.getLoop inc.2).isNone || (LIS.getLoop inc.2 != LIS.getLoop phi) ||
                    (SCCDAGAttrs.isDerivedPHIOrAccumulator ir inc.1 scc a).1) &&
                a.accumulators.all (fun I => SE.getSCEVType I == SCEVTypes.scAddRecExpr)
              | _ => false)
          | _ => false), a') ∧
      a'.isInductionVariableSCC =
        (match a.controlPairs with
          | [pair] =>
            ir.isaBranchInst pair.2 && ir.isaCmpInst pair.1 &&
            xor (SCCDAGAttrs.isDerivedWithinSCC (ir.getOperand pair.1 0) scc a).1
              (SCCDAGAttrs.isDerivedWithinSCC (ir.getOperand pair.1 1) scc a).1 &&
            xor (SCCDAGAttrs.isDerivedPHIOrAccumulator ir (ir.getOperand pair.1 0) scc a).1
              (SCCDAGAttrs.isDerivedPHIOrAccumulator ir (ir.getOperand pair.1 1) scc a).1 &&
            (match a.PHINodes with
              | [phi] =>
                (ir.incoming phi).all (fun inc =>
                  (LIS.getLoop inc.2).isNone || (LIS.getLoop inc.2 != LIS.getLoop phi) ||
                    (SCCDAGAttrs.isDerivedPHIOrAccumulator ir inc.1 scc a).1) &&
                a.accumulators.all (fun I => SE.getSCEVType I == SCEVTypes.scAddRecExpr)
              | _ => false)
          | _ => false) := by
  unfold SCCDAGAttrs.checkIfInductionVariableSCC SCCAttrs.getSingleInstructionThatControlLoopExit
  match hcp : a.controlPairs, hterm with
  | [], _ => exact ⟨_, rfl, rfl⟩
  | _ :: _ :: _, _ => exact ⟨_, rfl, rfl⟩
  | [pair], hterm =>
    have ht : ir.isTerminator pair.2 = true := hterm pair (by simp)
    simp only [ht, Bool.not_true, Bool.false_eq_true, if_false]
    obtain ⟨e1, s1⟩ := sameAnswers_isDerivedWithinSCC scc a a (sameAnswers_refl scc a)
      (ir.getOperand pair.1 0)
    obtain ⟨e2, s2⟩ := sameAnswers_isDerivedWithinSCC scc a _ s1 (ir.getOperand pair.1 1)
    obtain ⟨e3, s3⟩ := sameAnswers_isDerivedPHIOrAccumulator ir scc a _ s2 (ir.getOperand pair.1 0)
    obtain ⟨e4, s4⟩ := sameAnswers_isDerivedPHIOrAccumulator ir scc a _ s3 (ir.getOperand pair.1 1)
    cases hbr : ir.isaBranchInst pair.2
    · exact ⟨_, rfl, rfl⟩
    cases hcmp : ir.isaCmpInst pair.1
    · exact ⟨_, rfl, rfl⟩
    simp only [Bool.not_true, Bool.false_eq_true, if_false, Bool.true_and, e2, e3, e4]
    cases hx : xor (SCCDAGAttrs.isDerivedWithinSCC (ir.getOperand pair.1 0) scc a).1
        (SCCDAGAttrs.isDerivedWithinSCC (ir.getOperand pair.1 1) scc a).1
    · exact ⟨_, rfl, rfl⟩
    simp only [Bool.not_true, Bool.false_eq_true, if_false, Bool.true_and]
    cases hy : xor (SCCDAGAttrs.isDerivedPHIOrAccumulator ir (ir.getOperand pair.1 0) scc a).1
        (SCCDAGAttrs.isDerivedPHIOrAccumulator ir (ir.getOperand pair.1 1) scc a).1
    · exact ⟨_, rfl, rfl⟩
    simp only [Bool.not_true, Bool.false_eq_true, if_false, Bool.true_and]
    unfold SCCAttrs.getSinglePHI
    rw [s4.1]
    match hphi : a.PHINodes with
    | [] => exact ⟨_, rfl, rfl⟩
    | _ :: _ :: _ => exact ⟨_, rfl, rfl⟩
    | [phi] =>
      obtain ⟨e5, s5⟩ := checkIncomingValues_spec ir LIS scc a _ s4 phi
      simp only [e5, SCCAttrs.getAccumulators, s5.2.1]
      cases hinc : (ir.incoming phi).all (fun inc =>
          (LIS.getLoop inc.2).isNone || (LIS.getLoop inc.2 != LIS.getLoop phi) ||
            (SCCDAGAttrs.isDerivedPHIOrAccumulator ir inc.1 scc a).1)
      · exact ⟨_, rfl, rfl⟩
      simp only [Bool.not_true, Bool.false_eq_true, if_false, Bool.true_and]
      cases hse : a.accumulators.all (fun I => SE.getSCEVType I == SCEVTypes.scAddRecExpr)
      · exact ⟨_, rfl, rfl⟩
      · exact ⟨_, rfl, rfl⟩
/-! ## The switches of `isIVUpperBoundSimple` against the end-offset table -/

lemma toInt32_one : toInt32 1 = 1 := by decide

lemma toInt32_neg_one : toInt32 (-1) = -1 := by decide

/-- For a step of `+1` or `-1` the four `switch` statements follow the table: they abort exactly
on the combinations the table does not have, write the offset of a row whose offset is not
zero, and leave the record as it is on a row whose offset is zero. -/
lemma endOffsetSwitch_table (exitOnCmp : Bool) (stepSize : Int)
    (hstep : stepSize = 1 ∨ stepSize = -1) (signedPred : Predicate) (IVBounds : FixedIVBounds) :
    SCCDAGAttrs.endOffsetSwitch exitOnCmp stepSize signedPred IVBounds =
      (specEndOffsetTable stepSize exitOnCmp signedPred).map
        (fun off => if off = 0 then IVBounds else { IVBounds with endOffset := off }) := by
  rcases hstep with rfl | rfl <;> cases exitOnCmp <;> cases signedPred <;> rfl

/-- A predicate of the table is not an unsigned one: the conversion of line 660 leaves it. -/
lemma specEndOffsetTable_signed (step : Int) (exitOnCmp isCmpIVLHS : Bool) (pred : Predicate)
    (h : specEndOffsetTable step exitOnCmp
      (if isCmpIVLHS then pred else pred.getSwappedPredicate) ≠ none) :
    pred.isUnsigned = false := by
  cases isCmpIVLHS <;> cases pred <;> first | rfl | (exfalso; apply h; simp [specEndOffsetTable, Predicate.getSwappedPredicate])

/-- The function `isIVUpperBoundSimple` once its assertions hold: the SCC has a single control
pair made of a comparison and a branch, and the branch is in a loop. -/
lemma isIVUpperBoundSimple_eq (ir : IROracle) (LIS : LoopsSummary) (a : SCCAttrs)
    (IVBounds : FixedIVBounds) (cmp br loop : Nat) (hpair : a.controlPairs = [(cmp, br)])
    (hcmp : ir.isaCmpInst cmp = true) (hbr : ir.isaBranchInst br = true)
    (hloop : LIS.getLoop br = some loop) :
    SCCDAGAttrs.isIVUpperBoundSimple ir LIS a IVBounds =
      if !(xor (LIS.isBasicBlockWithin loop (ir.getSuccessor br 0))
          (LIS.isBasicBlockWithin loop (ir.getSuccessor br 1))) then some (false, IVBounds)
      else
        match SCCDAGAttrs.endOffsetSwitch (!LIS.isBasicBlockWithin loop (ir.getSuccessor br 0))
          (toInt32 IVBounds.step)
          (if IVBounds.isCmpIVLHS then
            (if (ir.getPredicate cmp).isUnsigned then (ir.getPredicate cmp).getSignedPredicate
              else ir.getPredicate cmp)
           else
            (if (ir.getPredicate cmp).isUnsigned then (ir.getPredicate cmp).getSignedPredicate
              else ir.getPredicate cmp).getSwappedPredicate) IVBounds with
        | none => none
        | some IVBounds1 =>
          some (true, { IVBounds1 with
            endOffset := IVBounds1.endOffset -
              toInt32 IVBounds.step * (if IVBounds1.isCmpOnAccum then 1 else 0) }) := by
  unfold SCCDAGAttrs.isIVUpperBoundSimple SCCAttrs.getSingleInstructionThatControlLoopExit
  simp only [hpair, hcmp, hbr, hloop, Bool.not_true, Bool.or_self, Bool.false_eq_true, if_false]

/-! ## The record returned by `checkIfIVHasFixedBounds` -/

lemma endOffsetSwitch_step (exitOnCmp : Bool) (stepSize : Int) (signedPred : Predicate)
    (b b' : FixedIVBounds)
    (h : SCCDAGAttrs.endOffsetSwitch exitOnCmp stepSize signedPred b = some b') :
    b'.step = b.step := by
  unfold SCCDAGAttrs.endOffsetSwitch at h
  cases exitOnCmp <;> by_cases hs : stepSize = 1 <;> cases signedPred <;>
    simp [hs] at h <;> (subst h; rfl)

lemma isIVUpperBoundSimple_step (ir : IROracle) (LIS : LoopsSummary) (a : SCCAttrs)
    (b b' : FixedIVBounds) (r : Bool)
    (h : SCCDAGAttrs.isIVUpperBoundSimple ir LIS a b = some (r, b')) : b'.step = b.step := by
  unfold SCCDAGAttrs.isIVUpperBoundSimple at h
  cases hp : a.getSingleInstructionThatControlLoopExit with
  | none => simp [hp] at h
  | some pair =>
    simp only [hp] at h
    by_cases hc : (!ir.isaCmpInst pair.1 || !ir.isaBranchInst pair.2) = true
    · rw [if_pos hc] at h
      exact absurd h (by simp)
    · rw [if_neg hc] at h
      cases hl : LIS.getLoop pair.2 with
      | none => simp [hl] at h
      | some loop =>
        simp only [hl] at h
        by_cases hx : (!(xor (LIS.isBasicBlockWithin loop (ir.getSuccessor pair.2 0))
            (LIS.isBasicBlockWithin loop (ir.getSuccessor pair.2 1)))) = true
        · rw [if_pos hx] at h
          simp only [Option.some.injEq, Prod.mk.injEq] at h
          rw [← h.2]
        · rw [if_neg hx] at h
          split at h
          · exact absurd h (by simp)
          · rename_i b1 hb1
            simp only [Option.some.injEq, Prod.mk.injEq] at h
            rw [← h.2]
            exact endOffsetSwitch_step _ _ _ b b1 hb1

lemma checkCmpToDerivation_step (ir : IROracle) (scc : SCC) (a a' : SCCAttrs)
    (b b' : FixedIVBounds)
    (h : SCCDAGAttrs.checkCmpToDerivation ir scc a b = some (some b', a')) :
    b'.step = b.step := by
  unfold SCCDAGAttrs.checkCmpToDerivation at h
  by_cases h1 : ir.isaConstantData b.cmpIVTo = true
  · rw [if_pos h1] at h
    simp only [Option.some.injEq, Prod.mk.injEq] at h
    rw [← h.1]
  · rw [if_neg h1] at h
    by_cases h2 : (!ir.isaInstruction b.cmpIVTo) = true
    · rw [if_pos h2] at h
      simp at h
    · rw [if_neg h2] at h
      cases h3 : SCCDAGAttrs.collectDerivationChain ir b.cmpIVTo scc with
      | none => simp [h3] at h
      | some p =>
        obtain ⟨ok, chain⟩ := p
        cases ok with
        | false => simp [h3] at h
        | true =>
          simp only [h3] at h
          cases h4 : chain.getLast? with
          | none => simp [h4] at h
          | some chainEnd =>
            simp only [h4] at h
            by_cases h5 : (SCCDAGAttrs.isDerivedWithinSCC chainEnd scc a).1 = true
            · rw [if_pos h5] at h
              simp at h
            · rw [if_neg h5] at h
              simp only [Option.some.injEq, Prod.mk.injEq] at h
              rw [← h.1]

/-- A record is returned only for a single PHI with two incoming values and a single
accumulator whose step operand is an integer constant that passes the test of line 607; the
field `step` of the record holds the value of that constant. -/
lemma checkIfIVHasFixedBounds_some (ir : IROracle) (LIS : LoopsSummary) (scc : SCC)
    (a a' : SCCAttrs) (b : FixedIVBounds)
    (h : SCCDAGAttrs.checkIfIVHasFixedBounds ir LIS scc a = some (some b, a')) :
    ∃ phi accum, a.getSinglePHI = some phi ∧ (ir.incoming phi).length = 2 ∧
      a.getSingleAccumulator = some accum ∧
      ir.isaConstantInt (ir.stepValueOf phi accum) = true ∧
      (ir.apIntEq (ir.stepValueOf phi accum) 1 = true ∨
        ir.apIntEq (ir.stepValueOf phi accum) (2 ^ 64 - 1) = true) ∧
      b.step = ir.getSExtValue (ir.stepValueOf phi accum) := by
  unfold SCCDAGAttrs.checkIfIVHasFixedBounds at h
  cases h1 : a.getSinglePHI with
  | none => simp [h1] at h
  | some phi =>
    cases h2 : a.getSingleAccumulator with
    | none => simp [h1, h2] at h
    | some accum =>
      simp only [h1, h2] at h
      split at h
      · rename_i in0 in1 hin
        cases h3 : a.getSingleInstructionThatControlLoopExit with
        | none => simp [h3] at h
        | some pair =>
          simp only [h3] at h
          have hs : (if ir.getOperand accum 0 == phi then ir.getOperand accum 1
              else ir.getOperand accum 0) = ir.stepValueOf phi accum := rfl
          rw [hs] at h
          by_cases c1 : (!ir.isaConstantInt (ir.stepValueOf phi accum)) = true
          · rw [if_pos c1] at h
            simp at h
          · rw [if_neg c1] at h
            by_cases c2 : (!ir.apIntEq (ir.stepValueOf phi accum) 1 &&
                !ir.apIntEq (ir.stepValueOf phi accum) (2 ^ 64 - 1)) = true
            · rw [if_pos c2] at h
              simp at h
            · rw [if_neg c2] at h
              by_cases c3 : (!ir.isaCmpInst pair.1) = true
              · rw [if_pos c3] at h
                simp at h
              · rw [if_neg c3] at h
                refine ⟨phi, accum, rfl, by rw [hin]; rfl, rfl, by simpa using c1, ?_, ?_⟩
                · revert c2
                  cases ir.apIntEq (ir.stepValueOf phi accum) 1 <;>
                    cases ir.apIntEq (ir.stepValueOf phi accum) (2 ^ 64 - 1) <;> simp
                · split at h
                  · exact absurd h (by simp)
                  · simp at h
                  · rename_i b1 a1 hb1
                    have e1 := checkCmpToDerivation_step ir scc a a1 _ b1 hb1
                    split at h
                    · exact absurd h (by simp)
                    · simp at h
                    · rename_i b2 hb2
                      have e2 := isIVUpperBoundSimple_step ir LIS a1 b1 b2 true hb2
                      simp only [Option.some.injEq, Prod.mk.injEq] at h
                      rw [← h.1, e2, e1]
      · simp at h

/-- The test of line 607 on a well-formed constant: the value read on 64 unsigned bits is `1`
or `2^64 - 1` only if the signed value of the constant is `+1` or `-1`. -/
lemma apIntEq_step (w : Nat) (S : Int) (hw : 1 ≤ w) (h1 : -(2 : Int) ^ (w - 1) ≤ S)
    (h2 : S < (2 : Int) ^ (w - 1)) (h4 : S < (2 : Int) ^ 63)
    (h : S % (2 : Int) ^ w = 1 ∨ S % (2 : Int) ^ w = ((2 ^ 64 - 1 : Nat) : Int)) :
    S = 1 ∨ S = -1 := by
  have hP : (2 : Int) ^ w = 2 * 2 ^ (w - 1) := by
    have : w = (w - 1) + 1 := by omega
    conv_lhs => rw [this, pow_succ]
    ring
  have hH : (1 : Int) ≤ 2 ^ (w - 1) := by
    have := pow_le_pow_right₀ (show (1 : Int) ≤ 2 by norm_num) (Nat.zero_le (w - 1))
    simpa using this
  have hM : ((2 ^ 64 - 1 : Nat) : Int) = 2 ^ 64 - 1 := by norm_num
  rw [hM] at h
  by_cases hs : 0 ≤ S
  · have e : S % (2 : Int) ^ w = S := Int.emod_eq_of_lt hs (by rw [hP]; linarith)
    rw [e] at h
    rcases h with h | h
    · exact Or.inl h
    · exfalso
      rw [h] at h4
      norm_num at h4
  · have e : S % (2 : Int) ^ w = S + 2 ^ w := by
      rw [← Int.add_emod_self]
      exact Int.emod_eq_of_lt (by rw [hP]; linarith) (by linarith)
    rw [e] at h
    rcases h with h | h
    · right
      rw [hP] at h
      linarith
    · right
      have hw64 : w = 64 := by
        by_contra hne
        rcases Nat.lt_or_gt_of_ne hne with hlt | hgt
        · have : (2 : Int) ^ w ≤ 2 ^ 63 := pow_le_pow_right₀ (by norm_num) (by omega)
          norm_num at h4 this
          linarith
        · have : (2 : Int) ^ 65 ≤ 2 ^ w := pow_le_pow_right₀ (by norm_num) (by omega)
          norm_num at h4 this
          linarith
      subst hw64
      norm_num at h
      linarith

/-! ## The end offset written by `isIVUpperBoundSimple` -/

/-- The four `switch` statements write `endOffset` only: they leave it as it is, or set it to
`1` when the step is `1` and to `-1` otherwise. -/
lemma endOffsetSwitch_endOffset (exitOnCmp : Bool) (stepSize : Int) (signedPred : Predicate)
    (b b' : FixedIVBounds)
    (h : SCCDAGAttrs.endOffsetSwitch exitOnCmp stepSize signedPred b = some b') :
    b'.isCmpOnAccum = b.isCmpOnAccum ∧
      (b'.endOffset = b.endOffset ∨ b'.endOffset = if stepSize = 1 then 1 else -1) := by
  unfold SCCDAGAttrs.endOffsetSwitch at h
  cases exitOnCmp <;> by_cases hs : stepSize = 1 <;> cases signedPred <;>
    simp [hs] at h <;> (subst h; simp [hs])

/-- A run of `isIVUpperBoundSimple` that returns `true` has gone through the `switch`
statements and the subtraction of line 715. -/
lemma isIVUpperBoundSimple_true (ir : IROracle) (LIS : LoopsSummary) (a : SCCAttrs)
    (b b' : FixedIVBounds)
    (h : SCCDAGAttrs.isIVUpperBoundSimple ir LIS a b = some (true, b')) :
    ∃ (exitOnCmp : Bool) (signedPred : Predicate) (b1 : FixedIVBounds),
      SCCDAGAttrs.endOffsetSwitch exitOnCmp (toInt32 b.step) signedPred b = some b1 ∧
      b'.endOffset =
        b1.endOffset - toInt32 b.step * (if b1.isCmpOnAccum then 1 else 0) := by
  unfold SCCDAGAttrs.isIVUpperBoundSimple at h
  cases hp : a.getSingleInstructionThatControlLoopExit with
  | none => simp [hp] at h
  | some pair =>
    simp only [hp] at h
    by_cases hc : (!ir.isaCmpInst pair.1 || !ir.isaBranchInst pair.2) = true
    · rw [if_pos hc] at h
      exact absurd h (by simp)
    · rw [if_neg hc] at h
      cases hl : LIS.getLoop pair.2 with
      | none => simp [hl] at h
      | some loop =>
        simp only [hl] at h
        by_cases hx : (!(xor (LIS.isBasicBlockWithin loop (ir.getSuccessor pair.2 0))
            (LIS.isBasicBlockWithin loop (ir.getSuccessor pair.2 1)))) = true
        · rw [if_pos hx] at h
          simp only [Option.some.injEq, Prod.mk.injEq] at h
          exact absurd h.1 (by simp)
        · rw [if_neg hx] at h
          split at h
          · exact absurd h (by simp)
          · rename_i b1 hb1
            simp only [Option.some.injEq, Prod.mk.injEq] at h
            refine ⟨_, _, b1, hb1, ?_⟩
            rw [← h.2]

/-! ## The fixed-bounds records after `populate` with the analyses of SCCDAGAttrs.cpp -/

lemma apIntEq_fit (ir : IROracle) (hfit : ir.ConstantsFit) (v : Nat)
    (hc : ir.isaConstantInt v = true)
    (h : ir.apIntEq v 1 = true ∨ ir.apIntEq v (2 ^ 64 - 1) = true) :
    ir.getSExtValue v = 1 ∨ ir.getSExtValue v = -1 := by
  obtain ⟨f1, f2, f3, _, f5⟩ := hfit v hc
  apply apIntEq_step (ir.getBitWidth v) _ f1 f2 f3 f5
  unfold IROracle.apIntEq at h
  simp only [decide_eq_true_eq] at h
  rcases h with h | h
  · left
    simpa using h
  · exact Or.inr h

/-- The scope of the test of line 607: on an IR whose integer constants fit 64 bits, a record
returned by `checkIfIVHasFixedBounds` has a step of `+1` or `-1`. -/
lemma checkIfIVHasFixedBounds_step_of_fit (ir : IROracle) (LIS : LoopsSummary) (scc : SCC)
    (a a1 : SCCAttrs) (b : FixedIVBounds) (hfit : ir.ConstantsFit)
    (h : SCCDAGAttrs.checkIfIVHasFixedBounds ir LIS scc a = some (some b, a1)) :
    b.step = 1 ∨ b.step = -1 := by
  obtain ⟨phi, accum, _, _, _, c4, c5, c6⟩ := checkIfIVHasFixedBounds_some ir LIS scc a a1 b h
  rw [c6]
  exact apIntEq_fit ir hfit _ c4 c5

/-! ## The loop of `collectDerivationChain` -/

lemma mem_incomingDataDeps (scc : SCC) (d x : Nat) :
    x ∈ scc.incomingDataDeps d ↔ scc.DataSource d x ∧ x ≠ d := by
  unfold SCC.incomingDataDeps SCC.DataSource SCC.getIncomingEdges
  rw [(List.nodup_dedup _).mem_erase_iff, List.mem_dedup, List.mem_map]
  constructor
  · rintro ⟨hne, e, he, hsrc⟩
    rw [List.mem_filter, List.mem_filter] at he
    obtain ⟨⟨he1, he2⟩, he3⟩ := he
    refine ⟨⟨e, he1, by simpa using he2, hsrc, by simpa using he3⟩, hne⟩
  · rintro ⟨⟨e, he1, he2, hsrc, he3⟩, hne⟩
    refine ⟨hne, e, ?_, hsrc⟩
    rw [List.mem_filter, List.mem_filter]
    exact ⟨⟨he1, by simpa using he2⟩, by simpa using he3⟩

lemma nodup_incomingDataDeps (scc : SCC) (d : Nat) : (scc.incomingDataDeps d).Nodup :=
  (List.nodup_dedup _).erase _

/-- The body of the loop, with the set of data sources named. -/
lemma collectDerivationChainLoop_succ (ir : IROracle) (scc : SCC) (fuel d : Nat)
    (chain seen : List Nat) :
    SCC.collectDerivationChainLoop ir scc (fuel + 1) d chain seen =
      if !scc.isInternal d then some (true, chain)
      else if d ∈ seen then some (false, chain ++ [d])
      else
        match scc.incomingDataDeps d with
        | [] => some (true, chain ++ [d])
        | [V] =>
          if !ir.isaInstruction V then some (false, chain ++ [d])
          else SCC.collectDerivationChainLoop ir scc fuel V (chain ++ [d]) (seen ++ [d])
        | _ => some (false, chain ++ [d]) := rfl

lemma uniqueSource_of_singleton (scc : SCC) (d V : Nat) (h : scc.incomingDataDeps d = [V]) :
    scc.UniqueSource d V := by
  intro x
  rw [← mem_incomingDataDeps, h, List.mem_singleton]

lemma singleton_of_uniqueSource (scc : SCC) (d V : Nat) (h : scc.UniqueSource d V) :
    scc.incomingDataDeps d = [V] := by
  have hn := nodup_incomingDataDeps scc d
  have hm : ∀ x, x ∈ scc.incomingDataDeps d ↔ x = V := fun x =>
    (mem_incomingDataDeps scc d x).trans (h x)
  cases hl : scc.incomingDataDeps d with
  | nil =>
    have := (hm V).mpr rfl
    rw [hl] at this
    exact absurd this (List.not_mem_nil _)
  | cons a rest =>
    rw [hl] at hn hm
    have ha : a = V := (hm a).mp (List.mem_cons_self _ _)
    cases rest with
    | nil => rw [ha]
    | cons b rest1 =>
      have hb : b = V := (hm b).mp (List.mem_cons_of_mem _ (List.mem_cons_self _ _))
      have hab : a ≠ b := by
        intro hab
        have := (List.nodup_cons.mp hn).1
        exact this (hab ▸ List.mem_cons_self _ _)
      exact absurd (ha.trans hb.symm) hab

lemma two_of_hasTwoDataSources (scc : SCC) (d : Nat) (h : scc.HasTwoDataSources d) :
    ∃ a b rest, scc.incomingDataDeps d = a :: b :: rest := by
  obtain ⟨x, y, hxy, hx, hy, sx, sy⟩ := h
  have mx := (mem_incomingDataDeps scc d x).mpr ⟨sx, hx⟩
  have my := (mem_incomingDataDeps scc d y).mpr ⟨sy, hy⟩
  cases hl : scc.incomingDataDeps d with
  | nil => rw [hl] at mx; exact absurd mx (List.not_mem_nil _)
  | cons a rest =>
    cases rest with
    | nil =>
      rw [hl, List.mem_singleton] at mx my
      exact absurd (mx.trans my.symm) hxy
    | cons b rest1 => exact ⟨a, b, rest1, rfl⟩

lemma hasTwoDataSources_of_two (scc : SCC) (d a b : Nat) (rest : List Nat)
    (h : scc.incomingDataDeps d = a :: b :: rest) : scc.HasTwoDataSources d := by
  have hn := nodup_incomingDataDeps scc d
  rw [h] at hn
  have ma : a ∈ scc.incomingDataDeps d := by rw [h]; exact List.mem_cons_self _ _
  have mb : b ∈ scc.incomingDataDeps d := by
    rw [h]; exact List.mem_cons_of_mem _ (List.mem_cons_self _ _)
  rw [mem_incomingDataDeps] at ma mb
  refine ⟨a, b, ?_, ma.2, mb.2, ma.1, mb.1⟩
  intro hab
  exact (List.nodup_cons.mp hn).1 (hab ▸ List.mem_cons_self _ _)

lemma length_le_of_internal (scc : SCC) (seen : List Nat) (hn : seen.Nodup)
    (hi : ∀ x ∈ seen, scc.isInternal x = true) : seen.length ≤ scc.nodes.length := by
  apply (List.subperm_of_subset hn _).length_le
  intro x hx
  have := hi x hx
  unfold SCC.isInternal at this
  simpa using this

lemma nodup_concat_of_not_mem (seen : List Nat) (d : Nat) (hn : seen.Nodup) (hd : d ∉ seen) :
    (seen ++ [d]).Nodup := by
  rw [List.nodup_append]
  refine ⟨hn, List.nodup_singleton d, ?_⟩
  intro x hx hx1
  rw [List.mem_singleton] at hx1
  exact hd (hx1 ▸ hx)

lemma chain_concat (R : Nat → Nat → Prop) (seen : List Nat) (d V : Nat)
    (h : List.Chain' R (seen ++ [d])) (hr : R d V) : List.Chain' R ((seen ++ [d]) ++ [V]) := by
  apply List.Chain'.append h (List.chain'_singleton V)
  intro x hx y hy
  rw [List.getLast?_append, List.getLast?_singleton] at hx
  have hx1 : d = x := by simpa [Option.or] using hx
  have hy1 : V = y := by simpa using hy
  rw [← hx1, ← hy1]
  exact hr

/-- The loop of `collectDerivationChain` from a state whose values seen are distinct internal
values that form a chain of unique sources up to `d`: it returns with every fuel that is more
than the number of internal nodes not yet seen, and a chain returned with `true` is made of
distinct internal values, each an instruction and the unique source of its predecessor. -/
lemma collectDerivationChainLoop_spec (ir : IROracle) (scc : SCC) (n : Nat) :
    ∀ (d : Nat) (seen : List Nat), seen.Nodup → (∀ x ∈ seen, scc.isInternal x = true) →
      List.Chain' (fun a b => scc.UniqueSource a b ∧ ir.isaInstruction b = true) (seen ++ [d]) →
      scc.nodes.length + 1 ≤ n + seen.length →
      ∃ (ok : Bool) (chain : List Nat),
        (∀ fuel, scc.nodes.length + 1 ≤ fuel + seen.length →
          SCC.collectDerivationChainLoop ir scc fuel d seen seen = some (ok, chain)) ∧
        (ok = true → chain.Nodup ∧ (∀ x ∈ chain, scc.isInternal x = true) ∧
          List.Chain' (fun a b => scc.UniqueSource a b ∧ ir.isaInstruction b = true) chain ∧
          seen <+: chain ∧
          (scc.isInternal d = true → seen ++ [d] <+: chain)) := by
  induction n with
  | zero =>
    intro d seen hn hi _ hlen
    have := length_le_of_internal scc seen hn hi
    omega
  | succ n ih =>
    intro d seen hn hi hch hlen
    have hle := length_le_of_internal scc seen hn hi
    have hfuel : ∀ fuel, scc.nodes.length + 1 ≤ fuel + seen.length → ∃ f, fuel = f + 1 := by
      intro fuel hf
      exact ⟨fuel - 1, by omega⟩
    cases hd : scc.isInternal d with
    | false =>
      refine ⟨true, seen, ?_, fun _ => ⟨hn, hi, hch.left_of_append, List.prefix_refl _, ?_⟩⟩
      · intro fuel hf
        obtain ⟨f, rfl⟩ := hfuel fuel hf
        rw [collectDerivationChainLoop_succ, hd]
        rfl
      · intro h
        exact absurd h (by simp)
    | true =>
      by_cases hs : d ∈ seen
      · refine ⟨false, seen ++ [d], ?_, fun h => absurd h (by simp)⟩
        intro fuel hf
        obtain ⟨f, rfl⟩ := hfuel fuel hf
        rw [collectDerivationChainLoop_succ, hd, if_pos hs]
        rfl
      · have hn1 := nodup_concat_of_not_mem seen d hn hs
        have hi1 : ∀ x ∈ seen ++ [d], scc.isInternal x = true := by
          intro x hx
          rcases List.mem_append.mp hx with hx | hx
          · exact hi x hx
          · rw [List.mem_singleton] at hx
            rw [hx]; exact hd
        cases hdeps : scc.incomingDataDeps d with
        | nil =>
          refine ⟨true, seen ++ [d], ?_,
            fun _ => ⟨hn1, hi1, hch, List.prefix_append _ _, fun _ => List.prefix_refl _⟩⟩
          intro fuel hf
          obtain ⟨f, rfl⟩ := hfuel fuel hf
          rw [collectDerivationChainLoop_succ, hd, if_neg hs, hdeps]
          rfl
        | cons V rest =>
          cases rest with
          | nil =>
            cases hV : ir.isaInstruction V with
            | false =>
              refine ⟨false, seen ++ [d], ?_, fun h => absurd h (by simp)⟩
              intro fuel hf
              obtain ⟨f, rfl⟩ := hfuel fuel hf
              rw [collectDerivationChainLoop_succ, hd, if_neg hs, hdeps]
              simp [hV]
            | true =>
              have hU := uniqueSource_of_singleton scc d V hdeps
              obtain ⟨ok, chain, h1, h2⟩ := ih V (seen ++ [d]) hn1 hi1
                (chain_concat _ seen d V hch ⟨hU, hV⟩)
                (by rw [List.length_append, List.length_singleton]; omega)
              refine ⟨ok, chain, ?_, ?_⟩
              · intro fuel hf
                obtain ⟨f, rfl⟩ := hfuel fuel hf
                rw [collectDerivationChainLoop_succ, hd, if_neg hs, hdeps]
                simp only [Bool.not_true, Bool.false_eq_true, if_false, hV]
                apply h1
                rw [List.length_append, List.length_singleton]
                omega
              · intro hok
                obtain ⟨p1, p2, p3, p4, _⟩ := h2 hok
                exact ⟨p1, p2, p3, (List.prefix_append _ _).trans p4, fun _ => p4⟩
          | cons W rest1 =>
            refine ⟨false, seen ++ [d], ?_, fun h => absurd h (by simp)⟩
            intro fuel hf
            obtain ⟨f, rfl⟩ := hfuel fuel hf
            rw [collectDerivationChainLoop_succ, hd, if_neg hs, hdeps]
            rfl

/-- The loop returns `false` when the walk that starts at `d` comes back to a value already
seen or to one of its own values, or ends on an instruction with two or more data sources. -/
lemma collectDerivationChainLoop_false (ir : IROracle) (scc : SCC) (walk : List Nat) :
    ∀ (fuel d : Nat) (chain seen : List Nat) (ok : Bool) (chain1 : List Nat),
      SCC.collectDerivationChainLoop ir scc fuel d chain seen = some (ok, chain1) →
      scc.isInternal d = true → seen.Nodup →
      List.Chain' (scc.DerivationStep ir) (d :: walk) →
      (¬ (seen ++ d :: walk).Nodup ∨
        ∃ last, (d :: walk).getLast? = some last ∧ scc.HasTwoDataSources last) →
      ok = false := by
  induction walk with
  | nil =>
    intro fuel d chain seen ok chain1 h hd hn _ hbad
    cases fuel with
    | zero => exact absurd h (by simp [SCC.collectDerivationChainLoop])
    | succ f =>
      rw [collectDerivationChainLoop_succ, hd] at h
      by_cases hs : d ∈ seen
      · rw [if_neg (by simp), if_pos hs] at h
        simp only [Option.some.injEq, Prod.mk.injEq] at h
        exact h.1.symm
      · rw [if_neg (by simp), if_neg hs] at h
        rcases hbad with hbad | ⟨last, hlast, htwo⟩
        · exact absurd (nodup_concat_of_not_mem seen d hn hs) hbad
        · simp only [List.getLast?_singleton, Option.some.injEq] at hlast
          subst hlast
          obtain ⟨a, b, rest, hdeps⟩ := two_of_hasTwoDataSources scc d htwo
          rw [hdeps] at h
          simp only [Option.some.injEq, Prod.mk.injEq] at h
          exact h.1.symm
  | cons b w ih =>
    intro fuel d chain seen ok chain1 h hd hn hch hbad
    obtain ⟨⟨hU, hI, hint⟩, hch1⟩ := List.chain'_cons.mp hch
    cases fuel with
    | zero => exact absurd h (by simp [SCC.collectDerivationChainLoop])
    | succ f =>
      rw [collectDerivationChainLoop_succ, hd] at h
      by_cases hs : d ∈ seen
      · rw [if_neg (by simp), if_pos hs] at h
        simp only [Option.some.injEq, Prod.mk.injEq] at h
        exact h.1.symm
      · rw [if_neg (by simp), if_neg hs, singleton_of_uniqueSource scc d b hU] at h
        simp only [hI, Bool.not_true, Bool.false_eq_true, if_false] at h
        apply ih f b (chain ++ [d]) (seen ++ [d]) ok chain1 h hint
          (nodup_concat_of_not_mem seen d hn hs) hch1
        rcases hbad with hbad | ⟨last, hlast, htwo⟩
        · left
          rw [List.append_assoc, List.singleton_append]
          exact hbad
        · right
          rw [List.getLast?_cons_cons] at hlast
          exact ⟨last, hlast, htwo⟩

/-- A self-dependence is no second source: on the SCC where `10` depends on itself and on `11`
the walk goes on from `10` to `11` and the function returns `true`. -/
lemma collectDerivationChain_selfLoop :
    SCCDAGAttrs.collectDerivationChain sampleIR 10 sampleSelfLoopSCC = some (true, [10, 11]) := by
  decide
/-! ## The checks on the sample loops -/

/-- The sum reduction passes `checkIfReducible`, and the two queried values enter the cache of
strongly connected values. -/
lemma sampleReduction_checkIfReducible :
    SCCDAGAttrs.checkIfReducible sampleIR sampleAccumOpInfo sampleLoopLIS sampleReductionAttrs
        { id := 0, scc := sampleReductionSCC, inclusion := true } sampleReductionInfo =
      (true, { sampleReductionInfo with stronglyConnectedDataValues := [11, 10] }) := by
  decide

/-- The SCC of the load, which has no loop-carried dependence, does not pass
`checkIfReducible`. -/
lemma sampleLoad_checkIfReducible :
    (SCCDAGAttrs.checkIfReducible sampleIR sampleAccumOpInfo sampleLoopLIS sampleReductionAttrs
        { id := 1, scc := { nodes := [20], edges := [] }, inclusion := true }
        { sampleReductionInfo with PHINodes := [], accumulators := [] }).1 = false := by
  decide

/-- The counter is an induction variable, and the sum reduction, which has no control pair, is
not. -/
lemma sampleCounter_checkIfInductionVariableSCC :
    SCCDAGAttrs.checkIfInductionVariableSCC sampleIR sampleSE sampleLoopLIS sampleCounterSCC
        sampleCounterInfo =
      some (true, { sampleCounterInfo with
        hasIV := true, stronglyConnectedDataValues := [50, 51] }) ∧
    SCCDAGAttrs.checkIfInductionVariableSCC sampleIR sampleSE sampleLoopLIS sampleReductionSCC
        sampleReductionInfo = some (false, sampleReductionInfo) := by
  decide

/-- The searches of `isDerivedWithinSCC` on the counter: the PHI is on a data cycle, the
comparison and the branch are not. -/
lemma sampleCounter_isDerivedWithinSCC :
    (SCCDAGAttrs.isDerivedWithinSCC 50 sampleCounterSCC sampleCounterInfo).1 = true ∧
    (SCCDAGAttrs.isDerivedWithinSCC 52 sampleCounterSCC sampleCounterInfo).1 = false ∧
    (SCCDAGAttrs.isDerivedWithinSCC 53 sampleCounterSCC sampleCounterInfo).1 = false ∧
    (SCCDAGAttrs.isDerivedWithinSCC 62 sampleCounterSCC sampleCounterInfo).1 = false := by
  decide

/-! ## Degrees of the nodes of a simple chain -/

lemma filter_fst_length_le_one (L : List (Nat × Nat)) (hnd : (L.map Prod.fst).Nodup)
    (a : Nat) : (L.filter (fun p => p.1 == a)).length ≤ 1 := by
  by_cases h : a ∈ L.map Prod.fst
  · obtain ⟨p, hp, rfl⟩ := List.mem_map.mp h
    rw [filter_fst_eq_singleton L hnd p.1 p.2 hp]
    simp
  · rw [filter_fst_eq_nil L a h]
    simp

/-- In a simple chain every node has at most one incoming and at most one outgoing edge. -/
lemma degrees_of_chain (g : SCCDG) (hwf : g.WellFormed) (hchain : g.IsSimpleChain) (n : Nat) :
    (g.incomingEdges n).length ≤ 1 ∧ (g.outgoingEdges n).length ≤ 1 := by
  obtain ⟨order, hord, hedges⟩ := hchain
  rw [zip_tail_eq_pairsOf] at hedges
  have hnd : order.Nodup := hord.nodup_iff.mpr hwf.nodup
  constructor
  · have h := (incoming_map_perm g _ hedges n).length_eq
    rw [List.length_map] at h
    rw [h]
    exact filter_snd_length_le_one _ (pairsOf_snd_nodup hnd) n
  · have h := (outgoing_map_perm g _ hedges n).length_eq
    rw [List.length_map] at h
    rw [h]
    exact filter_fst_length_le_one _ (pairsOf_fst_nodup hnd) n

/-! ## Queue loops without a visited set end on acyclic graphs -/

/-- A relation without cycle whose steps all end in a finite set goes down along a rank. -/
lemma exists_rank_of_acyclic (R : Nat → Nat → Prop) (V : Finset Nat)
    (hV : ∀ a b, R a b → b ∈ V) (hac : ∀ a, ¬ Relation.TransGen R a a) :
    ∃ rank : Nat → Nat, ∀ a b, R a b → rank b < rank a := by
  classical
  refine ⟨fun a => (V.filter (fun x => Relation.TransGen R a x)).card, ?_⟩
  intro a b hab
  apply Finset.card_lt_card
  rw [Finset.ssubset_iff_of_subset]
  · refine ⟨b, ?_, ?_⟩
    · exact Finset.mem_filter.mpr ⟨hV a b hab, Relation.TransGen.single hab⟩
    · intro hb
      exact hac b (Finset.mem_filter.mp hb).2
  · intro x hx
    rw [Finset.mem_filter] at hx ⊢
    exact ⟨hx.1, Relation.TransGen.head hab hx.2⟩

/-- On such a relation the successors are well-founded. -/
lemma wellFounded_of_acyclic (R : Nat → Nat → Prop) (V : Finset Nat)
    (hV : ∀ a b, R a b → b ∈ V) (hac : ∀ a, ¬ Relation.TransGen R a a) :
    WellFounded (fun b a => R a b) := by
  obtain ⟨rank, hrank⟩ := exists_rank_of_acyclic R V hV hac
  exact Subrelation.wf (fun {b a} h => hrank a b h) (InvImage.wf rank Nat.lt_wfRel.wf)

lemma worklist_nil {σ : Type} (step : Nat → σ → Option (List Nat × σ)) (fuel : Nat) (st : σ) :
    worklist step fuel [] st = some st := by
  cases fuel <;> rfl

/-- A queue loop whose pushed nodes are all below the node taken from the queue, for a
well-founded relation, ends when it has enough fuel, and an invariant of its turns holds at the
end. -/
lemma worklist_inv {σ : Type} (step : Nat → σ → Option (List Nat × σ))
    (r : Nat → Nat → Prop) (hr : WellFounded r) (Inv : List Nat → σ → Prop)
    (hstep : ∀ n rest st, Inv (n :: rest) st →
      ∃ pushed st1, step n st = some (pushed, st1) ∧ Inv (rest ++ pushed) st1 ∧
        ∀ m ∈ pushed, r m n)
    (q : List Nat) (st : σ) (h : Inv q st) :
    ∃ fuel0 st', (∀ fuel, fuel0 ≤ fuel → worklist step fuel q st = some st') ∧ Inv [] st' := by
  have key : ∀ M : Multiset Nat, ∀ q : List Nat, (q : Multiset Nat) = M → ∀ st, Inv q st →
      ∃ fuel0 st', (∀ fuel, fuel0 ≤ fuel → worklist step fuel q st = some st') ∧
        Inv [] st' := by
    intro M
    induction M using hr.cutExpand.induction with
    | _ M ih =>
      intro q hq st hinv
      cases q with
      | nil => exact ⟨0, st, fun fuel _ => worklist_nil step fuel st, hinv⟩
      | cons n rest =>
        obtain ⟨pushed, st1, h1, h2, h3⟩ := hstep n rest st hinv
        have hcut : Relation.CutExpand r ((rest ++ pushed : List Nat) : Multiset Nat) M := by
          refine ⟨(pushed : Multiset Nat), n, ?_, ?_⟩
          · intro a ha
            exact h3 a (by simpa using ha)
          · rw [← hq, ← Multiset.coe_add, ← Multiset.cons_coe, Multiset.cons_add,
              ← Multiset.singleton_add, add_comm]
        obtain ⟨fuel0, st', f1, f2⟩ := ih _ hcut (rest ++ pushed) rfl st1 h2
        refine ⟨fuel0 + 1, st', ?_, f2⟩
        intro fuel hfuel
        obtain ⟨k, rfl⟩ : ∃ k, fuel = k + 1 := ⟨fuel - 1, by omega⟩
        simp only [worklist, h1]
        exact f1 k (by omega)
  exact key _ q rfl st h

/-! ## The loop of `isLoopGovernedByIV` -/

lemma hasEdge_wellFounded (g : SCCDG) (hac : g.Acyclic) :
    WellFounded (fun b a => g.HasEdge a b) := by
  apply wellFounded_of_acyclic g.HasEdge (g.allEdges.map (fun e => e.dst)).toFinset _ hac
  rintro a b ⟨e, he, _, rfl⟩
  exact List.mem_toFinset.mpr (List.mem_map_of_mem _ he)

lemma mem_getNextDepthNodes {g : SCCDG} {n m : Nat} (h : m ∈ g.getNextDepthNodes n) :
    ∃ e ∈ g.allEdges, e.src = n ∧ e.dst = m := by
  unfold SCCDG.getNextDepthNodes at h
  rw [List.mem_dedup, List.mem_map] at h
  obtain ⟨e, he, rfl⟩ := h
  obtain ⟨h1, h2, _⟩ := mem_outgoingEdges he
  exact ⟨e, h1, h2, rfl⟩

lemma stopsAt_attrs (attrs : SCCDAGAttrs) (n x : Nat) (h : attrs.StopsAt n x) :
    ∃ sccInfo, attrs.getSCCAttrs x = some sccInfo ∧
      sccInfo.canExecuteIndependently = false := by
  induction h with
  | here n sccInfo h1 h2 => exact ⟨sccInfo, h1, h2⟩
  | down _ _ _ _ _ _ _ _ ih => exact ih

lemma stopsAt_independent (attrs : SCCDAGAttrs) (n x : Nat) (sccInfo : SCCAttrs)
    (h1 : attrs.getSCCAttrs n = some sccInfo) (h2 : sccInfo.canExecuteIndependently = true) :
    attrs.StopsAt n x ↔ ∃ m ∈ attrs.sccdag.getNextDepthNodes n, attrs.StopsAt m x := by
  constructor
  · intro h
    cases h with
    | here _ info' g1 g2 =>
      rw [h1] at g1
      simp only [Option.some.injEq] at g1
      subst g1
      rw [h2] at g2
      exact absurd g2 (by simp)
    | down _ m _ _ _ _ g3 g4 => exact ⟨m, g3, g4⟩
  · rintro ⟨m, hm, hs⟩
    exact SCCDAGAttrs.StopsAt.down n m x sccInfo h1 h2 hm hs

lemma stopsAt_not_independent (attrs : SCCDAGAttrs) (n x : Nat) (sccInfo : SCCAttrs)
    (h1 : attrs.getSCCAttrs n = some sccInfo) (h2 : sccInfo.canExecuteIndependently = false) :
    attrs.StopsAt n x ↔ x = n := by
  constructor
  · intro h
    cases h with
    | here _ _ _ _ => rfl
    | down _ _ _ info' g1 g2 _ _ =>
      rw [h1] at g1
      simp only [Option.some.injEq] at g1
      subst g1
      rw [h2] at g2
      exact absurd g2 (by simp)
  · rintro rfl
    exact SCCDAGAttrs.StopsAt.here x sccInfo h1 h2

/-- With enough fuel the loop of `isLoopGovernedByIV` ends, and `topLevelSCCs` then holds,
without repetition, the SCCs at which the descents from the top-level nodes stop. -/
lemma topLevelLoop_spec (attrs : SCCDAGAttrs) (hac : attrs.sccdag.Acyclic)
    (hdst : ∀ e ∈ attrs.sccdag.allEdges, e.dst ∈ attrs.sccdag.nodeIds)
    (hattrs : attrs.AllHaveAttrs) :
    ∃ fuel0 tops, (∀ fuel, fuel0 ≤ fuel →
        worklist attrs.topLevelStep fuel attrs.sccdag.getTopLevelNodes [] = some tops) ∧
      tops.Nodup ∧ ∀ x, x ∈ tops ↔ attrs.IsTopLevelSCC x := by
  have h := worklist_inv attrs.topLevelStep (fun b a => attrs.sccdag.HasEdge a b)
    (hasEdge_wellFounded _ hac)
    (fun q tops => (∀ n ∈ q, n ∈ attrs.sccdag.nodeIds) ∧ tops.Nodup ∧
      ∀ x, (x ∈ tops ∨ ∃ n ∈ q, attrs.StopsAt n x) ↔ attrs.IsTopLevelSCC x)
    ?_ attrs.sccdag.getTopLevelNodes [] ?_
  · obtain ⟨fuel0, tops, h1, _, h3, h4⟩ := h
    refine ⟨fuel0, tops, h1, h3, ?_⟩
    intro x
    rw [← h4 x]
    simp
  · rintro n rest tops ⟨i1, i2, i3⟩
    have hn := hattrs n (i1 n (List.mem_cons_self _ _))
    cases hinfo : attrs.getSCCAttrs n with
    | none => rw [hinfo] at hn; exact absurd hn (by simp)
    | some sccInfo =>
      by_cases hind : sccInfo.canExecuteIndependently = true
      · refine ⟨attrs.sccdag.getNextDepthNodes n, tops, ?_, ⟨?_, i2, ?_⟩, ?_⟩
        · simp [SCCDAGAttrs.topLevelStep, hinfo, hind]
        · intro m hm
          rcases List.mem_append.mp hm with h | h
          · exact i1 m (List.mem_cons_of_mem _ h)
          · obtain ⟨e, he, _, rfl⟩ := mem_getNextDepthNodes h
            exact hdst e he
        · intro x
          rw [← i3 x]
          constructor
          · rintro (h | ⟨m, hm, hs⟩)
            · exact Or.inl h
            · rcases List.mem_append.mp hm with h | h
              · exact Or.inr ⟨m, List.mem_cons_of_mem _ h, hs⟩
              · exact Or.inr ⟨n, List.mem_cons_self _ _,
                  (stopsAt_independent attrs n x sccInfo hinfo hind).mpr ⟨m, h, hs⟩⟩
          · rintro (h | ⟨m, hm, hs⟩)
            · exact Or.inl h
            · rcases List.mem_cons.mp hm with rfl | h
              · obtain ⟨m', hm', hs'⟩ :=
                  (stopsAt_independent attrs m x sccInfo hinfo hind).mp hs
                exact Or.inr ⟨m', List.mem_append_right _ hm', hs'⟩
              · exact Or.inr ⟨m, List.mem_append_left _ h, hs⟩
        · intro m hm
          obtain ⟨e, he, h1, h2⟩ := mem_getNextDepthNodes hm
          exact ⟨e, he, h1, h2⟩
      · have hind1 : sccInfo.canExecuteIndependently = false := by simpa using hind
        refine ⟨[], if n ∈ tops then tops else tops ++ [n], ?_, ⟨?_, ?_, ?_⟩, by simp⟩
        · simp [SCCDAGAttrs.topLevelStep, hinfo, hind1]
        · intro m hm
          rw [List.append_nil] at hm
          exact i1 m (List.mem_cons_of_mem _ hm)
        · split_ifs with hmem
          · exact i2
          · exact List.Nodup.append i2 (List.nodup_singleton _) (by simpa using hmem)
        · intro x
          rw [← i3 x, List.append_nil]
          have hx : x ∈ (if n ∈ tops then tops else tops ++ [n]) ↔ x ∈ tops ∨ x = n := by
            split_ifs with hmem
            · constructor
              · intro h; exact Or.inl h
              · rintro (h | rfl)
                · exact h
                · exact hmem
            · simp
          rw [hx]
          constructor
          · rintro ((h | rfl) | ⟨m, hm, hs⟩)
            · exact Or.inl h
            · exact Or.inr ⟨x, List.mem_cons_self _ _,
                SCCDAGAttrs.StopsAt.here x sccInfo hinfo hind1⟩
            · exact Or.inr ⟨m, List.mem_cons_of_mem _ hm, hs⟩
          · rintro (h | ⟨m, hm, hs⟩)
            · exact Or.inl (Or.inl h)
            · rcases List.mem_cons.mp hm with rfl | h
              · exact Or.inl (Or.inr
                  ((stopsAt_not_independent attrs m x sccInfo hinfo hind1).mp hs))
              · exact Or.inr ⟨m, h, hs⟩
  · refine ⟨?_, List.nodup_nil, ?_⟩
    · intro n hn
      unfold SCCDG.getTopLevelNodes at hn
      obtain ⟨m, hm, rfl⟩ := List.mem_map.mp hn
      exact List.mem_map_of_mem _ (List.mem_filter.mp (List.mem_filter.mp hm).1).1
    · intro x
      simp [SCCDAGAttrs.IsTopLevelSCC]

/-! ## The backward walks of `collectSCCGraphAssumingDistributedClones` -/

/-- The relation along which a walk moves: from a clonable SCC to the source of one of its
incoming edges. -/
lemma clonable_pred_wellFounded (attrs : SCCDAGAttrs) (hcyc : attrs.NoClonableCycle) :
    WellFounded (fun m n => attrs.sccdag.HasEdge m n ∧ attrs.IsClonable n) := by
  have hwf : WellFounded (fun m n => attrs.ClonableEdge m n) := by
    apply wellFounded_of_acyclic (fun a b => attrs.ClonableEdge b a)
      (attrs.sccdag.allEdges.map (fun e => e.src)).toFinset
    · rintro a b ⟨⟨e, he, rfl, _⟩, _, _⟩
      exact List.mem_toFinset.mpr (List.mem_map_of_mem _ he)
    · intro a h
      exact hcyc a (Relation.transGen_swap.mp h)
  have hclon : ∀ n, attrs.IsClonable n →
      Acc (fun m n => attrs.sccdag.HasEdge m n ∧ attrs.IsClonable n) n := by
    intro n
    induction n using hwf.induction with
    | _ n ih =>
      intro hn
      refine Acc.intro n ?_
      rintro m ⟨hedge, _⟩
      by_cases hm : attrs.IsClonable m
      · exact ih m ⟨hedge, hm, hn⟩ hm
      · refine Acc.intro m ?_
        rintro k ⟨_, hk⟩
        exact absurd hk hm
  refine ⟨fun n => ?_⟩
  by_cases hn : attrs.IsClonable n
  · exact hclon n hn
  · refine Acc.intro n ?_
    rintro k ⟨_, hk⟩
    exact absurd hk hn

lemma mem_addIncomingNodes (attrs : SCCDAGAttrs) (node m : Nat) (st : ClonesGraph)
    (h : m ∈ (attrs.addIncomingNodes node st).1) :
    ∃ e ∈ attrs.sccdag.allEdges, e.src = m ∧ e.dst = node := by
  unfold SCCDAGAttrs.addIncomingNodes at h
  simp only [List.mem_dedup, List.mem_map] at h
  obtain ⟨e, he, rfl⟩ := h
  obtain ⟨h1, h2, _⟩ := mem_incomingEdges he
  exact ⟨e, h1, rfl, h2⟩

/-- The backward walk from a child ends when it has enough fuel. -/
lemma clonesOfChild_isSome (attrs : SCCDAGAttrs)
    (hsrc : ∀ e ∈ attrs.sccdag.allEdges, e.src ∈ attrs.sccdag.nodeIds)
    (hattrs : attrs.AllHaveAttrs) (hcyc : attrs.NoClonableCycle) (st : ClonesGraph)
    (childSCCNode : SCCNode) :
    ∃ fuel0 st', ∀ fuel, fuel0 ≤ fuel →
      attrs.clonesOfChild fuel st childSCCNode = some st' := by
  have h := worklist_inv (attrs.clonesStep childSCCNode.id)
    (fun m n => attrs.sccdag.HasEdge m n ∧ attrs.IsClonable n)
    (clonable_pred_wellFounded attrs hcyc)
    (fun q _ => ∀ n ∈ q, n ∈ attrs.sccdag.nodeIds)
    ?_ (attrs.addIncomingNodes childSCCNode.id st).1
    (attrs.addIncomingNodes childSCCNode.id st).2 ?_
  · obtain ⟨fuel0, st', h1, _⟩ := h
    exact ⟨fuel0, st', h1⟩
  · intro n rest st0 hinv
    have hn := hattrs n (hinv n (List.mem_cons_self _ _))
    cases hinfo : attrs.getSCCAttrs n with
    | none => rw [hinfo] at hn; exact absurd hn (by simp)
    | some sccInfo =>
      obtain ⟨st1, hst1⟩ : ∃ st1 : ClonesGraph, attrs.clonesStep childSCCNode.id n st0 =
          if sccInfo.canBeCloned then some (attrs.addIncomingNodes n st1)
          else some ([], st1) :=
        ⟨{ st0 with
            parentsViaClones :=
              if (childSCCNode.id, n) ∈ st0.parentsViaClones then st0.parentsViaClones
              else st0.parentsViaClones ++ [(childSCCNode.id, n)] },
          by simp only [SCCDAGAttrs.clonesStep, hinfo]⟩
      by_cases hc : sccInfo.canBeCloned = true
      · rw [hc, if_pos rfl] at hst1
        refine ⟨(attrs.addIncomingNodes n st1).1, (attrs.addIncomingNodes n st1).2, hst1,
          ?_, ?_⟩
        · intro m hm
          rcases List.mem_append.mp hm with h | h
          · exact hinv m (List.mem_cons_of_mem _ h)
          · obtain ⟨e, he, rfl, _⟩ := mem_addIncomingNodes attrs n m st1 h
            exact hsrc e he
        · intro m hm
          obtain ⟨e, he, h1, h2⟩ := mem_addIncomingNodes attrs n m st1 hm
          exact ⟨⟨e, he, h1, h2⟩, sccInfo, hinfo, hc⟩
      · rw [if_neg hc] at hst1
        refine ⟨[], st1, hst1, ?_, by simp⟩
        intro m hm
        rw [List.append_nil] at hm
        exact hinv m (List.mem_cons_of_mem _ hm)
  · intro m hm
    obtain ⟨e, he, rfl, _⟩ := mem_addIncomingNodes attrs _ m st hm
    exact hsrc e he

/-- The walks from a list of children all end when they have enough fuel. -/
lemma foldlM_clonesOfChild_isSome (attrs : SCCDAGAttrs)
    (hsrc : ∀ e ∈ attrs.sccdag.allEdges, e.src ∈ attrs.sccdag.nodeIds)
    (hattrs : attrs.AllHaveAttrs) (hcyc : attrs.NoClonableCycle) (l : List SCCNode)
    (st : ClonesGraph) :
    ∃ fuel0 st', ∀ fuel, fuel0 ≤ fuel →
      l.foldlM (attrs.clonesOfChild fuel) st = some st' := by
  induction l generalizing st with
  | nil => exact ⟨0, st, fun _ _ => rfl⟩
  | cons child rest ih =>
    obtain ⟨f1, st1, h1⟩ := clonesOfChild_isSome attrs hsrc hattrs hcyc st child
    obtain ⟨f2, st2, h2⟩ := ih st1
    refine ⟨max f1 f2, st2, ?_⟩
    intro fuel hf
    rw [List.foldlM_cons, h1 fuel (le_trans (le_max_left _ _) hf)]
    exact h2 fuel (le_trans (le_max_right _ _) hf)

/-- On the cycle of two clonable SCCs the queue of a walk is never empty. -/
lemma sampleCycle_worklist (child : Nat) (fuel : Nat) :
    ∀ st, worklist (sampleCycleAttrs.clonesStep child) fuel [0] st = none ∧
      worklist (sampleCycleAttrs.clonesStep child) fuel [1] st = none := by
  induction fuel with
  | zero => exact fun _ => ⟨rfl, rfl⟩
  | succ fuel ih =>
    intro st
    constructor
    · exact (ih _).2
    · exact (ih _).1

/-- An acyclic SCCDAG has no cycle made of clonable SCCs. -/
lemma noClonableCycle_of_acyclic (attrs : SCCDAGAttrs) (hac : attrs.sccdag.Acyclic) :
    attrs.NoClonableCycle := by
  intro a h
  exact hac a (Relation.TransGen.mono (fun _ _ hab => hab.1) h)

/-! ## The merges of the partition driver -/

lemma mem_subsetEdges (p : SCCDAGPartition) (a b : Nat) :
    (a, b) ∈ p.subsetEdges ↔
      ∃ e ∈ p.sccdag.allEdges, p.subsetOf.lookup e.src = some a ∧
        p.subsetOf.lookup e.dst = some b ∧ a ≠ b := by
  unfold SCCDAGPartition.subsetEdges
  rw [List.mem_filterMap]
  constructor
  · rintro ⟨e, he, h⟩
    refine ⟨e, he, ?_⟩
    cases h1 : p.subsetOf.lookup e.src with
    | none => simp [h1] at h
    | some a' =>
      cases h2 : p.subsetOf.lookup e.dst with
      | none => simp [h1, h2] at h
      | some b' =>
        simp only [h1, h2] at h
        split_ifs at h with hab
        simp only [Option.some.injEq, Prod.mk.injEq] at h
        obtain ⟨rfl, rfl⟩ := h
        exact ⟨rfl, rfl, hab⟩
  · rintro ⟨e, he, h1, h2, hab⟩
    exact ⟨e, he, by simp [h1, h2, hab]⟩

lemma subsetEdges_snd_mem (p : SCCDAGPartition) (q : Nat × Nat) (hq : q ∈ p.subsetEdges) :
    q.2 ∈ p.subsetIds := by
  obtain ⟨a, b⟩ := q
  obtain ⟨e, _, _, h2, _⟩ := (mem_subsetEdges p a b).mp hq
  unfold SCCDAGPartition.subsetIds
  rw [List.mem_dedup]
  exact List.mem_map.mpr ⟨(e.dst, b), mem_of_lookup_eq_some _ e.dst b h2, rfl⟩

/-- The test of `mergeSubsets` finds the cycles of a graph whose sinks are all listed. -/
lemma hasCycle_eq_false_iff (es : List (Nat × Nat)) (U : List Nat)
    (hes : ∀ q ∈ es, q.2 ∈ U) :
    hasCycle es U = false ↔ ∀ a, ¬ Relation.TransGen (EdgeRel es) a a := by
  unfold hasCycle
  rw [List.any_eq_false]
  constructor
  · intro h a hcyc
    obtain ⟨b, hab, hba⟩ := Relation.TransGen.head'_iff.mp hcyc
    have hmem : (a, b) ∈ es := hab
    apply h (a, b) hmem
    simp only [decide_eq_true_eq]
    exact (mem_reachFrom_iff es U hes b (hes _ hmem) a).mpr hba
  · intro h q hq hc
    simp only [decide_eq_true_eq] at hc
    have hba := (mem_reachFrom_iff es U hes q.2 (hes q hq) q.1).mp hc
    exact h q.1 (Relation.TransGen.head'_iff.mpr ⟨q.2, hq, hba⟩)

lemma relabel_numberOfSubsets (p : SCCDAGPartition) (a b : Nat) (hab : a ≠ b)
    (hb : b ∈ p.subsetIds) (ha : a ∈ p.subsetIds) :
    (p.relabel a b).numberOfSubsets < p.numberOfSubsets := by
  unfold SCCDAGPartition.numberOfSubsets SCCDAGPartition.subsetIds at *
  rw [← List.card_toFinset, ← List.card_toFinset]
  apply Finset.card_lt_card
  rw [Finset.ssubset_iff_of_subset]
  · refine ⟨b, by simpa using hb, ?_⟩
    simp only [SCCDAGPartition.relabel, List.map_map, List.mem_toFinset, List.mem_map,
      Function.comp_apply, not_exists, not_and]
    intro q _ hq
    split_ifs at hq with h
    · exact hab hq
    · exact h hq
  · intro x hx
    simp only [SCCDAGPartition.relabel, List.map_map, List.mem_toFinset, List.mem_map,
      Function.comp_apply] at hx
    obtain ⟨q, hq, hqx⟩ := hx
    split_ifs at hqx with h
    · rw [← hqx]
      simpa using ha
    · rw [← hqx]
      exact List.mem_toFinset.mpr (List.mem_map_of_mem _ hq)

/-- An accepted merge keeps the SCCDAG and the SCCs, removes a subset, and leaves a
subset-level graph without cycle. -/
lemma mergeSubsets_some (p q : SCCDAGPartition) (a b : Nat)
    (h : p.mergeSubsets a b = some q) :
    q.sccdag = p.sccdag ∧ q.subsetOf.map Prod.fst = p.subsetOf.map Prod.fst ∧
      q.numberOfSubsets < p.numberOfSubsets ∧ q.SubsetsAcyclic := by
  unfold SCCDAGPartition.mergeSubsets at h
  split_ifs at h with h1 h2
  simp only [Option.some.injEq] at h
  subst h
  refine ⟨rfl, ?_, relabel_numberOfSubsets p a b h1.2.2 h1.2.1 h1.1, ?_⟩
  · simp only [SCCDAGPartition.relabel, List.map_map]
    apply List.map_congr_left
    intro x _
    simp only [Function.comp_apply]
    split_ifs <;> rfl
  · have hf : hasCycle (p.relabel a b).subsetEdges (p.relabel a b).subsetIds = false := by
      simpa using h2
    exact (hasCycle_eq_false_iff _ _ (subsetEdges_snd_mem _)).mp hf

lemma subsetEdges_fst_mem (p : SCCDAGPartition) (q : Nat × Nat) (hq : q ∈ p.subsetEdges) :
    q.1 ∈ p.subsetIds := by
  obtain ⟨a, b⟩ := q
  obtain ⟨e, _, h1, _, _⟩ := (mem_subsetEdges p a b).mp hq
  unfold SCCDAGPartition.subsetIds
  rw [List.mem_dedup]
  exact List.mem_map.mpr ⟨(e.src, a), mem_of_lookup_eq_some _ e.src a h1, rfl⟩

lemma applyMerge_cases (p : SCCDAGPartition) (request : Option (Nat × Nat)) :
    (Heuristics.applyMerge p request = (p, false) ∧
        ∀ a b, request = some (a, b) → p.mergeSubsets a b = none) ∨
      ∃ a b q, request = some (a, b) ∧ p.mergeSubsets a b = some q ∧
        Heuristics.applyMerge p request = (q, true) := by
  unfold Heuristics.applyMerge
  cases request with
  | none => exact Or.inl ⟨rfl, fun a b h => absurd h (by simp)⟩
  | some ab =>
    obtain ⟨a, b⟩ := ab
    cases h2 : p.mergeSubsets a b with
    | none =>
      refine Or.inl ⟨by simp only [h2], ?_⟩
      intro a1 b1 h
      simp only [Option.some.injEq, Prod.mk.injEq] at h
      rw [← h.1, ← h.2]
      exact h2
    | some q => exact Or.inr ⟨a, b, q, rfl, h2, by simp only [h2]⟩

/-- One run of an analysis keeps the SCCDAG and the SCCs of the partition, leaves a
subset-level graph without cycle, and removes a subset when it merges. -/
lemma applyMerge_spec (p : SCCDAGPartition) (request : Option (Nat × Nat)) :
    (Heuristics.applyMerge p request).1.sccdag = p.sccdag ∧
    (Heuristics.applyMerge p request).1.subsetOf.map Prod.fst = p.subsetOf.map Prod.fst ∧
    (p.SubsetsAcyclic → (Heuristics.applyMerge p request).1.SubsetsAcyclic) ∧
    ((Heuristics.applyMerge p request).2 = true →
      (Heuristics.applyMerge p request).1.numberOfSubsets < p.numberOfSubsets) ∧
    ((Heuristics.applyMerge p request).2 = false →
      (Heuristics.applyMerge p request).1 = p) := by
  rcases applyMerge_cases p request with ⟨h, _⟩ | ⟨a, b, q, _, h2, h⟩
  · rw [h]
    exact ⟨rfl, rfl, fun hac => hac, by simp, fun _ => rfl⟩
  · rw [h]
    obtain ⟨m1, m2, m3, m4⟩ := mergeSubsets_some p q a b h2
    exact ⟨m1, m2, fun _ => m4, fun _ => m3, by simp⟩

lemma ofSingletons_lookup (g : SCCDG) (k v : Nat)
    (h : (SCCDAGPartition.ofSingletons g).subsetOf.lookup k = some v) : v = k := by
  have hmem := mem_of_lookup_eq_some _ k v h
  unfold SCCDAGPartition.ofSingletons at hmem
  simp only [List.mem_map, Prod.mk.injEq] at hmem
  obtain ⟨n, _, h1, h2⟩ := hmem
  rw [← h1, ← h2]

/-- The subset-level graph of the singleton partition of an acyclic SCCDAG has no cycle. -/
lemma ofSingletons_subsetsAcyclic (g : SCCDG) (hac : g.Acyclic) :
    (SCCDAGPartition.ofSingletons g).SubsetsAcyclic := by
  intro a h
  apply hac a
  refine Relation.TransGen.mono ?_ h
  intro x y hxy
  obtain ⟨e, he, h1, h2, _⟩ := (mem_subsetEdges _ x y).mp hxy
  exact ⟨e, he, (ofSingletons_lookup g _ _ h1).symm, (ofSingletons_lookup g _ _ h2).symm⟩


/-! ## The merge requested by a cost analysis -/

lemma smallestSize_checksMerges (pca : PartitionCostAnalysis) :
    ChecksMerges pca.partition (SmallestSizePartitionAnalysis.checkIfShouldMerge pca) := by
  intro c sA sB
  unfold SmallestSizePartitionAnalysis.checkIfShouldMerge
  cases hm : pca.partition.mergeSubsets sA sB with
  | none => exact Or.inl ⟨rfl, by simp⟩
  | some q =>
    refine Or.inr ⟨rfl, ?_⟩
    simp only [Option.isNone_some, Bool.false_eq_true, if_false]
    cases c with
    | none => exact Or.inl rfl
    | some best =>
      simp only
      split
      · exact Or.inl rfl
      · exact Or.inr ⟨rfl, by simp⟩

lemma minMax_checksMerges (pca : PartitionCostAnalysis) :
    ChecksMerges pca.partition (MinMaxSizePartitionAnalysis.checkIfShouldMerge pca) := by
  intro c sA sB
  unfold MinMaxSizePartitionAnalysis.checkIfShouldMerge
  cases hm : pca.partition.mergeSubsets sA sB with
  | none => exact Or.inl ⟨rfl, by simp⟩
  | some q =>
    refine Or.inr ⟨rfl, ?_⟩
    simp only [Option.isNone_some, Bool.false_eq_true, if_false]
    cases c with
    | none => exact Or.inl rfl
    | some best =>
      simp only
      split
      · exact Or.inl rfl
      · exact Or.inr ⟨rfl, by simp⟩

/-- The candidate at the end of the walk: its merge is accepted, and when there is none the
merge of every pair walked is rejected. -/
lemma foldl_check_spec (p : SCCDAGPartition)
    (check : Option (Nat × Nat) → Nat → Nat → Option (Nat × Nat)) (hcheck : ChecksMerges p check)
    (l : List (Nat × Nat)) (c : Option (Nat × Nat))
    (hc : ∀ x, c = some x → (p.mergeSubsets x.1 x.2).isSome = true) :
    (∀ x, l.foldl (fun candidate pair => check candidate pair.1 pair.2) c = some x →
      (p.mergeSubsets x.1 x.2).isSome = true) ∧
    (l.foldl (fun candidate pair => check candidate pair.1 pair.2) c = none →
      c = none ∧ ∀ pair ∈ l, p.mergeSubsets pair.1 pair.2 = none) := by
  induction l generalizing c with
  | nil =>
    exact ⟨fun x hx => hc x hx, fun h => ⟨h, fun pair hp => absurd hp (List.not_mem_nil _)⟩⟩
  | cons pair rest ih =>
    rw [List.foldl_cons]
    have hc1 : ∀ x, check c pair.1 pair.2 = some x → (p.mergeSubsets x.1 x.2).isSome = true := by
      intro x hx
      rcases hcheck c pair.1 pair.2 with ⟨_, h2⟩ | ⟨h1, h2 | ⟨h2, _⟩⟩
      · rw [h2] at hx; exact hc x hx
      · rw [h2] at hx
        simp only [Option.some.injEq] at hx
        rw [← hx]
        exact h1
      · rw [h2] at hx; exact hc x hx
    obtain ⟨i1, i2⟩ := ih (check c pair.1 pair.2) hc1
    refine ⟨i1, ?_⟩
    intro hnone
    obtain ⟨j1, j2⟩ := i2 hnone
    rcases hcheck c pair.1 pair.2 with ⟨h1, h2⟩ | ⟨_, h2 | ⟨h2, h3⟩⟩
    · rw [h2] at j1
      refine ⟨j1, ?_⟩
      intro q hq
      rcases List.mem_cons.mp hq with rfl | hq
      · exact h1
      · exact j2 q hq
    · rw [h2] at j1; exact absurd j1 (by simp)
    · rw [h2] at j1; exact absurd j1 h3

/-- The merge requested by the walk of an analysis is accepted; when none is requested, the
partition has at most `cores` subsets or the merge of every adjacent pair is rejected. -/
lemma traverseAllPartitionSubsets_spec (pca : PartitionCostAnalysis)
    (check : Option (Nat × Nat) → Nat → Nat → Option (Nat × Nat))
    (hcheck : ChecksMerges pca.partition check) :
    (∀ x, pca.traverseAllPartitionSubsets check = some x →
      (pca.partition.mergeSubsets x.1 x.2).isSome = true) ∧
    (pca.traverseAllPartitionSubsets check = none →
      pca.partition.numberOfSubsets ≤ pca.cores ∨
        ∀ pair ∈ pca.partition.subsetEdges, pca.partition.mergeSubsets pair.1 pair.2 = none) := by
  unfold PartitionCostAnalysis.traverseAllPartitionSubsets
  obtain ⟨f1, f2⟩ := foldl_check_spec pca.partition check hcheck pca.partition.adjacentPairs none
    (fun x hx => absurd hx (by simp))
  by_cases hn : pca.partition.numberOfSubsets ≤ pca.cores
  · rw [if_pos hn]
    exact ⟨fun x hx => absurd hx (by simp), fun _ => Or.inl hn⟩
  · rw [if_neg hn]
    refine ⟨f1, fun h => Or.inr ?_⟩
    intro pair hp
    apply (f2 h).2 pair
    unfold SCCDAGPartition.adjacentPairs
    exact List.mem_dedup.mpr hp

/-- One run of an analysis that merges nothing: the partition has at most `idealThreads`
subsets or the merge of every adjacent pair is rejected. -/
lemma applyMerge_traverse_false (pca : PartitionCostAnalysis)
    (check : Option (Nat × Nat) → Nat → Nat → Option (Nat × Nat))
    (hcheck : ChecksMerges pca.partition check)
    (h : (Heuristics.applyMerge pca.partition (pca.traverseAllPartitionSubsets check)).2 = false) :
    pca.partition.numberOfSubsets ≤ pca.cores ∨
      ∀ pair ∈ pca.partition.subsetEdges, pca.partition.mergeSubsets pair.1 pair.2 = none := by
  obtain ⟨t1, t2⟩ := traverseAllPartitionSubsets_spec pca check hcheck
  cases hr : pca.traverseAllPartitionSubsets check with
  | none => exact t2 hr
  | some x =>
    have hx := t1 x hr
    rcases applyMerge_cases pca.partition (pca.traverseAllPartitionSubsets check) with
      ⟨_, h2⟩ | ⟨a, b, q, _, _, h2⟩
    · have := h2 x.1 x.2 (by rw [hr])
      rw [this] at hx
      exact absurd hx (by simp)
    · rw [h2] at h
      exact absurd h (by simp)

/-! ## An acyclic subset-level graph with an edge has an edge whose merge is accepted -/

lemma lookup_relabel (p : SCCDAGPartition) (a b k : Nat) :
    (p.relabel a b).subsetOf.lookup k = (p.subsetOf.lookup k).map (contractInto a b) := by
  unfold SCCDAGPartition.relabel
  simp only
  induction p.subsetOf with
  | nil => rfl
  | cons q rest ih =>
    obtain ⟨k1, v⟩ := q
    by_cases hk : k = k1
    · subst hk
      by_cases hv : v = b
      · simp [List.lookup_cons, hv, contractInto]
      · simp [List.lookup_cons, hv, contractInto]
    · have h1 : (k == k1) = false := by simpa using hk
      by_cases hv : v = b
      · simp only [List.map_cons, hv, if_true, List.lookup_cons, h1]
        exact ih
      · simp only [List.map_cons, hv, if_false, List.lookup_cons, h1]
        exact ih

/-- An edge of the subset-level graph after a merge comes from an edge of the graph before
it. -/
lemma mem_relabel_subsetEdges (p : SCCDAGPartition) (a b x y : Nat)
    (h : (x, y) ∈ (p.relabel a b).subsetEdges) :
    ∃ u v, (u, v) ∈ p.subsetEdges ∧ contractInto a b u = x ∧ contractInto a b v = y ∧
      x ≠ y := by
  obtain ⟨e, he, h1, h2, hxy⟩ := (mem_subsetEdges _ x y).mp h
  rw [lookup_relabel] at h1 h2
  have hg : (p.relabel a b).sccdag = p.sccdag := rfl
  rw [hg] at he
  cases hu : p.subsetOf.lookup e.src with
  | none => rw [hu] at h1; exact absurd h1 (by simp)
  | some u =>
    cases hv : p.subsetOf.lookup e.dst with
    | none => rw [hv] at h2; exact absurd h2 (by simp)
    | some v =>
      rw [hu] at h1
      rw [hv] at h2
      simp only [Option.map_some', Option.some.injEq] at h1 h2
      refine ⟨u, v, ?_, h1, h2, hxy⟩
      apply (mem_subsetEdges p u v).mpr
      refine ⟨e, he, hu, hv, ?_⟩
      intro huv
      apply hxy
      rw [← h1, ← h2, huv]

lemma edgeRel_acyclic_of_rank (es : List (Nat × Nat)) (rank : Nat → Nat)
    (h : ∀ q ∈ es, rank q.2 < rank q.1) : ∀ a, ¬ Relation.TransGen (EdgeRel es) a a := by
  have key : ∀ a b, Relation.TransGen (EdgeRel es) a b → rank b < rank a := by
    intro a b hab
    induction hab with
    | single h1 => exact h _ h1
    | tail _ h1 ih => exact lt_trans (h _ h1) ih
  intro a ha
  exact lt_irrefl _ (key a a ha)

/-- In a list that is not empty some element has the least value. -/
lemma exists_min_of_ne_nil {α : Type} (l : List α) (f : α → Nat) (hl : l ≠ []) :
    ∃ x ∈ l, ∀ y ∈ l, f x ≤ f y := by
  induction l with
  | nil => exact absurd rfl hl
  | cons a rest ih =>
    by_cases hr : rest = []
    · subst hr
      exact ⟨a, List.mem_cons_self _ _, fun y hy => by
        rw [List.mem_singleton] at hy; rw [hy]⟩
    · obtain ⟨x, hx, hmin⟩ := ih hr
      by_cases hax : f a ≤ f x
      · refine ⟨a, List.mem_cons_self _ _, ?_⟩
        intro y hy
        rcases List.mem_cons.mp hy with rfl | hy
        · exact le_refl _
        · exact le_trans hax (hmin y hy)
      · refine ⟨x, List.mem_cons_of_mem _ hx, ?_⟩
        intro y hy
        rcases List.mem_cons.mp hy with rfl | hy
        · omega
        · exact hmin y hy

/-- The edge of an acyclic subset-level graph that spans the least difference of rank can be
contracted: the merge of its two subsets is accepted. -/
lemma exists_mergeable (p : SCCDAGPartition) (hac : p.SubsetsAcyclic)
    (hne : p.subsetEdges ≠ []) :
    ∃ pair ∈ p.subsetEdges, (p.mergeSubsets pair.1 pair.2).isSome = true := by
  obtain ⟨rank, hrank⟩ := exists_rank_of_acyclic (EdgeRel p.subsetEdges)
    ((p.subsetEdges.map Prod.snd).toFinset)
    (fun a b hab => by
      rw [List.mem_toFinset]
      exact List.mem_map.mpr ⟨(a, b), hab, rfl⟩) hac
  obtain ⟨ab, hab, hmin⟩ := exists_min_of_ne_nil p.subsetEdges (fun q => rank q.1 - rank q.2) hne
  obtain ⟨a, b⟩ := ab
  refine ⟨(a, b), hab, ?_⟩
  have hlt : rank b < rank a := hrank a b hab
  have hne_ab : a ≠ b := by
    intro h
    rw [h] at hlt
    exact lt_irrefl _ hlt
  have hcyc : hasCycle (p.relabel a b).subsetEdges (p.relabel a b).subsetIds = false := by
    apply (hasCycle_eq_false_iff _ _ (subsetEdges_snd_mem _)).mpr
    apply edgeRel_acyclic_of_rank _ (fun x => if x = a then 2 * rank a - 1 else 2 * rank x)
    intro q hq
    obtain ⟨x, y⟩ := q
    obtain ⟨u, v, huv, hx, hy, hxy⟩ := mem_relabel_subsetEdges p a b x y hq
    have h1 : rank v < rank u := hrank u v huv
    have h2 : rank a - rank b ≤ rank u - rank v := hmin (u, v) huv
    simp only
    rw [← hx, ← hy] at hxy ⊢
    unfold contractInto at hxy ⊢
    by_cases hub : u = b
    · subst hub
      by_cases hvb : v = u
      · subst hvb; exact absurd h1 (lt_irrefl _)
      · by_cases hva : v = a
        · subst hva; omega
        · simp only [if_neg hvb, if_neg hva, if_true]
          omega
    · by_cases hvb : v = b
      · subst hvb
        by_cases hua : u = a
        · subst hua
          simp at hxy
        · simp only [if_neg hub, if_neg hua, if_true]
          omega
      · by_cases hua : u = a
        · subst hua
          by_cases hva : v = u
          · subst hva; exact absurd h1 (lt_irrefl _)
          · simp only [if_neg hub, if_neg hvb, if_neg hva, if_true]
            omega
        · by_cases hva : v = a
          · subst hva
            simp only [if_neg hub, if_neg hvb, if_neg hua, if_true]
            omega
          · simp only [if_neg hub, if_neg hvb, if_neg hua, if_neg hva]
            omega
  unfold SCCDAGPartition.mergeSubsets
  rw [if_pos ⟨subsetEdges_fst_mem p (a, b) hab, subsetEdges_snd_mem p (a, b) hab, hne_ab⟩]
  simp [hcyc]

/-! ## The passes of the driver -/

/-- One run of the smallest-size analysis. -/
lemma smallestSizeMergePartition_spec (p : SCCDAGPartition) (attrs : SCCDAGAttrs)
    (idealThreads : Nat) :
    (Heuristics.smallestSizeMergePartition p attrs idealThreads).1.sccdag = p.sccdag ∧
    (Heuristics.smallestSizeMergePartition p attrs idealThreads).1.subsetOf.map Prod.fst
      = p.subsetOf.map Prod.fst ∧
    (p.SubsetsAcyclic →
      (Heuristics.smallestSizeMergePartition p attrs idealThreads).1.SubsetsAcyclic) ∧
    ((Heuristics.smallestSizeMergePartition p attrs idealThreads).2 = true →
      (Heuristics.smallestSizeMergePartition p attrs idealThreads).1.numberOfSubsets
        < p.numberOfSubsets) ∧
    ((Heuristics.smallestSizeMergePartition p attrs idealThreads).2 = false →
      (Heuristics.smallestSizeMergePartition p attrs idealThreads).1 = p ∧
      (p.numberOfSubsets ≤ idealThreads ∨
        ∀ pair ∈ p.subsetEdges, p.mergeSubsets pair.1 pair.2 = none)) := by
  unfold Heuristics.smallestSizeMergePartition
  simp only
  obtain ⟨a1, a2, a3, a4, a5⟩ := applyMerge_spec p
    (PartitionCostAnalysis.traverseAllPartitionSubsets
      { partition := p, attrs := attrs, cores := idealThreads }
      (SmallestSizePartitionAnalysis.checkIfShouldMerge
        { partition := p, attrs := attrs, cores := idealThreads }))
  refine ⟨a1, a2, a3, a4, fun h => ⟨a5 h, ?_⟩⟩
  exact applyMerge_traverse_false { partition := p, attrs := attrs, cores := idealThreads } _
    (smallestSize_checksMerges _) h

/-- One run of the min-max analysis. -/
lemma minMaxMergePartition_spec (p : SCCDAGPartition) (attrs : SCCDAGAttrs)
    (idealThreads : Nat) :
    (Heuristics.minMaxMergePartition p attrs idealThreads).1.sccdag = p.sccdag ∧
    (Heuristics.minMaxMergePartition p attrs idealThreads).1.subsetOf.map Prod.fst
      = p.subsetOf.map Prod.fst ∧
    (p.SubsetsAcyclic →
      (Heuristics.minMaxMergePartition p attrs idealThreads).1.SubsetsAcyclic) ∧
    ((Heuristics.minMaxMergePartition p attrs idealThreads).2 = true →
      (Heuristics.minMaxMergePartition p attrs idealThreads).1.numberOfSubsets
        < p.numberOfSubsets) ∧
    ((Heuristics.minMaxMergePartition p attrs idealThreads).2 = false →
      (Heuristics.minMaxMergePartition p attrs idealThreads).1 = p ∧
      (p.numberOfSubsets ≤ idealThreads ∨
        ∀ pair ∈ p.subsetEdges, p.mergeSubsets pair.1 pair.2 = none)) := by
  unfold Heuristics.minMaxMergePartition
  simp only
  obtain ⟨a1, a2, a3, a4, a5⟩ := applyMerge_spec p
    (PartitionCostAnalysis.traverseAllPartitionSubsets
      { partition := p, attrs := attrs, cores := idealThreads }
      (MinMaxSizePartitionAnalysis.checkIfShouldMerge
        { partition := p, attrs := attrs, cores := idealThreads }))
  refine ⟨a1, a2, a3, a4, fun h => ⟨a5 h, ?_⟩⟩
  exact applyMerge_traverse_false { partition := p, attrs := attrs, cores := idealThreads } _
    (minMax_checksMerges _) h

/-- With more fuel than subsets the passes of the driver end, on a partition of the same SCCs
that has at most `idealThreads` subsets or no adjacent pair whose merge is accepted. -/
lemma passes_spec (attrs : SCCDAGAttrs) (idealThreads : Nat) (fuel : Nat)
    (p : SCCDAGPartition) (hfuel : p.numberOfSubsets < fuel) :
    ∃ q, Heuristics.passes attrs idealThreads fuel p = some q ∧
      q.sccdag = p.sccdag ∧ q.subsetOf.map Prod.fst = p.subsetOf.map Prod.fst ∧
      q.numberOfSubsets ≤ p.numberOfSubsets ∧ (p.SubsetsAcyclic → q.SubsetsAcyclic) ∧
      (q.numberOfSubsets ≤ idealThreads ∨
        ∀ pair ∈ q.subsetEdges, q.mergeSubsets pair.1 pair.2 = none) := by
  induction fuel generalizing p with
  | zero => exact absurd hfuel (Nat.not_lt_zero _)
  | succ fuel ih =>
    obtain ⟨a1, a2, a3, a4, a5⟩ := smallestSizeMergePartition_spec p attrs idealThreads
    obtain ⟨b1, b2, b3, b4, b5⟩ := minMaxMergePartition_spec
      (Heuristics.smallestSizeMergePartition p attrs idealThreads).1 attrs idealThreads
    have hle1 : (Heuristics.smallestSizeMergePartition p attrs idealThreads).1.numberOfSubsets
        ≤ p.numberOfSubsets := by
      cases hm : (Heuristics.smallestSizeMergePartition p attrs idealThreads).2 with
      | true => exact Nat.le_of_lt (a4 hm)
      | false => rw [(a5 hm).1]
    have hle2 : (Heuristics.minMaxMergePartition
        (Heuristics.smallestSizeMergePartition p attrs idealThreads).1 attrs
        idealThreads).1.numberOfSubsets
        ≤ (Heuristics.smallestSizeMergePartition p attrs idealThreads).1.numberOfSubsets := by
      cases hm : (Heuristics.minMaxMergePartition
          (Heuristics.smallestSizeMergePartition p attrs idealThreads).1 attrs idealThreads).2 with
      | true => exact Nat.le_of_lt (b4 hm)
      | false => rw [(b5 hm).1]
    simp only [Heuristics.passes]
    by_cases hm : ((Heuristics.smallestSizeMergePartition p attrs idealThreads).2 ||
        (Heuristics.minMaxMergePartition
          (Heuristics.smallestSizeMergePartition p attrs idealThreads).1 attrs idealThreads).2)
        = true
    · rw [if_pos hm]
      have hlt : (Heuristics.minMaxMergePartition
          (Heuristics.smallestSizeMergePartition p attrs idealThreads).1 attrs
          idealThreads).1.numberOfSubsets < p.numberOfSubsets := by
        rw [Bool.or_eq_true] at hm
        rcases hm with hm | hm
        · exact lt_of_le_of_lt hle2 (a4 hm)
        · exact lt_of_lt_of_le (b4 hm) hle1
      obtain ⟨q, q1, q2, q3, q4, q5, q6⟩ := ih (Heuristics.minMaxMergePartition
          (Heuristics.smallestSizeMergePartition p attrs idealThreads).1 attrs
          idealThreads).1 (by omega)
      exact ⟨q, q1, q2.trans (b1.trans a1), q3.trans (b2.trans a2), by omega,
        fun hac => q5 (b3 (a3 hac)), q6⟩
    · rw [if_neg hm]
      have hm2 : (Heuristics.minMaxMergePartition
          (Heuristics.smallestSizeMergePartition p attrs idealThreads).1 attrs
          idealThreads).2 = false := by
        cases h : (Heuristics.minMaxMergePartition
          (Heuristics.smallestSizeMergePartition p attrs idealThreads).1 attrs
          idealThreads).2 with
        | false => rfl
        | true => rw [h] at hm; simp at hm
      refine ⟨_, rfl, b1.trans a1, b2.trans a2, le_trans hle2 hle1,
        fun hac => b3 (a3 hac), ?_⟩
      obtain ⟨e1, e2⟩ := b5 hm2
      rw [e1]
      exact e2

/-- On an acyclic subset-level graph, no accepted merge of adjacent subsets means no adjacent
subsets. -/
lemma subsetEdges_eq_nil_of_rejected (q : SCCDAGPartition) (hac : q.SubsetsAcyclic)
    (h : ∀ pair ∈ q.subsetEdges, q.mergeSubsets pair.1 pair.2 = none) : q.subsetEdges = [] := by
  by_contra hne
  obtain ⟨pair, hp, hs⟩ := exists_mergeable q hac hne
  rw [h pair hp] at hs
  exact absurd hs (by simp)

/-! ## Partitions without adjacent subsets on a connected SCCDAG -/

/-- On a well-formed, weakly connected SCCDAG a partition without adjacent subsets has at most
one subset. -/
lemma numberOfSubsets_le_one_of_connected (p : SCCDAGPartition)
    (hfst : p.subsetOf.map Prod.fst = p.sccdag.nodeIds) (hwf : p.sccdag.WellFormed)
    (hconn : p.sccdag.WeaklyConnected) (hE : p.subsetEdges = []) :
    p.numberOfSubsets ≤ 1 := by
  have hsome : ∀ k ∈ p.sccdag.nodeIds, ∃ v, p.subsetOf.lookup k = some v := by
    intro k hk
    rw [← hfst] at hk
    exact Option.isSome_iff_exists.mp ((lookup_isSome_iff_mem_keys p.subsetOf k).mpr hk)
  have hedge : ∀ e ∈ p.sccdag.allEdges, p.subsetOf.lookup e.src = p.subsetOf.lookup e.dst := by
    intro e he
    obtain ⟨u, hu⟩ := hsome e.src (hwf.src_mem e he)
    obtain ⟨v, hv⟩ := hsome e.dst (hwf.dst_mem e he)
    by_cases huv : u = v
    · rw [hu, hv, huv]
    · have : (u, v) ∈ p.subsetEdges := (mem_subsetEdges p u v).mpr ⟨e, he, hu, hv, huv⟩
      rw [hE] at this
      exact absurd this (List.not_mem_nil _)
  have hstep : ∀ x y, (p.sccdag.HasEdge x y ∨ p.sccdag.HasEdge y x) →
      p.subsetOf.lookup x = p.subsetOf.lookup y := by
    rintro x y (⟨e, he, rfl, rfl⟩ | ⟨e, he, rfl, rfl⟩)
    · exact hedge e he
    · exact (hedge e he).symm
  have hreach : ∀ a b, Relation.ReflTransGen
      (fun x y => p.sccdag.HasEdge x y ∨ p.sccdag.HasEdge y x) a b →
      p.subsetOf.lookup a = p.subsetOf.lookup b := by
    intro a b hab
    induction hab with
    | refl => rfl
    | tail _ h ih => exact ih.trans (hstep _ _ h)
  obtain ⟨n0, rest, hn0⟩ := List.exists_cons_of_ne_nil hwf.nonempty
  have hn0mem : n0.id ∈ p.sccdag.nodeIds := by
    unfold SCCDG.nodeIds
    rw [hn0]
    exact List.mem_map.mpr ⟨n0, List.mem_cons_self _ _, rfl⟩
  obtain ⟨l, hl⟩ := hsome n0.id hn0mem
  have hnd : (p.subsetOf.map Prod.fst).Nodup := by
    rw [hfst]
    exact hwf.nodup
  have hall : ∀ q ∈ p.subsetOf, q.2 = l := by
    intro q hq
    have hk : q.1 ∈ p.sccdag.nodeIds := by
      rw [← hfst]
      exact List.mem_map_of_mem _ hq
    have hlook : p.subsetOf.lookup q.1 = some q.2 := by
      apply lookup_eq_some_of_unique
      · exact hq
      · intro j hj
        have := List.inj_on_of_nodup_map hnd hj hq rfl
        exact congrArg Prod.snd this
    have := hreach n0.id q.1 (hconn n0.id hn0mem q.1 hk)
    rw [hl, hlook] at this
    simp only [Option.some.injEq] at this
    exact this.symm
  unfold SCCDAGPartition.numberOfSubsets SCCDAGPartition.subsetIds
  rw [← List.toFinset_card_of_nodup (List.nodup_dedup _)]
  have hsub : ((p.subsetOf.map Prod.snd).dedup).toFinset ⊆ {l} := by
    intro x hx
    rw [List.mem_toFinset, List.mem_dedup, List.mem_map] at hx
    obtain ⟨q, hq, rfl⟩ := hx
    simp [hall q hq]
  exact le_trans (Finset.card_le_card hsub) (by simp)

/-! ## The loop of `areAllLiveOutValuesReducable` -/

lemma liveOutLoop_true_iff (attrs : SCCDAGAttrs) (env : LoopEnvironment) (l : List Nat) :
    SCCDAGAttrs.liveOutLoop attrs env l = some true ↔
      ∀ envIndex ∈ l, attrs.ProducerIsReducible env envIndex := by
  induction l with
  | nil => simp [SCCDAGAttrs.liveOutLoop]
  | cons x rest ih =>
    simp only [SCCDAGAttrs.liveOutLoop, List.forall_mem_cons,
      SCCDAGAttrs.ProducerIsReducible] at ih ⊢
    cases h1 : attrs.sccdag.sccOfValue (env.producerAt x) with
    | none => simp
    | some scc =>
      cases h2 : attrs.getSCCAttrs scc with
      | none => simp [h2]
      | some sccInfo =>
        by_cases c1 : sccInfo.getType = SCCType.INDEPENDENT
        · simp [h2, c1, ih]
        · by_cases c2 : sccInfo.getType = SCCType.REDUCIBLE
          · simp [h2, c2, ih]
          · simp [h2, c1, c2]

lemma liveOutLoop_isSome (attrs : SCCDAGAttrs) (env : LoopEnvironment) (l : List Nat)
    (h : ∀ envIndex ∈ l, attrs.ProducerHasAttrs env envIndex) :
    ∃ b, SCCDAGAttrs.liveOutLoop attrs env l = some b := by
  induction l with
  | nil => exact ⟨true, rfl⟩
  | cons x rest ih =>
    obtain ⟨scc, sccInfo, h1, h2⟩ := h x (List.mem_cons_self _ _)
    have ih1 := ih (fun i hi => h i (List.mem_cons_of_mem _ hi))
    simp only [SCCDAGAttrs.liveOutLoop, h1, h2]
    split_ifs
    · exact ih1
    · exact ih1
    · exact ⟨false, rfl⟩

/-! ## Sequences of constructions of `Task` -/

lemma construct_some {idWidth M : Nat} {w w1 : TaskWorld} {t : Task}
    (h : Task.construct idWidth M w = some (t, w1)) :
    t.ID = w.currentID % 2 ^ idWidth ∧ w1.currentID = (w.currentID + 1) % 2 ^ 64 ∧
      w1.definedTasks = (M, w.currentID % 2 ^ idWidth) :: w.definedTasks := by
  unfold Task.construct at h
  simp only [] at h
  split_ifs at h
  simp only [Option.some.injEq, Prod.mk.injEq] at h
  obtain ⟨rfl, rfl⟩ := h
  exact ⟨rfl, rfl, rfl⟩

lemma constructAll_cons {idWidth M : Nat} {rest : List Nat} {w w2 : TaskWorld}
    {tasks : List Task} (h : Task.constructAll idWidth (M :: rest) w = some (tasks, w2)) :
    ∃ t w1 ts, Task.construct idWidth M w = some (t, w1) ∧
      Task.constructAll idWidth rest w1 = some (ts, w2) ∧ tasks = t :: ts := by
  simp only [Task.constructAll] at h
  cases h1 : Task.construct idWidth M w with
  | none => simp [h1] at h
  | some p =>
    obtain ⟨t, w1⟩ := p
    cases h2 : Task.constructAll idWidth rest w1 with
    | none => simp [h1, h2] at h
    | some q =>
      obtain ⟨ts, w3⟩ := q
      simp only [h1, h2, Option.some.injEq, Prod.mk.injEq] at h
      obtain ⟨rfl, rfl⟩ := h
      exact ⟨t, w1, ts, rfl, h2, rfl⟩

/-- While the 64-bit counter does not wrap, the task at position `k` of a sequence holds the
counter value of its construction, converted to the width of `ID`. -/
lemma constructAll_spec (idWidth : Nat) (ms : List Nat) (w w2 : TaskWorld) (tasks : List Task)
    (hn : w.currentID + ms.length < 2 ^ 64)
    (h : Task.constructAll idWidth ms w = some (tasks, w2)) :
    tasks.length = ms.length ∧ w2.currentID = w.currentID + ms.length ∧
      ∀ k t, tasks[k]? = some t → t.ID = (w.currentID + k) % 2 ^ idWidth := by
  induction ms generalizing w tasks with
  | nil =>
    simp only [Task.constructAll, Option.some.injEq, Prod.mk.injEq] at h
    obtain ⟨rfl, rfl⟩ := h
    simp
  | cons M rest ih =>
    obtain ⟨t, w1, ts, h1, h2, rfl⟩ := constructAll_cons h
    obtain ⟨hid, hc, _⟩ := construct_some h1
    simp only [List.length_cons] at hn
    have hc1 : w1.currentID = w.currentID + 1 := by
      rw [hc]
      exact Nat.mod_eq_of_lt (by omega)
    obtain ⟨hlen, hcur, hids⟩ := ih w1 ts (by rw [hc1]; omega) h2
    refine ⟨by simp [hlen], by rw [hcur, hc1, List.length_cons]; omega, ?_⟩
    intro k t0 hk
    cases k with
    | zero =>
      simp only [List.getElem?_cons_zero, Option.some.injEq] at hk
      subst hk
      simpa using hid
    | succ k =>
      simp only [List.getElem?_cons_succ] at hk
      rw [hids k t0 hk, hc1]
      congr 1
      omega

/-- The constructions of a prefix of the sequence give the prefix of the tasks. -/
lemma constructAll_take (idWidth : Nat) (ms : List Nat) (w w2 : TaskWorld) (tasks : List Task)
    (h : Task.constructAll idWidth ms w = some (tasks, w2)) (k : Nat) :
    ∃ wk, Task.constructAll idWidth (ms.take k) w = some (tasks.take k, wk) := by
  induction ms generalizing w tasks k with
  | nil =>
    simp only [Task.constructAll, Option.some.injEq, Prod.mk.injEq] at h
    obtain ⟨rfl, rfl⟩ := h
    exact ⟨w, by simp [Task.constructAll]⟩
  | cons M rest ih =>
    obtain ⟨t, w1, ts, h1, h2, rfl⟩ := constructAll_cons h
    cases k with
    | zero => exact ⟨w, by simp [Task.constructAll]⟩
    | succ k =>
      obtain ⟨wk, hk⟩ := ih w1 ts h2 k
      exact ⟨wk, by simp [Task.constructAll, h1, hk]⟩

/-- Constructions in distinct modules that define no task function all succeed. -/
lemma constructAll_isSome (idWidth : Nat) (ms : List Nat) (w : TaskWorld) (hnd : ms.Nodup)
    (hfresh : ∀ M ∈ ms, ∀ n, (M, n) ∉ w.definedTasks) :
    ∃ r, Task.constructAll idWidth ms w = some r := by
  induction ms generalizing w with
  | nil => exact ⟨([], w), rfl⟩
  | cons M rest ih =>
    rw [List.nodup_cons] at hnd
    have h1 : Task.construct idWidth M w = some
        ({ ID := w.currentID % 2 ^ idWidth },
         { currentID := (w.currentID + 1) % 2 ^ 64,
           definedTasks := (M, w.currentID % 2 ^ idWidth) :: w.definedTasks }) := by
      unfold Task.construct
      simp only []
      rw [if_neg (hfresh M (List.mem_cons_self _ _) _)]
    obtain ⟨⟨ts, w2⟩, hr⟩ := ih
      { currentID := (w.currentID + 1) % 2 ^ 64,
        definedTasks := (M, w.currentID % 2 ^ idWidth) :: w.definedTasks } hnd.2 (by
        intro M1 hM1 n hmem
        simp only [List.mem_cons, Prod.mk.injEq] at hmem
        rcases hmem with ⟨rfl, _⟩ | hmem
        · exact hnd.1 hM1
        · exact hfresh M1 (List.mem_cons_of_mem _ hM1) n hmem)
    exact ⟨({ ID := w.currentID % 2 ^ idWidth } :: ts, w2), by
      simp only [Task.constructAll, h1, hr]⟩

/-! ## The maps of a `Task` after `removeOriginalInstruction` -/

lemma foldl_removeOriginalInstructionTurn (o : Option Nat)
    (l m : List (Option Nat × Option Nat)) :
    l.foldl (Task.removeOriginalInstructionTurn o) m = m := by
  induction l with
  | nil => rfl
  | cons p ps ih => rw [List.foldl_cons]; exact ih

/-- The loop of `removeOriginalInstruction` writes copies of the elements only: the map
`instructionCloneToOriginal` is the same after the call. -/
lemma removeOriginalInstruction_cloneToOriginal (t : Task) (o : Option Nat) :
    (t.removeOriginalInstruction o).instructionCloneToOriginal =
      t.instructionCloneToOriginal := by
  unfold Task.removeOriginalInstruction
  exact foldl_removeOriginalInstructionTurn o _ _

/-- Every clone has the same original after `removeOriginalInstruction` as before. -/
lemma removeOriginalInstruction_getOriginalInstructionOfClone (t : Task) (o c : Option Nat) :
    (t.removeOriginalInstruction o).getOriginalInstructionOfClone c =
      t.getOriginalInstructionOfClone c := by
  unfold Task.getOriginalInstructionOfClone
  rw [removeOriginalInstruction_cloneToOriginal]

lemma lookup_filter_self (m : List (Option Nat × Option Nat)) (o : Option Nat) :
    (m.filter (fun p => p.1 != o)).lookup o = none := by
  induction m with
  | nil => rfl
  | cons p ps ih =>
    obtain ⟨a, b⟩ := p
    by_cases h : a = o
    · subst h
      simpa [List.filter_cons] using ih
    · have h1 : (a != o) = true := by simpa using h
      have h2 : (o == a) = false := by
        rw [beq_eq_false_iff_ne]
        exact fun e => h e.symm
      simp only [List.filter_cons, h1, if_true, List.lookup_cons, h2]
      exact ih

/-- The first half of the claim on `removeOriginalInstruction`: the instruction is no longer an
original instruction. -/
lemma removeOriginalInstruction_isAnOriginalInstruction (t : Task) (o : Option Nat) :
    (t.removeOriginalInstruction o).isAnOriginalInstruction o = false := by
  unfold Task.isAnOriginalInstruction Task.removeOriginalInstruction
  simp only [lookup_filter_self, Option.isNone_none, if_true]

/-- A clone registered by `addInstruction` maps back to its original. -/
lemma addInstruction_getOriginalInstructionOfClone (t : Task) (o c : Option Nat) :
    (t.addInstruction o c).getOriginalInstructionOfClone c = o := by
  unfold Task.getOriginalInstructionOfClone Task.addInstruction Task.mapAssign
  simp [List.lookup_cons]

/-! ## The three cases of `checkIfClonable` -/

lemma isClonableBySomeCase_iff (ir : IROracle) (attrs : SCCDAGAttrs) (sccNode : SCCNode)
    (sccInfo : SCCAttrs) (hne : sccNode.scc.nodes ≠ []) :
    SCCDAGAttrs.isClonableBySomeCase ir attrs sccNode sccInfo = true ↔
      SCCDAGAttrs.ClonableCase ir attrs sccNode sccInfo := by
  unfold SCCDAGAttrs.isClonableBySomeCase SCCDAGAttrs.ClonableCase
  have e1 : SCCDAGAttrs.isClonableByInductionVars attrs sccNode sccInfo = true ↔
      (sccInfo.isInductionVariableSCC = true ∧
        1 ≤ (attrs.sccdag.outgoingEdges sccNode.id).length) := by
    unfold SCCDAGAttrs.isClonableByInductionVars
    by_cases h : (attrs.sccdag.outgoingEdges sccNode.id).length = 0
    · simp [h]
    · simp [h]
      intro _
      omega
  have e2 : SCCDAGAttrs.isClonableBySyntacticSugarInstrs ir attrs sccNode = true ↔
      ((∃ I, sccNode.scc.nodes = [I] ∧
          (ir.isaPHINode I = true ∨ ir.isaGetElementPtrInst I = true ∨
            ir.isaCastInst I = true)) ∧
        1 ≤ (attrs.sccdag.outgoingEdges sccNode.id).length) := by
    unfold SCCDAGAttrs.isClonableBySyntacticSugarInstrs
    by_cases h : (attrs.sccdag.outgoingEdges sccNode.id).length = 0
    · simp [h]
    · have h1 : 1 ≤ (attrs.sccdag.outgoingEdges sccNode.id).length := by omega
      cases hn : sccNode.scc.nodes with
      | nil => exact absurd hn hne
      | cons I rest =>
        cases rest with
        | nil => simp [h, h1, or_assoc]
        | cons J rest2 => simp [h]
  have e3 : SCCDAGAttrs.isClonableByCmpBrInstrs ir sccNode.scc = true ↔
      (∀ V ∈ sccNode.scc.nodes, ir.isaInstruction V = true ∧
        (ir.isaCmpInst V = true ∨ ir.isTerminator V = true)) := by
    unfold SCCDAGAttrs.isClonableByCmpBrInstrs
    simp [List.all_eq_true]
  simp only [Bool.false_or, Bool.or_eq_true, e1, e2, e3, or_assoc]

lemma checkIfClonable_spec (ir : IROracle) (attrs : SCCDAGAttrs) (sccNode : SCCNode)
    (sccInfo : SCCAttrs) (h1 : sccInfo.canBeCloned = false)
    (h2 : sccNode.id ∉ attrs.clonableSCCs) :
    ((SCCDAGAttrs.checkIfClonable ir attrs sccNode sccInfo).2.canBeCloned = true ↔
      SCCDAGAttrs.isClonableBySomeCase ir attrs sccNode sccInfo = true) ∧
    (sccNode.id ∈ (SCCDAGAttrs.checkIfClonable ir attrs sccNode sccInfo).1.clonableSCCs ↔
      SCCDAGAttrs.isClonableBySomeCase ir attrs sccNode sccInfo = true) := by
  unfold SCCDAGAttrs.checkIfClonable
  by_cases h : SCCDAGAttrs.isClonableBySomeCase ir attrs sccNode sccInfo = true
  · simp [h, h2, SCCAttrs.canBeCloned, SCCAttrs.setSCCToBeClonable]
  · simp [h, h2, h1]

/-! ## The search of the header PHI by the constructor of `Reduction` -/

/-- On instructions the loop returns the first PHI of the header, if there is one. -/
lemma findHeaderPHI_spec (ir : IROracle) (header : Nat) (nodes : List Nat)
    (hinst : ∀ v ∈ nodes, ir.isaInstruction v = true) :
    (Reduction.findHeaderPHI ir header nodes = .ok none ∧
      ¬ ∃ v ∈ nodes, ir.isaPHINode v = true ∧ ir.getParent v = header) ∨
    (∃ phi, Reduction.findHeaderPHI ir header nodes = .ok (some phi) ∧ phi ∈ nodes ∧
      ir.isaPHINode phi = true ∧ ir.getParent phi = header) := by
  induction nodes with
  | nil => exact Or.inl ⟨rfl, by simp⟩
  | cons n rest ih =>
    have hn := hinst n (List.mem_cons_self _ _)
    have ih1 := ih (fun v hv => hinst v (List.mem_cons_of_mem _ hv))
    simp only [Reduction.findHeaderPHI, hn, Bool.not_true, Bool.false_eq_true, if_false]
    by_cases hp : ir.getParent n = header
    · by_cases hphi : ir.isaPHINode n = true
      · right
        exact ⟨n, by simp [hp, hphi], List.mem_cons_self _ _, hphi, hp⟩
      · rcases ih1 with ⟨h1, h2⟩ | ⟨phi, h1, h2, h3⟩
        · left
          refine ⟨by simp [hp, hphi, h1], ?_⟩
          rintro ⟨v, hv, hv1, hv2⟩
          rcases List.mem_cons.mp hv with rfl | hv
          · exact hphi hv1
          · exact h2 ⟨v, hv, hv1, hv2⟩
        · right
          exact ⟨phi, by simp [hp, hphi, h1], List.mem_cons_of_mem _ h2, h3⟩
    · rcases ih1 with ⟨h1, h2⟩ | ⟨phi, h1, h2, h3⟩
      · left
        refine ⟨by simp [hp, h1], ?_⟩
        rintro ⟨v, hv, hv1, hv2⟩
        rcases List.mem_cons.mp hv with rfl | hv
        · exact hp hv2
        · exact h2 ⟨v, hv, hv1, hv2⟩
      · right
        exact ⟨phi, by simp [hp, h1], List.mem_cons_of_mem _ h2, h3⟩

/-! ## The analyses on the sample loops -/

lemma sampleCounterAttrs_record :
    sampleCounterAttrs.sccIVBounds.lookup 0 = some sampleCounterBounds := by
  decide

lemma sampleCounter_fixedBounds :
    (SCCDAGAttrs.checkIfIVHasFixedBounds sampleIR sampleLoopLIS sampleCounterSCC
      sampleCounterIVInfo).map (fun r => r.1) = some (some sampleCounterBounds) := by
  decide

lemma sampleGovernedAttrs_governed : sampleGovernedAttrs.isLoopGovernedByIV 2 = some true := by
  decide

/-- Scenario S1: three INDEPENDENT singleton SCCs in a chain. -/
lemma sampleChainAttrs_governed :
    sampleChainSCCDAG.isPipeline = some true ∧
      sampleChainAttrs.isLoopGovernedByIV 4 = some false := by
  decide

/-- Scenario S3: the live-out variable `s` of the sum reduction. -/
lemma sampleTaggedAttrs_liveOut :
    sampleTaggedAttrs.areAllLiveOutValuesReducable sampleEnv = some true := by
  decide

/-- Scenario S3: the reduction operation of the sum reduction is the integer addition. -/
lemma sampleReduction_operation :
    (Reduction.construct sampleIR sampleAccumOpInfo [10, 11, 20, 30] sampleReductionInfo
      101).map Reduction.getReductionOperation = .ok Opcode.Add := by
  rfl

/-- A construction for a loop whose header holds no PHI of the SCC aborts. -/
lemma sampleReduction_fatal :
    Reduction.construct sampleIR sampleAccumOpInfo [10, 11, 20, 30] sampleReductionInfo 100
      = .error ReductionError.fatal := by
  rfl

/-- Scenario S4: the chain of three SCCs is left as it is for three threads and merged into
two subsets for two threads. -/
lemma sampleChain_partition :
    (Heuristics.adjustParallelizationPartitionForDSWP
      (SCCDAGPartition.ofSingletons sampleChainSCCDAG) sampleChainAttrs 3).map
        SCCDAGPartition.numberOfSubsets = some 3 ∧
    (Heuristics.adjustParallelizationPartitionForDSWP
      (SCCDAGPartition.ofSingletons sampleChainSCCDAG) sampleChainAttrs 2).map
        SCCDAGPartition.numberOfSubsets = some 2 := by
  decide

/-- The diamond of scenario S5 is merged down to `idealThreads` subsets by accepted merges
only: one subset for one thread, two for two threads, three for three threads. -/
lemma sampleDiamond_partition :
    (Heuristics.adjustParallelizationPartitionForDSWP
      (SCCDAGPartition.ofSingletons sampleDiamondSCCDAG)
      (SCCDAGAttrs.init sampleDiamondSCCDAG) 1).map SCCDAGPartition.numberOfSubsets = some 1 ∧
    (Heuristics.adjustParallelizationPartitionForDSWP
      (SCCDAGPartition.ofSingletons sampleDiamondSCCDAG)
      (SCCDAGAttrs.init sampleDiamondSCCDAG) 2).map SCCDAGPartition.numberOfSubsets = some 2 ∧
    (Heuristics.adjustParallelizationPartitionForDSWP
      (SCCDAGPartition.ofSingletons sampleDiamondSCCDAG)
      (SCCDAGAttrs.init sampleDiamondSCCDAG) 3).map SCCDAGPartition.numberOfSubsets = some 3 := by
  decide

/-- Scenario S5: the merge of `A` and `D` in the diamond is rejected. -/
lemma sampleDiamond_merge_rejected :
    (SCCDAGPartition.ofSingletons sampleDiamondSCCDAG).mergeSubsets 0 3 = none := by
  decide

lemma sampleClonedAttrs_collect :
    (sampleClonedAttrs.collectSCCGraphAssumingDistributedClones 2).map
      (fun st => st.parentsViaClones) = some [(1, 0)] := by
  decide
/-! ## Claims on `populate` and `collectDependencies` -/

/-- Claim C8. After `populate`, every SCC of the SCCDAG has attributes with exactly one type:
exactly one of `canExecuteIndependently`, `canExecuteReducibly` and `mustExecuteSequentially`
is true. -/
theorem populate_type_exclusive (isa : Nat → Bool) (an : SCCAnalyses) (g : SCCDG)
    (LIS : LoopsSummary) (DS : DominatorSummary) (attrs : SCCDAGAttrs)
    (h : SCCDAGAttrs.populate isa an g LIS DS = some attrs) (n : SCCNode) (hn : n ∈ g.allNodes) :
    ∃ info, attrs.getSCCAttrs n.id = some info ∧
      ((info.canExecuteIndependently = true ∧ info.canExecuteReducibly = false ∧
          info.mustExecuteSequentially = false) ∨
        (info.canExecuteIndependently = false ∧ info.canExecuteReducibly = true ∧
          info.mustExecuteSequentially = false) ∨
        (info.canExecuteIndependently = false ∧ info.canExecuteReducibly = false ∧
          info.mustExecuteSequentially = true)) := by
  obtain ⟨_, _, _, i4, _⟩ := foldlM_tagSCC_spec an g.allNodes _ attrs h
  have := i4 n hn
  cases hi : attrs.getSCCAttrs n.id with
  | none => rw [hi] at this; exact absurd this (by simp)
  | some info =>
    refine ⟨info, rfl, ?_⟩
    unfold SCCAttrs.canExecuteIndependently SCCAttrs.canExecuteReducibly
      SCCAttrs.mustExecuteSequentially SCCAttrs.getType
    cases info.type <;> simp

/-- Witness of C8 on the sample loop, for its first SCC. -/
theorem populate_type_exclusive_witness :
    ∃ info, sampleAttrs.getSCCAttrs 0 = some info ∧
      ((info.canExecuteIndependently = true ∧ info.canExecuteReducibly = false ∧
          info.mustExecuteSequentially = false) ∨
        (info.canExecuteIndependently = false ∧ info.canExecuteReducibly = true ∧
          info.mustExecuteSequentially = false) ∨
        (info.canExecuteIndependently = false ∧ info.canExecuteReducibly = false ∧
          info.mustExecuteSequentially = true)) :=
  populate_type_exclusive sampleIsaInstruction sampleAnalyses sampleLoopSCCDAG sampleLIS sampleDS
    sampleAttrs rfl
    { id := 0, scc := { nodes := [1, 2], edges := [DGEdge.plain 1 2, DGEdge.plain 2 1] },
      inclusion := true }
    (by simp [sampleLoopSCCDAG])

/-- Claim C9. After `populate` on an SCCDAG whose SCCs are distinct objects, an SCC is typed
INDEPENDENT if and only if it has no loop-carried dependence internal to it: no edge of the SCC
with both endpoints internal, both endpoints instructions inside some loop, and source equal to
sink or source not dominating sink. -/
theorem populate_independent_iff (isa : Nat → Bool) (an : SCCAnalyses) (g : SCCDG)
    (LIS : LoopsSummary) (DS : DominatorSummary) (attrs : SCCDAGAttrs)
    (h : SCCDAGAttrs.populate isa an g LIS DS = some attrs)
    (hnd : (g.allNodes.map (fun n => n.id)).Nodup) (n : SCCNode) (hn : n ∈ g.allNodes) :
    ∃ info, attrs.getSCCAttrs n.id = some info ∧
      (info.getType = SCCType.INDEPENDENT ↔
        ¬ ∃ e ∈ n.scc.edges,
            n.scc.isInternal e.src = true ∧ n.scc.isInternal e.dst = true ∧
            isa e.src = true ∧ isa e.dst = true ∧
            (LIS.getLoop e.src).isSome = true ∧ (LIS.getLoop e.dst).isSome = true ∧
            (e.src = e.dst ∨ DS.dominates e.src e.dst = false)) := by
  obtain ⟨_, _, _, _, i5⟩ := foldlM_tagSCC_spec an g.allNodes _ attrs h
  obtain ⟨info, j1, j2⟩ := i5 hnd n hn
  refine ⟨info, j1, ?_⟩
  rw [j2, checkIfIndependent_collectDependencies isa LIS DS g hnd n hn]
  apply not_congr
  constructor
  · rintro ⟨e, he, ⟨a1, a2, a3, a4⟩, hc, b1, b2⟩
    exact ⟨e, he, b1, b2, a1, a2, a3, a4, hc⟩
  · rintro ⟨e, he, b1, b2, a1, a2, a3, a4, hc⟩
    exact ⟨e, he, ⟨a1, a2, a3, a4⟩, hc, b1, b2⟩

/-- Witness of C9 on the sample loop, for its first SCC. -/
theorem populate_independent_iff_witness :
    ∃ info, sampleAttrs.getSCCAttrs 0 = some info ∧
      (info.getType = SCCType.INDEPENDENT ↔
        ¬ ∃ e ∈ [DGEdge.plain 1 2, DGEdge.plain 2 1],
            SCC.isInternal { nodes := [1, 2], edges := [DGEdge.plain 1 2, DGEdge.plain 2 1] }
              e.src = true ∧
            SCC.isInternal { nodes := [1, 2], edges := [DGEdge.plain 1 2, DGEdge.plain 2 1] }
              e.dst = true ∧
            sampleIsaInstruction e.src = true ∧ sampleIsaInstruction e.dst = true ∧
            (sampleLIS.getLoop e.src).isSome = true ∧ (sampleLIS.getLoop e.dst).isSome = true ∧
            (e.src = e.dst ∨ sampleDS.dominates e.src e.dst = false)) :=
  populate_independent_iff sampleIsaInstruction sampleAnalyses sampleLoopSCCDAG sampleLIS sampleDS
    sampleAttrs rfl (by decide)
    { id := 0, scc := { nodes := [1, 2], edges := [DGEdge.plain 1 2, DGEdge.plain 2 1] },
      inclusion := true }
    (by simp [sampleLoopSCCDAG])

/-- Claim C10. `collectDependencies` puts every edge of an SCC whose endpoints are both
instructions inside some loop into exactly one of the two sets of that SCC: into `interIterDeps`
when the source is the sink or does not dominate it, into `intraIterDeps` otherwise.  The two
sets of an SCC are disjoint, and an edge with an endpoint outside every loop is in neither. -/
theorem collectDependencies_classification (isa : Nat → Bool) (LIS : LoopsSummary)
    (DS : DominatorSummary) (g : SCCDG) (n : SCCNode) (hn : n ∈ g.allNodes) :
    (∀ e ∈ n.scc.edges, isa e.src = true → isa e.dst = true →
        (LIS.getLoop e.src).isSome = true → (LIS.getLoop e.dst).isSome = true →
        ((e.src = e.dst ∨ DS.dominates e.src e.dst = false) →
          e ∈ (SCCDAGAttrs.collectDependencies isa LIS DS
                (SCCDAGAttrs.init g)).interIterDeps.get n.id ∧
          e ∉ (SCCDAGAttrs.collectDependencies isa LIS DS
                (SCCDAGAttrs.init g)).intraIterDeps.get n.id) ∧
        (¬ (e.src = e.dst ∨ DS.dominates e.src e.dst = false) →
          e ∈ (SCCDAGAttrs.collectDependencies isa LIS DS
                (SCCDAGAttrs.init g)).intraIterDeps.get n.id ∧
          e ∉ (SCCDAGAttrs.collectDependencies isa LIS DS
                (SCCDAGAttrs.init g)).interIterDeps.get n.id)) ∧
    (∀ e, ¬ (e ∈ (SCCDAGAttrs.collectDependencies isa LIS DS
                  (SCCDAGAttrs.init g)).interIterDeps.get n.id ∧
             e ∈ (SCCDAGAttrs.collectDependencies isa LIS DS
                  (SCCDAGAttrs.init g)).intraIterDeps.get n.id)) ∧
    (∀ e, (LIS.getLoop e.src = none ∨ LIS.getLoop e.dst = none) →
        e ∉ (SCCDAGAttrs.collectDependencies isa LIS DS
              (SCCDAGAttrs.init g)).interIterDeps.get n.id ∧
        e ∉ (SCCDAGAttrs.collectDependencies isa LIS DS
              (SCCDAGAttrs.init g)).intraIterDeps.get n.id) := by
  have key := fun e => foldl_collect_inter_intra isa LIS DS g.allNodes (SCCDAGAttrs.init g) n.id e
  have kinter : ∀ e, e ∈ (SCCDAGAttrs.collectDependencies isa LIS DS
        (SCCDAGAttrs.init g)).interIterDeps.get n.id ↔
      ∃ m ∈ g.allNodes, m.id = n.id ∧ e ∈ m.scc.edges ∧ InLoops isa LIS e ∧ CarriedTest DS e := by
    intro e
    have := (key e).1
    simp only [SCCDAGAttrs.init, DepMap.get_nil, List.not_mem_nil, false_or] at this
    exact this
  have kintra : ∀ e, e ∈ (SCCDAGAttrs.collectDependencies isa LIS DS
        (SCCDAGAttrs.init g)).intraIterDeps.get n.id ↔
      ∃ m ∈ g.allNodes, m.id = n.id ∧ e ∈ m.scc.edges ∧ InLoops isa LIS e ∧
        ¬ CarriedTest DS e := by
    intro e
    have := (key e).2
    simp only [SCCDAGAttrs.init, DepMap.get_nil, List.not_mem_nil, false_or] at this
    exact this
  refine ⟨?_, ?_, ?_⟩
  · intro e he a1 a2 a3 a4
    constructor
    · intro hc
      refine ⟨(kinter e).mpr ⟨n, hn, rfl, he, ⟨a1, a2, a3, a4⟩, hc⟩, ?_⟩
      intro hmem
      obtain ⟨_, _, _, _, _, hnc⟩ := (kintra e).mp hmem
      exact hnc hc
    · intro hc
      refine ⟨(kintra e).mpr ⟨n, hn, rfl, he, ⟨a1, a2, a3, a4⟩, hc⟩, ?_⟩
      intro hmem
      obtain ⟨_, _, _, _, _, hc'⟩ := (kinter e).mp hmem
      exact hc hc'
  · rintro e ⟨h1, h2⟩
    obtain ⟨_, _, _, _, _, hc⟩ := (kinter e).mp h1
    obtain ⟨_, _, _, _, _, hnc⟩ := (kintra e).mp h2
    exact hnc hc
  · intro e hout
    have hno : ¬ InLoops isa LIS e := by
      rintro ⟨_, _, a3, a4⟩
      rcases hout with ho | ho
      · rw [ho] at a3; exact absurd a3 (by simp)
      · rw [ho] at a4; exact absurd a4 (by simp)
    constructor
    · intro hmem
      obtain ⟨_, _, _, _, hi, _⟩ := (kinter e).mp hmem
      exact hno hi
    · intro hmem
      obtain ⟨_, _, _, _, hi, _⟩ := (kintra e).mp hmem
      exact hno hi

/-- Witness of C10 on the sample loop: the back edge `2 → 1` of the first SCC is loop-carried
and not intra-iteration. -/
theorem collectDependencies_classification_witness :
    DGEdge.plain 2 1 ∈ (SCCDAGAttrs.collectDependencies sampleIsaInstruction sampleLIS sampleDS
        (SCCDAGAttrs.init sampleLoopSCCDAG)).interIterDeps.get 0 ∧
      DGEdge.plain 2 1 ∉ (SCCDAGAttrs.collectDependencies sampleIsaInstruction sampleLIS sampleDS
        (SCCDAGAttrs.init sampleLoopSCCDAG)).intraIterDeps.get 0 :=
  ((collectDependencies_classification sampleIsaInstruction sampleLIS sampleDS sampleLoopSCCDAG
      { id := 0, scc := { nodes := [1, 2], edges := [DGEdge.plain 1 2, DGEdge.plain 2 1] },
        inclusion := true }
      (by simp [sampleLoopSCCDAG])).1
    (DGEdge.plain 2 1) (by simp) rfl rfl rfl rfl).1 (Or.inr (by decide))
/-! ## Claims on `createSCCGraphFrom`: edges -/

lemma filter_eq_singleton_of_pairwise (l : List SCCEdge) (a b : Nat) (se : SCCEdge)
    (hpw : l.Pairwise (fun x y => ¬ (x.src = y.src ∧ x.dst = y.dst))) (hse : se ∈ l)
    (h1 : se.src = a) (h2 : se.dst = b) :
    l.filter (fun s => s.src == a && s.dst == b) = [se] := by
  induction l with
  | nil => simp at hse
  | cons x xs ih =>
    rw [List.pairwise_cons] at hpw
    rcases List.mem_cons.mp hse with rfl | hmem
    · have hrest : xs.filter (fun s => s.src == a && s.dst == b) = [] := by
        rw [List.filter_eq_nil_iff]
        intro y hy hc
        simp only [Bool.and_eq_true, beq_iff_eq] at hc
        exact hpw.1 y hy ⟨h1.trans hc.1.symm, h2.trans hc.2.symm⟩
      simp [List.filter_cons, h1, h2, hrest]
    · have hx : ¬ (x.src = a ∧ x.dst = b) := by
        intro hc
        exact hpw.1 se hmem ⟨hc.1.trans h1.symm, hc.2.trans h2.symm⟩
      have hx' : (x.src == a && x.dst == b) = false := by simpa using hx
      rw [List.filter_cons, hx']
      exact ih hpw.2 hmem

/-- Claim C5. Every edge of the graph built by `createSCCGraphFrom` joins two different SCC
nodes of the graph, and of the two nodes at least one is an inclusion (internal) node: there is
no self-loop and no edge between two external SCCs. -/
theorem createSCCGraphFrom_edge_ends (pdg : PDG) (se : SCCEdge)
    (hse : se ∈ (SCCDG.createSCCGraphFrom pdg).allEdges) :
    se.src ≠ se.dst ∧
    (∃ a ∈ (SCCDG.createSCCGraphFrom pdg).allNodes, a.id = se.src) ∧
    (∃ b ∈ (SCCDG.createSCCGraphFrom pdg).allNodes, b.id = se.dst) ∧
    ∀ a ∈ (SCCDG.createSCCGraphFrom pdg).allNodes, ∀ b ∈ (SCCDG.createSCCGraphFrom pdg).allNodes,
      a.id = se.src → b.id = se.dst → a ≠ b ∧ (a.inclusion = true ∨ b.inclusion = true) := by
  have inv := buildInv_final pdg
  rw [createSCCGraphFrom_eq] at hse ⊢
  obtain ⟨h1, a, ha, b, hb, ha', hb', hincl⟩ := inv.ends se hse
  refine ⟨h1, ⟨a, ha, ha'⟩, ⟨b, hb, hb'⟩, ?_⟩
  intro x hx y hy hxa hyb
  have e1 : x = a := ids_inj inv.ids hx ha (hxa.trans ha'.symm)
  have e2 : y = b := ids_inj inv.ids hy hb (hyb.trans hb'.symm)
  subst e1 e2
  refine ⟨?_, hincl⟩
  intro hxy
  rw [hxy] at hxa
  exact h1 (hxa.symm.trans hyb)

/-- Witness of C5 on the sample PDG: the edge from the SCC of `3` to the external SCC of `10`. -/
theorem createSCCGraphFrom_edge_ends_witness :
    (0 : Nat) ≠ 2 ∧
    (∃ a ∈ (SCCDG.createSCCGraphFrom samplePDG).allNodes, a.id = 0) ∧
    (∃ b ∈ (SCCDG.createSCCGraphFrom samplePDG).allNodes, b.id = 2) ∧
    ∀ a ∈ (SCCDG.createSCCGraphFrom samplePDG).allNodes,
      ∀ b ∈ (SCCDG.createSCCGraphFrom samplePDG).allNodes,
      a.id = 0 → b.id = 2 → a ≠ b ∧ (a.inclusion = true ∨ b.inclusion = true) :=
  createSCCGraphFrom_edge_ends samplePDG
    { src := 0, dst := 2, memory := false, must := false, raw := false,
      subEdges := [DGEdge.plain 3 10] }
    (by decide)

/-- Claim C4. On every edge of the graph built by `createSCCGraphFrom`, each of the flags
memory, must and RAW is the disjunction of that flag over the PDG edges of its sub-edge list. -/
theorem createSCCGraphFrom_flags (pdg : PDG) (se : SCCEdge)
    (hse : se ∈ (SCCDG.createSCCGraphFrom pdg).allEdges) :
    se.memory = se.subEdges.any (fun e => e.memory) ∧
    se.must = se.subEdges.any (fun e => e.must) ∧
    se.raw = se.subEdges.any (fun e => e.raw) :=
  (buildInv_final pdg).flags se hse

/-- Witness of C4 on the sample PDG: the edge from the SCC of `1, 2` to the SCC of `3`, which
carries a register and a memory dependence. -/
theorem createSCCGraphFrom_flags_witness :
    true = [DGEdge.plain 2 3,
        { src := 1, dst := 3, control := false, memory := true, must := false, raw := true }].any
          (fun e => e.memory) ∧
    false = [DGEdge.plain 2 3,
        { src := 1, dst := 3, control := false, memory := true, must := false, raw := true }].any
          (fun e => e.must) ∧
    true = [DGEdge.plain 2 3,
        { src := 1, dst := 3, control := false, memory := true, must := false, raw := true }].any
          (fun e => e.raw) :=
  createSCCGraphFrom_flags samplePDG
    { src := 1, dst := 0, memory := true, must := false, raw := true,
      subEdges := [DGEdge.plain 2 3,
        { src := 1, dst := 3, control := false, memory := true, must := false, raw := true }] }
    (by decide)

/-- Counterexample to C3 as stated: in the sample PDG the edge `10 → 11` joins the two different
(external) SCCs of `10` and `11`, yet the graph has no edge between them. -/
theorem createSCCGraphFrom_edge_projection_counterexample :
    ¬ (∀ e ∈ samplePDG.edges,
        ∀ A ∈ (SCCDG.createSCCGraphFrom samplePDG).allNodes,
        ∀ B ∈ (SCCDG.createSCCGraphFrom samplePDG).allNodes,
        e.src ∈ A.scc.nodes → e.dst ∈ B.scc.nodes → A.id ≠ B.id →
        ∃ se, (SCCDG.createSCCGraphFrom samplePDG).allEdges.filter
            (fun s => s.src == A.id && s.dst == B.id) = [se] ∧ e ∈ se.subEdges) := by
  intro h
  obtain ⟨se, hse, _⟩ := h (DGEdge.plain 10 11) (by decide)
    { id := 2, scc := { nodes := [10], edges := [] }, inclusion := false } (by decide)
    { id := 3, scc := { nodes := [11], edges := [] }, inclusion := false } (by decide)
    (by decide) (by decide) (by decide)
  have : (SCCDG.createSCCGraphFrom samplePDG).allEdges.filter
      (fun s => s.src == 2 && s.dst == 3) = [] := by decide
  rw [this] at hse
  exact absurd hse (by simp)

/-- Claim C3, amended. For a PDG whose internal nodes are pairwise distinct, every PDG edge
`(u, v)` has its endpoints in SCCs of the graph built by `createSCCGraphFrom`; when the two
SCCs are different and at least one of them is an inclusion (internal) SCC, the graph has
exactly one edge from the SCC of `u` to the SCC of `v`, and `(u, v)` is in its sub-edge list. -/
theorem createSCCGraphFrom_edge_projection (pdg : PDG) (hnd : pdg.internalNodes.Nodup)
    (e : DGEdge) (he : e ∈ pdg.edges) :
    (∃ A ∈ (SCCDG.createSCCGraphFrom pdg).allNodes, e.src ∈ A.scc.nodes) ∧
    (∃ B ∈ (SCCDG.createSCCGraphFrom pdg).allNodes, e.dst ∈ B.scc.nodes) ∧
    ∀ A ∈ (SCCDG.createSCCGraphFrom pdg).allNodes, ∀ B ∈ (SCCDG.createSCCGraphFrom pdg).allNodes,
      e.src ∈ A.scc.nodes → e.dst ∈ B.scc.nodes → A.id ≠ B.id →
      (A.inclusion = true ∨ B.inclusion = true) →
      ∃ se, (SCCDG.createSCCGraphFrom pdg).allEdges.filter
          (fun s => s.src == A.id && s.dst == B.id) = [se] ∧ e ∈ se.subEdges := by
  have inv := buildInv_final pdg
  have hmc := mapComplete_final pdg hnd
  rw [createSCCGraphFrom_eq]
  obtain ⟨m1, m2⟩ := inv.mapped e he
  obtain ⟨a, ha⟩ := Option.isSome_iff_exists.mp m1
  obtain ⟨b, hb⟩ := Option.isSome_iff_exists.mp m2
  obtain ⟨A, hA, -, hA2⟩ := inv.mapSound _ _ ha
  obtain ⟨B, hB, -, hB2⟩ := inv.mapSound _ _ hb
  refine ⟨⟨A, hA, hA2⟩, ⟨B, hB, hB2⟩, ?_⟩
  intro X hX Y hY hsrc hdst hne hincl
  have lx := hmc X hX _ hsrc
  have ly := hmc Y hY _ hdst
  have hext : ¬ ((createSCCGraphState pdg).sccDG.isExternal X.id = true ∧
      (createSCCGraphState pdg).sccDG.isExternal Y.id = true) := by
    rintro ⟨x1, x2⟩
    obtain ⟨n1, hn1, e1, f1⟩ := (isExternal_iff _ _).mp x1
    obtain ⟨n2, hn2, e2, f2⟩ := (isExternal_iff _ _).mp x2
    have q1 : n1 = X := ids_inj inv.ids hn1 hX e1
    have q2 : n2 = Y := ids_inj inv.ids hn2 hY e2
    subst q1 q2
    rcases hincl with h | h
    · rw [f1] at h; exact absurd h (by simp)
    · rw [f2] at h; exact absurd h (by simp)
  obtain ⟨se, hse, s1, s2, s3⟩ := inv.covered e he X.id Y.id lx ly hne hext
  exact ⟨se, filter_eq_singleton_of_pairwise _ _ _ se inv.unique hse s1 s2, s3⟩

/-- Witness of C3 (amended) on the sample PDG: the memory dependence `1 → 3` is on the one edge
from the SCC of `1, 2` to the SCC of `3`. -/
theorem createSCCGraphFrom_edge_projection_witness :
    ∃ se, (SCCDG.createSCCGraphFrom samplePDG).allEdges.filter
        (fun s => s.src == 1 && s.dst == 0) = [se] ∧
      ({ src := 1, dst := 3, control := false, memory := true, must := false, raw := true }
        : DGEdge) ∈ se.subEdges :=
  (createSCCGraphFrom_edge_projection samplePDG (by decide)
    { src := 1, dst := 3, control := false, memory := true, must := false, raw := true }
    (by decide)).2.2
    { id := 1, scc := SCC.ofNodes (samplePDG.extractNodesFromSelfInto [1, 2, 3] (some 1)) [1, 2],
      inclusion := true } (by decide)
    { id := 0, scc := SCC.ofNodes (samplePDG.extractNodesFromSelfInto [1, 2, 3] (some 1)) [3],
      inclusion := true } (by decide)
    (by decide) (by decide) (by decide) (Or.inl rfl)
/-! ## Claims on `createSCCGraphFrom`: the inclusion nodes partition the internal nodes -/

/-- Claim C1. For a PDG whose internal nodes are pairwise distinct, in the graph returned by
`createSCCGraphFrom` every internal PDG node belongs to exactly one inclusion SCC node, and the
sizes of the inclusion SCCs sum to the number of internal PDG nodes. -/
theorem createSCCGraphFrom_partition (pdg : PDG) (hnd : pdg.internalNodes.Nodup) :
    (∀ v ∈ pdg.internalNodes,
      ((SCCDG.createSCCGraphFrom pdg).allNodes.filter
        (fun n => n.inclusion && decide (v ∈ n.scc.nodes))).length = 1) ∧
    (((SCCDG.createSCCGraphFrom pdg).allNodes.filter (fun n => n.inclusion)).map
      (fun n => n.scc.nodes.length)).sum = pdg.internalNodes.length := by
  obtain ⟨_, _, h3, _⟩ := createInclusionNodes_spec pdg
  have hperm := inclusionSCCs_flatten_perm pdg
  rw [← h3] at hperm
  constructor
  · intro v hv
    have : (SCCDG.createSCCGraphFrom pdg).allNodes.filter
          (fun n => n.inclusion && decide (v ∈ n.scc.nodes))
        = ((SCCDG.createSCCGraphFrom pdg).allNodes.filter (fun n => n.inclusion)).filter
          (fun n => decide (v ∈ n.scc.nodes)) := by
      rw [List.filter_filter]
      congr 1
      funext n
      exact Bool.and_comm _ _
    rw [this, createSCCGraphFrom_inclusion_nodes]
    exact count_containing_eq_one _ v (hperm.nodup_iff.mpr hnd) (hperm.mem_iff.mpr hv)
  · rw [createSCCGraphFrom_inclusion_nodes, ← hperm.length_eq, List.length_flatten,
      List.map_map]
    rfl

/-- Witness of C1 on the sample PDG. -/
theorem createSCCGraphFrom_partition_witness :
    (∀ v ∈ samplePDG.internalNodes,
      ((SCCDG.createSCCGraphFrom samplePDG).allNodes.filter
        (fun n => n.inclusion && decide (v ∈ n.scc.nodes))).length = 1) ∧
    (((SCCDG.createSCCGraphFrom samplePDG).allNodes.filter (fun n => n.inclusion)).map
      (fun n => n.scc.nodes.length)).sum = samplePDG.internalNodes.length :=
  createSCCGraphFrom_partition samplePDG (by decide)
/-! ## Claims on `createSCCGraphFrom`: cycles -/

/-- Counterexample to C2 as stated: in the graph built from the sample PDG, the edges
`{1, 2} → {3}`, `{3} → {10}` and `{10} → {1, 2}` (SCCs 1, 0 and 2) form a cycle through the
external SCC of `10`. -/
theorem createSCCGraphFrom_acyclic_counterexample :
    ¬ (SCCDG.createSCCGraphFrom samplePDG).Acyclic := by
  intro h
  apply h 1
  have e10 : (SCCDG.createSCCGraphFrom samplePDG).HasEdge 1 0 :=
    ⟨{ src := 1, dst := 0, memory := true, must := false, raw := true,
       subEdges := [DGEdge.plain 2 3,
         { src := 1, dst := 3, control := false, memory := true, must := false, raw := true }] },
     by decide, rfl, rfl⟩
  have e02 : (SCCDG.createSCCGraphFrom samplePDG).HasEdge 0 2 :=
    ⟨{ src := 0, dst := 2, memory := false, must := false, raw := false,
       subEdges := [DGEdge.plain 3 10] }, by decide, rfl, rfl⟩
  have e21 : (SCCDG.createSCCGraphFrom samplePDG).HasEdge 2 1 :=
    ⟨{ src := 2, dst := 1, memory := false, must := false, raw := false,
       subEdges := [DGEdge.plain 10 1] }, by decide, rfl, rfl⟩
  exact ((Relation.TransGen.single e10).tail e02).tail e21

/-- Claim C2, amended. For a PDG whose internal nodes are pairwise distinct, the graph returned
by `createSCCGraphFrom` has no non-empty directed path of edges between inclusion (internal)
SCC nodes from an SCC node back to itself; and when no node outside the internal nodes of the
PDG has both an incoming and an outgoing PDG edge, the graph is acyclic. -/
theorem createSCCGraphFrom_acyclic (pdg : PDG) (hnd : pdg.internalNodes.Nodup) :
    (∀ a, ¬ Relation.TransGen (SCCDG.createSCCGraphFrom pdg).HasInclusionEdge a a) ∧
    ((∀ e1 ∈ pdg.edges, ∀ e2 ∈ pdg.edges, e1.dst = e2.src → e1.dst ∈ pdg.internalNodes) →
      (SCCDG.createSCCGraphFrom pdg).Acyclic) := by
  refine ⟨no_inclusion_cycle pdg hnd, ?_⟩
  intro hext a hcyc
  obtain ⟨b, hab, _⟩ := Relation.TransGen.head'_iff.mp hcyc
  obtain ⟨z, _, hza⟩ := Relation.TransGen.tail'_iff.mp hcyc
  exact no_inclusion_cycle pdg hnd a
    (transGen_restrict (middle_is_inclusion pdg hnd hext) hcyc ⟨b, hab⟩ ⟨z, hza⟩)

/-- Witness of C2 (amended): the graph of the sample PDG without the dependence `3 → 10` is
acyclic. -/
theorem createSCCGraphFrom_acyclic_witness :
    (SCCDG.createSCCGraphFrom sampleDAGPDG).Acyclic :=
  (createSCCGraphFrom_acyclic sampleDAGPDG (by decide)).2 (by decide)
/-! ## Claims on `isPipeline` -/

/-- A graph whose edges all go down along a rank is acyclic. -/
lemma acyclic_of_rank (g : SCCDG) (rank : Nat → Nat)
    (h : ∀ e ∈ g.allEdges, rank e.dst < rank e.src) : g.Acyclic := by
  have key : ∀ a b, Relation.TransGen g.HasEdge a b → rank b < rank a := by
    intro a b hab
    induction hab with
    | single h1 =>
      obtain ⟨e, he, rfl, rfl⟩ := h1
      exact h e he
    | tail _ h1 ih =>
      obtain ⟨e, he, rfl, rfl⟩ := h1
      exact lt_trans (h e he) ih
  intro a ha
  exact lt_irrefl _ (key a a ha)

lemma sampleFanInSCCDAG_eq :
    SCCDG.createSCCGraphFrom
      { internalNodes := [1], externalNodes := [10, 11],
        edges := [DGEdge.plain 10 1, DGEdge.plain 11 1], entryNode := none }
      = sampleFanInSCCDAG := by
  decide

lemma sampleChainSCCDAG_eq :
    SCCDG.createSCCGraphFrom
      { internalNodes := [1, 2, 3], externalNodes := [],
        edges := [DGEdge.plain 1 2, DGEdge.plain 2 3], entryNode := none }
      = sampleChainSCCDAG := by
  decide

lemma sampleLoneSCCDAG_eq :
    SCCDG.createSCCGraphFrom
      { internalNodes := [1], externalNodes := [10, 11],
        edges := [DGEdge.plain 10 11], entryNode := none }
      = sampleLoneSCCDAG := by
  decide

/-- Counterexample to C6 as stated, on two well-formed acyclic graphs whose internal sub-graph
is the one-node chain.  On the graph of one instruction with two external operands
`isPipeline` returns `false` at the test of line 112.  On the graph of one instruction beside
two external SCCs without edges, where no node has a predecessor or a successor, it returns
`false` because one node is counted and `numNodes()` is three. -/
theorem isPipeline_internal_chain_counterexample :
    (sampleFanInSCCDAG.WellFormed ∧ sampleFanInSCCDAG.Acyclic ∧
      sampleFanInSCCDAG.internalSubgraph.IsSimpleChain ∧
      sampleFanInSCCDAG.isPipeline = some false) ∧
    (sampleLoneSCCDAG.WellFormed ∧ sampleLoneSCCDAG.Acyclic ∧
      sampleLoneSCCDAG.internalSubgraph.IsSimpleChain ∧
      (∀ n ∈ sampleLoneSCCDAG.nodeIds,
        sampleLoneSCCDAG.incomingEdges n = [] ∧ sampleLoneSCCDAG.outgoingEdges n = []) ∧
      sampleLoneSCCDAG.isPipeline = some false) := by
  refine ⟨⟨⟨by decide, by decide, by decide, by decide⟩,
      acyclic_of_rank _ (fun n => if n = 0 then 0 else 1) (by decide),
      ⟨[0], by decide, by decide⟩, by decide⟩,
    ⟨⟨by decide, by decide, by decide, by decide⟩,
      acyclic_of_rank _ id (by decide),
      ⟨[0], by decide, by decide⟩, by decide, by decide⟩⟩

/-- Claim C6, amended. On every non-empty well-formed acyclic SCC graph, `isPipeline` returns,
and it returns `true` if and only if the whole graph, external SCC nodes included, is a simple
chain: its nodes can be ordered `n1 .. nk` so that its edges are exactly
`n1 → n2 → ... → nk`.  On a graph without external node this is the internal sub-graph being a
simple chain. -/
theorem isPipeline_iff_simple_chain (g : SCCDG) (hwf : g.WellFormed) (hac : g.Acyclic) :
    ∃ b, g.isPipeline = some b ∧ (b = true ↔ g.IsSimpleChain) ∧
      ((∀ n ∈ g.allNodes, n.inclusion = true) →
        (b = true ↔ g.internalSubgraph.IsSimpleChain)) := by
  by_cases hchain : g.IsSimpleChain
  · refine ⟨true, isPipeline_of_chain g hwf hac hchain, ⟨fun _ => hchain, fun _ => rfl⟩, ?_⟩
    intro hall
    rw [internalSubgraph_eq_self g hwf hall]
    exact ⟨fun _ => hchain, fun _ => rfl⟩
  · have hiff : (false = true ↔ g.IsSimpleChain) := by
      constructor
      · intro h
        exact absurd h (by simp)
      · intro h
        exact absurd h hchain
    refine ⟨false, isPipeline_of_not_chain g hwf hac hchain, hiff, ?_⟩
    intro hall
    rw [internalSubgraph_eq_self g hwf hall]
    exact hiff

/-- Witness of C6 (amended) on the chain of three SCCs. -/
theorem isPipeline_iff_simple_chain_witness :
    ∃ b, sampleChainSCCDAG.isPipeline = some b ∧
      (b = true ↔ sampleChainSCCDAG.IsSimpleChain) ∧
      ((∀ n ∈ sampleChainSCCDAG.allNodes, n.inclusion = true) →
        (b = true ↔ sampleChainSCCDAG.internalSubgraph.IsSimpleChain)) :=
  isPipeline_iff_simple_chain sampleChainSCCDAG ⟨by decide, by decide, by decide, by decide⟩
    (acyclic_of_rank _ id (by decide))

/-- Claim C7. On a non-empty well-formed acyclic SCC graph the result of `isPipeline` does not
depend on the order in which the nodes (or the edges) are listed, hence not on the node the
upward walk starts from: both runs return the same boolean. -/
theorem isPipeline_order_independent (g1 g2 : SCCDG) (hwf : g1.WellFormed) (hac : g1.Acyclic)
    (hnodes : g1.allNodes.Perm g2.allNodes) (hedges : g1.allEdges.Perm g2.allEdges) :
    ∃ b, g1.isPipeline = some b ∧ g2.isPipeline = some b := by
  have hids : g1.nodeIds.Perm g2.nodeIds := hnodes.map _
  have hpairs : g1.edgePairs.Perm g2.edgePairs := hedges.map _
  have hwf2 : g2.WellFormed := by
    refine ⟨?_, hids.nodup_iff.mp hwf.nodup, ?_, ?_⟩
    · intro h
      rw [h] at hnodes
      exact hwf.nonempty hnodes.eq_nil
    · intro e he
      exact hids.mem_iff.mp (hwf.src_mem e (hedges.mem_iff.mpr he))
    · intro e he
      exact hids.mem_iff.mp (hwf.dst_mem e (hedges.mem_iff.mpr he))
  have hedge : ∀ a b, g2.HasEdge a b → g1.HasEdge a b := by
    rintro a b ⟨e, he, h1, h2⟩
    exact ⟨e, hedges.mem_iff.mpr he, h1, h2⟩
  have hac2 : g2.Acyclic := by
    intro a ha
    exact hac a (ha.mono hedge)
  have hiff : g1.IsSimpleChain ↔ g2.IsSimpleChain := by
    constructor
    · rintro ⟨order, o1, o2⟩
      exact ⟨order, o1.trans hids, hpairs.symm.trans o2⟩
    · rintro ⟨order, o1, o2⟩
      exact ⟨order, o1.trans hids.symm, hpairs.trans o2⟩
  by_cases hchain : g1.IsSimpleChain
  · exact ⟨true, isPipeline_of_chain g1 hwf hac hchain,
      isPipeline_of_chain g2 hwf2 hac2 (hiff.mp hchain)⟩
  · exact ⟨false, isPipeline_of_not_chain g1 hwf hac hchain,
      isPipeline_of_not_chain g2 hwf2 hac2 (fun h => hchain (hiff.mpr h))⟩

/-- Witness of C7: the chain of three SCCs, started from the SCC of `3` and from the SCC of
`2`. -/
theorem isPipeline_order_independent_witness :
    ∃ b, sampleChainSCCDAG.isPipeline = some b ∧ sampleChainSCCDAGReordered.isPipeline = some b :=
  isPipeline_order_independent sampleChainSCCDAG sampleChainSCCDAGReordered
    ⟨by decide, by decide, by decide, by decide⟩ (acyclic_of_rank _ id (by decide))
    (by decide) (List.Perm.refl _)
/-! ## Claims on the loop-carried dependences internal to an SCC -/

/-- Claim C11. After `collectDependencies` on an SCCDAG whose SCCs are distinct objects, the set
`interIterDepsInternalToSCC[scc]` of every SCC is exactly the subset of its loop-carried
dependences `interIterDeps[scc]` whose source and sink are both internal to the SCC. -/
theorem collectDependencies_internal_subset (isa : Nat → Bool) (LIS : LoopsSummary)
    (DS : DominatorSummary) (g : SCCDG) (hnd : (g.allNodes.map (fun n => n.id)).Nodup)
    (n : SCCNode) (hn : n ∈ g.allNodes) (e : DGEdge) :
    e ∈ (SCCDAGAttrs.collectDependencies isa LIS DS
          (SCCDAGAttrs.init g)).interIterDepsInternalToSCC.get n.id ↔
      e ∈ (SCCDAGAttrs.collectDependencies isa LIS DS (SCCDAGAttrs.init g)).interIterDeps.get n.id ∧
        n.scc.isInternal e.src = true ∧ n.scc.isInternal e.dst = true := by
  have kint := foldl_collect_internal isa LIS DS g.allNodes (SCCDAGAttrs.init g)
    (fun _ _ => rfl) hnd n.id e
  have kinter := (foldl_collect_inter_intra isa LIS DS g.allNodes (SCCDAGAttrs.init g) n.id e).1
  simp only [SCCDAGAttrs.init, DepMap.get_nil, List.not_mem_nil, false_or] at kint kinter
  unfold SCCDAGAttrs.collectDependencies
  simp only [SCCDAGAttrs.init]
  rw [kint, kinter]
  constructor
  · rintro ⟨m, hm, hk, h1, h2, h3, h4, h5⟩
    have hmn : m = n := List.inj_on_of_nodup_map hnd hm hn hk
    subst hmn
    exact ⟨⟨m, hm, rfl, h1, h2, h3⟩, h4, h5⟩
  · rintro ⟨⟨m, hm, hk, h1, h2, h3⟩, h4, h5⟩
    have hmn : m = n := List.inj_on_of_nodup_map hnd hm hn hk
    subst hmn
    exact ⟨m, hm, rfl, h1, h2, h3, h4, h5⟩

/-- Witness of C11 on the sum reduction: the dependence `20 → 11`, whose source is outside the
SCC, is loop-carried and not internal; the back edge `11 → 10` is both. -/
theorem collectDependencies_internal_subset_witness :
    (DGEdge.plain 20 11 ∉ sampleReductionAttrs.interIterDepsInternalToSCC.get 0 ∧
      DGEdge.plain 20 11 ∈ sampleReductionAttrs.interIterDeps.get 0) ∧
    (DGEdge.plain 11 10 ∈ sampleReductionAttrs.interIterDepsInternalToSCC.get 0 ↔
      DGEdge.plain 11 10 ∈ sampleReductionAttrs.interIterDeps.get 0 ∧
        sampleReductionSCC.isInternal 11 = true ∧ sampleReductionSCC.isInternal 10 = true) :=
  ⟨by decide,
   collectDependencies_internal_subset sampleIR.isaInstruction sampleLoopLIS sampleDS
    sampleReductionSCCDAG (by decide)
    { id := 0, scc := sampleReductionSCC, inclusion := true } (by simp [sampleReductionSCCDAG])
    (DGEdge.plain 11 10)⟩
/-! ## Claims on `checkIfReducible` -/

/-- Claim C12. Whenever `checkIfReducible` returns `true` for an SCC, on the dependence maps
computed by `collectDependencies` (fewer than 2^32 dependences, the range of the counter), the
SCC has exactly one loop-carried dependence internal to it, and that dependence is a data,
non-memory dependence whose source and sink are both instructions. -/
theorem checkIfReducible_single_loop_carried (ir : IROracle) (accumOpInfo : AccumulatorOpInfo)
    (LIS : LoopsSummary) (DS : DominatorSummary) (g : SCCDG) (attrs : SCCDAGAttrs)
    (n : SCCNode) (a : SCCAttrs)
    (hdeps : attrs.interIterDepsInternalToSCC =
      (SCCDAGAttrs.collectDependencies ir.isaInstruction LIS DS
        (SCCDAGAttrs.init g)).interIterDepsInternalToSCC)
    (hsize : (attrs.interIterDepsInternalToSCC.get n.id).length < 2 ^ 32)
    (h : (SCCDAGAttrs.checkIfReducible ir accumOpInfo LIS attrs n a).1 = true) :
    ∃ e, attrs.interIterDepsInternalToSCC.get n.id = [e] ∧ e.control = false ∧
      e.memory = false ∧ ir.isaInstruction e.src = true ∧ ir.isaInstruction e.dst = true := by
  have hne : attrs.interIterDepsInternalToSCC.NonEmptyEntries := by
    rw [hdeps]
    exact foldl_collect_nonEmpty ir.isaInstruction LIS DS g.allNodes (SCCDAGAttrs.init g)
      DepMap.nonEmptyEntries_nil
  exact hasSingleLoopCarriedDataDep_spec ir attrs n.id hne hsize
    (checkIfReducible_tests ir accumOpInfo LIS attrs n a h).2.2.2.1

/-- Witness of C12 on the sum reduction: its only internal loop-carried dependence is the
back edge from the addition to the PHI. -/
theorem checkIfReducible_single_loop_carried_witness :
    ∃ e, sampleReductionAttrs.interIterDepsInternalToSCC.get 0 = [e] ∧ e.control = false ∧
      e.memory = false ∧ sampleIR.isaInstruction e.src = true ∧
      sampleIR.isaInstruction e.dst = true :=
  checkIfReducible_single_loop_carried sampleIR sampleAccumOpInfo sampleLoopLIS sampleDS
    sampleReductionSCCDAG sampleReductionAttrs
    { id := 0, scc := sampleReductionSCC, inclusion := true } sampleReductionInfo rfl
    (by decide) (by decide)

/-- Claim C13. Whenever `checkIfReducible` returns `true` for an SCC of a loop, all internal
instructions of that SCC belong to the same loop: `LIS.getLoop` maps every one of them to one
and the same loop.  The internal instructions of an SCC of a loop lie in loops of the summary:
`LIS.getLoop` returns no `nullptr` on them, which the code relies on where it dereferences
`LIS.getLoop(br)` unchecked (lines 654-655). -/
theorem checkIfReducible_same_loop (ir : IROracle) (accumOpInfo : AccumulatorOpInfo)
    (LIS : LoopsSummary) (attrs : SCCDAGAttrs) (n : SCCNode) (a : SCCAttrs)
    (hin : ∀ v ∈ n.scc.nodes, ir.isaInstruction v = true → LIS.getLoop v ≠ none)
    (h : (SCCDAGAttrs.checkIfReducible ir accumOpInfo LIS attrs n a).1 = true) :
    ∀ u ∈ n.scc.nodes, ∀ v ∈ n.scc.nodes, ir.isaInstruction u = true →
      ir.isaInstruction v = true →
      LIS.getLoop u = LIS.getLoop v ∧ ∃ L, LIS.getLoop v = some L := by
  intro u hu v hv hiu hiv
  refine ⟨sameLoopFrom_none ir LIS n.scc.nodes
    (checkIfReducible_tests ir accumOpInfo LIS attrs n a h).1 hin u hu v hv hiu hiv,
    Option.ne_none_iff_exists'.mp (hin v hv hiv)⟩

/-- Witness of C13 on the sum reduction: the PHI and the addition are both in loop `0`. -/
theorem checkIfReducible_same_loop_witness :
    (∀ v ∈ sampleReductionSCC.nodes, sampleIR.isaInstruction v = true →
      sampleLoopLIS.getLoop v ≠ none) ∧
    (SCCDAGAttrs.checkIfReducible sampleIR sampleAccumOpInfo sampleLoopLIS sampleReductionAttrs
      { id := 0, scc := sampleReductionSCC, inclusion := true } sampleReductionInfo).1 = true ∧
    ∀ u ∈ sampleReductionSCC.nodes, ∀ v ∈ sampleReductionSCC.nodes,
      sampleIR.isaInstruction u = true → sampleIR.isaInstruction v = true →
      sampleLoopLIS.getLoop u = sampleLoopLIS.getLoop v ∧
        ∃ L, sampleLoopLIS.getLoop v = some L :=
  ⟨by decide, by decide,
    checkIfReducible_same_loop sampleIR sampleAccumOpInfo sampleLoopLIS sampleReductionAttrs
      { id := 0, scc := sampleReductionSCC, inclusion := true } sampleReductionInfo
      (by decide) (by decide)⟩

/-- Claim C14. Whenever `checkIfReducible` returns `true` for an SCC, no sub-edge of an SCCDAG
edge that enters or leaves the node of the SCC is a memory dependence. -/
theorem checkIfReducible_no_memory (ir : IROracle) (accumOpInfo : AccumulatorOpInfo)
    (LIS : LoopsSummary) (attrs : SCCDAGAttrs) (n : SCCNode) (a : SCCAttrs)
    (h : (SCCDAGAttrs.checkIfReducible ir accumOpInfo LIS attrs n a).1 = true)
    (edge : SCCEdge) (he : edge ∈ attrs.sccdag.allEdges)
    (hend : edge.src = n.id ∨ edge.dst = n.id) (subEdge : DGEdge)
    (hsub : subEdge ∈ edge.subEdges) :
    subEdge.memory = false :=
  hasMemorySubEdge_false attrs.sccdag n.id
    (checkIfReducible_tests ir accumOpInfo LIS attrs n a h).2.1 edge he hend subEdge hsub

/-- Witness of C14 on the sum reduction: the sub-edge of the edge from the load. -/
theorem checkIfReducible_no_memory_witness : (DGEdge.plain 20 11).memory = false :=
  checkIfReducible_no_memory sampleIR sampleAccumOpInfo sampleLoopLIS sampleReductionAttrs
    { id := 0, scc := sampleReductionSCC, inclusion := true } sampleReductionInfo (by decide)
    { src := 1, dst := 0, memory := false, must := false, raw := false,
      subEdges := [DGEdge.plain 20 11] }
    (by decide) (Or.inr rfl) (DGEdge.plain 20 11) (by decide)

/-- Claim C15. Whenever `checkIfReducible` returns `true` for an SCC of an SCCDAG (no edge from
an SCC to itself, no SCC without node), every SCC that an outgoing edge of it leads to has
exactly one internal node, and the node of that SCC has no outgoing edge. -/
theorem checkIfReducible_dependents_trivial (ir : IROracle) (accumOpInfo : AccumulatorOpInfo)
    (LIS : LoopsSummary) (attrs : SCCDAGAttrs) (n : SCCNode) (a : SCCAttrs)
    (hself : ∀ e ∈ attrs.sccdag.allEdges, e.src ≠ e.dst)
    (hne : ∀ m ∈ attrs.sccdag.allNodes, m.scc.nodes ≠ [])
    (h : (SCCDAGAttrs.checkIfReducible ir accumOpInfo LIS attrs n a).1 = true)
    (edge : SCCEdge) (he : edge ∈ attrs.sccdag.outgoingEdges n.id) :
    ∃ dependentSCCNode ∈ attrs.sccdag.allNodes, dependentSCCNode.id = edge.dst ∧
      dependentSCCNode.scc.nodes.length = 1 ∧ attrs.sccdag.outgoingEdges edge.dst = [] := by
  obtain ⟨hmem, hsrc, _⟩ := mem_outgoingEdges he
  have hdst : edge.dst ≠ n.id := by
    intro hd
    exact hself edge hmem (hsrc.trans hd.symm)
  obtain ⟨dep, hdep, hid, hlen, hout⟩ := dependentSCCsAreTrivial_spec attrs.sccdag n.id
    (checkIfReducible_tests ir accumOpInfo LIS attrs n a h).2.2.1 edge he hdst
  refine ⟨dep, hdep, hid, ?_, hout⟩
  have := hne dep hdep
  have hpos : 0 < dep.scc.nodes.length := List.length_pos.mpr this
  omega

/-- Witness of C15 on the sum reduction: its outgoing edge leads to the SCC of the cast. -/
theorem checkIfReducible_dependents_trivial_witness :
    ∃ dependentSCCNode ∈ sampleReductionAttrs.sccdag.allNodes, dependentSCCNode.id = 2 ∧
      dependentSCCNode.scc.nodes.length = 1 ∧ sampleReductionAttrs.sccdag.outgoingEdges 2 = [] :=
  checkIfReducible_dependents_trivial sampleIR sampleAccumOpInfo sampleLoopLIS
    sampleReductionAttrs { id := 0, scc := sampleReductionSCC, inclusion := true }
    sampleReductionInfo (by decide) (by decide) (by decide)
    { src := 0, dst := 2, memory := false, must := false, raw := false,
      subEdges := [DGEdge.plain 11 30] }
    (by decide)

/-- Claim C16. Whenever `checkIfReducible` returns `true` for an SCC, the SCC has at least one
accumulator, and every accumulator has a side-effect-free opcode, exactly one of its two
operands is derived within the SCC (`isDerivedWithinSCC` differs on them) and exactly one of
them is an internal derived PHI or accumulator (`isDerivedPHIOrAccumulator` differs on them).
The queries are read on the record the function is given: the caches it fills do not change
their answers. -/
theorem checkIfReducible_accumulators (ir : IROracle) (accumOpInfo : AccumulatorOpInfo)
    (LIS : LoopsSummary) (attrs : SCCDAGAttrs) (n : SCCNode) (a : SCCAttrs)
    (h : (SCCDAGAttrs.checkIfReducible ir accumOpInfo LIS attrs n a).1 = true) :
    a.accumulators ≠ [] ∧
    ∀ accum ∈ a.accumulators,
      ir.getOpcode accum ∈ accumOpInfo.sideEffectFreeOps ∧
      (SCCDAGAttrs.isDerivedWithinSCC (ir.getOperand accum 0) n.scc a).1 ≠
        (SCCDAGAttrs.isDerivedWithinSCC (ir.getOperand accum 1) n.scc a).1 ∧
      (SCCDAGAttrs.isDerivedPHIOrAccumulator ir (ir.getOperand accum 0) n.scc a).1 ≠
        (SCCDAGAttrs.isDerivedPHIOrAccumulator ir (ir.getOperand accum 1) n.scc a).1 :=
  ⟨(checkIfReducible_tests ir accumOpInfo LIS attrs n a h).2.2.2.2.2.2.1,
   (checkIfReducible_tests ir accumOpInfo LIS attrs n a h).2.2.2.2.2.2.2.1⟩

/-- Witness of C16 on the sum reduction, for its accumulator `11`. -/
theorem checkIfReducible_accumulators_witness :
    sampleReductionInfo.accumulators ≠ [] ∧
      sampleIR.getOpcode 11 ∈ sampleAccumOpInfo.sideEffectFreeOps ∧
      (SCCDAGAttrs.isDerivedWithinSCC (sampleIR.getOperand 11 0) sampleReductionSCC
          sampleReductionInfo).1 ≠
        (SCCDAGAttrs.isDerivedWithinSCC (sampleIR.getOperand 11 1) sampleReductionSCC
          sampleReductionInfo).1 ∧
      (SCCDAGAttrs.isDerivedPHIOrAccumulator sampleIR (sampleIR.getOperand 11 0)
          sampleReductionSCC sampleReductionInfo).1 ≠
        (SCCDAGAttrs.isDerivedPHIOrAccumulator sampleIR (sampleIR.getOperand 11 1)
          sampleReductionSCC sampleReductionInfo).1 :=
  ⟨(checkIfReducible_accumulators sampleIR sampleAccumOpInfo sampleLoopLIS sampleReductionAttrs
      { id := 0, scc := sampleReductionSCC, inclusion := true } sampleReductionInfo
      (by decide)).1,
   (checkIfReducible_accumulators sampleIR sampleAccumOpInfo sampleLoopLIS sampleReductionAttrs
      { id := 0, scc := sampleReductionSCC, inclusion := true } sampleReductionInfo
      (by decide)).2 11 (by decide)⟩

/-- Claim C17, failing input. With an `AccumulatorOpInfo` whose side-effect-free opcodes
include the bitwise `or`, `checkIfReducible` returns `true` for the `or` reduction, whose
accumulator is neither an addition or subtraction nor a multiplication; and the loop of lines
489-501, run on the accumulators `add` (`11`) and `or` (`71`) together, lets the mixed list
pass.  The comment of lines 485-488 requires the accumulators to be "all Add/Sub or all Mul":
the loop only compares `isMulOp` of each accumulator with `isMulOp` of the first one. -/
theorem checkIfReducible_accumulator_kinds_failing_input :
    (SCCDAGAttrs.checkIfReducible sampleIR sampleAccumOpInfo sampleLoopLIS sampleOrAttrs
        { id := 0, scc := sampleOrSCC, inclusion := true } sampleOrInfo).1 = true ∧
      ¬ ((∀ accum ∈ sampleOrInfo.accumulators,
            sampleIR.getOpcode accum ∈ [Opcode.Add, Opcode.FAdd, Opcode.Sub, Opcode.FSub]) ∨
         (∀ accum ∈ sampleOrInfo.accumulators,
            sampleIR.getOpcode accum ∈ [Opcode.Mul, Opcode.FMul])) ∧
      SCCDAGAttrs.checkAccumulatorKinds sampleIR sampleAccumOpInfo sampleOrSCC [11, 71] = true ∧
      sampleIR.getOpcode 11 = Opcode.Add ∧ sampleIR.getOpcode 71 = Opcode.Or := by
  decide

/-- The part of the requirement of lines 485-488 that the loop of lines 489-501 enforces:
whenever `checkIfReducible` returns `true` for an SCC, `isMulOp` holds for the opcode of every
accumulator or for the opcode of none, and for every accumulator whose opcode is a subtraction
(`isSubOp`) the second operand is not internal to the SCC. -/
theorem checkIfReducible_accumulator_kinds (ir : IROracle) (accumOpInfo : AccumulatorOpInfo)
    (LIS : LoopsSummary) (attrs : SCCDAGAttrs) (n : SCCNode) (a : SCCAttrs)
    (h : (SCCDAGAttrs.checkIfReducible ir accumOpInfo LIS attrs n a).1 = true) :
    ((∀ accum ∈ a.accumulators, accumOpInfo.isMulOp (ir.getOpcode accum) = true) ∨
      (∀ accum ∈ a.accumulators, accumOpInfo.isMulOp (ir.getOpcode accum) = false)) ∧
    ∀ accum ∈ a.accumulators, accumOpInfo.isSubOp (ir.getOpcode accum) = true →
      n.scc.isInternal (ir.getOperand accum 1) = false :=
  checkAccumulatorKinds_spec ir accumOpInfo n.scc a.accumulators
    (checkIfReducible_tests ir accumOpInfo LIS attrs n a h).2.2.2.2.2.2.2.2

/-- The sum reduction passes the loop of lines 489-501: no accumulator is a multiplication. -/
theorem checkIfReducible_accumulator_kinds_witness :
    ((∀ accum ∈ sampleReductionInfo.accumulators,
        sampleAccumOpInfo.isMulOp (sampleIR.getOpcode accum) = true) ∨
      (∀ accum ∈ sampleReductionInfo.accumulators,
        sampleAccumOpInfo.isMulOp (sampleIR.getOpcode accum) = false)) :=
  (checkIfReducible_accumulator_kinds sampleIR sampleAccumOpInfo sampleLoopLIS
    sampleReductionAttrs { id := 0, scc := sampleReductionSCC, inclusion := true }
    sampleReductionInfo (by decide)).1
/-! ## Claims on `checkIfInductionVariableSCC` and `isIVUpperBoundSimple` -/

/-- Claim C18. On a record whose control pairs hold terminators, `checkIfInductionVariableSCC`
returns, its result is the flag it leaves in the record, and the result is `true` if and only
if: the SCC has a single control pair, whose terminator is a branch and whose condition is a
comparison; exactly one operand of the comparison is derived within the SCC and exactly one is
a derived internal PHI or accumulator; the SCC has exactly one PHI, and each incoming value of
it whose block is in the loop of the PHI is a derived internal PHI or accumulator; and the
scalar-evolution oracle gives an add-recurrence for every accumulator.  In every other case the
result is `false`: nothing aborts. -/
theorem checkIfInductionVariableSCC_iff (ir : IROracle) (SE : ScalarEvolution)
    (LIS : LoopsSummary) (scc : SCC) (a : SCCAttrs)
    (hterm : ∀ pair ∈ a.controlPairs, ir.isTerminator pair.2 = true) :
    ∃ b a', SCCDAGAttrs.checkIfInductionVariableSCC ir SE LIS scc a = some (b, a') ∧
      a'.isInductionVariableSCC = b ∧
      (b = true ↔
        ∃ condition term, a.controlPairs = [(condition, term)] ∧
          ir.isaBranchInst term = true ∧ ir.isaCmpInst condition = true ∧
          (SCCDAGAttrs.isDerivedWithinSCC (ir.getOperand condition 0) scc a).1 ≠
            (SCCDAGAttrs.isDerivedWithinSCC (ir.getOperand condition 1) scc a).1 ∧
          (SCCDAGAttrs.isDerivedPHIOrAccumulator ir (ir.getOperand condition 0) scc a).1 ≠
            (SCCDAGAttrs.isDerivedPHIOrAccumulator ir (ir.getOperand condition 1) scc a).1 ∧
          ∃ phi, a.PHINodes = [phi] ∧
            (∀ inc ∈ ir.incoming phi,
              LIS.getLoop inc.2 ≠ none → LIS.getLoop inc.2 = LIS.getLoop phi →
                (SCCDAGAttrs.isDerivedPHIOrAccumulator ir inc.1 scc a).1 = true) ∧
            ∀ I ∈ a.accumulators, SE.getSCEVType I = SCEVTypes.scAddRecExpr) := by
  obtain ⟨a', h1, h2⟩ := checkIfInductionVariableSCC_spec ir SE LIS scc a hterm
  refine ⟨_, a', h1, h2, ?_⟩
  have hx : ∀ p q : Bool, xor p q = true ↔ p ≠ q := by decide
  match hcp : a.controlPairs with
  | [] => simp
  | _ :: _ :: _ => simp
  | [pair] =>
    match hphi : a.PHINodes with
    | [] => simp
    | _ :: _ :: _ => simp
    | [phi] =>
      simp only [Bool.and_eq_true, hx, List.all_eq_true, Bool.or_eq_true,
        Option.isNone_iff_eq_none, bne_iff_ne, ne_eq, beq_iff_eq]
      constructor
      · rintro ⟨⟨⟨⟨c1, c2⟩, c3⟩, c4⟩, c5, c6⟩
        refine ⟨pair.1, pair.2, rfl, c1, c2, c3, c4, phi, rfl, ?_, c6⟩
        intro inc hinc hne heq
        rcases c5 inc hinc with (h | h) | h
        · exact absurd h hne
        · exact absurd heq h
        · exact h
      · rintro ⟨condition, term, hp, c1, c2, c3, c4, phi', hphi', c5, c6⟩
        have hpair : pair = (condition, term) := by simpa using hp
        have hphieq : phi = phi' := by simpa using hphi'
        subst hpair hphieq
        refine ⟨⟨⟨⟨c1, c2⟩, c3⟩, c4⟩, ?_, c6⟩
        intro inc hinc
        by_cases hne : LIS.getLoop inc.2 = none
        · exact Or.inl (Or.inl hne)
        · by_cases heq : LIS.getLoop inc.2 = LIS.getLoop phi
          · exact Or.inr (c5 inc hinc hne heq)
          · exact Or.inl (Or.inr heq)

/-- Witness of C18 on the counter loop: the SCC of the counter is marked as an
induction-variable SCC. -/
theorem checkIfInductionVariableSCC_iff_witness :
    ∃ b a', SCCDAGAttrs.checkIfInductionVariableSCC sampleIR sampleSE sampleLoopLIS
        sampleCounterSCC sampleCounterInfo = some (b, a') ∧
      a'.isInductionVariableSCC = b ∧
      (b = true ↔
        ∃ condition term, sampleCounterInfo.controlPairs = [(condition, term)] ∧
          sampleIR.isaBranchInst term = true ∧ sampleIR.isaCmpInst condition = true ∧
          (SCCDAGAttrs.isDerivedWithinSCC (sampleIR.getOperand condition 0) sampleCounterSCC
              sampleCounterInfo).1 ≠
            (SCCDAGAttrs.isDerivedWithinSCC (sampleIR.getOperand condition 1) sampleCounterSCC
              sampleCounterInfo).1 ∧
          (SCCDAGAttrs.isDerivedPHIOrAccumulator sampleIR (sampleIR.getOperand condition 0)
              sampleCounterSCC sampleCounterInfo).1 ≠
            (SCCDAGAttrs.isDerivedPHIOrAccumulator sampleIR (sampleIR.getOperand condition 1)
              sampleCounterSCC sampleCounterInfo).1 ∧
          ∃ phi, sampleCounterInfo.PHINodes = [phi] ∧
            (∀ inc ∈ sampleIR.incoming phi,
              sampleLoopLIS.getLoop inc.2 ≠ none →
                sampleLoopLIS.getLoop inc.2 = sampleLoopLIS.getLoop phi →
                (SCCDAGAttrs.isDerivedPHIOrAccumulator sampleIR inc.1 sampleCounterSCC
                  sampleCounterInfo).1 = true) ∧
            ∀ I ∈ sampleCounterInfo.accumulators,
              sampleSE.getSCEVType I = SCEVTypes.scAddRecExpr) :=
  checkIfInductionVariableSCC_iff sampleIR sampleSE sampleLoopLIS sampleCounterSCC
    sampleCounterInfo (by decide)
/-- Claim C19. Let the SCC have a single control pair made of a comparison and a branch in a
loop, exactly one successor of the branch inside the loop, a step of `+1` or `-1`, and let the
record be passed with `endOffset` zero, as `checkIfIVHasFixedBounds` passes its fresh record.
For every combination of step, exit-on-cmp bit and predicate (swapped when the induction
variable is on the right) that is a row of the end-offset table, `isIVUpperBoundSimple` returns
`true` and leaves `endOffset` equal to the offset of the row minus the step when the comparison
is against the accumulator. -/
theorem isIVUpperBoundSimple_table (ir : IROracle) (LIS : LoopsSummary) (a : SCCAttrs)
    (IVBounds : FixedIVBounds) (cmp br loop : Nat) (off : Int)
    (hpair : a.controlPairs = [(cmp, br)])
    (hcmp : ir.isaCmpInst cmp = true) (hbr : ir.isaBranchInst br = true)
    (hloop : LIS.getLoop br = some loop)
    (hxor : LIS.isBasicBlockWithin loop (ir.getSuccessor br 0) ≠
      LIS.isBasicBlockWithin loop (ir.getSuccessor br 1))
    (hstep : IVBounds.step = 1 ∨ IVBounds.step = -1)
    (hfresh : IVBounds.endOffset = 0)
    (hrow : specEndOffsetTable IVBounds.step
      (!LIS.isBasicBlockWithin loop (ir.getSuccessor br 0))
      (if IVBounds.isCmpIVLHS then ir.getPredicate cmp
        else (ir.getPredicate cmp).getSwappedPredicate) = some off) :
    SCCDAGAttrs.isIVUpperBoundSimple ir LIS a IVBounds =
      some (true, { IVBounds with
        endOffset := off - IVBounds.step * (if IVBounds.isCmpOnAccum then 1 else 0) }) := by
  have hsigned : (ir.getPredicate cmp).isUnsigned = false :=
    specEndOffsetTable_signed IVBounds.step _ IVBounds.isCmpIVLHS (ir.getPredicate cmp)
      (by rw [hrow]; simp)
  have h32 : toInt32 IVBounds.step = IVBounds.step := by
    rcases hstep with h | h <;> rw [h] <;> decide
  have hx : xor (LIS.isBasicBlockWithin loop (ir.getSuccessor br 0))
      (LIS.isBasicBlockWithin loop (ir.getSuccessor br 1)) = true := by
    revert hxor
    cases LIS.isBasicBlockWithin loop (ir.getSuccessor br 0) <;>
      cases LIS.isBasicBlockWithin loop (ir.getSuccessor br 1) <;> simp
  rw [isIVUpperBoundSimple_eq ir LIS a IVBounds cmp br loop hpair hcmp hbr hloop, h32]
  simp only [hx, Bool.not_true, Bool.false_eq_true, if_false, hsigned]
  have hsw : SCCDAGAttrs.endOffsetSwitch (!LIS.isBasicBlockWithin loop (ir.getSuccessor br 0))
      IVBounds.step
      (if IVBounds.isCmpIVLHS = true then ir.getPredicate cmp
        else (ir.getPredicate cmp).getSwappedPredicate) IVBounds =
      some (if off = 0 then IVBounds else { IVBounds with endOffset := off }) := by
    rw [endOffsetSwitch_table _ _ hstep, hrow]
    rfl
  rw [hsw]
  by_cases h0 : off = 0
  · simp only [h0, if_true, hfresh]
  · simp only [h0, if_false]

/-- Witness of C19 on the counter loop, which exits on `icmp slt i, 62` with step `+1`: the
row is (+1, false, SLT), `endOffset` is `0` and `cmpIVTo` is the bound `62`. -/
theorem isIVUpperBoundSimple_table_witness :
    SCCDAGAttrs.isIVUpperBoundSimple sampleIR sampleLoopLIS sampleCounterInfo
        sampleCounterBounds =
      some (true, { sampleCounterBounds with endOffset := 0 }) ∧
    sampleCounterBounds.step = 1 ∧ sampleCounterBounds.cmpIVTo = 62 :=
  ⟨isIVUpperBoundSimple_table sampleIR sampleLoopLIS sampleCounterInfo sampleCounterBounds
    52 53 0 0 rfl rfl rfl rfl (by decide) (Or.inl rfl) rfl rfl, rfl, rfl⟩
/-- Claim C20, counterexample. On the counter loop with the comparison `icmp ult i, 62`, one
successor of the branch is in the loop and (+1, false, ULT) is not a row of the table, yet
`isIVUpperBoundSimple` does not abort: line 660 first turns the unsigned predicate into the
signed one.  And with a step of `2` and the comparison `icmp sge`, (2, false, SGE) is not a row
either and the function does not abort: every step other than `+1` takes the branch of `-1`. -/
theorem isIVUpperBoundSimple_abort_counterexample :
    (sampleLoopLIS.isBasicBlockWithin 0 (sampleIR.getSuccessor 53 0) ≠
        sampleLoopLIS.isBasicBlockWithin 0 (sampleIR.getSuccessor 53 1)) ∧
    ¬ (SCCDAGAttrs.isIVUpperBoundSimple
          { sampleIR with getPredicate := fun _ => Predicate.ICMP_ULT } sampleLoopLIS
          sampleCounterInfo sampleCounterBounds = none ↔
        specEndOffsetTable sampleCounterBounds.step
          (!sampleLoopLIS.isBasicBlockWithin 0 (sampleIR.getSuccessor 53 0))
          (if sampleCounterBounds.isCmpIVLHS then Predicate.ICMP_ULT
            else Predicate.ICMP_ULT.getSwappedPredicate) = none) ∧
    ¬ (SCCDAGAttrs.isIVUpperBoundSimple
          { sampleIR with getPredicate := fun _ => Predicate.ICMP_SGE } sampleLoopLIS
          sampleCounterInfo { sampleCounterBounds with step := 2 } = none ↔
        specEndOffsetTable 2
          (!sampleLoopLIS.isBasicBlockWithin 0 (sampleIR.getSuccessor 53 0))
          (if sampleCounterBounds.isCmpIVLHS then Predicate.ICMP_SGE
            else Predicate.ICMP_SGE.getSwappedPredicate) = none) := by
  decide

/-- Claim C20, amended. Let the SCC have a single control pair made of a comparison and a
branch in a loop, and let the step be `+1` or `-1`.  When exactly one successor of the branch is
inside the loop, `isIVUpperBoundSimple` aborts if and only if the combination of step,
exit-on-cmp bit and predicate is not a row of the end-offset table, the predicate being the
one of the comparison with an unsigned predicate first turned into its signed counterpart and
then swapped when the induction variable is on the right.  When both or neither successor is
inside the loop it returns `false`, without aborting and without changing the record. -/
theorem isIVUpperBoundSimple_abort_iff (ir : IROracle) (LIS : LoopsSummary) (a : SCCAttrs)
    (IVBounds : FixedIVBounds) (cmp br loop : Nat)
    (hpair : a.controlPairs = [(cmp, br)])
    (hcmp : ir.isaCmpInst cmp = true) (hbr : ir.isaBranchInst br = true)
    (hloop : LIS.getLoop br = some loop)
    (hstep : IVBounds.step = 1 ∨ IVBounds.step = -1) :
    (LIS.isBasicBlockWithin loop (ir.getSuccessor br 0) ≠
        LIS.isBasicBlockWithin loop (ir.getSuccessor br 1) →
      (SCCDAGAttrs.isIVUpperBoundSimple ir LIS a IVBounds = none ↔
        specEndOffsetTable IVBounds.step
          (!LIS.isBasicBlockWithin loop (ir.getSuccessor br 0))
          (if IVBounds.isCmpIVLHS then
            (if (ir.getPredicate cmp).isUnsigned then (ir.getPredicate cmp).getSignedPredicate
              else ir.getPredicate cmp)
           else
            (if (ir.getPredicate cmp).isUnsigned then (ir.getPredicate cmp).getSignedPredicate
              else ir.getPredicate cmp).getSwappedPredicate) = none)) ∧
    (LIS.isBasicBlockWithin loop (ir.getSuccessor br 0) =
        LIS.isBasicBlockWithin loop (ir.getSuccessor br 1) →
      SCCDAGAttrs.isIVUpperBoundSimple ir LIS a IVBounds = some (false, IVBounds)) := by
  have h32 : toInt32 IVBounds.step = IVBounds.step := by
    rcases hstep with h | h <;> rw [h] <;> decide
  rw [isIVUpperBoundSimple_eq ir LIS a IVBounds cmp br loop hpair hcmp hbr hloop, h32]
  constructor
  · intro hxor
    have hx : xor (LIS.isBasicBlockWithin loop (ir.getSuccessor br 0))
        (LIS.isBasicBlockWithin loop (ir.getSuccessor br 1)) = true := by
      revert hxor
      cases LIS.isBasicBlockWithin loop (ir.getSuccessor br 0) <;>
        cases LIS.isBasicBlockWithin loop (ir.getSuccessor br 1) <;> simp
    simp only [hx, Bool.not_true, Bool.false_eq_true, if_false]
    rw [endOffsetSwitch_table _ _ hstep]
    cases specEndOffsetTable IVBounds.step
        (!LIS.isBasicBlockWithin loop (ir.getSuccessor br 0))
        (if IVBounds.isCmpIVLHS = true then
          (if (ir.getPredicate cmp).isUnsigned = true then
            (ir.getPredicate cmp).getSignedPredicate
            else ir.getPredicate cmp)
         else
          (if (ir.getPredicate cmp).isUnsigned = true then
            (ir.getPredicate cmp).getSignedPredicate
            else ir.getPredicate cmp).getSwappedPredicate) <;> simp
  · intro heq
    rw [heq]
    simp

/-- Witness of C20 on the counter loop: one successor of the branch is in the loop and
(+1, false, SLT) is a row of the table, so the function does not abort. -/
theorem isIVUpperBoundSimple_abort_iff_witness :
    SCCDAGAttrs.isIVUpperBoundSimple sampleIR sampleLoopLIS sampleCounterInfo
        sampleCounterBounds ≠ none :=
  fun hnone =>
    absurd
      (((isIVUpperBoundSimple_abort_iff sampleIR sampleLoopLIS sampleCounterInfo
          sampleCounterBounds 52 53 0 rfl rfl rfl rfl (Or.inl rfl)).1 (by decide)).mp hnone)
      (by decide)

/-! ## Claim on the fixed-bounds records of `populate` -/

lemma sampleIR_constantsFit : sampleIR.ConstantsFit := by
  intro v hv
  have hv1 : v = 60 ∨ v = 61 ∨ v = 62 := by
    simpa [sampleIR] using hv
  rcases hv1 with rfl | rfl | rfl <;>
    exact ⟨by decide, by decide, by decide, by decide, by decide⟩

/-- Claim C21, failing input. On the counter of type `i128` whose step is the constant
`2^64 - 1`, `populate` (run with the analyses of SCCDAGAttrs.cpp) finds an induction-variable
SCC with a single PHI having two incoming values and a single accumulator, and stores a
fixed-bounds record whose step is the constant `2^64 - 1`, neither `+1` nor `-1`.  The test of
line 607, `stepSize != 1 && stepSize != -1`, compares the `APInt` with `-1` converted to
`uint64_t`, that is with `2^64 - 1`: the comment of line 600 asks for a recurrence "by +-1".
The same test keeps a counter of type `i32` with step `-1` without record, since the 32-bit
constant reads `2^32 - 1`. -/
theorem populate_sccIVBounds_failing_input :
    SCCDAGAttrs.populate sampleWideIR.isaInstruction
        (SCCDAGAttrs.analyses sampleWideIR sampleSE sampleAccumOpInfo sampleLoopLIS
          sampleNewSCCAttrs)
        sampleCounterSCCDAG sampleLoopLIS sampleDS = some sampleWideAttrs ∧
      sampleWideAttrs.sccIVBounds.lookup 0 = some sampleWideBounds ∧
      sampleWideBounds.step = 2 ^ 64 - 1 ∧
      ¬ (sampleWideBounds.step = 1 ∨ sampleWideBounds.step = -1) ∧
      (∃ info : SCCAttrs, sampleWideAttrs.getSCCAttrs 0 = some info ∧
        info.isInductionVariableSCC = true ∧ info.getSinglePHI = some 50 ∧
        (sampleWideIR.incoming 50).length = 2 ∧ info.getSingleAccumulator = some 51 ∧
        sampleWideIR.stepValueOf 50 51 = 61 ∧ sampleWideIR.isaConstantInt 61 = true ∧
        sampleWideIR.getSExtValue 61 = 2 ^ 64 - 1 ∧ sampleWideIR.getBitWidth 61 = 128) ∧
      SCCDAGAttrs.populate sampleDownIR.isaInstruction
        (SCCDAGAttrs.analyses sampleDownIR sampleSE sampleAccumOpInfo sampleLoopLIS
          sampleNewSCCAttrs)
        sampleCounterSCCDAG sampleLoopLIS sampleDS = some sampleDownAttrs ∧
      sampleDownIR.getSExtValue (sampleDownIR.stepValueOf 50 51) = -1 ∧
      sampleDownAttrs.sccIVBounds.lookup 0 = none := by
  refine ⟨rfl, by decide, by decide, by decide, ?_, rfl, by decide, by decide⟩
  exact ⟨_, rfl, by decide, by decide, by decide, by decide, by decide, by decide, by decide,
    by decide⟩

/-! ## Claim on the graphs accepted by `isPipeline` -/

/-- Claim C29. On a non-empty well-formed acyclic SCC graph: if `isPipeline` returns `true`,
every node has at most one incoming and at most one outgoing edge and all the nodes lie on one
directed chain; if some node has two or more outgoing edges (successors) or two or more
incoming edges (predecessors), `isPipeline` returns `false`; and it returns `false` on the
diamond `A → B`, `A → C`, `B → D`, `C → D`. -/
theorem isPipeline_true_degrees (g : SCCDG) (hwf : g.WellFormed) (hac : g.Acyclic) :
    (g.isPipeline = some true →
      (∀ n ∈ g.nodeIds, (g.incomingEdges n).length ≤ 1 ∧ (g.outgoingEdges n).length ≤ 1) ∧
      g.IsSimpleChain) ∧
    ((∃ n ∈ g.nodeIds, 2 ≤ (g.outgoingEdges n).length ∨ 2 ≤ (g.incomingEdges n).length) →
      g.isPipeline = some false) ∧
    sampleDiamondSCCDAG.isPipeline = some false := by
  have hchain_of : g.isPipeline = some true → g.IsSimpleChain := by
    intro h
    by_contra hc
    rw [isPipeline_of_not_chain g hwf hac hc] at h
    exact absurd h (by simp)
  refine ⟨fun h => ⟨fun n _ => degrees_of_chain g hwf (hchain_of h) n, hchain_of h⟩, ?_, by decide⟩
  rintro ⟨n, _, hn⟩
  apply isPipeline_of_not_chain g hwf hac
  intro hc
  have hd := degrees_of_chain g hwf hc n
  omega

theorem isPipeline_true_degrees_witness :
    (sampleChainSCCDAG.isPipeline = some true →
      (∀ n ∈ sampleChainSCCDAG.nodeIds, (sampleChainSCCDAG.incomingEdges n).length ≤ 1 ∧
        (sampleChainSCCDAG.outgoingEdges n).length ≤ 1) ∧
      sampleChainSCCDAG.IsSimpleChain) ∧
    ((∃ n ∈ sampleChainSCCDAG.nodeIds, 2 ≤ (sampleChainSCCDAG.outgoingEdges n).length ∨
        2 ≤ (sampleChainSCCDAG.incomingEdges n).length) →
      sampleChainSCCDAG.isPipeline = some false) ∧
    sampleDiamondSCCDAG.isPipeline = some false :=
  isPipeline_true_degrees sampleChainSCCDAG ⟨by decide, by decide, by decide, by decide⟩
    (acyclic_of_rank _ id (by decide))

/-! ## Claim on `areAllLiveOutValuesReducable` -/

/-- Claim C25. `areAllLiveOutValuesReducable(env)` returns a value whenever the SCC of every
live-out producer has a record of attributes; it returns `true` if and only if, for every
live-out variable of `env`, the SCC containing its producer has type INDEPENDENT or
REDUCIBLE; with no live-out variable it returns `true`. -/
theorem areAllLiveOutValuesReducable_iff (attrs : SCCDAGAttrs) (env : LoopEnvironment)
    (hattrs : ∀ envIndex ∈ env.getEnvIndicesOfLiveOutVars, attrs.ProducerHasAttrs env envIndex) :
    (∃ b, attrs.areAllLiveOutValuesReducable env = some b) ∧
    (attrs.areAllLiveOutValuesReducable env = some true ↔
      ∀ envIndex ∈ env.getEnvIndicesOfLiveOutVars, attrs.ProducerIsReducible env envIndex) ∧
    (env.getEnvIndicesOfLiveOutVars = [] → attrs.areAllLiveOutValuesReducable env = some true) := by
  refine ⟨liveOutLoop_isSome attrs env _ hattrs, liveOutLoop_true_iff attrs env _, ?_⟩
  intro h
  unfold SCCDAGAttrs.areAllLiveOutValuesReducable
  rw [h]
  rfl

theorem areAllLiveOutValuesReducable_iff_witness :
    (∃ b, sampleTaggedAttrs.areAllLiveOutValuesReducable sampleEnv = some b) ∧
    (sampleTaggedAttrs.areAllLiveOutValuesReducable sampleEnv = some true ↔
      ∀ envIndex ∈ sampleEnv.getEnvIndicesOfLiveOutVars,
        sampleTaggedAttrs.ProducerIsReducible sampleEnv envIndex) ∧
    (sampleEnv.getEnvIndicesOfLiveOutVars = [] →
      sampleTaggedAttrs.areAllLiveOutValuesReducable sampleEnv = some true) :=
  areAllLiveOutValuesReducable_iff sampleTaggedAttrs sampleEnv (by
    intro envIndex _
    exact ⟨0, sampleReducibleInfo, rfl, rfl⟩)

/-! ## Claim on the task identifiers -/

/-- After `2^32 + 1` constructions in modules of their own, the first and the last task have
the same `getID()`, whether the member `ID` has 32 or 64 bits. -/
lemma getID_collision (idWidth : Nat) (hw : idWidth = 32 ∨ idWidth = 64) :
    ∃ tasks w t1 t2,
      Task.constructAll idWidth (List.range (2 ^ 32 + 1)) TaskWorld.init = some (tasks, w) ∧
      tasks[0]? = some t1 ∧ tasks[2 ^ 32]? = some t2 ∧ t1.getID = t2.getID := by
  obtain ⟨⟨tasks, w⟩, h⟩ := constructAll_isSome idWidth (List.range (2 ^ 32 + 1)) TaskWorld.init
    (List.nodup_range _) (fun _ _ _ hmem => absurd hmem (List.not_mem_nil _))
  have hlt : TaskWorld.init.currentID + (List.range (2 ^ 32 + 1)).length < 2 ^ 64 := by
    rw [List.length_range]
    show 0 + (2 ^ 32 + 1) < 2 ^ 64
    norm_num
  obtain ⟨hlen, _, hids⟩ := constructAll_spec idWidth _ _ _ _ hlt h
  rw [List.length_range] at hlen
  have h0 : 0 < tasks.length := by omega
  have h1 : 2 ^ 32 < tasks.length := by omega
  refine ⟨tasks, w, tasks[0], tasks[2 ^ 32], h, List.getElem?_eq_getElem h0,
    List.getElem?_eq_getElem h1, ?_⟩
  have e0 := hids 0 _ (List.getElem?_eq_getElem h0)
  have e1 := hids (2 ^ 32) _ (List.getElem?_eq_getElem h1)
  have hc : TaskWorld.init.currentID = 0 := rfl
  unfold Task.getID
  rw [e0, e1, hc]
  rcases hw with rfl | rfl <;> norm_num

/-- Counterexample to C28 as stated: `2^32 + 1` constructions of `Task`, each in a module of
its own, in a process whose counter starts at `0`.  Whether the member `ID` has 32 or 64 bits,
every construction succeeds and the first and the last task have the same `getID()`. -/
theorem getID_unique_counterexample :
    (∃ tasks w t1 t2,
      Task.constructAll 32 (List.range (2 ^ 32 + 1)) TaskWorld.init = some (tasks, w) ∧
      tasks[0]? = some t1 ∧ tasks[2 ^ 32]? = some t2 ∧ t1.getID = t2.getID) ∧
    (∃ tasks w t1 t2,
      Task.constructAll 64 (List.range (2 ^ 32 + 1)) TaskWorld.init = some (tasks, w) ∧
      tasks[0]? = some t1 ∧ tasks[2 ^ 32]? = some t2 ∧ t1.getID = t2.getID) :=
  ⟨getID_collision 32 (Or.inl rfl), getID_collision 64 (Or.inr rfl)⟩

/-- Claim C28, amended. In a process whose counter `Task::currentID` starts at `0`, for every
sequence of at most `2^32` constructions of `Task` that all return (the member `ID` having at
least 32 bits): two tasks constructed at different positions have different values of
`getID()`, the `k`-th constructed task receives the counter value `k - 1`, and after `k`
constructions `Task::currentID` is `k`, so that it increases by exactly one per construction. -/
theorem getID_unique (idWidth : Nat) (hw : 32 ≤ idWidth) (ms : List Nat) (w0 w : TaskWorld)
    (tasks : List Task) (h0 : w0.currentID = 0) (hn : ms.length ≤ 2 ^ 32)
    (h : Task.constructAll idWidth ms w0 = some (tasks, w)) :
    tasks.length = ms.length ∧
    (∀ (i j : Nat) (ti tj : Task), tasks[i]? = some ti → tasks[j]? = some tj → i ≠ j → ti.getID ≠ tj.getID) ∧
    (∀ (k : Nat) (t : Task), tasks[k]? = some t → t.ID = k ∧ t.getID = k) ∧
    (∀ k ≤ ms.length, ∃ wk, Task.constructAll idWidth (ms.take k) w0 = some (tasks.take k, wk) ∧
      wk.currentID = k) := by
  have h32 : (2 : Nat) ^ 32 < 2 ^ 64 := by norm_num
  have hpow : (2 : Nat) ^ 32 ≤ 2 ^ idWidth := Nat.pow_le_pow_right (by norm_num) hw
  obtain ⟨hlen, _, hids⟩ := constructAll_spec idWidth ms w0 w tasks (by omega) h
  have hk : ∀ (k : Nat) (t : Task), tasks[k]? = some t → t.ID = k ∧ t.getID = k := by
    intro k t hkt
    have hklt : k < tasks.length := by
      by_contra hc
      rw [List.getElem?_eq_none (by omega)] at hkt
      exact absurd hkt (by simp)
    have e := hids k t hkt
    rw [h0, Nat.zero_add, Nat.mod_eq_of_lt (by omega)] at e
    refine ⟨e, ?_⟩
    unfold Task.getID
    rw [e]
    exact Nat.mod_eq_of_lt (by omega)
  refine ⟨hlen, ?_, hk, ?_⟩
  · intro i j ti tj hi hj hij heq
    rw [(hk i ti hi).2, (hk j tj hj).2] at heq
    exact hij heq
  · intro k hkle
    obtain ⟨wk, hwk⟩ := constructAll_take idWidth ms w0 w tasks h k
    refine ⟨wk, hwk, ?_⟩
    have hl : (ms.take k).length = k := by
      rw [List.length_take]
      omega
    obtain ⟨_, hcur, _⟩ := constructAll_spec idWidth (ms.take k) w0 wk _ (by omega) hwk
    rw [hcur, h0, hl, Nat.zero_add]

theorem getID_unique_witness :
    [({ ID := 0 } : Task), { ID := 1 }, { ID := 2 }].length = [7, 7, 8].length ∧
    (∀ (i j : Nat) (ti tj : Task), [({ ID := 0 } : Task), { ID := 1 }, { ID := 2 }][i]? = some ti →
      [({ ID := 0 } : Task), { ID := 1 }, { ID := 2 }][j]? = some tj → i ≠ j →
      ti.getID ≠ tj.getID) ∧
    (∀ (k : Nat) (t : Task), [({ ID := 0 } : Task), { ID := 1 }, { ID := 2 }][k]? = some t →
      t.ID = k ∧ t.getID = k) ∧
    (∀ k ≤ [7, 7, 8].length, ∃ wk, Task.constructAll 64 ([7, 7, 8].take k) TaskWorld.init =
      some ([({ ID := 0 } : Task), { ID := 1 }, { ID := 2 }].take k, wk) ∧ wk.currentID = k) :=
  getID_unique 64 (by decide) [7, 7, 8] TaskWorld.init
    { currentID := 3, definedTasks := [(8, 2), (7, 1), (7, 0)] }
    [{ ID := 0 }, { ID := 1 }, { ID := 2 }] rfl (by decide) (by decide)

/-! ## Claim on the constructor of `Reduction` -/

/-- Claim C26. For an SCC whose nodes are all instructions and whose record has an accumulator,
constructing a `Reduction` for the SCC and the loop aborts with the fatal error if and only if
no node of the SCC is a PHI located in the header block of the loop; otherwise the construction
succeeds and `getReductionOperation` returns `accumOpForType` applied to the opcode of the
first accumulator and to the type of a PHI of the SCC located in the header. -/
theorem reduction_construct_spec (ir : IROracle) (opInfo : AccumulatorOpInfo) (nodes : List Nat)
    (sccInfo : SCCAttrs) (header : Nat) (hinst : ∀ v ∈ nodes, ir.isaInstruction v = true)
    (hacc : sccInfo.getAccumulators ≠ []) :
    (Reduction.construct ir opInfo nodes sccInfo header = .error ReductionError.fatal ↔
      ¬ ∃ v ∈ nodes, ir.isaPHINode v = true ∧ ir.getParent v = header) ∧
    ((∃ v ∈ nodes, ir.isaPHINode v = true ∧ ir.getParent v = header) →
      ∃ r phi firstAccum, Reduction.construct ir opInfo nodes sccInfo header = .ok r ∧
        phi ∈ nodes ∧ ir.isaPHINode phi = true ∧ ir.getParent phi = header ∧
        sccInfo.getAccumulators.head? = some firstAccum ∧
        r.getReductionOperation =
          opInfo.accumOpForType (ir.getOpcode firstAccum) (ir.getType phi)) := by
  cases hl : sccInfo.getAccumulators with
  | nil => exact absurd hl hacc
  | cons firstAccum others =>
    rcases findHeaderPHI_spec ir header nodes hinst with ⟨h1, h2⟩ | ⟨phi, h1, h2, h3, h4⟩
    · refine ⟨⟨fun _ => h2, fun _ => by simp [Reduction.construct, h1]⟩, ?_⟩
      intro h
      exact absurd h h2
    · have hex : ∃ v ∈ nodes, ir.isaPHINode v = true ∧ ir.getParent v = header :=
        ⟨phi, h2, h3, h4⟩
      refine ⟨⟨fun h => ?_, fun h => absurd hex h⟩, fun _ => ?_⟩
      · simp [Reduction.construct, h1, hl] at h
      · exact ⟨Reduction.mk sccInfo
            (opInfo.accumOpForType (ir.getOpcode firstAccum) (ir.getType phi)),
          phi, firstAccum, by simp only [Reduction.construct, h1, hl], h2, h3, h4, rfl, rfl⟩

theorem reduction_construct_spec_witness :
    (Reduction.construct sampleIR sampleAccumOpInfo [10, 11, 20, 30] sampleReductionInfo 101
        = .error ReductionError.fatal ↔
      ¬ ∃ v ∈ [10, 11, 20, 30], sampleIR.isaPHINode v = true ∧ sampleIR.getParent v = 101) ∧
    ((∃ v ∈ [10, 11, 20, 30], sampleIR.isaPHINode v = true ∧ sampleIR.getParent v = 101) →
      ∃ r phi firstAccum,
        Reduction.construct sampleIR sampleAccumOpInfo [10, 11, 20, 30] sampleReductionInfo 101
          = .ok r ∧
        phi ∈ [10, 11, 20, 30] ∧ sampleIR.isaPHINode phi = true ∧
        sampleIR.getParent phi = 101 ∧
        sampleReductionInfo.getAccumulators.head? = some firstAccum ∧
        r.getReductionOperation =
          sampleAccumOpInfo.accumOpForType (sampleIR.getOpcode firstAccum)
            (sampleIR.getType phi)) :=
  reduction_construct_spec sampleIR sampleAccumOpInfo [10, 11, 20, 30] sampleReductionInfo 101
    (by decide) (by decide)

/-! ## Claim on `checkIfClonable` -/

/-- Claim C22. For an SCC with at least one internal node that is not yet marked, after
`checkIfClonable` the SCC is marked clonable (`canBeCloned` is true and it is in
`clonableSCCs`) if and only if at least one of these holds: it is an induction-variable SCC
whose SCCDAG node has at least one outgoing edge; it consists of a single instruction that is
a PHI, GEP or cast and its node has at least one outgoing edge; every internal value of the SCC
is an instruction that is a comparison or a terminator.  The two marks are always set
together. -/
theorem checkIfClonable_iff (ir : IROracle) (attrs : SCCDAGAttrs) (sccNode : SCCNode)
    (sccInfo : SCCAttrs) (hne : sccNode.scc.nodes ≠ []) (h1 : sccInfo.canBeCloned = false)
    (h2 : sccNode.id ∉ attrs.clonableSCCs) :
    (((SCCDAGAttrs.checkIfClonable ir attrs sccNode sccInfo).2.canBeCloned = true ∧
        sccNode.id ∈ (SCCDAGAttrs.checkIfClonable ir attrs sccNode sccInfo).1.clonableSCCs) ↔
      SCCDAGAttrs.ClonableCase ir attrs sccNode sccInfo) ∧
    ((SCCDAGAttrs.checkIfClonable ir attrs sccNode sccInfo).2.canBeCloned = true ↔
      sccNode.id ∈ (SCCDAGAttrs.checkIfClonable ir attrs sccNode sccInfo).1.clonableSCCs) := by
  obtain ⟨e1, e2⟩ := checkIfClonable_spec ir attrs sccNode sccInfo h1 h2
  have e3 := isClonableBySomeCase_iff ir attrs sccNode sccInfo hne
  rw [e1, e2, e3]
  simp

theorem checkIfClonable_iff_witness :
    (((SCCDAGAttrs.checkIfClonable sampleIR (SCCDAGAttrs.init sampleCounterSCCDAG)
          sampleCounterNode sampleCounterIVInfo).2.canBeCloned = true ∧
        sampleCounterNode.id ∈ (SCCDAGAttrs.checkIfClonable sampleIR
          (SCCDAGAttrs.init sampleCounterSCCDAG) sampleCounterNode
          sampleCounterIVInfo).1.clonableSCCs) ↔
      SCCDAGAttrs.ClonableCase sampleIR (SCCDAGAttrs.init sampleCounterSCCDAG)
        sampleCounterNode sampleCounterIVInfo) ∧
    ((SCCDAGAttrs.checkIfClonable sampleIR (SCCDAGAttrs.init sampleCounterSCCDAG)
        sampleCounterNode sampleCounterIVInfo).2.canBeCloned = true ↔
      sampleCounterNode.id ∈ (SCCDAGAttrs.checkIfClonable sampleIR
        (SCCDAGAttrs.init sampleCounterSCCDAG) sampleCounterNode
        sampleCounterIVInfo).1.clonableSCCs) :=
  checkIfClonable_iff sampleIR (SCCDAGAttrs.init sampleCounterSCCDAG) sampleCounterNode
    sampleCounterIVInfo (by decide) (by decide) (by decide)

/-! ## Claim on `isDerivedWithinSCC` -/

/-- Claim C23. Starting from empty caches, `isDerivedWithinSCC(v, scc)` returns `true` if and
only if `v` is internal to `scc` and there is a cycle through the node of `v` made only of
non-control (data) edges between internal nodes of `scc`; for every `v` that is not internal to
`scc` it returns `false`. -/
theorem isDerivedWithinSCC_iff (v : Nat) (scc : SCC) (sccInfo : SCCAttrs)
    (hs : sccInfo.stronglyConnectedDataValues = [])
    (hw : sccInfo.weaklyConnectedDataValues = []) :
    ((SCCDAGAttrs.isDerivedWithinSCC v scc sccInfo).1 = true ↔
      scc.isInternal v = true ∧ scc.OnDataCycle v) ∧
    (scc.isInternal v = false → (SCCDAGAttrs.isDerivedWithinSCC v scc sccInfo).1 = false) := by
  rw [isDerivedWithinSCC_fst, hs, hw]
  unfold SCC.OnDataCycle
  by_cases hv : scc.isInternal v = true
  · simp only [hv, List.not_mem_nil, decide_False, Bool.not_false, Bool.true_and,
      Bool.false_or, Bool.and_eq_true, true_and, Bool.true_eq_false, false_implies, and_true]
    rw [searchOutgoing_iff, searchIncoming_iff, transGen_outgoing_iff scc v hv,
      transGen_incoming_iff scc v hv]
    exact and_self_iff
  · have hv1 : scc.isInternal v = false := by simpa using hv
    simp [hv1]

theorem isDerivedWithinSCC_iff_witness :
    ((SCCDAGAttrs.isDerivedWithinSCC 50 sampleCounterSCC sampleCounterInfo).1 = true ↔
      sampleCounterSCC.isInternal 50 = true ∧ sampleCounterSCC.OnDataCycle 50) ∧
    (sampleCounterSCC.isInternal 50 = false →
      (SCCDAGAttrs.isDerivedWithinSCC 50 sampleCounterSCC sampleCounterInfo).1 = false) :=
  isDerivedWithinSCC_iff 50 sampleCounterSCC sampleCounterInfo rfl rfl

/-! ## Claim on `isLoopGovernedByIV` -/

/-- Claim C24. On an acyclic SCCDAG whose edges end at nodes of the graph and whose SCCs all
have attributes, `isLoopGovernedByIV` returns once its loop has enough fuel, and it returns
`true` if and only if the set of SCCs reached from the top-level nodes by descending only
through INDEPENDENT SCCs and stopping at the first SCC that is not INDEPENDENT on each path
contains exactly one SCC and that SCC is an induction-variable SCC; in particular it returns
`false` when every SCC is INDEPENDENT. -/
theorem isLoopGovernedByIV_iff (attrs : SCCDAGAttrs) (hac : attrs.sccdag.Acyclic)
    (hdst : ∀ e ∈ attrs.sccdag.allEdges, e.dst ∈ attrs.sccdag.nodeIds)
    (hattrs : attrs.AllHaveAttrs) :
    ∃ fuel0 b, (∀ fuel, fuel0 ≤ fuel → attrs.isLoopGovernedByIV fuel = some b) ∧
      (b = true ↔ ∃ x, (∀ y, attrs.IsTopLevelSCC y ↔ y = x) ∧
        ∃ sccInfo, attrs.getSCCAttrs x = some sccInfo ∧
          sccInfo.isInductionVariableSCC = true) ∧
      ((∀ k sccInfo, attrs.getSCCAttrs k = some sccInfo →
          sccInfo.canExecuteIndependently = true) → b = false) := by
  obtain ⟨fuel0, tops, h1, h2, h3⟩ := topLevelLoop_spec attrs hac hdst hattrs
  have hall : (∀ k sccInfo, attrs.getSCCAttrs k = some sccInfo →
      sccInfo.canExecuteIndependently = true) → tops = [] := by
    intro hind
    apply List.eq_nil_iff_forall_not_mem.mpr
    intro x hx
    obtain ⟨t, _, hs⟩ := (h3 x).mp hx
    obtain ⟨sccInfo, g1, g2⟩ := stopsAt_attrs attrs t x hs
    rw [hind x sccInfo g1] at g2
    exact absurd g2 (by simp)
  match tops, h1, h2, h3, hall with
  | [], h1, _, h3, _ =>
    refine ⟨fuel0, false, ?_, ?_, fun _ => rfl⟩
    · intro fuel hf
      simp [SCCDAGAttrs.isLoopGovernedByIV, h1 fuel hf]
    · simp only [Bool.false_eq_true, false_iff]
      rintro ⟨x, hx, _⟩
      have := (h3 x).mpr ((hx x).mpr rfl)
      simp at this
  | [x], h1, _, h3, hall =>
    obtain ⟨t, _, hs⟩ := (h3 x).mp (List.mem_singleton_self x)
    obtain ⟨sccInfo, g1, _⟩ := stopsAt_attrs attrs t x hs
    refine ⟨fuel0, sccInfo.isInductionVariableSCC, ?_, ?_, ?_⟩
    · intro fuel hf
      simp [SCCDAGAttrs.isLoopGovernedByIV, h1 fuel hf, g1]
    · constructor
      · intro hb
        refine ⟨x, ?_, sccInfo, g1, hb⟩
        intro y
        rw [← h3 y, List.mem_singleton]
      · rintro ⟨x', hx', info', g1', g2'⟩
        have hxx : x = x' := (hx' x).mp ((h3 x).mp (List.mem_singleton_self x))
        subst hxx
        rw [g1] at g1'
        simp only [Option.some.injEq] at g1'
        subst g1'
        exact g2'
    · intro hind
      exact absurd (hall hind) (by simp)
  | a :: c :: l, h1, h2, h3, hall =>
    refine ⟨fuel0, false, ?_, ?_, fun _ => rfl⟩
    · intro fuel hf
      simp [SCCDAGAttrs.isLoopGovernedByIV, h1 fuel hf]
    · simp only [Bool.false_eq_true, false_iff]
      rintro ⟨x, hx, _⟩
      have ha : a = x := (hx a).mp ((h3 a).mp (List.mem_cons_self _ _))
      have hc : c = x :=
        (hx c).mp ((h3 c).mp (List.mem_cons_of_mem _ (List.mem_cons_self _ _)))
      rw [List.nodup_cons] at h2
      apply h2.1
      rw [ha, ← hc]
      exact List.mem_cons_self _ _

theorem isLoopGovernedByIV_iff_witness :
    ∃ fuel0 b, (∀ fuel, fuel0 ≤ fuel → sampleGovernedAttrs.isLoopGovernedByIV fuel = some b) ∧
      (b = true ↔ ∃ x, (∀ y, sampleGovernedAttrs.IsTopLevelSCC y ↔ y = x) ∧
        ∃ sccInfo, sampleGovernedAttrs.getSCCAttrs x = some sccInfo ∧
          sccInfo.isInductionVariableSCC = true) ∧
      ((∀ k sccInfo, sampleGovernedAttrs.getSCCAttrs k = some sccInfo →
          sccInfo.canExecuteIndependently = true) → b = false) :=
  isLoopGovernedByIV_iff sampleGovernedAttrs (acyclic_of_rank _ (fun n => 1 - n) (by decide))
    (by decide) (by unfold SCCDAGAttrs.AllHaveAttrs; decide)

/-! ## Claim on `collectSCCGraphAssumingDistributedClones` -/

/-- Claim C30. On an SCCDAG whose edges leave nodes of the graph, whose SCCs all have attributes
and in which no cycle is made of clonable SCCs only, the backward walk of
`collectSCCGraphAssumingDistributedClones` ends for every child SCC once it has enough fuel,
although it keeps no visited set, and so does the whole function.  Every acyclic SCCDAG is
such a graph.  The absence of cycles of clonable SCCs is what the walk relies on: on the cycle
of two clonable SCCs the function ends for no amount of fuel. -/
theorem collectSCCGraphAssumingDistributedClones_terminates (attrs : SCCDAGAttrs)
    (hsrc : ∀ e ∈ attrs.sccdag.allEdges, e.src ∈ attrs.sccdag.nodeIds)
    (hattrs : attrs.AllHaveAttrs) (hcyc : attrs.NoClonableCycle) :
    ((∀ childSCCNode ∈ attrs.sccdag.allNodes, ∀ st, ∃ fuel0 st', ∀ fuel, fuel0 ≤ fuel →
        attrs.clonesOfChild fuel st childSCCNode = some st') ∧
      ∃ fuel0 st', ∀ fuel, fuel0 ≤ fuel →
        attrs.collectSCCGraphAssumingDistributedClones fuel = some st') ∧
    (∀ a : SCCDAGAttrs, a.sccdag.Acyclic → a.NoClonableCycle) ∧
    (∀ fuel, sampleCycleAttrs.collectSCCGraphAssumingDistributedClones fuel = none) := by
  refine ⟨⟨fun child _ st => clonesOfChild_isSome attrs hsrc hattrs hcyc st child,
      foldlM_clonesOfChild_isSome attrs hsrc hattrs hcyc _ _⟩,
    noClonableCycle_of_acyclic, ?_⟩
  intro fuel
  have h : sampleCycleAttrs.clonesOfChild fuel
      { parentsViaClones := [], edgesViaClones := [] }
      { id := 0, scc := { nodes := [1], edges := [] }, inclusion := true } = none :=
    (sampleCycle_worklist 0 fuel _).2
  show List.foldlM _ _ (_ :: _) = none
  rw [List.foldlM_cons, h]
  rfl

theorem collectSCCGraphAssumingDistributedClones_terminates_witness :
    ((∀ childSCCNode ∈ sampleClonedAttrs.sccdag.allNodes, ∀ st, ∃ fuel0 st',
        ∀ fuel, fuel0 ≤ fuel →
          sampleClonedAttrs.clonesOfChild fuel st childSCCNode = some st') ∧
      ∃ fuel0 st', ∀ fuel, fuel0 ≤ fuel →
        sampleClonedAttrs.collectSCCGraphAssumingDistributedClones fuel = some st') ∧
    (∀ a : SCCDAGAttrs, a.sccdag.Acyclic → a.NoClonableCycle) ∧
    (∀ fuel, sampleCycleAttrs.collectSCCGraphAssumingDistributedClones fuel = none) :=
  collectSCCGraphAssumingDistributedClones_terminates sampleClonedAttrs (by decide)
    (by unfold SCCDAGAttrs.AllHaveAttrs; decide)
    (noClonableCycle_of_acyclic _ (acyclic_of_rank _ (fun n => 1 - n) (by decide)))

/-! ## Claim on the partition driver -/

lemma sampleChain_weaklyConnected : sampleChainSCCDAG.WeaklyConnected := by
  have e10 : sampleChainSCCDAG.HasEdge 1 0 :=
    ⟨{ src := 1, dst := 0, memory := false, must := false, raw := false,
       subEdges := [DGEdge.plain 2 3] }, by decide, rfl, rfl⟩
  have e21 : sampleChainSCCDAG.HasEdge 2 1 :=
    ⟨{ src := 2, dst := 1, memory := false, must := false, raw := false,
       subEdges := [DGEdge.plain 1 2] }, by decide, rfl, rfl⟩
  have to0 : ∀ a ∈ sampleChainSCCDAG.nodeIds, Relation.ReflTransGen
      (fun x y => sampleChainSCCDAG.HasEdge x y ∨ sampleChainSCCDAG.HasEdge y x) a 0 := by
    intro a ha
    have ha1 : a = 0 ∨ a = 1 ∨ a = 2 := by simpa [SCCDG.nodeIds, sampleChainSCCDAG] using ha
    rcases ha1 with rfl | rfl | rfl
    · exact Relation.ReflTransGen.refl
    · exact Relation.ReflTransGen.single (Or.inl e10)
    · exact Relation.ReflTransGen.head (Or.inl e21) (Relation.ReflTransGen.single (Or.inl e10))
  have from0 : ∀ a ∈ sampleChainSCCDAG.nodeIds, Relation.ReflTransGen
      (fun x y => sampleChainSCCDAG.HasEdge x y ∨ sampleChainSCCDAG.HasEdge y x) 0 a := by
    intro a ha
    have ha1 : a = 0 ∨ a = 1 ∨ a = 2 := by simpa [SCCDG.nodeIds, sampleChainSCCDAG] using ha
    rcases ha1 with rfl | rfl | rfl
    · exact Relation.ReflTransGen.refl
    · exact Relation.ReflTransGen.single (Or.inr e10)
    · exact Relation.ReflTransGen.head (Or.inr e10) (Relation.ReflTransGen.single (Or.inr e21))
  intro a ha b hb
  exact (to0 a ha).trans (from0 b hb)

/-- Counterexample to C27 as stated: two SCCs without any dependence between them and
`idealThreads = 1`.  No two subsets of the singleton partition are adjacent, so the analyses,
which walk the adjacent pairs, request no merge: the driver ends on its first pass and leaves
the two subsets, more than `idealThreads`. -/
theorem adjustParallelizationPartitionForDSWP_counterexample :
    sampleTwoSCCDAG.Acyclic ∧
    ∃ p, Heuristics.adjustParallelizationPartitionForDSWP
        (SCCDAGPartition.ofSingletons sampleTwoSCCDAG) (SCCDAGAttrs.init sampleTwoSCCDAG) 1
        = some p ∧
      p.numberOfSubsets = 2 ∧ ¬ p.numberOfSubsets ≤ 1 :=
  ⟨acyclic_of_rank _ id (by decide),
    SCCDAGPartition.ofSingletons sampleTwoSCCDAG, by decide, by decide, by decide⟩

/-- Claim C27, amended. For the singleton initial partition of every SCCDAG, every attribute
set and every `idealThreads`, `adjustParallelizationPartitionForDSWP` terminates and leaves a
partition of the same SCCs.  When the SCCDAG is acyclic, the subset-level graph of that
partition has no cycle (merging never creates a cycle between subsets), and the partition has
at most `idealThreads` subsets unless no two of its subsets are adjacent; in particular it has
at most `idealThreads` subsets when `idealThreads >= 1` and the SCCDAG is well formed and weakly
connected. -/
theorem adjustParallelizationPartitionForDSWP_terminates (g : SCCDG) (attrs : SCCDAGAttrs)
    (idealThreads : Nat) :
    ∃ p, Heuristics.adjustParallelizationPartitionForDSWP (SCCDAGPartition.ofSingletons g)
        attrs idealThreads = some p ∧
      p.sccdag = g ∧ p.subsetOf.map Prod.fst = g.nodeIds ∧
      p.numberOfSubsets ≤ g.allNodes.length ∧
      (g.Acyclic →
        p.SubsetsAcyclic ∧
        (p.numberOfSubsets ≤ idealThreads ∨ ∀ a b, p.isAdjacent a b = false) ∧
        (g.WellFormed → g.WeaklyConnected → 1 ≤ idealThreads →
          p.numberOfSubsets ≤ idealThreads)) := by
  obtain ⟨q, q1, q2, q3, q4, q5, q6⟩ := passes_spec attrs idealThreads
    ((SCCDAGPartition.ofSingletons g).numberOfSubsets + 1) (SCCDAGPartition.ofSingletons g)
    (Nat.lt_succ_self _)
  have hlen : (SCCDAGPartition.ofSingletons g).numberOfSubsets ≤ g.allNodes.length := by
    unfold SCCDAGPartition.numberOfSubsets SCCDAGPartition.subsetIds
    refine le_trans (List.Sublist.length_le (List.dedup_sublist _)) ?_
    simp [SCCDAGPartition.ofSingletons]
  have hfst : q.subsetOf.map Prod.fst = g.nodeIds := by
    rw [q3]
    simp [SCCDAGPartition.ofSingletons, SCCDG.nodeIds, List.map_map, Function.comp_def]
  have hg : q.sccdag = g := q2
  refine ⟨q, q1, hg, hfst, le_trans q4 hlen, ?_⟩
  intro hac
  have hqac : q.SubsetsAcyclic := q5 (ofSingletons_subsetsAcyclic g hac)
  have hor : q.numberOfSubsets ≤ idealThreads ∨ q.subsetEdges = [] := by
    rcases q6 with h | h
    · exact Or.inl h
    · exact Or.inr (subsetEdges_eq_nil_of_rejected q hqac h)
  refine ⟨hqac, ?_, ?_⟩
  · rcases hor with h | h
    · exact Or.inl h
    · right
      intro a b
      unfold SCCDAGPartition.isAdjacent
      rw [h]
      simp
  · intro hwf hconn h1
    rcases hor with h | h
    · exact h
    · have := numberOfSubsets_le_one_of_connected q (by rw [hfst, hg]) (by rw [hg]; exact hwf)
        (by rw [hg]; exact hconn) h
      omega

/-- Witness of C27 on scenario S4, the chain of three SCCs with `idealThreads = 2`: the chain is
acyclic, well formed and weakly connected, and the driver leaves two subsets. -/
theorem adjustParallelizationPartitionForDSWP_terminates_witness :
    (sampleChainSCCDAG.Acyclic ∧ sampleChainSCCDAG.WellFormed ∧
      sampleChainSCCDAG.WeaklyConnected) ∧
    (Heuristics.adjustParallelizationPartitionForDSWP
      (SCCDAGPartition.ofSingletons sampleChainSCCDAG) sampleChainAttrs 2).map
        SCCDAGPartition.numberOfSubsets = some 2 ∧
    ∃ p, Heuristics.adjustParallelizationPartitionForDSWP
        (SCCDAGPartition.ofSingletons sampleChainSCCDAG) sampleChainAttrs 2 = some p ∧
      p.sccdag = sampleChainSCCDAG ∧ p.subsetOf.map Prod.fst = sampleChainSCCDAG.nodeIds ∧
      p.numberOfSubsets ≤ sampleChainSCCDAG.allNodes.length ∧
      (sampleChainSCCDAG.Acyclic →
        p.SubsetsAcyclic ∧
        (p.numberOfSubsets ≤ 2 ∨ ∀ a b, p.isAdjacent a b = false) ∧
        (sampleChainSCCDAG.WellFormed → sampleChainSCCDAG.WeaklyConnected → 1 ≤ 2 →
          p.numberOfSubsets ≤ 2)) :=
  ⟨⟨acyclic_of_rank _ id (by decide), ⟨by decide, by decide, by decide, by decide⟩,
      sampleChain_weaklyConnected⟩,
    by decide,
    adjustParallelizationPartitionForDSWP_terminates sampleChainSCCDAG sampleChainAttrs 2⟩

/-! ## Claim on the SCCs with loop-carried dependences -/

/-- Claim C31. After `populate` on an SCCDAG whose SCCs are distinct objects,
`getSCCsWithLoopCarriedDependencies()` returns exactly the SCCs of the graph whose type is not
INDEPENDENT; every key of `interIterDepsInternalToSCC` maps to a non-empty set; the access
`interIterDepsInternalToSCC[scc]` of line 362, made only after `find` has found the key, inserts
no entry; and every SCC of `getSCCsWithLoopCarriedControlDependencies()` is one of
`getSCCsWithLoopCarriedDependencies()`. -/
theorem populate_loopCarriedSCCs (isa : Nat → Bool) (an : SCCAnalyses) (g : SCCDG)
    (LIS : LoopsSummary) (DS : DominatorSummary) (attrs : SCCDAGAttrs)
    (h : SCCDAGAttrs.populate isa an g LIS DS = some attrs)
    (hnd : (g.allNodes.map (fun n => n.id)).Nodup) :
    (∀ k, k ∈ attrs.getSCCsWithLoopCarriedDependencies ↔
      ∃ n ∈ g.allNodes, n.id = k ∧
        ∃ info : SCCAttrs, attrs.getSCCAttrs k = some info ∧
          info.getType ≠ SCCType.INDEPENDENT) ∧
    (∀ k s, attrs.interIterDepsInternalToSCC.find k = some s → s ≠ []) ∧
    (∀ k, (attrs.interIterDepsInternalToSCC.find k).isSome = true →
      attrs.interIterDepsInternalToSCC.subscript k =
        (attrs.interIterDepsInternalToSCC.get k, attrs.interIterDepsInternalToSCC)) ∧
    (∀ k ∈ attrs.getSCCsWithLoopCarriedControlDependencies,
      k ∈ attrs.getSCCsWithLoopCarriedDependencies) := by
  obtain ⟨i1, _, _, _, i5⟩ := foldlM_tagSCC_spec an g.allNodes _ attrs h
  refine ⟨?_, ?_, ?_, ?_⟩
  · intro k
    rw [mem_getSCCsWithLoopCarriedDependencies, i1]
    constructor
    · intro hk
      obtain ⟨s, hs⟩ := Option.isSome_iff_exists.mp hk
      obtain ⟨_, n, hn, hnk⟩ := collectDependencies_keys isa LIS DS g hnd k s hs
      obtain ⟨info, j1, j2⟩ := i5 hnd n hn
      refine ⟨n, hn, hnk, info, hnk ▸ j1, ?_⟩
      intro hI
      have hc := j2.mp hI
      unfold SCCDAGAttrs.checkIfIndependent at hc
      rw [hnk, hs] at hc
      exact absurd hc (by simp)
    · rintro ⟨n, hn, hnk, info, hinfo, hty⟩
      obtain ⟨info1, j1, j2⟩ := i5 hnd n hn
      rw [hnk, hinfo] at j1
      injection j1 with j1
      subst j1
      have hc : ¬ (SCCDAGAttrs.collectDependencies isa LIS DS
          (SCCDAGAttrs.init g)).checkIfIndependent n.id = true := fun hc => hty (j2.mpr hc)
      unfold SCCDAGAttrs.checkIfIndependent at hc
      rw [hnk] at hc
      cases hf : (SCCDAGAttrs.collectDependencies isa LIS DS
          (SCCDAGAttrs.init g)).interIterDepsInternalToSCC.find k with
      | none => rw [hf] at hc; exact absurd rfl hc
      | some s => rfl
  · intro k s hs
    rw [i1] at hs
    exact (collectDependencies_keys isa LIS DS g hnd k s hs).1
  · intro k hk
    exact DepMap.subscript_of_find _ k hk
  · intro k hk
    exact (mem_getSCCsWithLoopCarriedControlDependencies attrs k hk).1

/-- Witness of C31 on the sample loop: the SCC `0` has a loop-carried dependence, the SCC `1`
is INDEPENDENT. -/
theorem populate_loopCarriedSCCs_witness :
    (∀ k, k ∈ sampleAttrs.getSCCsWithLoopCarriedDependencies ↔
      ∃ n ∈ sampleLoopSCCDAG.allNodes, n.id = k ∧
        ∃ info : SCCAttrs, sampleAttrs.getSCCAttrs k = some info ∧
          info.getType ≠ SCCType.INDEPENDENT) ∧
    (∀ k s, sampleAttrs.interIterDepsInternalToSCC.find k = some s → s ≠ []) ∧
    (∀ k, (sampleAttrs.interIterDepsInternalToSCC.find k).isSome = true →
      sampleAttrs.interIterDepsInternalToSCC.subscript k =
        (sampleAttrs.interIterDepsInternalToSCC.get k, sampleAttrs.interIterDepsInternalToSCC)) ∧
    (∀ k ∈ sampleAttrs.getSCCsWithLoopCarriedControlDependencies,
      k ∈ sampleAttrs.getSCCsWithLoopCarriedDependencies) :=
  populate_loopCarriedSCCs sampleIsaInstruction sampleAnalyses sampleLoopSCCDAG sampleLIS sampleDS
    sampleAttrs rfl (by decide)

/-! ## Claims on the caches and on the second search of `isDerivedWithinSCC` -/

/-- Claim C32. The caches of `isDerivedWithinSCC` are sound: on a fixed SCC, after any sequence
of calls that starts from a record with both caches empty, no value is in both
`stronglyConnectedDataValues` and `weaklyConnectedDataValues`, the first holds only values for
which the computation without caches yields `true`, the second only values for which it yields
`false`, every call of the sequence has returned the boolean of the computation without
caches, and so does any further call.  The computation without caches is the result of a call
on empty caches. -/
theorem isDerivedWithinSCC_caches_sound (scc : SCC) (sccInfo : SCCAttrs)
    (hs : sccInfo.stronglyConnectedDataValues = [])
    (hw : sccInfo.weaklyConnectedDataValues = []) (vals : List Nat) :
    (∀ v, (SCCDAGAttrs.isDerivedWithinSCC v scc sccInfo).1 =
      SCCDAGAttrs.isDerivedWithinSCCUncached v scc) ∧
    (∀ v, ¬ (v ∈ (SCCDAGAttrs.isDerivedWithinSCCCalls scc vals
          sccInfo).2.stronglyConnectedDataValues ∧
        v ∈ (SCCDAGAttrs.isDerivedWithinSCCCalls scc vals
          sccInfo).2.weaklyConnectedDataValues)) ∧
    (∀ v ∈ (SCCDAGAttrs.isDerivedWithinSCCCalls scc vals sccInfo).2.stronglyConnectedDataValues,
      SCCDAGAttrs.isDerivedWithinSCCUncached v scc = true) ∧
    (∀ v ∈ (SCCDAGAttrs.isDerivedWithinSCCCalls scc vals sccInfo).2.weaklyConnectedDataValues,
      SCCDAGAttrs.isDerivedWithinSCCUncached v scc = false) ∧
    (SCCDAGAttrs.isDerivedWithinSCCCalls scc vals sccInfo).1 =
      vals.map (fun v => SCCDAGAttrs.isDerivedWithinSCCUncached v scc) ∧
    (∀ v, (SCCDAGAttrs.isDerivedWithinSCC v scc
        (SCCDAGAttrs.isDerivedWithinSCCCalls scc vals sccInfo).2).1 =
      SCCDAGAttrs.isDerivedWithinSCCUncached v scc) := by
  obtain ⟨h1, h2⟩ := isDerivedWithinSCCCalls_cachesSound scc vals sccInfo
    (cachesSound_of_empty scc sccInfo hs hw)
  exact ⟨fun v => isDerivedWithinSCC_of_empty v scc sccInfo hs hw, h2.1, h2.2.1, h2.2.2, h1,
    fun v => (isDerivedWithinSCC_cachesSound v scc _ h2).1⟩

/-- Witness of C32: six calls on the counter SCC, two of them repeated and one on a value
outside the SCC. -/
theorem isDerivedWithinSCC_caches_sound_witness :
    (∀ v, (SCCDAGAttrs.isDerivedWithinSCC v sampleCounterSCC sampleCounterInfo).1 =
      SCCDAGAttrs.isDerivedWithinSCCUncached v sampleCounterSCC) ∧
    (∀ v, ¬ (v ∈ (SCCDAGAttrs.isDerivedWithinSCCCalls sampleCounterSCC [50, 52, 50, 99, 53, 52]
          sampleCounterInfo).2.stronglyConnectedDataValues ∧
        v ∈ (SCCDAGAttrs.isDerivedWithinSCCCalls sampleCounterSCC [50, 52, 50, 99, 53, 52]
          sampleCounterInfo).2.weaklyConnectedDataValues)) ∧
    (∀ v ∈ (SCCDAGAttrs.isDerivedWithinSCCCalls sampleCounterSCC [50, 52, 50, 99, 53, 52]
        sampleCounterInfo).2.stronglyConnectedDataValues,
      SCCDAGAttrs.isDerivedWithinSCCUncached v sampleCounterSCC = true) ∧
    (∀ v ∈ (SCCDAGAttrs.isDerivedWithinSCCCalls sampleCounterSCC [50, 52, 50, 99, 53, 52]
        sampleCounterInfo).2.weaklyConnectedDataValues,
      SCCDAGAttrs.isDerivedWithinSCCUncached v sampleCounterSCC = false) ∧
    (SCCDAGAttrs.isDerivedWithinSCCCalls sampleCounterSCC [50, 52, 50, 99, 53, 52]
        sampleCounterInfo).1 =
      [50, 52, 50, 99, 53, 52].map
        (fun v => SCCDAGAttrs.isDerivedWithinSCCUncached v sampleCounterSCC) ∧
    (∀ v, (SCCDAGAttrs.isDerivedWithinSCC v sampleCounterSCC
        (SCCDAGAttrs.isDerivedWithinSCCCalls sampleCounterSCC [50, 52, 50, 99, 53, 52]
          sampleCounterInfo).2).1 =
      SCCDAGAttrs.isDerivedWithinSCCUncached v sampleCounterSCC) :=
  isDerivedWithinSCC_caches_sound sampleCounterSCC sampleCounterInfo rfl rfl
    [50, 52, 50, 99, 53, 52]

/-- Claim C33. The second search of `isDerivedWithinSCC` is redundant: for an internal value
`v` the search along non-control outgoing edges between internal nodes reaches the node of `v`
if and only if the search along non-control incoming edges does, and for every value and every
state of the caches the function returns the same result and the same record as the one-pass
version that stops after the first search. -/
theorem isDerivedWithinSCC_eq_onePass (scc : SCC) (v : Nat) (sccInfo : SCCAttrs) :
    (scc.isInternal v = true → (scc.searchOutgoing v = true ↔ scc.searchIncoming v = true)) ∧
    SCCDAGAttrs.isDerivedWithinSCC v scc sccInfo =
      SCCDAGAttrs.isDerivedWithinSCCOnePass v scc sccInfo := by
  have key : scc.isInternal v = true →
      (scc.searchOutgoing v = true ↔ scc.searchIncoming v = true) := by
    intro hv
    rw [searchOutgoing_iff, searchIncoming_iff, transGen_outgoing_iff scc v hv,
      transGen_incoming_iff scc v hv]
  refine ⟨key, ?_⟩
  unfold SCCDAGAttrs.isDerivedWithinSCC SCCDAGAttrs.isDerivedWithinSCCOnePass
  cases hv : scc.isInternal v with
  | false => rfl
  | true =>
    have hk := key hv
    cases ho : scc.searchOutgoing v with
    | false => rfl
    | true =>
      have hi : scc.searchIncoming v = true := hk.mp ho
      simp only [hi, Bool.not_true, Bool.false_eq_true, if_false]

/-- Witness of C33 on the counter SCC, for the PHI `50` and for the comparison `52`, which is
internal and on no data cycle. -/
theorem isDerivedWithinSCC_eq_onePass_witness :
    (sampleCounterSCC.isInternal 50 = true ∧ sampleCounterSCC.isInternal 52 = true) ∧
    ((sampleCounterSCC.isInternal 50 = true →
        (sampleCounterSCC.searchOutgoing 50 = true ↔ sampleCounterSCC.searchIncoming 50 = true)) ∧
      SCCDAGAttrs.isDerivedWithinSCC 50 sampleCounterSCC sampleCounterInfo =
        SCCDAGAttrs.isDerivedWithinSCCOnePass 50 sampleCounterSCC sampleCounterInfo) ∧
    ((sampleCounterSCC.isInternal 52 = true →
        (sampleCounterSCC.searchOutgoing 52 = true ↔ sampleCounterSCC.searchIncoming 52 = true)) ∧
      SCCDAGAttrs.isDerivedWithinSCC 52 sampleCounterSCC sampleCounterInfo =
        SCCDAGAttrs.isDerivedWithinSCCOnePass 52 sampleCounterSCC sampleCounterInfo) :=
  ⟨by decide, isDerivedWithinSCC_eq_onePass sampleCounterSCC 50 sampleCounterInfo,
    isDerivedWithinSCC_eq_onePass sampleCounterSCC 52 sampleCounterInfo⟩

/-! ## Claim on the end offset -/

/-- Claim C34. When the record passed to `isIVUpperBoundSimple` has `endOffset` `0` and a step
of `+1` or `-1`, and the function returns `true`, the final `endOffset`, after the subtraction
of the step times `isCmpOnAccum`, is `-1`, `0` or `1`: for every comparison predicate, every
branch layout and both values of `isCmpOnAccum`. -/
theorem isIVUpperBoundSimple_endOffset (ir : IROracle) (LIS : LoopsSummary) (sccInfo : SCCAttrs)
    (IVBounds IVBounds1 : FixedIVBounds) (h0 : IVBounds.endOffset = 0)
    (hstep : IVBounds.step = 1 ∨ IVBounds.step = -1)
    (h : SCCDAGAttrs.isIVUpperBoundSimple ir LIS sccInfo IVBounds = some (true, IVBounds1)) :
    IVBounds1.endOffset = -1 ∨ IVBounds1.endOffset = 0 ∨ IVBounds1.endOffset = 1 := by
  obtain ⟨exitOnCmp, signedPred, b1, hb1, hend⟩ :=
    isIVUpperBoundSimple_true ir LIS sccInfo IVBounds IVBounds1 h
  obtain ⟨_, hoff⟩ := endOffsetSwitch_endOffset exitOnCmp _ signedPred IVBounds b1 hb1
  rw [h0] at hoff
  rw [hend]
  rcases hstep with hs | hs
  · rw [hs, toInt32_one] at hoff hend ⊢
    simp only [if_true] at hoff
    cases b1.isCmpOnAccum <;> rcases hoff with hoff | hoff <;> rw [hoff] <;> decide
  · rw [hs, toInt32_neg_one] at hoff hend ⊢
    have hne : ¬ ((-1 : Int) = 1) := by decide
    simp only [hne, if_false] at hoff
    cases b1.isCmpOnAccum <;> rcases hoff with hoff | hoff <;> rw [hoff] <;> decide

/-- Witness of C34 on the counter with the comparison on the accumulator: the predicate `slt`
leaves the offset at `0` and the subtraction gives `-1`. -/
theorem isIVUpperBoundSimple_endOffset_witness :
    SCCDAGAttrs.isIVUpperBoundSimple sampleIR sampleLoopLIS sampleCounterInfo sampleAccumBounds =
        some (true, sampleAccumBoundsAfter) ∧
      (sampleAccumBoundsAfter.endOffset = -1 ∨ sampleAccumBoundsAfter.endOffset = 0 ∨
        sampleAccumBoundsAfter.endOffset = 1) :=
  ⟨by decide, isIVUpperBoundSimple_endOffset sampleIR sampleLoopLIS sampleCounterInfo
    sampleAccumBounds sampleAccumBoundsAfter rfl (Or.inl rfl) (by decide)⟩

/-! ## Claim on `collectDerivationChain` -/

/-- Claim C35. The function `collectDerivationChain` returns on every SCC, and its loop returns
the same result with every fuel above the number of nodes of the SCC.  When the first
instruction is internal and the function returns `true`, the chain starts with that
instruction and consists of pairwise distinct values, all internal to the SCC, each one after
the first being an instruction and the unique non-control incoming dependence source, other
than itself, of its predecessor.  The function returns `false` whenever the walk from the first
instruction, which goes from an instruction to its unique data source other than itself as
long as that source is an internal instruction, revisits an instruction or ends on an
instruction with two or more distinct incoming data sources other than itself. -/
theorem collectDerivationChain_terminates (ir : IROracle) (first : Nat) (scc : SCC) :
    ∃ (ok : Bool) (chain : List Nat),
      SCCDAGAttrs.collectDerivationChain ir first scc = some (ok, chain) ∧
      (scc.isInternal first = true →
        (∀ fuel, scc.nodes.length + 1 ≤ fuel →
          SCC.collectDerivationChainLoop ir scc fuel first [] [] = some (ok, chain)) ∧
        (ok = true →
          chain.head? = some first ∧ chain.Nodup ∧ (∀ x ∈ chain, scc.isInternal x = true) ∧
          List.Chain' (fun a b => scc.UniqueSource a b ∧ ir.isaInstruction b = true) chain) ∧
        (∀ walk : List Nat, List.Chain' (scc.DerivationStep ir) (first :: walk) →
          (¬ (first :: walk).Nodup ∨
            ∃ last, (first :: walk).getLast? = some last ∧ scc.HasTwoDataSources last) →
          ok = false)) := by
  cases hf : scc.isInternal first with
  | false =>
    refine ⟨true, [first], ?_, fun h => absurd h (by simp)⟩
    unfold SCCDAGAttrs.collectDerivationChain
    rw [hf]
    rfl
  | true =>
    obtain ⟨ok, chain, h1, h2⟩ := collectDerivationChainLoop_spec ir scc (scc.nodes.length + 1)
      first [] List.nodup_nil (fun x hx => absurd hx (List.not_mem_nil _))
      (List.chain'_singleton first) (by simp)
    have hrun : SCCDAGAttrs.collectDerivationChain ir first scc = some (ok, chain) := by
      unfold SCCDAGAttrs.collectDerivationChain
      rw [hf]
      exact h1 _ (by simp)
    refine ⟨ok, chain, hrun, fun _ => ⟨fun fuel hfuel => h1 fuel (by simpa using hfuel), ?_, ?_⟩⟩
    · intro hok
      obtain ⟨p1, p2, p3, _, p5⟩ := h2 hok
      refine ⟨?_, p1, p2, p3⟩
      obtain ⟨t, ht⟩ := p5 hf
      rw [← ht]
      rfl
    · intro walk hwalk hbad
      exact collectDerivationChainLoop_false ir scc walk _ first [] [] ok chain
        (h1 _ (Nat.le_refl _)) hf List.nodup_nil hwalk (by simpa using hbad)

/-- Witness of C35 on three samples: a linear chain is returned in full, a cycle of two
instructions and an instruction with two sources give `false`. -/
theorem collectDerivationChain_terminates_witness :
    SCCDAGAttrs.collectDerivationChain sampleIR 10 sampleLinearSCC = some (true, [10, 11, 20]) ∧
    SCCDAGAttrs.collectDerivationChain sampleIR 10 sampleTwoCycleSCC =
      some (false, [10, 11, 10]) ∧
    SCCDAGAttrs.collectDerivationChain sampleIR 10 sampleForkSCC = some (false, [10]) ∧
    ∃ (ok : Bool) (chain : List Nat),
      SCCDAGAttrs.collectDerivationChain sampleIR 10 sampleLinearSCC = some (ok, chain) ∧
      (sampleLinearSCC.isInternal 10 = true →
        (∀ fuel, sampleLinearSCC.nodes.length + 1 ≤ fuel →
          SCC.collectDerivationChainLoop sampleIR sampleLinearSCC fuel 10 [] [] =
            some (ok, chain)) ∧
        (ok = true →
          chain.head? = some 10 ∧ chain.Nodup ∧
          (∀ x ∈ chain, sampleLinearSCC.isInternal x = true) ∧
          List.Chain' (fun a b => sampleLinearSCC.UniqueSource a b ∧
            sampleIR.isaInstruction b = true) chain) ∧
        (∀ walk : List Nat,
          List.Chain' (sampleLinearSCC.DerivationStep sampleIR) (10 :: walk) →
          (¬ (10 :: walk).Nodup ∨
            ∃ last, (10 :: walk).getLast? = some last ∧
              sampleLinearSCC.HasTwoDataSources last) →
          ok = false)) :=
  ⟨by decide, by decide, by decide, collectDerivationChain_terminates sampleIR 10 sampleLinearSCC⟩

/-! ## Claim on `Task::removeOriginalInstruction` -/

/-- Claim C36, failing input. In a task where `addInstruction(7, 8)` has registered the clone
`8` for the original instruction `7`, after `removeOriginalInstruction(7)` the instruction `7`
is no longer an original instruction, but `getOriginalInstructionOfClone(8)` is still `7`: the
loop of lines 399-403 assigns `nullptr` to a copy of each element of
`instructionCloneToOriginal`, and the map is the same after the call as before it. -/
theorem removeOriginalInstruction_failing_input :
    sampleCloneTask = Task.addInstruction { ID := 0 } (some 7) (some 8) ∧
    (sampleCloneTask.removeOriginalInstruction (some 7)).isAnOriginalInstruction (some 7) =
      false ∧
    (sampleCloneTask.removeOriginalInstruction (some 7)).getOriginalInstructionOfClone (some 8) =
      some 7 ∧
    (sampleCloneTask.removeOriginalInstruction (some 7)).instructionCloneToOriginal =
      sampleCloneTask.instructionCloneToOriginal := by
  decide

end Noelle
